import Mathlib

/-!
# jiri: manifest codec, manifest loader, update planner and executor

A shallow embedding of the parts of `project/project.go` that parse-fill a
manifest (`Manifest.fillDefaults` and the element methods it calls), that
serialise it again (`Manifest.unfillDefaults`, `Manifest.ToBytes`), that key
projects and remote manifests (`Import.ProjectKey`, `Import.cycleKey`), that
load a manifest with everything it names (`loader.Load`, `loader.load`,
`loader.loadNoCycles`), that convert project paths
(`Project.absolutizePaths`, `Project.relativizePaths`), that look projects up
(`Projects.Find`), that plan an update (`computeOp`, `operations.Less`,
`computeOperations`) and that carry it out (`updateProjects`, the `Test` and
`Run` methods of the operations, `resetProjectCurrentBranch`), of
`profiles/reader/flags.go` (`InitProfilesFromFlag`) and of
`profiles/manager/manager.go` (`Register`, `Managers`, `LookupManager`),
together with the properties the specification states about them.

Conventions of the embedding:

* a Go `string` is a Lean `String`; Go compares strings byte-wise, which on
  well-formed UTF-8 is the code-point order of `String`;
* a Go pointer that may be `nil` (`*Project`) is an `Option`;
* a method with a pointer receiver that mutates the receiver and returns an
  `error` returns the pair of the receiver afterwards and `Option String`
  (`none` is the `nil` error);
* a `panic` is `Except.error`; where state outlives the panic (the registry of
  `Register`), the result is that state and the value of the panic;
* a Go `map` is an association list read with first-match lookup; the order in
  which `range` visits a map and the algorithm behind `sort.Sort` belong to the
  Go runtime and are parameters (`GoRuntime`) constrained by what the language
  and the `sort` package promise;
* a Go slice is a reference into a memory of backing arrays (`Memory`,
  `Slice`), so that writing through a copied slice header is visible through
  the original;
* `path/filepath` is modelled for the separator `/` on lists of path elements;
* `encoding/xml`, the file system and git are outside the repository: the
  codec is a pair of function parameters of `Manifest.ToBytes` and
  `ManifestFromBytes`, and the section on the XML codec defines the pair the
  library provides (`xmlMarshalIndent`, `xmlUnmarshal`) for values of type
  `Manifest`; the rest is a record of calls (`System`, and `Host` for the
  executor) over an abstract world that is threaded through the loader and the
  executor;
* the recursion of the loader through the manifests it names is bounded by a
  fuel argument, and running out of fuel is an error of its own.
-/

namespace Jiri

/-! ## Data model -/

/-- ProjectKey is a unique string for a project. -/
abbrev ProjectKey := String

/-- The reserved string used in project keys. -/
def projectKeySeparator : String := "="

/-- MakeProjectKey returns the project key, given the project name and remote. -/
def MakeProjectKey (name remote : String) : ProjectKey :=
  name ++ projectKeySeparator ++ remote

/-- Project represents a jiri project (the field `XMLName struct{}` carries no
data and is left out). -/
structure Project where
  Name : String
  Path : String
  Remote : String
  RemoteBranch : String
  Revision : String
  GerritHost : String
  GitHooks : String
  RunHook : String
deriving DecidableEq, Repr

/-- Key returns the unique ProjectKey for the project. -/
def Project.Key (p : Project) : ProjectKey :=
  MakeProjectKey p.Name p.Remote

/-- Projects maps ProjectKeys to Projects: the entries of the Go map. -/
abbrev Projects := List (ProjectKey × Project)

/-- The Go index expression `ps[key]` with the comma-ok form. -/
def Projects.get (ps : Projects) (key : ProjectKey) : Option Project :=
  match ps with
  | [] => none
  | (k, p) :: rest => if k = key then some p else Projects.get rest key

/-- The keys under which the entries of a project map are stored. -/
def Projects.keys (ps : Projects) : List ProjectKey :=
  ps.map Prod.fst

/-- Each entry of the map is stored under the key of its own project. -/
def Projects.KeyedByOwnKey (ps : Projects) : Prop :=
  ∀ e ∈ ps, e.2.Key = e.1

instance (ps : Projects) : Decidable ps.KeyedByOwnKey :=
  inferInstanceAs (Decidable (∀ e ∈ ps, e.2.Key = e.1))

/-! ## Operations -/

/-- The fields every operation has. -/
structure commonOperation where
  project : Project
  destination : String
  source : String
deriving DecidableEq, Repr

/-- The five implementations of the `operation` interface; only a delete
carries the `gc` flag. -/
inductive operation where
  | createOperation (c : commonOperation)
  | deleteOperation (c : commonOperation) (gc : Bool)
  | moveOperation (c : commonOperation)
  | updateOperation (c : commonOperation)
  | nullOperation (c : commonOperation)
deriving DecidableEq, Repr

/-- The embedded `commonOperation` of an operation. -/
def operation.common : operation → commonOperation
  | .createOperation c => c
  | .deleteOperation c _ => c
  | .moveOperation c => c
  | .updateOperation c => c
  | .nullOperation c => c

/-- Project identifies the project this operation pertains to. -/
def operation.Project (op : operation) : Project :=
  op.common.project

/-- Kind returns the kind of operation. -/
def operation.Kind : operation → String
  | .createOperation _ => "create"
  | .deleteOperation _ _ => "delete"
  | .moveOperation _ => "move"
  | .updateOperation _ => "update"
  | .nullOperation _ => "null"

deriving instance DecidableEq for Except

/-- The message of the panic in `computeOp`. -/
def computeOpPanic : String := "jiri: computeOp called with nil local and remote"

/-- The operation that takes one project from its local to its remote state. -/
def computeOp (loc remote : Option Project) (gc : Bool) : Except String operation :=
  match loc, remote with
  | none, some r =>
    .ok (.createOperation { destination := r.Path, project := r, source := "" })
  | some l, none =>
    .ok (.deleteOperation { destination := "", project := l, source := l.Path } gc)
  | some l, some r =>
    if l.Path ≠ r.Path then
      .ok (.moveOperation { destination := r.Path, project := r, source := l.Path })
    else if l.Revision ≠ r.Revision then
      .ok (.updateOperation { destination := r.Path, project := r, source := l.Path })
    else
      .ok (.nullOperation { destination := r.Path, project := r, source := l.Path })
  | none, none => .error computeOpPanic

/-! ## The planner -/

/-- Lexicographic comparison of two character sequences by code point. -/
def lexLess : List Char → List Char → Bool
  | _, [] => false
  | [], _ :: _ => true
  | a :: s, b :: t =>
    if a.toNat < b.toNat then true
    else if a.toNat = b.toNat then lexLess s t
    else false

/-- Go's `s < t` on strings. -/
def stringLess (s t : String) : Bool :=
  lexLess s.data t.data

/-- A sortable collection of operations. -/
abbrev operations := List operation

/-- The value the `switch` in `Less` stores in `vals` for a kind; `vals` is
zero-initialised, so a kind outside the five cases would keep `0`. -/
def lessVal (kind : String) : Nat :=
  match kind with
  | "delete" => 0
  | "move" => 1
  | "create" => 2
  | "update" => 3
  | "null" => 4
  | _ => 0

/-- Less defines the order of operations: first by their type and then by
their project path.  The Go method takes two indices into the collection; this
is the comparison it makes between the operations stored there. -/
def operations.Less (a b : operation) : Bool :=
  if lessVal a.Kind ≠ lessVal b.Kind then lessVal a.Kind < lessVal b.Kind
  else stringLess a.Project.Path b.Project.Path

/-- What `sort.Sort` asks of a `Less` method: a strict weak ordering. -/
structure StrictWeakOrder {α : Type} (less : α → α → Bool) : Prop where
  irrefl : ∀ a, less a a = false
  trans : ∀ a b c, less a b = true → less b c = true → less a c = true
  negTrans : ∀ a b c, less a b = false → less b c = false → less a c = false

/-- The two choices the Go runtime makes during `computeOperations`: the order
in which `range` visits the keys of a map, and the algorithm of `sort.Sort`. -/
structure GoRuntime where
  rangeKeys : List ProjectKey → List ProjectKey
  sortSort : (operation → operation → Bool) → operations → operations

/-- What the language and the `sort` package promise about those choices:
`range` visits every key once, `sort.Sort` only swaps elements, and for a
strict weak ordering it leaves no element before one that is less than it. -/
structure GoRuntime.Conforms (rt : GoRuntime) : Prop where
  range_perm : ∀ ks, (rt.rangeKeys ks).Perm ks
  sort_perm : ∀ less ops, (rt.sortSort less ops).Perm ops
  sort_sorted : ∀ less, StrictWeakOrder less → ∀ ops,
    (rt.sortSort less ops).Pairwise (fun a b => less b a = false)

/-- The inner loop of Go's `insertionSort`: the element `x` moves left past
every element it is less than; `before` holds the sorted part from right to
left. -/
def insertLeft (less : operation → operation → Bool) (x : operation) :
    List operation → List operation
  | [] => [x]
  | y :: before => if less x y then y :: insertLeft less x before else x :: y :: before

/-- Go's `insertionSort`, which `sort.Sort` runs on short slices: `done` is the
sorted part from right to left, the second list is what is still to insert. -/
def insertionSortFrom (less : operation → operation → Bool) :
    List operation → List operation → List operation
  | done, [] => done.reverse
  | done, x :: rest => insertionSortFrom less (insertLeft less x done) rest

/-- Go's `insertionSort` on a whole slice. -/
def insertionSort (less : operation → operation → Bool) (ops : operations) : operations :=
  insertionSortFrom less [] ops

/-- A runtime whose `range` visits keys in the order given and whose
`sort.Sort` is insertion sort. -/
def goInOrder : GoRuntime :=
  { rangeKeys := fun ks => ks, sortSort := insertionSort }

/-- A runtime whose `range` visits keys in the opposite order. -/
def goReversed : GoRuntime :=
  { rangeKeys := fun ks => ks.reverse, sortSort := insertionSort }

/-- The key set `allProjects` after the two loops that fill it: the `Key()` of
every local and every remote project, each once. -/
def allProjects (localProjects remoteProjects : Projects) : List ProjectKey :=
  let s := localProjects.foldl (fun s e => List.insert e.2.Key s) []
  remoteProjects.foldl (fun s e => List.insert e.2.Key s) s

/-- The loop over the keys of `allProjects` in the order they are visited: one
`computeOp` per key appended to the result, the first panic ending the run. -/
def computeOpsFor (localProjects remoteProjects : Projects) (gc : Bool) :
    List ProjectKey → Except String operations
  | [] => .ok []
  | key :: keys =>
    match computeOp (localProjects.get key) (remoteProjects.get key) gc with
    | .error e => .error e
    | .ok op =>
      match computeOpsFor localProjects remoteProjects gc keys with
      | .error e => .error e
      | .ok ops => .ok (op :: ops)

/-- The operations that take the local projects to the remote ones, sorted. -/
def computeOperations (rt : GoRuntime) (localProjects remoteProjects : Projects) (gc : Bool) :
    Except String operations :=
  match computeOpsFor localProjects remoteProjects gc
      (rt.rangeKeys (allProjects localProjects remoteProjects)) with
  | .error e => .error e
  | .ok result => .ok (rt.sortSort operations.Less result)

/-! ## The words of the specification about plans -/

/-- The order of kinds the specification gives: deletes, then moves, then
creates, then updates, then nulls. -/
def kindOrder : List String := ["delete", "move", "create", "update", "null"]

/-- The operation `a` may stand before `b` in a sorted plan: its kind comes
earlier in `kindOrder`, or the kinds agree and its project path is not
greater. -/
def operation.MayPrecede (a b : operation) : Prop :=
  kindOrder.indexOf a.Kind < kindOrder.indexOf b.Kind
    ∨ (a.Kind = b.Kind ∧ a.Project.Path ≤ b.Project.Path)

/-- Two operations the comparator cannot tell apart: same kind and same
project path. -/
def operation.Ties (a b : operation) : Prop :=
  a.Kind = b.Kind ∧ a.Project.Path = b.Project.Path

instance (a b : operation) : Decidable (a.Ties b) :=
  inferInstanceAs (Decidable (a.Kind = b.Kind ∧ a.Project.Path = b.Project.Path))

/-! ## Manifests -/

/-- Import represents a remote manifest import. -/
structure Import where
  Manifest : String
  Name : String
  Remote : String
  RemoteBranch : String
  Root : String
deriving DecidableEq, Repr

/-- LocalImport represents a local manifest import. -/
structure LocalImport where
  File : String
deriving DecidableEq, Repr

/-- Tool represents a jiri tool. -/
structure Tool where
  Data : String
  Name : String
  Package : String
  Project : String
deriving DecidableEq, Repr

/-- Manifest represents a setting used for updating the universe. -/
structure Manifest where
  Imports : List Import
  LocalImports : List LocalImport
  Projects : List Project
  Tools : List Tool
  SnapshotPath : String
deriving DecidableEq, Repr

/-- The errors of the manifest codec, each with the values its message is
formatted from. -/
inductive ManifestError where
  | xml (msg : String)
  | badImport
  | badLocalImport (i : LocalImport)
  | badProject (separator : String) (p : Project)
  | marshal (msg : String)
deriving DecidableEq, Repr

/-- The name of the jiri project: a package variable, taken at the value it is
initialised with. -/
def JiriProject : String := "release.go.jiri"

/-- Go's `strings.Contains`: `sub` occurs in `s` at some position. -/
def stringsContainsFrom (sub : List Char) : List Char → Bool
  | [] => sub.isEmpty
  | c :: s => sub.isPrefixOf (c :: s) || stringsContainsFrom sub s

/-- Go's `strings.Contains`. -/
def stringsContains (s sub : String) : Bool :=
  stringsContainsFrom sub.data s.data

/-- Both the manifest and the remote of an import must be given. -/
def Import.validate (i : Import) : Option ManifestError :=
  if i.Manifest = "" ∨ i.Remote = "" then some .badImport else none

/-- The import with its default remote branch, and the result of validating it. -/
def Import.fillDefaults (i : Import) : Import × Option ManifestError :=
  let i := if i.RemoteBranch = "" then { i with RemoteBranch := "master" } else i
  (i, i.validate)

/-- A local import must name a file. -/
def LocalImport.validate (i : LocalImport) : Option ManifestError :=
  if i.File = "" then some (.badLocalImport i) else none

/-- A project name cannot contain the key separator. -/
def Project.validate (p : Project) : Option ManifestError :=
  if stringsContains p.Name projectKeySeparator then
    some (.badProject projectKeySeparator p)
  else none

/-- The project with its default remote branch and revision, and the result of
validating it. -/
def Project.fillDefaults (p : Project) : Project × Option ManifestError :=
  let p := if p.RemoteBranch = "" then { p with RemoteBranch := "master" } else p
  let p := if p.Revision = "" then { p with Revision := "HEAD" } else p
  (p, p.validate)

/-- The tool with its default data directory and project; never an error. -/
def Tool.fillDefaults (t : Tool) : Tool × Option ManifestError :=
  let t := if t.Data = "" then { t with Data := "data" } else t
  let t := if t.Project = "" then
    { t with Project := "https://fuchsia.googlesource.com/" ++ JiriProject } else t
  (t, none)

/-- The loop `for index := range xs { if err := xs[index].f(); err != nil
{ return err } }` for a method `f` that updates its receiver: the elements up
to and including the first failing one are updated, the rest are untouched. -/
def rangeUpdate {α : Type} (f : α → α × Option ManifestError) :
    List α → List α × Option ManifestError
  | [] => ([], none)
  | x :: rest =>
    match f x with
    | (y, some e) => (y :: rest, some e)
    | (y, none) =>
      match rangeUpdate f rest with
      | (rest', err) => (y :: rest', err)

/-- The same loop for a method that only reads its receiver. -/
def rangeCheck {α : Type} (f : α → Option ManifestError) : List α → Option ManifestError
  | [] => none
  | x :: rest =>
    match f x with
    | some e => some e
    | none => rangeCheck f rest

/-- The manifest after `fillDefaults` and the error it returns: the imports,
the local imports, the projects and the tools are visited in this order and
the first error ends the call. -/
def Manifest.fillDefaults (m : Manifest) : Manifest × Option ManifestError :=
  match rangeUpdate Import.fillDefaults m.Imports with
  | (imports, some e) => ({ m with Imports := imports }, some e)
  | (imports, none) =>
    let m := { m with Imports := imports }
    match rangeCheck LocalImport.validate m.LocalImports with
    | some e => (m, some e)
    | none =>
      match rangeUpdate Project.fillDefaults m.Projects with
      | (projects, some e) => ({ m with Projects := projects }, some e)
      | (projects, none) =>
        let m := { m with Projects := projects }
        match rangeUpdate Tool.fillDefaults m.Tools with
        | (tools, some e) => ({ m with Tools := tools }, some e)
        | (tools, none) => ({ m with Tools := tools }, none)

/-- ManifestFromBytes returns a manifest parsed from data, with defaults filled
in.  The parser `xml.Unmarshal` of the standard library is the parameter
`xmlUnmarshal`. -/
def ManifestFromBytes (xmlUnmarshal : List UInt8 → Except ManifestError Manifest)
    (data : List UInt8) : Except ManifestError Manifest :=
  match xmlUnmarshal data with
  | .error e => .error e
  | .ok m =>
    match m.fillDefaults with
    | (_, some e) => .error e
    | (m, none) => .ok m

/-! ## The words of the specification about manifests -/

/-- A field value after default filling: the default where the field was
empty, the value it had otherwise. -/
def orDefault (value dflt : String) : String :=
  if value = "" then dflt else value

/-- What makes a manifest invalid according to the specification: a remote import
without manifest or without remote, a local import without file, or a project
whose name contains `=`. -/
def Manifest.Invalid (m : Manifest) : Prop :=
  (∃ i ∈ m.Imports, i.Manifest = "" ∨ i.Remote = "")
    ∨ (∃ i ∈ m.LocalImports, i.File = "")
    ∨ (∃ p ∈ m.Projects, '=' ∈ p.Name.data)

/-! ## Sample values -/

/-- A project named `foo` at path `/r/foo`. -/
def sampleFoo : Project :=
  { Name := "foo", Path := "/r/foo", Remote := "https://h/foo", RemoteBranch := "master",
    Revision := "abc", GerritHost := "", GitHooks := "", RunHook := "" }

/-- The project `foo` pinned at another revision. -/
def sampleFooDef : Project :=
  { sampleFoo with Revision := "def" }

/-- A project named `bar` at path `/r/bar`. -/
def sampleBar : Project :=
  { Name := "bar", Path := "/r/bar", Remote := "https://h/bar", RemoteBranch := "master",
    Revision := "HEAD", GerritHost := "", GitHooks := "", RunHook := "" }

/-- A project named `old` that only exists locally. -/
def sampleOld : Project :=
  { Name := "old", Path := "/r/old", Remote := "https://h/old", RemoteBranch := "master",
    Revision := "HEAD", GerritHost := "", GitHooks := "", RunHook := "" }

/-- The project `bar` at a new path. -/
def sampleBarMoved : Project :=
  { sampleBar with Path := "/r/baz" }

/-- A project named `new` that only exists in the manifest. -/
def sampleNew : Project :=
  { Name := "new", Path := "/r/new", Remote := "https://h/new", RemoteBranch := "master",
    Revision := "HEAD", GerritHost := "", GitHooks := "", RunHook := "" }

/-- A project named `same` that is identical on both sides. -/
def sampleSame : Project :=
  { Name := "same", Path := "/r/same", Remote := "https://h/same", RemoteBranch := "master",
    Revision := "HEAD", GerritHost := "", GitHooks := "", RunHook := "" }

/-- A local universe: `foo`, `bar`, `old` and `same`. -/
def sampleLocal : Projects :=
  [(sampleFoo.Key, sampleFoo), (sampleBar.Key, sampleBar), (sampleOld.Key, sampleOld),
    (sampleSame.Key, sampleSame)]

/-- A remote universe: `foo` at another revision, `bar` at another path, `new`
and `same`. -/
def sampleRemote : Projects :=
  [(sampleFooDef.Key, sampleFooDef), (sampleBarMoved.Key, sampleBarMoved),
    (sampleNew.Key, sampleNew), (sampleSame.Key, sampleSame)]

/-- The plan that takes `sampleLocal` to `sampleRemote`. -/
def samplePlan : operations :=
  [ .deleteOperation { project := sampleOld, destination := "", source := "/r/old" } true,
    .moveOperation { project := sampleBarMoved, destination := "/r/baz", source := "/r/bar" },
    .createOperation { project := sampleNew, destination := "/r/new", source := "" },
    .updateOperation { project := sampleFooDef, destination := "/r/foo", source := "/r/foo" },
    .nullOperation { project := sampleSame, destination := "/r/same", source := "/r/same" } ]

/-- A manifest project `a` at path `/r/p`. -/
def twinA : Project :=
  { Name := "a", Path := "/r/p", Remote := "https://h/a", RemoteBranch := "master",
    Revision := "HEAD", GerritHost := "", GitHooks := "", RunHook := "" }

/-- A manifest project `b` at the same path `/r/p`. -/
def twinB : Project :=
  { Name := "b", Path := "/r/p", Remote := "https://h/b", RemoteBranch := "master",
    Revision := "HEAD", GerritHost := "", GitHooks := "", RunHook := "" }

/-- A remote universe in which two projects have the same path. -/
def sampleTwins : Projects :=
  [(twinA.Key, twinA), (twinB.Key, twinB)]

/-- A remote import with no remote branch given. -/
def sampleImport : Import :=
  { Manifest := "public", Name := "manifest", Remote := "https://h/manifest",
    RemoteBranch := "", Root := "" }

/-- A project with neither remote branch nor revision given. -/
def sampleBare : Project :=
  { Name := "foo", Path := "foo", Remote := "https://h/foo", RemoteBranch := "",
    Revision := "", GerritHost := "", GitHooks := "", RunHook := "" }

/-- A project with both remote branch and revision given. -/
def samplePinned : Project :=
  { Name := "bar", Path := "bar", Remote := "https://h/bar", RemoteBranch := "dev",
    Revision := "abc", GerritHost := "", GitHooks := "", RunHook := "" }

/-- A tool with neither data directory nor project given. -/
def sampleTool : Tool :=
  { Data := "", Name := "jiri", Package := "fuchsia.googlesource.com/jiri", Project := "" }

/-- A manifest with one element of each kind. -/
def sampleManifest : Manifest :=
  { Imports := [sampleImport],
    LocalImports := [{ File := "extra" }],
    Projects := [sampleBare, samplePinned],
    Tools := [sampleTool],
    SnapshotPath := "" }

/-- The manifest `sampleManifest` with its defaults filled in. -/
def sampleManifestFilled : Manifest :=
  { Imports := [{ sampleImport with RemoteBranch := "master" }],
    LocalImports := [{ File := "extra" }],
    Projects := [{ sampleBare with RemoteBranch := "master", Revision := "HEAD" }, samplePinned],
    Tools := [{ sampleTool with
                Data := "data", Project := "https://fuchsia.googlesource.com/release.go.jiri" }],
    SnapshotPath := "" }

/-- A project whose name contains the key separator. -/
def sampleBadProject : Project :=
  { Name := "a=b", Path := "ab", Remote := "https://h/ab", RemoteBranch := "",
    Revision := "", GerritHost := "", GitHooks := "", RunHook := "" }

/-- A manifest whose only project has a name with `=` in it. -/
def sampleBadManifest : Manifest :=
  { Imports := [], LocalImports := [], Projects := [sampleBadProject], Tools := [],
    SnapshotPath := "" }

/-! ## Unfilling defaults and keys -/

/-- The import without its default remote branch, and the result of validating
it. -/
def Import.unfillDefaults (i : Import) : Import × Option ManifestError :=
  let i := if i.RemoteBranch = "master" then { i with RemoteBranch := "" } else i
  (i, i.validate)

/-- The project without its default remote branch and revision, and the result
of validating it. -/
def Project.unfillDefaults (p : Project) : Project × Option ManifestError :=
  let p := if p.RemoteBranch = "master" then { p with RemoteBranch := "" } else p
  let p := if p.Revision = "HEAD" then { p with Revision := "" } else p
  (p, p.validate)

/-- The tool without its default data directory; the jiri project setting is
not unfilled, since that is not meant to be optional. -/
def Tool.unfillDefaults (t : Tool) : Tool × Option ManifestError :=
  let t := if t.Data = "data" then { t with Data := "" } else t
  (t, none)

/-- The manifest after `unfillDefaults` and the error it returns. -/
def Manifest.unfillDefaults (m : Manifest) : Manifest × Option ManifestError :=
  match rangeUpdate Import.unfillDefaults m.Imports with
  | (imports, some e) => ({ m with Imports := imports }, some e)
  | (imports, none) =>
    let m := { m with Imports := imports }
    match rangeCheck LocalImport.validate m.LocalImports with
    | some e => (m, some e)
    | none =>
      match rangeUpdate Project.unfillDefaults m.Projects with
      | (projects, some e) => ({ m with Projects := projects }, some e)
      | (projects, none) =>
        let m := { m with Projects := projects }
        match rangeUpdate Tool.unfillDefaults m.Tools with
        | (tools, some e) => ({ m with Tools := tools }, some e)
        | (tools, none) => ({ m with Tools := tools }, none)

/-- ProjectKey returns the unique ProjectKey for the imported project. -/
def Import.ProjectKey (i : Import) : ProjectKey :=
  MakeProjectKey i.Name i.Remote

/-- The key used for cycle detection, based on the remote and the manifest; it
is empty for an import without remote. -/
def Import.cycleKey (i : Import) : String :=
  if i.Remote = "" then "" else i.Remote ++ " + " ++ i.Manifest

/-- The default of `Tool.Project`. -/
def defaultToolProject : String := "https://fuchsia.googlesource.com/release.go.jiri"

/-- A tool whose data directory and project have their default values. -/
def sampleDefaultTool : Tool :=
  { Data := "data", Name := "jiri", Package := "fuchsia.googlesource.com/jiri",
    Project := defaultToolProject }

/-- An import of the manifest `y + z` from the remote `x`. -/
def sampleImportLeft : Import :=
  { Manifest := "y + z", Name := "m", Remote := "x", RemoteBranch := "master", Root := "" }

/-- An import of the manifest `z` from the remote `x + y`. -/
def sampleImportRight : Import :=
  { Manifest := "z", Name := "m", Remote := "x + y", RemoteBranch := "master", Root := "" }

/-- The import `sampleImport` with another manifest file. -/
def sampleImportOther : Import :=
  { sampleImport with Manifest := "default" }

/-! ## Serialising a manifest -/

/-- Go's `[]byte(s)` for a string literal of ASCII characters. -/
def asciiBytes (s : String) : List UInt8 :=
  s.data.map (fun c => UInt8.ofNat c.toNat)

/-- The byte strings `ToBytes` looks for and writes. -/
def newlineBytes : List UInt8 := asciiBytes "\n"

/-- An empty `imports` container on a line of its own. -/
def emptyImportsBytes : List UInt8 := asciiBytes "\n  <imports></imports>\n"

/-- An empty `projects` container on a line of its own. -/
def emptyProjectsBytes : List UInt8 := asciiBytes "\n  <projects></projects>\n"

/-- An empty `tools` container on a line of its own. -/
def emptyToolsBytes : List UInt8 := asciiBytes "\n  <tools></tools>\n"

/-- The short end of an element. -/
def endElemBytes : List UInt8 := asciiBytes "/>\n"

/-- The long end of an `import` element. -/
def endImportBytes : List UInt8 := asciiBytes "></import>\n"

/-- The long end of a `localimport` element. -/
def endLocalImportBytes : List UInt8 := asciiBytes "></localimport>\n"

/-- The long end of a `project` element. -/
def endProjectBytes : List UInt8 := asciiBytes "></project>\n"

/-- The long end of a `tool` element. -/
def endToolBytes : List UInt8 := asciiBytes "></tool>\n"

/-- The scan of Go's `bytes.Replace(s, old, new, -1)` for a non-empty `old`:
`skip` counts the bytes of a match that are still to be passed over. -/
def bytesReplaceFrom (old new : List UInt8) : Nat → List UInt8 → List UInt8
  | _, [] => []
  | skip + 1, _ :: s => bytesReplaceFrom old new skip s
  | 0, c :: s =>
    if old.isPrefixOf (c :: s) then new ++ bytesReplaceFrom old new (old.length - 1) s
    else c :: bytesReplaceFrom old new 0 s

/-- Go's `bytes.Replace(s, old, new, -1)` for a non-empty `old`: every
occurrence of `old`, found from left to right without overlap, becomes `new`. -/
def bytesReplace (s old new : List UInt8) : List UInt8 :=
  bytesReplaceFrom old new 0 s

/-- The post-processing of the marshalled data in `ToBytes`: empty containers
are elided, empty elements are shortened, and the data ends in a newline. -/
def compactManifestBytes (data : List UInt8) : List UInt8 :=
  let data := bytesReplace data emptyImportsBytes newlineBytes
  let data := bytesReplace data emptyProjectsBytes newlineBytes
  let data := bytesReplace data emptyToolsBytes newlineBytes
  let data := bytesReplace data endImportBytes endElemBytes
  let data := bytesReplace data endLocalImportBytes endElemBytes
  let data := bytesReplace data endProjectBytes endElemBytes
  let data := bytesReplace data endToolBytes endElemBytes
  if ¬ newlineBytes.isSuffixOf data then data ++ asciiBytes "\n" else data

/-- The value of the manifest `deepCopy` returns: each slice is the result of
appending the elements of the original to a nil slice. -/
def Manifest.deepCopy (m : Manifest) : Manifest :=
  { SnapshotPath := m.SnapshotPath,
    Imports := [] ++ m.Imports,
    LocalImports := [] ++ m.LocalImports,
    Projects := [] ++ m.Projects,
    Tools := [] ++ m.Tools }

/-- ToBytes returns m as serialized bytes, with defaults unfilled.  This is the
value returned; `StoredManifest.ToBytes` below follows the call through
memory.  The encoder `xml.MarshalIndent(m, "", "  ")` of the standard library
is the parameter `xmlMarshalIndent`. -/
def Manifest.ToBytes (xmlMarshalIndent : Manifest → Except String (List UInt8))
    (m : Manifest) : Except ManifestError (List UInt8) :=
  let m := m.deepCopy
  let unfilled := m.unfillDefaults
  match unfilled.2 with
  | some e => .error e
  | none =>
    match xmlMarshalIndent unfilled.1 with
    | .error msg => .error (.marshal msg)
    | .ok data => .ok (compactManifestBytes data)

/-! ## Manifests in memory

The slices of a manifest are views of backing arrays, and a method that writes
`m.Imports[index]` writes into the backing array.  To follow such writes the
backing arrays are kept in a `Memory`: an address is an index into the list of
arrays of its element type, and a slice is nil or the address of the array it
is a view of. -/

/-- A slice header: nil, or the address of the backing array. -/
abbrev Slice := Option Nat

/-- The backing arrays that exist, by element type. -/
structure Memory where
  imports : List (List Import)
  localImports : List (List LocalImport)
  projects : List (List Project)
  tools : List (List Tool)
deriving DecidableEq, Repr

/-- A `Manifest` struct as it lies in memory: four slice headers and a string. -/
structure StoredManifest where
  Imports : Slice
  LocalImports : Slice
  Projects : Slice
  Tools : Slice
  SnapshotPath : String
deriving DecidableEq, Repr

/-- The elements a slice shows. -/
def sliceElems {α : Type} (arrays : List (List α)) (s : Slice) : List α :=
  match s with
  | none => []
  | some a => arrays.getD a []

/-- The expression `append([]T(nil), s...)`: nil when `s` is empty, otherwise a
new backing array holding the elements of `s`. -/
def sliceAppendToNil {α : Type} (arrays : List (List α)) (s : Slice) :
    List (List α) × Slice :=
  match sliceElems arrays s with
  | [] => (arrays, none)
  | x :: xs => (arrays ++ [x :: xs], some arrays.length)

/-- The backing arrays after the elements of `s` have been overwritten, index by
index, with `xs`. -/
def sliceOverwrite {α : Type} (arrays : List (List α)) (s : Slice) (xs : List α) :
    List (List α) :=
  match s with
  | none => arrays
  | some a => arrays.set a xs

/-- The slices of the stored manifest point at arrays that exist. -/
def StoredManifest.ValidIn (h : StoredManifest) (mem : Memory) : Prop :=
  (∀ a, h.Imports = some a → a < mem.imports.length)
    ∧ (∀ a, h.LocalImports = some a → a < mem.localImports.length)
    ∧ (∀ a, h.Projects = some a → a < mem.projects.length)
    ∧ (∀ a, h.Tools = some a → a < mem.tools.length)

/-- The manifest value a stored manifest denotes in a memory. -/
def StoredManifest.load (h : StoredManifest) (mem : Memory) : Manifest :=
  { Imports := sliceElems mem.imports h.Imports,
    LocalImports := sliceElems mem.localImports h.LocalImports,
    Projects := sliceElems mem.projects h.Projects,
    Tools := sliceElems mem.tools h.Tools,
    SnapshotPath := h.SnapshotPath }

/-- The method `deepCopy` in memory: a new struct whose slices have backing
arrays of their own. -/
def StoredManifest.deepCopy (h : StoredManifest) (mem : Memory) : Memory × StoredManifest :=
  let i := sliceAppendToNil mem.imports h.Imports
  let l := sliceAppendToNil mem.localImports h.LocalImports
  let p := sliceAppendToNil mem.projects h.Projects
  let t := sliceAppendToNil mem.tools h.Tools
  ({ imports := i.1, localImports := l.1, projects := p.1, tools := t.1 },
    { SnapshotPath := h.SnapshotPath, Imports := i.2, LocalImports := l.2, Projects := p.2,
      Tools := t.2 })

/-- The method `unfillDefaults` in memory: the elements are rewritten in the
backing arrays of the receiver's slices, as far as the method got. -/
def StoredManifest.unfillDefaults (h : StoredManifest) (mem : Memory) :
    Memory × Option ManifestError :=
  let unfilled := (h.load mem).unfillDefaults
  ({ imports := sliceOverwrite mem.imports h.Imports unfilled.1.Imports,
     localImports := sliceOverwrite mem.localImports h.LocalImports unfilled.1.LocalImports,
     projects := sliceOverwrite mem.projects h.Projects unfilled.1.Projects,
     tools := sliceOverwrite mem.tools h.Tools unfilled.1.Tools }, unfilled.2)

/-- The method `ToBytes` in memory: the memory after the call and the value
returned.  The receiver variable is rebound to the copy before anything is
written. -/
def StoredManifest.ToBytes (xmlMarshalIndent : Manifest → Except String (List UInt8))
    (h : StoredManifest) (mem : Memory) : Memory × Except ManifestError (List UInt8) :=
  let copy := h.deepCopy mem
  let unfilled := copy.2.unfillDefaults copy.1
  match unfilled.2 with
  | some e => (unfilled.1, .error e)
  | none =>
    match xmlMarshalIndent (copy.2.load unfilled.1) with
    | .error msg => (unfilled.1, .error (.marshal msg))
    | .ok data => (unfilled.1, .ok (compactManifestBytes data))

/-- The method `unfillDefaults` called on the receiver itself, as `ToBytes`
would do without the copy. -/
def StoredManifest.ToBytesWithoutCopy
    (xmlMarshalIndent : Manifest → Except String (List UInt8))
    (h : StoredManifest) (mem : Memory) : Memory × Except ManifestError (List UInt8) :=
  let unfilled := h.unfillDefaults mem
  match unfilled.2 with
  | some e => (unfilled.1, .error e)
  | none =>
    match xmlMarshalIndent (h.load unfilled.1) with
    | .error msg => (unfilled.1, .error (.marshal msg))
    | .ok data => (unfilled.1, .ok (compactManifestBytes data))

/-- A memory holding the slices of `sampleManifestFilled`. -/
def sampleMemory : Memory :=
  { imports := [sampleManifestFilled.Imports],
    localImports := [sampleManifestFilled.LocalImports],
    projects := [sampleManifestFilled.Projects],
    tools := [sampleManifestFilled.Tools] }

/-- The manifest `sampleManifestFilled` as stored in `sampleMemory`. -/
def sampleStored : StoredManifest :=
  { Imports := some 0, LocalImports := some 0, Projects := some 0, Tools := some 0,
    SnapshotPath := "" }

/-- An encoder for the samples: it writes an empty manifest element. -/
def sampleMarshalIndent (_ : Manifest) : Except String (List UInt8) :=
  .ok (asciiBytes "<manifest></manifest>")

/-- A decoder for the samples: it reads `sampleManifestFilled` without its
defaults. -/
def sampleUnmarshal (_ : List UInt8) : Except ManifestError Manifest :=
  .ok (sampleManifestFilled.unfillDefaults).1

/-! ## File paths

The functions of Go's `path/filepath` that the project methods call, for a
system whose separator is `/` and that has no volume names.  They belong to the
standard library; the definitions follow its documented behaviour, element by
element. -/

/-- The elements of a path: the pieces between its separators. -/
def splitSlash : List Char → List (List Char)
  | [] => [[]]
  | c :: s =>
    if c = '/' then [] :: splitSlash s
    else
      match splitSlash s with
      | [] => [[c]]
      | e :: es => (c :: e) :: es

/-- The path with the given elements. -/
def joinSlash : List (List Char) → List Char
  | [] => []
  | [e] => e
  | e :: e' :: es => e ++ '/' :: joinSlash (e' :: es)

/-- One element read by `filepath.Clean`; `stack` holds the elements written so
far, the last one first.  Empty elements and `.` are dropped; `..` removes the
element before it, is dropped at the root, and is kept at the start of a path
that is not rooted. -/
def cleanStep (rooted : Bool) (stack : List (List Char)) (e : List Char) :
    List (List Char) :=
  if e = [] ∨ e = ['.'] then stack
  else if e = ['.', '.'] then
    match stack with
    | top :: rest =>
      if top = ['.', '.'] then (if rooted then stack else e :: stack) else rest
    | [] => if rooted then [] else [e]
  else e :: stack

/-- Go's `filepath.Clean`: the shortest path name equivalent to `path` by
purely lexical processing. -/
def filepathClean (path : String) : String :=
  if path = "" then "."
  else
    let rooted : Bool := path.data.head? = some '/'
    let stack := (splitSlash path.data).foldl (cleanStep rooted) []
    let out := (if rooted then ['/'] else []) ++ joinSlash stack.reverse
    if out = [] then "." else String.mk out

/-- Go's `filepath.Join` of two elements: empty elements are ignored and the
result is cleaned; the join of two empty elements is empty. -/
def filepathJoin (a b : String) : String :=
  if a ≠ "" then filepathClean (a ++ "/" ++ b)
  else if b ≠ "" then filepathClean b
  else ""

/-- Go's `filepath.IsAbs`: the path begins with the separator. -/
def filepathIsAbs (path : String) : Bool :=
  path.data.head? = some '/'

/-- The elements `filepath.Rel` walks over: the pieces of a cleaned path, the
root `/` having the single empty piece before its separator. -/
def pathElems (s : List Char) : List (List Char) :=
  match s with
  | [] => []
  | _ :: _ => if (splitSlash s).getLast? = some [] then (splitSlash s).dropLast else splitSlash s

/-- The two lists of elements without their common beginning. -/
def dropCommon : List (List Char) → List (List Char) → List (List Char) × List (List Char)
  | b :: bs, t :: ts => if b = t then dropCommon bs ts else (b :: bs, t :: ts)
  | bs, ts => (bs, ts)

/-- The error of `filepath.Rel`. -/
def relError (basepath targpath : String) : String :=
  "Rel: can't make " ++ targpath ++ " relative to " ++ basepath

/-- Go's `filepath.Rel`: a relative path that is lexically equivalent to
`targpath` when joined to `basepath`, or an error when there is none. -/
def filepathRel (basepath targpath : String) : Except String String :=
  let base := filepathClean basepath
  let targ := filepathClean targpath
  if targ = base then .ok "."
  else
    let base := if base = "." then "" else base
    if filepathIsAbs base ≠ filepathIsAbs targ then .error (relError basepath targpath)
    else
      match dropCommon (pathElems base.data) (pathElems targ.data) with
      | (b :: bs, t :: ts) =>
        if b = ['.', '.'] then .error (relError basepath targpath)
        else .ok (String.mk (joinSlash ((b :: bs).map (fun _ => ['.', '.']) ++ t :: ts)))
      | (b :: bs, []) => .ok (String.mk (joinSlash ((b :: bs).map (fun _ => ['.', '.']))))
      | ([], ts) => .ok (String.mk (joinSlash ts))

/-- absolutizePaths makes all relative paths absolute by prepending basepath. -/
def Project.absolutizePaths (p : Project) (basepath : String) : Project :=
  let p := if p.Path ≠ "" ∧ ¬ filepathIsAbs p.Path then
    { p with Path := filepathJoin basepath p.Path } else p
  let p := if p.GitHooks ≠ "" ∧ ¬ filepathIsAbs p.GitHooks then
    { p with GitHooks := filepathJoin basepath p.GitHooks } else p
  let p := if p.RunHook ≠ "" ∧ ¬ filepathIsAbs p.RunHook then
    { p with RunHook := filepathJoin basepath p.RunHook } else p
  p

/-- relativizePaths makes all absolute paths relative to basepath; the project
afterwards and the error returned. -/
def Project.relativizePaths (p : Project) (basepath : String) : Project × Option String :=
  match (if filepathIsAbs p.Path then filepathRel basepath p.Path else .ok p.Path) with
  | .error err => (p, some err)
  | .ok relPath =>
    let p := { p with Path := relPath }
    match (if filepathIsAbs p.GitHooks then filepathRel basepath p.GitHooks
           else .ok p.GitHooks) with
    | .error err => (p, some err)
    | .ok relGitHooks =>
      let p := { p with GitHooks := relGitHooks }
      match (if filepathIsAbs p.RunHook then filepathRel basepath p.RunHook
             else .ok p.RunHook) with
      | .error err => (p, some err)
      | .ok relRunHook => ({ p with RunHook := relRunHook }, none)

/-- A path that is one or more elements other than `.` and `..`, separated by
single separators: relative, clean, and below the directory it is joined to. -/
def IsLocalPath (path : String) : Prop :=
  ∀ e ∈ splitSlash path.data, e ≠ [] ∧ e ≠ ['.'] ∧ e ≠ ['.', '.']

instance (path : String) : Decidable (IsLocalPath path) :=
  inferInstanceAs (Decidable (∀ e ∈ splitSlash path.data, e ≠ [] ∧ e ≠ ['.'] ∧ e ≠ ['.', '.']))

/-- A project as a manifest writes it, with a hooks directory and a hook. -/
def sampleRelative : Project :=
  { Name := "foo", Path := "src/foo", Remote := "https://h/foo", RemoteBranch := "master",
    Revision := "HEAD", GerritHost := "", GitHooks := "hooks/foo", RunHook := "" }

/-- A project whose path is written with a final separator. -/
def sampleTrailing : Project :=
  { sampleRelative with Path := "src/foo/" }

/-- A project whose path is absolute already. -/
def sampleAbsolute : Project :=
  { sampleRelative with Path := "/opt/foo" }

/-! ## The outside world

Reading files, creating directories and running git change a world the program
does not own.  The world is a type parameter `W`; every call that leaves the
program is a field of `System W`, a function from the world before the call to
the world after it and the value returned.  State that the program owns
travels next to the world in a pair, and a Go function with an `error` result
is a function from the state before to the state after and `Option LoadError`
(`none` is `nil`). -/

/-- Tools maps jiri tool names to their detailed description. -/
abbrev Tools := List (String × Tool)

/-- The Go index expression `ts[name]` with the comma-ok form. -/
def Tools.get (ts : Tools) (name : String) : Option Tool :=
  match ts with
  | [] => none
  | (k, t) :: rest => if k = name then some t else Tools.get rest name

/-- The Go assignment `ts[name] = t`. -/
def Tools.set (ts : Tools) (name : String) (t : Tool) : Tools :=
  match ts with
  | [] => [(name, t)]
  | (k, t') :: rest => if k = name then (name, t) :: rest else (k, t') :: Tools.set rest name t

/-- The Go assignment `ps[key] = p`. -/
def Projects.set (ps : Projects) (key : ProjectKey) (p : Project) : Projects :=
  match ps with
  | [] => [(key, p)]
  | (k, p') :: rest =>
    if k = key then (key, p) :: rest else (k, p') :: Projects.set rest key p

/-- An entry of the cycle stack. -/
structure cycleInfo where
  file : String
  key : String
deriving DecidableEq, Repr

/-- The errors of loading manifests, each with the values its message is built
from; `nilMapAssignment` is the panic of an assignment to an entry of a nil
map, and `outOfFuel` ends a recursion that was given too little fuel. -/
inductive LoadError where
  | external (msg : String)
  | manifest (e : ManifestError)
  | invalidManifest (file : String) (e : ManifestError)
  | fileCycle (stack : List cycleInfo)
  | remoteCycle (stack : List cycleInfo)
  | unresolvedImport (key : ProjectKey)
  | tempDirFailed (msg : String)
  | noRemote (name : String)
  | duplicateProject (key : ProjectKey) (file : String)
  | duplicateTool (name : String) (file : String)
  | nilMapAssignment
  | outOfFuel
deriving DecidableEq, Repr

/-- The calls that leave the program. -/
structure System (W : Type) where
  Root : String
  xmlUnmarshal : List UInt8 → Except ManifestError Manifest
  readFile : W → String → W × Except String (List UInt8)
  tempDir : W → String → String → W × (String × Option String)
  mkdirAll : W → String → W × Option String
  getwd : W → W × Except String String
  chdir : W → String → W × Option String
  pushd : W → String → W
  pushdDone : W → W × Option String
  gitClone : W → String → String → W × Option String
  gitCurrentBranchName : W → W × Except String String
  gitStash : W → W × Except String Bool
  gitCheckoutBranch : W → String → W × Option String
  gitStashPop : W → W × Option String
  gitSetRemoteUrl : W → String → String → W × Option String
  gitFetch : W → String → W × Option String
  gitReset : W → String → W × Option String

/-- A call that only changes the world, within a state that also holds program
variables `L`. -/
def onWorld {L W : Type} (f : W → W × Option String) (s : L × W) :
    (L × W) × Option LoadError :=
  ((s.1, (f s.2).1), (f s.2).2.map LoadError.external)

/-- The call `defer collect.Error(fn, &e)` around the rest of a function
`body`: `fn` runs when `body` has returned, and its error is returned when
`body` returned none. -/
def deferError {S : Type} (body fn : S → S × Option LoadError) (s : S) :
    S × Option LoadError :=
  let afterBody := body s
  let afterFn := fn afterBody.1
  (afterFn.1, match afterBody.2 with
    | some e => some e
    | none => afterFn.2)

/-- The deferred call in the loop of `ApplyToLocalMaster`: return to the
project's directory, check out the original branch, and pop the stash if
there is one. -/
def restoreBranch {L W : Type} (sys : System W) (p : Project) (branch : String)
    (stashed : Bool) (s : L × W) : (L × W) × Option LoadError :=
  match onWorld (fun w => sys.chdir w p.Path) s with
  | (s, some e) => (s, some e)
  | (s, none) =>
    match onWorld (fun w => sys.gitCheckoutBranch w branch) s with
    | (s, some e) => (s, some e)
    | (s, none) =>
      if stashed then onWorld sys.gitStashPop s else (s, none)

/-- The loop of `ApplyToLocalMaster` over the projects still to visit, followed
by the call of `fn`. -/
def applyToProjects {L W : Type} (sys : System W)
    (fn : L × W → (L × W) × Option LoadError) :
    List Project → L × W → (L × W) × Option LoadError
  | [], s => fn s
  | p :: rest, s =>
    match onWorld (fun w => sys.chdir w p.Path) s with
    | (s, some e) => (s, some e)
    | (s, none) =>
      match sys.gitCurrentBranchName s.2 with
      | (w, .error msg) => ((s.1, w), some (.external msg))
      | (w, .ok branch) =>
        match sys.gitStash w with
        | (w, .error msg) => ((s.1, w), some (.external msg))
        | (w, .ok stashed) =>
          match onWorld (fun w => sys.gitCheckoutBranch w "master") (s.1, w) with
          | (s, some e) => (s, some e)
          | (s, none) =>
            deferError (applyToProjects sys fn rest) (restoreBranch sys p branch stashed) s

/-- ApplyToLocalMaster applies an operation expressed as the given function to
the local master branch of the given projects. -/
def ApplyToLocalMaster {L W : Type} (sys : System W) (projects : Projects)
    (fn : L × W → (L × W) × Option LoadError) (s : L × W) : (L × W) × Option LoadError :=
  match sys.getwd s.2 with
  | (w, .error msg) => ((s.1, w), some (.external msg))
  | (w, .ok cwd) =>
    deferError (applyToProjects sys fn (projects.map Prod.snd))
      (onWorld (fun w => sys.chdir w cwd)) (s.1, w)

/-- fetchProject fetches from the project remote. -/
def fetchProject {L W : Type} (sys : System W) (project : Project) (s : L × W) :
    (L × W) × Option LoadError :=
  if project.Remote = "" then (s, some (.noRemote project.Name))
  else
    match onWorld (fun w => sys.gitSetRemoteUrl w "origin" project.Remote) s with
    | (s, some e) => (s, some e)
    | (s, none) => onWorld (fun w => sys.gitFetch w "origin") s

/-- resetProjectCurrentBranch resets the current branch to the revision and
branch specified on the project. -/
def resetProjectCurrentBranch {L W : Type} (sys : System W) (project : Project) (s : L × W) :
    (L × W) × Option LoadError :=
  match project.fillDefaults with
  | (_, some e) => (s, some (.manifest e))
  | (project, none) =>
    if project.Revision ≠ "HEAD" then onWorld (fun w => sys.gitReset w project.Revision) s
    else onWorld (fun w => sys.gitReset w ("origin/" ++ project.RemoteBranch)) s

/-- ManifestFromFile returns a manifest parsed from the contents of filename,
with defaults filled in. -/
def ManifestFromFile {W : Type} (sys : System W) (filename : String) (w : W) :
    W × Except LoadError Manifest :=
  match sys.readFile w filename with
  | (w, .error msg) => (w, .error (.external msg))
  | (w, .ok data) =>
    match ManifestFromBytes sys.xmlUnmarshal data with
    | .error e => (w, .error (.invalidManifest filename e))
    | .ok m => (w, .ok m)

/-! ## The manifest loader -/

/-- The 64-bit FNV-1a hash of a sequence of bytes. -/
def fnv64a (bytes : List UInt8) : Nat :=
  bytes.foldl (fun hash b => ((hash ^^^ b.toNat) * 1099511628211) % 2 ^ 64)
    14695981039346656037

/-- The bytes of a string in UTF-8. -/
def utf8Bytes (s : String) : List UInt8 :=
  s.data.flatMap String.utf8EncodeChar

/-- projectKeyFileName returns a file name based on the ProjectKey. -/
def Import.projectKeyFileName (i : Import) : String :=
  i.Name ++ "_" ++ String.mk (Nat.toDigits 16 (fnv64a (utf8Bytes i.ProjectKey)))

/-- The project that stands for the repository of a remote import. -/
def Import.toProject (i : Import) (path : String) : Project × Option ManifestError :=
  Project.fillDefaults
    { Name := i.Name, Path := path, Remote := i.Remote, RemoteBranch := i.RemoteBranch,
      Revision := "", GerritHost := "", GitHooks := "", RunHook := "" }

/-- The state of a manifest loader; `localProjects` is nil or a map. -/
structure loader where
  Projects : Jiri.Projects
  Tools : Jiri.Tools
  TmpDir : String
  localProjects : Option Jiri.Projects
  update : Bool
  cycleStack : List cycleInfo
deriving DecidableEq, Repr

/-- newManifestLoader returns a new manifest loader. -/
def newManifestLoader (localProjects : Option Projects) (update : Bool) : loader :=
  { Projects := [], Tools := [], TmpDir := "", localProjects := localProjects,
    update := update, cycleStack := [] }

/-- The method `ld.Load` as the functions below call it. -/
abbrev LoadFn (W : Type) :=
  String → String → String → loader × W → (loader × W) × Option LoadError

/-- Go's `filepath.Dir`: the clean form of the path up to and including its
last separator. -/
def filepathDir (path : String) : String :=
  match (splitSlash path.data).dropLast with
  | [] => filepathClean ""
  | e :: es => filepathClean (String.mk (joinSlash (e :: es) ++ ['/']))

/-- shortFileName returns the relative path if file is relative to root,
otherwise returns the file name unchanged. -/
def shortFileName (root file : String) : String :=
  if (root.data ++ ['/']).isPrefixOf file.data then
    String.mk (file.data.drop (root.data ++ ['/']).length)
  else file

/-- The loop of `loadNoCycles` over the cycle stack: the error of the first
entry with the same file, or with the same non-empty key. -/
def findCycle (stack : List cycleInfo) (info : cycleInfo) :
    List cycleInfo → Option LoadError
  | [] => none
  | c :: rest =>
    if info.file = c.file then some (.fileCycle (stack ++ [info]))
    else if info.key = c.key ∧ info.key ≠ "" then some (.remoteCycle (stack ++ [info]))
    else findCycle stack info rest

/-- The function `resetAndLoad`: within the project's directory and on its
local master branch, fetch when updating, reset, and load the next file. -/
def loader.resetAndLoad {W : Type} (sys : System W) (Load : LoadFn W)
    (root file cycleKey : String) (project : Project) (s : loader × W) :
    (loader × W) × Option LoadError :=
  deferError
    (ApplyToLocalMaster sys [(project.Key, project)] (fun s =>
      match (if s.1.update then fetchProject sys project s else (s, none)) with
      | (s, some e) => (s, some e)
      | (s, none) =>
        match resetProjectCurrentBranch sys project s with
        | (s, some e) => (s, some e)
        | (s, none) => Load root file cycleKey s))
    (onWorld sys.pushdDone)
    (s.1, sys.pushd s.2 project.Path)

/-- The block of `load` that creates the temporary directory of the loader
when there is none yet. -/
def loader.ensureTmpDir {W : Type} (sys : System W) (s : loader × W) :
    (loader × W) × Option LoadError :=
  if s.1.TmpDir = "" then
    match sys.tempDir s.2 "" "jiri-load" with
    | (w, (dir, none)) => (({ s.1 with TmpDir := dir }, w), none)
    | (w, (dir, some msg)) =>
      (({ s.1 with TmpDir := dir }, w), some (LoadError.tempDirFailed msg))
  else (s, none)

/-- The block of `load` for a remote manifest project that does not exist
locally while updating: clone it into a temp directory, and add it to
`ld.localProjects`.  The project is returned. -/
def loader.cloneImport {W : Type} (sys : System W) (remote : Import) (key : ProjectKey)
    (s : loader × W) : (loader × W) × Except LoadError Project :=
  match loader.ensureTmpDir sys s with
  | (s, some e) => (s, .error e)
  | (s, none) =>
    let path := filepathJoin s.1.TmpDir remote.projectKeyFileName
    match remote.toProject path with
    | (_, some e) => (s, .error (.manifest e))
    | (p, none) =>
      match onWorld (fun w => sys.mkdirAll w path) s with
      | (s, some e) => (s, .error e)
      | (s, none) =>
        match onWorld (fun w => sys.gitClone w p.Remote path) s with
        | (s, some e) => (s, .error e)
        | (s, none) =>
          match s.1.localProjects with
          | none => (s, .error .nilMapAssignment)
          | some ps => (({ s.1 with localProjects := some (ps.set key p) }, s.2), .ok p)

/-- The first half of the body of the loop of `load` over the remote imports:
the local project of the import, looked up in `ld.localProjects` or cloned. -/
def loader.resolveImport {W : Type} (sys : System W) (remote : Import) (key : ProjectKey)
    (s : loader × W) : (loader × W) × Except LoadError Project :=
  match s.1.localProjects.bind (fun ps => ps.get key) with
  | some p => (s, .ok p)
  | none =>
    if ¬ s.1.update then (s, .error (.unresolvedImport key))
    else loader.cloneImport sys remote key s

/-- The body of the loop of `load` over the remote imports, for one import. -/
def loader.processImport {W : Type} (sys : System W) (Load : LoadFn W) (root : String)
    (remote : Import) (s : loader × W) : (loader × W) × Option LoadError :=
  let nextRoot := filepathJoin root remote.Root
  let remote := { remote with Name := filepathJoin nextRoot remote.Name }
  let key := remote.ProjectKey
  match loader.resolveImport sys remote key s with
  | (s, .error e) => (s, some e)
  | (s, .ok p) =>
    let p := { p with Revision := "HEAD", RemoteBranch := remote.RemoteBranch }
    let nextFile := filepathJoin p.Path remote.Manifest
    loader.resetAndLoad sys Load nextRoot nextFile remote.cycleKey p s

/-- The loop of `load` over the remote imports. -/
def loader.processImports {W : Type} (sys : System W) (Load : LoadFn W) (root : String) :
    List Import → loader × W → (loader × W) × Option LoadError
  | [], s => (s, none)
  | remote :: rest, s =>
    match loader.processImport sys Load root remote s with
    | (s, some e) => (s, some e)
    | (s, none) => loader.processImports sys Load root rest s

/-- The loop of `load` over the local imports. -/
def loader.processLocalImports {W : Type} (Load : LoadFn W) (root file : String) :
    List LocalImport → loader × W → (loader × W) × Option LoadError
  | [], s => (s, none)
  | loc :: rest, s =>
    let nextFile := filepathJoin (filepathDir file) loc.File
    match Load root nextFile "" s with
    | (s, some e) => (s, some e)
    | (s, none) => loader.processLocalImports Load root file rest s

/-- The first two statements of the loop of `load` over the projects of the
manifest: the paths are made absolute by prepending JIRI_ROOT/<root>, and the
root is prepended to the project name. -/
def Project.underRoot (project : Project) (jiriRoot root : String) : Project :=
  let project := project.absolutizePaths (filepathJoin jiriRoot root)
  { project with Name := filepathJoin root project.Name }

/-- The body of the loop of `load` over the projects of the manifest, for one
project: the project, placed under the root, is stored under its key unless a
different project is there. -/
def loader.collectProject (jiriRoot root file : String) (project : Project) (ld : loader) :
    loader × Option LoadError :=
  let project := project.underRoot jiriRoot root
  let key := project.Key
  match ld.Projects.get key with
  | some dup =>
    if dup ≠ project then (ld, some (.duplicateProject key (shortFileName jiriRoot file)))
    else ({ ld with Projects := ld.Projects.set key project }, none)
  | none => ({ ld with Projects := ld.Projects.set key project }, none)

/-- The loop of `load` over the projects of the manifest. -/
def loader.collectProjects (jiriRoot root file : String) :
    List Project → loader → loader × Option LoadError
  | [], ld => (ld, none)
  | project :: rest, ld =>
    match loader.collectProject jiriRoot root file project ld with
    | (ld, some e) => (ld, some e)
    | (ld, none) => loader.collectProjects jiriRoot root file rest ld

/-- The body of the loop of `load` over the tools of the manifest. -/
def loader.collectTool (jiriRoot file : String) (tool : Tool) (ld : loader) :
    loader × Option LoadError :=
  let name := tool.Name
  match ld.Tools.get name with
  | some dup =>
    if dup ≠ tool then (ld, some (.duplicateTool name (shortFileName jiriRoot file)))
    else ({ ld with Tools := ld.Tools.set name tool }, none)
  | none => ({ ld with Tools := ld.Tools.set name tool }, none)

/-- The loop of `load` over the tools of the manifest. -/
def loader.collectTools (jiriRoot file : String) :
    List Tool → loader → loader × Option LoadError
  | [], ld => (ld, none)
  | tool :: rest, ld =>
    match loader.collectTool jiriRoot file tool ld with
    | (ld, some e) => (ld, some e)
    | (ld, none) => loader.collectTools jiriRoot file rest ld

/-- The method `load`: read the manifest, follow its remote imports and its
local imports, then collect its projects and its tools. -/
def loader.load {W : Type} (sys : System W) (Load : LoadFn W) (root file : String)
    (s : loader × W) : (loader × W) × Option LoadError :=
  match ManifestFromFile sys file s.2 with
  | (w, .error e) => ((s.1, w), some e)
  | (w, .ok m) =>
    match loader.processImports sys Load root m.Imports (s.1, w) with
    | (s, some e) => (s, some e)
    | (s, none) =>
      match loader.processLocalImports Load root file m.LocalImports s with
      | (s, some e) => (s, some e)
      | (s, none) =>
        match loader.collectProjects sys.Root root file m.Projects s.1 with
        | (ld, some e) => ((ld, s.2), some e)
        | (ld, none) =>
          match loader.collectTools sys.Root file m.Tools ld with
          | (ld, some e) => ((ld, s.2), some e)
          | (ld, none) => ((ld, s.2), none)

/-- The method `loadNoCycles`: fail when the file or the cycle key is on the
cycle stack already; otherwise push them, load the file, and pop. -/
def loader.loadNoCycles {W : Type} (sys : System W) (Load : LoadFn W)
    (root file cycleKey : String) (s : loader × W) : (loader × W) × Option LoadError :=
  let info : cycleInfo := { file := file, key := cycleKey }
  match findCycle s.1.cycleStack info s.1.cycleStack with
  | some e => (s, some e)
  | none =>
    let s := ({ s.1 with cycleStack := s.1.cycleStack ++ [info] }, s.2)
    match loader.load sys Load root file s with
    | (s, some e) => (s, some e)
    | (s, none) => (({ s.1 with cycleStack := s.1.cycleStack.dropLast }, s.2), none)

/-- The method `Load` (its timer calls left out).  `Load` calls `loadNoCycles`,
which calls `load`, which calls `Load` for every import; `fuel` bounds the
depth of these calls, and a call without fuel returns `outOfFuel`. -/
def loader.Load {W : Type} (sys : System W) : Nat → LoadFn W
  | 0 => fun _ _ _ s => (s, some .outOfFuel)
  | fuel + 1 => loader.loadNoCycles sys (loader.Load sys fuel)

/-- loadManifestFile loads the manifest starting with the given file, resolving
remote and local imports. -/
def loadManifestFile {W : Type} (sys : System W) (fuel : Nat) (file : String)
    (localProjects : Option Projects) (w : W) : W × Except LoadError (Projects × Tools) :=
  match loader.Load sys fuel "" file "" (newManifestLoader localProjects false, w) with
  | (s, some e) => (s.2, .error e)
  | (s, none) => (s.2, .ok (s.1.Projects, s.1.Tools))

/-- LoadSnapshotFile loads the specified snapshot manifest. -/
def LoadSnapshotFile {W : Type} (sys : System W) (fuel : Nat) (file : String) (w : W) :
    W × Except LoadError (Projects × Tools) :=
  loadManifestFile sys fuel file none w

/-- An entry of the cycle stack stands in the way of loading `file` under
`cycleKey`: it has the same file, or the same key and that key is not empty. -/
def cycleInfo.Blocks (c : cycleInfo) (file cycleKey : String) : Prop :=
  c.file = file ∨ (c.key = cycleKey ∧ cycleKey ≠ "")

/-- The error is one of the two import-cycle errors, reporting the stack. -/
def LoadError.IsCycle (e : LoadError) (stack : List cycleInfo) : Prop :=
  e = .fileCycle stack ∨ e = .remoteCycle stack

/-- What every step of a load does to the loader, from the state `s` before the
step to the result `r`: the cycle stack keeps what it held, it is the same
again when the step succeeds, and no project that is bound to a key is ever
unbound or replaced. -/
def Keeps {W : Type} (s : loader × W) (r : (loader × W) × Option LoadError) : Prop :=
  s.1.cycleStack <+: r.1.1.cycleStack
    ∧ (r.2 = none → r.1.1.cycleStack = s.1.cycleStack)
    ∧ ∀ k d, s.1.Projects.get k = some d → r.1.1.Projects.get k = some d

/-! ## A sample world

A world without state in which every file reads as its own name, the decoder
knows three manifests by the name of their file, and every other call
succeeds. -/

/-- A manifest that imports itself through a local import. -/
def sampleLoopManifest : Manifest :=
  { Imports := [], LocalImports := [{ File := "loop" }], Projects := [], Tools := [],
    SnapshotPath := "" }

/-- A manifest with the two projects `sampleBare` and `samplePinned` and the
tool `sampleTool`, defaults filled in. -/
def samplePlainManifest : Manifest :=
  { sampleManifestFilled with Imports := [], LocalImports := [] }

/-- The decoder of the sample world. -/
def sampleXmlUnmarshal (data : List UInt8) : Except ManifestError Manifest :=
  if data = asciiBytes "/r/with-import" then .ok sampleManifest
  else if data = asciiBytes "/r/loop" then .ok sampleLoopManifest
  else if data = asciiBytes "/r/plain" then .ok samplePlainManifest
  else .error (.xml "EOF")

/-- The sample world: the file `/r/missing` does not exist. -/
def sampleSystem : System Unit :=
  { Root := "/r",
    xmlUnmarshal := sampleXmlUnmarshal,
    readFile := fun w file =>
      if file = "/r/missing" then (w, .error "open /r/missing: no such file or directory")
      else (w, .ok (asciiBytes file)),
    tempDir := fun w _ _ => (w, ("/tmp/jiri-load", none)),
    mkdirAll := fun w _ => (w, none),
    getwd := fun w => (w, .ok "/r"),
    chdir := fun w _ => (w, none),
    pushd := fun w _ => w,
    pushdDone := fun w => (w, none),
    gitClone := fun w _ _ => (w, none),
    gitCurrentBranchName := fun w => (w, .ok "master"),
    gitStash := fun w => (w, .ok false),
    gitCheckoutBranch := fun w _ => (w, none),
    gitStashPop := fun w => (w, none),
    gitSetRemoteUrl := fun w _ _ => (w, none),
    gitFetch := fun w _ => (w, none),
    gitReset := fun w _ => (w, none) }

/-- A loader in the middle of a load, with one entry on its cycle stack. -/
def sampleLoader : loader :=
  { newManifestLoader none false with cycleStack := [{ file := "/r/top", key := "" }] }

/-- A loader that has collected `sampleBare` under the root of the sample
world. -/
def sampleCollected : loader :=
  (loader.collectProject "/r" "" "/r/plain" sampleBare (newManifestLoader none false)).1

/-- The project `sampleBare` pinned at a revision. -/
def sampleBareOther : Project :=
  { sampleBare with Revision := "abc" }

/-! ## Sample projects for the collection step -/

/-- A project of a manifest that gives no path. -/
def samplePathless : Project :=
  { sampleBare with Path := "" }

/-- A project whose name is written with a final separator. -/
def sampleSlashName : Project :=
  { sampleBare with Name := "foo/" }

/-! ## Finding projects -/

/-- Find returns all projects in Projects with the given key or name.  The
loop visits the keys of the map in the order the runtime chooses. -/
def Projects.Find (rt : GoRuntime) (ps : Projects) (keyOrName : String) : Projects :=
  match ps.get keyOrName with
  | some p => Projects.set [] keyOrName p
  | none =>
    (rt.rangeKeys ps.keys.dedup).foldl
      (fun projects key =>
        match ps.get key with
        | some p => if keyOrName = p.Name then projects.set key p else projects
        | none => projects)
      []

/-- A map in which the project stored under the key `foo` has another name,
and a project named `foo` is stored under its own key. -/
def sampleOddlyKeyed : Projects :=
  [("foo", sampleBar), (sampleFoo.Key, sampleFoo)]

/-! ## The profiles flag -/

/-- The pieces of a text between the occurrences of a separator of one
character. -/
def splitChars (sep : Char) : List Char → List (List Char)
  | [] => [[]]
  | c :: s =>
    if c = sep then [] :: splitChars sep s
    else
      match splitChars sep s with
      | [] => [[c]]
      | e :: es => (c :: e) :: es

/-- Go's `strings.Split(s, sep)` for a separator of one character: the
substrings between the separators, one more than there are separators. -/
def stringsSplit (s : String) (sep : Char) : List String :=
  (splitChars sep s.data).map String.mk

/-- The type of the second argument of `InitProfilesFromFlag`. -/
abbrev AppendJiriProfileMode := Bool

/-- The mode in which the `jiri` profile is appended. -/
def AppendJiriProfile : AppendJiriProfileMode := true

/-- The mode in which nothing is appended. -/
def DoNotAppendJiriProfile : AppendJiriProfileMode := false

/-- InitProfilesFromFlag splits a comma separated list of profile names into a
slice and optionally appends the 'jiri' profile if it's not already present. -/
def InitProfilesFromFlag (flag : String) (appendJiriProfile : AppendJiriProfileMode) :
    List String :=
  let n := stringsSplit flag ','
  if appendJiriProfile = AppendJiriProfile ∧ ¬ stringsContains flag "jiri" then n ++ ["jiri"]
  else n

/-! ## The registry of profile managers

The package variable `registry` holds a map from names to values of the
interface `profiles.Manager`.  The interface is declared outside the files at
hand: its values other than `nil` are a type parameter `M`, and a value of the
interface is an `Option M` whose `none` is `nil`.  The mutex of the registry
orders concurrent calls; the calls below are the calls in that order. -/

/-- A Go map with keys of type `string`: its entries, read with first-match
lookup. -/
abbrev GoMap (V : Type) := List (String × V)

/-- The Go index expression `m[key]` with the comma-ok form. -/
def GoMap.get {V : Type} (m : GoMap V) (key : String) : Option V :=
  match m with
  | [] => none
  | (k, v) :: rest => if k = key then some v else GoMap.get rest key

/-- The Go assignment `m[key] = v`. -/
def GoMap.set {V : Type} (m : GoMap V) (key : String) (v : V) : GoMap V :=
  match m with
  | [] => [(key, v)]
  | (k, v') :: rest => if k = key then (key, v) :: rest else (k, v') :: GoMap.set rest key v

/-- The keys of a Go map, each once. -/
def GoMap.keys {V : Type} (m : GoMap V) : List String :=
  (m.map Prod.fst).dedup

/-- The map `registry.managers`. -/
abbrev Registry (M : Type) := GoMap (Option M)

/-- The registry when the package has been initialised. -/
def newRegistry {M : Type} : Registry M := []

/-- The value of the panic in `Register`. -/
def registerPanic (name : String) : String :=
  "a profile manager is already registered for: " ++ name

/-- Register is used to register a profile manager: the registry afterwards and
the value of the panic, if the call panics. -/
def Register {M : Type} (name : String) (mgr : Option M) (r : Registry M) :
    Registry M × Option String :=
  match r.get name with
  | some _ => (r, some (registerPanic name))
  | none => (r.set name mgr, none)

/-- The two choices the Go runtime makes in `Managers`: the order in which
`range` visits the names, and the algorithm of `sort.Strings`. -/
structure GoStrings where
  rangeNames : List String → List String
  sortStrings : List String → List String

/-- What the language and the `sort` package promise about those choices:
`range` visits every name once, and `sort.Strings` rearranges the slice so that
no string stands before one that is less than it. -/
structure GoStrings.Conforms (rt : GoStrings) : Prop where
  range_perm : ∀ names, (rt.rangeNames names).Perm names
  sort_perm : ∀ names, (rt.sortStrings names).Perm names
  sort_sorted : ∀ names, (rt.sortStrings names).Pairwise (fun a b => stringLess b a = false)

/-- Managers returns the names, in lexicographic order, of all of the currently
available profile managers. -/
def Managers {M : Type} (rt : GoStrings) (r : Registry M) : List String :=
  let names := (rt.rangeNames r.keys).foldl (fun names name => names ++ [name]) []
  rt.sortStrings names

/-- LookupManager returns the manager for the named profile or nil if one is
not found. -/
def LookupManager {M : Type} (name : String) (r : Registry M) : Option M :=
  match r.get name with
  | some mgr => mgr
  | none => none

/-- A sequence of calls of `Register`, each given as its two arguments; a call
that panics leaves the registry to the next call as it returned it. -/
def registerAll {M : Type} (calls : List (String × Option M)) (r : Registry M) : Registry M :=
  calls.foldl (fun r call => (Register call.1 call.2 r).1) r

/-- The manager that the first call for a name in a sequence of calls of
`Register` passes, `nil` when there is no such call. -/
def firstRegistered {M : Type} (calls : List (String × Option M)) (name : String) : Option M :=
  match calls with
  | [] => none
  | (k, mgr) :: rest => if k = name then mgr else firstRegistered rest name

/-- One string moved left past every string that is greater. -/
def insertString (x : String) : List String → List String
  | [] => [x]
  | y :: rest => if stringLess y x then y :: insertString x rest else x :: y :: rest

/-- A runtime whose `range` visits names in the order given and whose
`sort.Strings` is an insertion sort. -/
def goStringsInOrder : GoStrings :=
  { rangeNames := fun names => names,
    sortStrings := fun names => names.foldr insertString [] }

/-- Four calls of `Register`, the third under a name already taken. -/
def sampleCalls : List (String × Option Nat) :=
  [("java", some 1), ("base", some 2), ("java", some 3), ("android", some 4)]

/-! ## The executor and its world

`updateProjects` tests every operation of a plan and then runs it.  The calls
that leave the program on the way are the fields of `Host W`, which adds to
`System W` what the executor needs: looking at, writing and removing files,
printing, the calls of `gitutil` that inspect a project, the hooks, the timers
of `jiri.X`, and the calls of `googlesource`.  Functions of the standard
library that call back (`filepath.Walk`) and of `runutil` that take a function
(`Sequence.Call`) are fields that take a function. -/

/-- The error of a call that looks at a file, with what `runutil.IsNotExist`
answers for it. -/
structure FileError where
  msg : String
  isNotExist : Bool
deriving DecidableEq, Repr

/-- The texts the executor prints with `Output`, each with the values its lines
are built from. -/
inductive Notice where
  | uncleanNotDeleted (name : String)
  | orphanNotDeleted (name source : String)
  | notOnMaster (current : String)
  | runningHook (name : String)
deriving DecidableEq, Repr

/-- The errors of updating projects, each with the values its message is built
from; `panic` is the panic of `computeOp`. -/
inductive UpdateError where
  | external (msg : String)
  | file (e : FileError)
  | load (e : LoadError)
  | manifest (e : ManifestError)
  | marshalFailed (msg : String)
  | createExists (destination : String)
  | deleteMissing (source : String)
  | moveSourceMissing (source destination : String)
  | moveDestinationExists (source destination : String)
  | updatingProject (name : String) (e : UpdateError)
  | runningHook (name : String) (msg : String)
  | panic (msg : String)
deriving DecidableEq, Repr

/-- The answer of `googlesource.GetRepoStatuses`: for the name of a repository,
the revision of each of its branches. -/
abbrev RepoStatuses := GoMap (GoMap String)

/-- The calls that leave the program while it updates projects. -/
structure Host (W : Type) extends System W where
  ProjectMetaDir : String
  ProjectMetaFile : String
  xmlMarshal : Project → Except String (List UInt8)
  stat : W → String → W × Option FileError
  removeAll : W → String → W × Option String
  rename : W → String → String → W × Option String
  chmod : W → String → Nat → W × Option String
  writeFile : W → String → List UInt8 → Nat → W × Option String
  output : W → Notice → W
  seqCall : W → operation → (W → W × Option UpdateError) → W × Option UpdateError
  gitGetBranches : W → String → W × Except String (List String × String)
  gitHasUncommittedChanges : W → String → W × Except String Bool
  gitHasUntrackedFiles : W → String → W × Except String Bool
  runHook : W → String → String → String → W × Option String
  filepathWalk : W → String → (String → Bool → Option String → W → W × Option UpdateError) →
    W × Option UpdateError
  timerPush : W → String → W
  timerPop : W → W
  isGoogleSourceRemote : String → Bool
  urlParse : String → Except String (String × String)
  getRepoStatuses : W → String → List String → W × Except String RepoStatuses
  stderr : W → String → W

/-- The result of a call that only changes the world, as a result of the
executor. -/
def externalError {W : Type} (r : W × Option String) : W × Option UpdateError :=
  (r.1, r.2.map UpdateError.external)

/-- The call `defer collect.Error(fn, &e)` around the rest of a function, as
`deferError`, for any type of error. -/
def collectError {S E : Type} (body fn : S → S × Option E) (s : S) : S × Option E :=
  let afterBody := body s
  let afterFn := fn afterBody.1
  (afterFn.1, match afterBody.2 with
    | some e => some e
    | none => afterFn.2)

/-- Go's `filepath.Join` of any number of elements: the elements from the first
non-empty one on are joined with separators and the result is cleaned. -/
def filepathJoinAll (elem : List String) : String :=
  match elem.dropWhile (fun e => e = "") with
  | [] => ""
  | e :: es => filepathClean ("/".intercalate (e :: es))

/-- Go's `strings.Replace(s, old, new, -1)` for an `old` and a `new` of one
character each. -/
def stringsReplace (s : String) (old new : Char) : String :=
  String.mk (s.data.map (fun c => if c = old then new else c))

/-- The entries of a map in the order in which `range` visits them. -/
def GoMap.range {V : Type} (rt : GoRuntime) (m : GoMap V) : List (String × V) :=
  (rt.rangeKeys m.keys).filterMap (fun k => (m.get k).map (fun v => (k, v)))

/-- The entries of a project map in the order in which `range` visits them. -/
def Projects.range (rt : GoRuntime) (ps : Projects) : List (ProjectKey × Project) :=
  (rt.rangeKeys ps.keys.dedup).filterMap (fun k => (ps.get k).map (fun p => (k, p)))

/-- The zero value of `Project`, which an index expression gives for a key
that the map does not have. -/
def zeroProject : Project :=
  { Name := "", Path := "", Remote := "", RemoteBranch := "", Revision := "", GerritHost := "",
    GitHooks := "", RunHook := "" }

/-! ## Remote head revisions -/

/-- groupByGoogleSourceHosts returns a map of googlesource host to a Projects
map where all project remotes come from that host. -/
def groupByGoogleSourceHosts {W : Type} (sys : Host W) (rt : GoRuntime) (ps : Projects) :
    GoMap Projects :=
  (ps.range rt).foldl
    (fun m e =>
      let p := e.2
      if ¬ sys.isGoogleSourceRemote p.Remote then m
      else
        match sys.urlParse p.Remote with
        | .error _ => m
        | .ok (scheme, urlHost) =>
          let host := scheme ++ "://" ++ urlHost
          let m := if (m.get host).isNone then m.set host [] else m
          m.set host (Projects.set ((m.get host).getD []) p.Key p))
    []

/-- The last loop of `getRemoteHeadRevisions` for one host: the revision of
every project whose repository and branch the statuses know becomes the
revision found there. -/
def setHeadRevisions (repoStatuses : RepoStatuses) :
    List (ProjectKey × Project) → Projects → Projects
  | [], remoteProjects => remoteProjects
  | (_, p) :: rest, remoteProjects =>
    match repoStatuses.get p.Name with
    | none => setHeadRevisions repoStatuses rest remoteProjects
    | some status =>
      match status.get p.RemoteBranch with
      | none => setHeadRevisions repoStatuses rest remoteProjects
      | some rev =>
        if rev = "" then setHeadRevisions repoStatuses rest remoteProjects
        else
          let rp := (remoteProjects.get p.Key).getD zeroProject
          setHeadRevisions repoStatuses rest
            (remoteProjects.set p.Key { rp with Revision := rev })

/-- The loop of `getRemoteHeadRevisions` over the hosts. -/
def headRevisionsOfHosts {W : Type} (sys : Host W) (rt : GoRuntime) :
    List (String × Projects) → Projects × W → Projects × W
  | [], s => s
  | (host, projects) :: rest, s =>
    let branchesMap : GoMap Bool :=
      (projects.range rt).foldl (fun m e => m.set e.2.RemoteBranch true) []
    let branches := (branchesMap.range rt).foldl (fun bs e => bs ++ [e.1]) []
    match sys.getRepoStatuses s.2 host branches with
    | (w, .error msg) => headRevisionsOfHosts sys rt rest (s.1, sys.stderr w msg)
    | (w, .ok repoStatuses) =>
      headRevisionsOfHosts sys rt rest
        (setHeadRevisions repoStatuses (projects.range rt) s.1, w)

/-- getRemoteHeadRevisions attempts to get the repo statuses from remote for
projects at HEAD so we can detect when a local project is already up-to-date.
The map `remoteProjects` is changed in place: it travels with the world. -/
def getRemoteHeadRevisions {W : Type} (sys : Host W) (rt : GoRuntime) (s : Projects × W) :
    Projects × W :=
  let projectsAtHead : Projects :=
    (s.1.range rt).foldl
      (fun m e => if e.2.Revision = "HEAD" then Projects.set m e.2.Key e.2 else m) []
  let gsHostsMap := groupByGoogleSourceHosts sys rt projectsAtHead
  headRevisionsOfHosts sys rt (gsHostsMap.range rt) s

/-! ## Testing operations -/

/-- The record of filesystem updates made by operations: `deletedDirs` is a
map from directories to `true`. -/
structure fsUpdates where
  deletedDirs : GoMap Bool
deriving DecidableEq, Repr

/-- The record with which `updateProjects` starts. -/
def newFsUpdates : fsUpdates :=
  { deletedDirs := [] }

/-- The method `deleteDir` records the clean form of a directory. -/
def fsUpdates.deleteDir (u : fsUpdates) (dir : String) : fsUpdates :=
  let dir := filepathClean dir
  { u with deletedDirs := u.deletedDirs.set dir true }

/-- The method `isDeleted` looks up the clean form of a directory. -/
def fsUpdates.isDeleted (u : fsUpdates) (dir : String) : Bool :=
  (u.deletedDirs.get (filepathClean dir)).isSome

/-- The record after `deleteDir` has been called for each of the given
directories in turn, starting from the new record. -/
def recordDeleted (dirs : List String) : fsUpdates :=
  dirs.foldl fsUpdates.deleteDir newFsUpdates

/-- Test checks whether the creation of a project would fail. -/
def createOperation.Test {W : Type} (stat : W → String → W × Option FileError)
    (op : commonOperation) (s : fsUpdates × W) : (fsUpdates × W) × Option UpdateError :=
  let r := stat s.2 op.destination
  match r.2 with
  | some err =>
    if ¬ err.isNotExist then ((s.1, r.1), some (.file err)) else ((s.1, r.1), none)
  | none =>
    if ¬ s.1.isDeleted op.destination then ((s.1, r.1), some (.createExists op.destination))
    else ((s.1, r.1), none)

/-- Test checks whether the deletion of a project would fail, and records the
deletion of its directory. -/
def deleteOperation.Test {W : Type} (stat : W → String → W × Option FileError)
    (op : commonOperation) (s : fsUpdates × W) : (fsUpdates × W) × Option UpdateError :=
  let r := stat s.2 op.source
  match r.2 with
  | some err =>
    if err.isNotExist then ((s.1, r.1), some (.deleteMissing op.source))
    else ((s.1, r.1), some (.file err))
  | none => ((s.1.deleteDir op.source, r.1), none)

/-- Test checks whether the relocation of a project would fail, and records
the deletion of its source. -/
def moveOperation.Test {W : Type} (stat : W → String → W × Option FileError)
    (op : commonOperation) (s : fsUpdates × W) : (fsUpdates × W) × Option UpdateError :=
  let r := stat s.2 op.source
  match r.2 with
  | some err =>
    if err.isNotExist then ((s.1, r.1), some (.moveSourceMissing op.source op.destination))
    else ((s.1, r.1), some (.file err))
  | none =>
    let r := stat r.1 op.destination
    match r.2 with
    | some err =>
      if ¬ err.isNotExist then ((s.1, r.1), some (.file err))
      else ((s.1.deleteDir op.source, r.1), none)
    | none => ((s.1, r.1), some (.moveDestinationExists op.source op.destination))

/-- Test checks whether the operation would fail. -/
def operation.Test {W : Type} (stat : W → String → W × Option FileError) :
    operation → fsUpdates × W → (fsUpdates × W) × Option UpdateError
  | .createOperation c => createOperation.Test stat c
  | .deleteOperation c _ => deleteOperation.Test stat c
  | .moveOperation c => moveOperation.Test stat c
  | .updateOperation _ => fun s => (s, none)
  | .nullOperation _ => fun s => (s, none)

/-- The first loop of `updateProjects`: the operations are tested in order and
the first error ends the loop. -/
def testOperations {W : Type} (stat : W → String → W × Option FileError) :
    List operation → fsUpdates × W → (fsUpdates × W) × Option UpdateError
  | [], s => (s, none)
  | op :: ops, s =>
    let r := operation.Test stat op s
    match r.2 with
    | some e => (r.1, some e)
    | none => testOperations stat ops r.1

/-! ## Running operations -/

/-- The short end of a `project` element that stands alone. -/
def endProjectSoloBytes : List UInt8 := asciiBytes "></project>"

/-- The short end of an element that stands alone. -/
def endElemSoloBytes : List UInt8 := asciiBytes "/>"

/-- The function `safeWriteFile` writes the data next to the file and renames
the result. -/
def safeWriteFile {W : Type} (sys : Host W) (filename : String) (data : List UInt8) (w : W) :
    W × Option UpdateError :=
  let tmp := filename ++ ".tmp"
  match sys.mkdirAll w (filepathDir filename) with
  | (w, some msg) => (w, some (.external msg))
  | (w, none) =>
    match sys.writeFile w tmp data 0o644 with
    | (w, some msg) => (w, some (.external msg))
    | (w, none) => externalError (sys.rename w tmp filename)

/-- ToFile writes the project p to a file with the given filename, with
defaults unfilled and all paths relative to the jiri root. -/
def Project.ToFile {W : Type} (sys : Host W) (p : Project) (filename : String) (w : W) :
    W × Option UpdateError :=
  match p.unfillDefaults with
  | (_, some e) => (w, some (.manifest e))
  | (p, none) =>
    match p.relativizePaths sys.Root with
    | (_, some err) => (w, some (.external err))
    | (p, none) =>
      match sys.xmlMarshal p with
      | .error msg => (w, some (.marshalFailed msg))
      | .ok data =>
        let data := bytesReplace data endProjectSoloBytes endElemSoloBytes
        let data := if ¬ newlineBytes.isSuffixOf data then data ++ asciiBytes "\n" else data
        safeWriteFile sys filename data w

/-- writeMetadata stores the given project metadata in the directory
identified by the given path. -/
def writeMetadata {W : Type} (sys : Host W) (project : Project) (dir : String) (w : W) :
    W × Option UpdateError :=
  let metadataDir := filepathJoin dir sys.ProjectMetaDir
  match sys.getwd w with
  | (w, .error msg) => (w, some (.external msg))
  | (w, .ok cwd) =>
    collectError
      (fun w =>
        match sys.mkdirAll w metadataDir with
        | (w, some msg) => (w, some (.external msg))
        | (w, none) =>
          match sys.chdir w metadataDir with
          | (w, some msg) => (w, some (.external msg))
          | (w, none) =>
            let metadataFile := filepathJoin metadataDir sys.ProjectMetaFile
            project.ToFile sys metadataFile w)
      (fun w => externalError (sys.chdir w cwd))
      w

/-- reportNonMaster checks if the given project is on master branch and if
not, reports this fact along with information on how to update it. -/
def reportNonMaster {W : Type} (sys : Host W) (project : Project) (w : W) :
    W × Option UpdateError :=
  match sys.getwd w with
  | (w, .error msg) => (w, some (.external msg))
  | (w, .ok cwd) =>
    collectError
      (fun w =>
        match sys.chdir w project.Path with
        | (w, some msg) => (w, some (.external msg))
        | (w, none) =>
          match sys.gitCurrentBranchName w with
          | (w, .error msg) => (w, some (.external msg))
          | (w, .ok current) =>
            if current ≠ "master" then (sys.output w (.notOnMaster current), none)
            else (w, none))
      (fun w => externalError (sys.chdir w cwd))
      w

/-- syncProjectMaster fetches from the project remote and resets the local
master branch to the revision and branch specified on the project. -/
def syncProjectMaster {W : Type} (sys : Host W) (project : Project) (w : W) :
    W × Option UpdateError :=
  let r := ApplyToLocalMaster sys.toSystem [(project.Key, project)]
    (fun s =>
      match fetchProject sys.toSystem project s with
      | (s, some e) => (s, some e)
      | (s, none) => resetProjectCurrentBranch sys.toSystem project s)
    ((), w)
  (r.1.2, r.2.map UpdateError.load)

/-- Run executes the creation of a project: the project is cloned into a
temporary directory next to its destination, which is renamed at the end. -/
def createOperation.Run {W : Type} (sys : Host W) (op : commonOperation) (w : W) :
    W × Option UpdateError :=
  let path := filepathDir op.destination
  let tmpDirPrefix := stringsReplace op.project.Name '/' '.' ++ "-"
  match sys.mkdirAll w path with
  | (w, some msg) => (w, some (.external msg))
  | (w, none) =>
    match sys.tempDir w path tmpDirPrefix with
    | (w, (_, some msg)) => (w, some (.external msg))
    | (w, (tmpDir, none)) =>
      collectError
        (fun w =>
          match sys.gitClone w op.project.Remote tmpDir with
          | (w, some msg) => (w, some (.external msg))
          | (w, none) =>
            match sys.getwd w with
            | (w, .error msg) => (w, some (.external msg))
            | (w, .ok cwd) =>
              collectError
                (fun w =>
                  match sys.chdir w tmpDir with
                  | (w, some msg) => (w, some (.external msg))
                  | (w, none) =>
                    match writeMetadata sys op.project tmpDir w with
                    | (w, some e) => (w, some e)
                    | (w, none) =>
                      match sys.chmod w tmpDir 0o755 with
                      | (w, some msg) => (w, some (.external msg))
                      | (w, none) =>
                        match sys.rename w tmpDir op.destination with
                        | (w, some msg) => (w, some (.external msg))
                        | (w, none) => syncProjectMaster sys op.project w)
                (fun w => externalError (sys.chdir w cwd))
                w)
        (fun w => externalError (sys.removeAll w tmpDir))
        w

/-- Run executes the deletion of a project: the directory is removed when `gc`
is set and git reports one branch, no uncommitted changes and no untracked
files; otherwise a note is printed. -/
def deleteOperation.Run {W : Type} (sys : Host W) (op : commonOperation) (gc : Bool) (w : W) :
    W × Option UpdateError :=
  if gc then
    match sys.gitGetBranches w op.project.Path with
    | (w, .error msg) => (w, some (.external msg))
    | (w, .ok (branches, _)) =>
      match sys.gitHasUncommittedChanges w op.project.Path with
      | (w, .error msg) => (w, some (.external msg))
      | (w, .ok uncommitted) =>
        match sys.gitHasUntrackedFiles w op.project.Path with
        | (w, .error msg) => (w, some (.external msg))
        | (w, .ok untracked) =>
          if branches.length ≠ 1 ∨ uncommitted = true ∨ untracked = true then
            (sys.output w (.uncleanNotDeleted op.project.Name), none)
          else externalError (sys.removeAll w op.source)
  else (sys.output w (.orphanNotDeleted op.project.Name op.source), none)

/-- Run executes the relocation of a project. -/
def moveOperation.Run {W : Type} (sys : Host W) (op : commonOperation) (w : W) :
    W × Option UpdateError :=
  let path := filepathDir op.destination
  match sys.mkdirAll w path with
  | (w, some msg) => (w, some (.external msg))
  | (w, none) =>
    match sys.rename w op.source op.destination with
    | (w, some msg) => (w, some (.external msg))
    | (w, none) =>
      match reportNonMaster sys op.project w with
      | (w, some e) => (w, some e)
      | (w, none) =>
        match syncProjectMaster sys op.project w with
        | (w, some e) => (w, some e)
        | (w, none) => writeMetadata sys op.project op.project.Path w

/-- Run executes the update of a project. -/
def updateOperation.Run {W : Type} (sys : Host W) (op : commonOperation) (w : W) :
    W × Option UpdateError :=
  match reportNonMaster sys op.project w with
  | (w, some e) => (w, some e)
  | (w, none) =>
    match syncProjectMaster sys op.project w with
    | (w, some e) => (w, some e)
    | (w, none) => writeMetadata sys op.project op.project.Path w

/-- Run of the operation that changes nothing: the metadata is written. -/
def nullOperation.Run {W : Type} (sys : Host W) (op : commonOperation) (w : W) :
    W × Option UpdateError :=
  writeMetadata sys op.project op.project.Path w

/-- Run executes the operation. -/
def operation.Run {W : Type} (sys : Host W) : operation → W → W × Option UpdateError
  | .createOperation c => createOperation.Run sys c
  | .deleteOperation c gc => deleteOperation.Run sys c gc
  | .moveOperation c => moveOperation.Run sys c
  | .updateOperation c => updateOperation.Run sys c
  | .nullOperation c => nullOperation.Run sys c

/-- The second loop of `updateProjects`: every operation is run through
`Sequence.Call`, and the first error ends the loop. -/
def runOperations {W : Type} (sys : Host W) : List operation → W → W × Option UpdateError
  | [], w => (w, none)
  | op :: ops, w =>
    let r := sys.seqCall w op (operation.Run sys op)
    match r.2 with
    | some e => (r.1, some (.updatingProject op.Project.Name e))
    | none => runOperations sys ops r.1

/-! ## Hooks and the whole update -/

/-- The loop of `runHooks`: the hook of every created, moved or updated project
that has one is run in the directory of the project with the kind of the
operation as its argument. -/
def runHooksLoop {W : Type} (sys : Host W) : List operation → W → W × Option UpdateError
  | [], w => (w, none)
  | op :: ops, w =>
    if op.Project.RunHook = "" then runHooksLoop sys ops w
    else if op.Kind ≠ "create" ∧ op.Kind ≠ "move" ∧ op.Kind ≠ "update" then
      runHooksLoop sys ops w
    else
      let w := sys.output w (.runningHook op.Project.Name)
      let r := sys.runHook w op.Project.Path op.Project.RunHook op.Kind
      match r.2 with
      | some msg => (r.1, some (.runningHook op.Project.Name msg))
      | none => runHooksLoop sys ops r.1

/-- runHooks runs all hooks for the given operations. -/
def runHooks {W : Type} (sys : Host W) (ops : List operation) (w : W) :
    W × Option UpdateError :=
  let r := runHooksLoop sys ops (sys.timerPush w "run hooks")
  (sys.timerPop r.1, r.2)

/-- The function that `applyGitHooks` passes to `filepath.Walk`: a directory
of the hooks is created in the project, a file is copied as an executable. -/
def copyGitHook {W : Type} (sys : Host W) (gitHooks gitHooksDstDir path : String)
    (isDir : Bool) (err : Option String) (w : W) : W × Option UpdateError :=
  match err with
  | some msg => (w, some (.external msg))
  | none =>
    match filepathRel gitHooks path with
    | .error msg => (w, some (.external msg))
    | .ok relPath =>
      let dst := filepathJoin gitHooksDstDir relPath
      if isDir then externalError (sys.mkdirAll w dst)
      else
        match sys.readFile w path with
        | (w, .error msg) => (w, some (.external msg))
        | (w, .ok src) => externalError (sys.writeFile w dst src 0o755)

/-- The loop of `applyGitHooks`: the exclusion of `/.jiri/` is written for
every created or moved project, and the git hooks of every created, moved or
updated project that names some are copied into it. -/
def applyGitHooksLoop {W : Type} (sys : Host W) : List operation → W → W × Option UpdateError
  | [], w => (w, none)
  | op :: ops, w =>
    let excluded : W × Option UpdateError :=
      if op.Kind = "create" ∨ op.Kind = "move" then
        let excludeDir := filepathJoinAll [op.Project.Path, ".git", "info"]
        let excludeFile := filepathJoin excludeDir "exclude"
        match sys.mkdirAll w excludeDir with
        | (w, some msg) => (w, some (.external msg))
        | (w, none) => externalError (sys.writeFile w excludeFile (asciiBytes "/.jiri/\n") 0o644)
      else (w, none)
    match excluded.2 with
    | some e => (excluded.1, some e)
    | none =>
      if op.Project.GitHooks = "" then applyGitHooksLoop sys ops excluded.1
      else if op.Kind ≠ "create" ∧ op.Kind ≠ "move" ∧ op.Kind ≠ "update" then
        applyGitHooksLoop sys ops excluded.1
      else
        let gitHooksDstDir := filepathJoinAll [op.Project.Path, ".git", "hooks"]
        let r := sys.filepathWalk excluded.1 op.Project.GitHooks
          (copyGitHook sys op.Project.GitHooks gitHooksDstDir)
        match r.2 with
        | some e => (r.1, some e)
        | none => applyGitHooksLoop sys ops r.1

/-- The function `applyGitHooks`. -/
def applyGitHooks {W : Type} (sys : Host W) (ops : List operation) (w : W) :
    W × Option UpdateError :=
  let r := applyGitHooksLoop sys ops (sys.timerPush w "apply githooks")
  (sys.timerPop r.1, r.2)

/-- What `updateProjects` does after the tests: every operation is run, then
the hooks are run and the git hooks applied. -/
def runTested {W : Type} (sys : Host W) (ops : List operation) (w : W) :
    W × Option UpdateError :=
  let ran := runOperations sys ops w
  match ran.2 with
  | some e => (ran.1, some e)
  | none =>
    let hooked := runHooks sys ops ran.1
    match hooked.2 with
    | some e => (hooked.1, some e)
    | none => applyGitHooks sys ops hooked.1

/-- What `updateProjects` does once the plan is there: every operation is
tested, and when no test has failed the plan is run. -/
def executeOperations {W : Type} (sys : Host W) (ops : List operation) (w : W) :
    W × Option UpdateError :=
  let tested := testOperations sys.stat ops (newFsUpdates, w)
  match tested.2 with
  | some e => (tested.1.2, some e)
  | none => runTested sys ops tested.1.2

/-- The function `updateProjects`: the state is the map `remoteProjects`, which
`getRemoteHeadRevisions` changes in place, and the world; the deferred
`TimerPop` runs last. -/
def updateProjects {W : Type} (sys : Host W) (rt : GoRuntime) (localProjects : Projects)
    (gc : Bool) (s : Projects × W) : (Projects × W) × Option UpdateError :=
  let heads := getRemoteHeadRevisions sys rt (s.1, sys.timerPush s.2 "update projects")
  let r : W × Option UpdateError :=
    match computeOperations rt localProjects heads.1 gc with
    | .error msg => (heads.2, some (.panic msg))
    | .ok ops => executeOperations sys ops heads.2
  ((heads.1, sys.timerPop r.1), r.2)

/-! ## A sample host

A world that is the list of the calls made so far.  The directories `/r/p`,
`/r/q`, `/r/old`, `/r/dev`, `/r/two`, `/r/dirty` and `/r/broken` exist; the
project in `/r/dev` has the single branch `dev`, the one in `/r/two` has two
branches, the one in `/r/dirty` has uncommitted changes, and git fails in
`/r/broken`.  Every other call succeeds. -/

/-- The directories of the sample host. -/
def sampleDirs : List String :=
  ["/r/p", "/r/q", "/r/old", "/r/dev", "/r/two", "/r/dirty", "/r/broken"]

/-- The calls of the loader on the sample host. -/
def sampleLogSystem : System (List String) :=
  { Root := "/r",
    xmlUnmarshal := sampleXmlUnmarshal,
    readFile := fun w file => (w ++ ["read " ++ file], .ok (asciiBytes file)),
    tempDir := fun w dir pre => (w ++ ["tempdir " ++ dir ++ " " ++ pre], (dir ++ "/tmp", none)),
    mkdirAll := fun w dir => (w ++ ["mkdir " ++ dir], none),
    getwd := fun w => (w, .ok "/r"),
    chdir := fun w dir => (w ++ ["cd " ++ dir], none),
    pushd := fun w dir => w ++ ["pushd " ++ dir],
    pushdDone := fun w => (w ++ ["popd"], none),
    gitClone := fun w remote dir => (w ++ ["git clone " ++ remote ++ " " ++ dir], none),
    gitCurrentBranchName := fun w => (w, .ok "master"),
    gitStash := fun w => (w, .ok false),
    gitCheckoutBranch := fun w branch => (w ++ ["git checkout " ++ branch], none),
    gitStashPop := fun w => (w ++ ["git stash pop"], none),
    gitSetRemoteUrl := fun w name url => (w ++ ["git remote set-url " ++ name ++ " " ++ url], none),
    gitFetch := fun w name => (w ++ ["git fetch " ++ name], none),
    gitReset := fun w rev => (w ++ ["git reset " ++ rev], none) }

/-- The sample host. -/
def sampleHost : Host (List String) :=
  { toSystem := sampleLogSystem,
    ProjectMetaDir := ".jiri",
    ProjectMetaFile := "metadata.v2",
    xmlMarshal := fun p => .ok (asciiBytes ("<project " ++ p.Name ++ "></project>")),
    stat := fun w path =>
      (w ++ ["stat " ++ path],
        if path ∈ sampleDirs then none
        else some { msg := "stat " ++ path ++ ": no such file or directory", isNotExist := true }),
    removeAll := fun w path => (w ++ ["rm -rf " ++ path], none),
    rename := fun w old new => (w ++ ["mv " ++ old ++ " " ++ new], none),
    chmod := fun w path _ => (w ++ ["chmod " ++ path], none),
    writeFile := fun w path _ _ => (w ++ ["write " ++ path], none),
    output := fun w notice =>
      w ++ [match notice with
        | .uncleanNotDeleted name => "note: " ++ name ++ " is not clean and will not be deleted"
        | .orphanNotDeleted name _ => "note: " ++ name ++ " was not removed"
        | .notOnMaster current => "note: the current branch is " ++ current
        | .runningHook name => "running hook for project " ++ name],
    seqCall := fun w op fn => fn (w ++ ["run " ++ op.Kind ++ " " ++ op.Project.Name]),
    gitGetBranches := fun w dir =>
      (w ++ ["git branch in " ++ dir],
        if dir = "/r/broken" then .error "git branch failed"
        else if dir = "/r/dev" then .ok (["dev"], "dev")
        else if dir = "/r/two" then .ok (["master", "dev"], "master")
        else .ok (["master"], "master")),
    gitHasUncommittedChanges := fun w dir =>
      (w ++ ["git diff in " ++ dir], .ok (decide (dir = "/r/dirty"))),
    gitHasUntrackedFiles := fun w dir => (w ++ ["git status in " ++ dir], .ok false),
    runHook := fun w dir cmd arg => (w ++ ["hook " ++ dir ++ " " ++ cmd ++ " " ++ arg], none),
    filepathWalk := fun w root visit => visit root true none (w ++ ["walk " ++ root]),
    timerPush := fun w _ => w,
    timerPop := fun w => w,
    isGoogleSourceRemote := fun _ => false,
    urlParse := fun _ => .error "no url",
    getRepoStatuses := fun w _ _ => (w, .ok []),
    stderr := fun w msg => w ++ ["stderr " ++ msg] }

/-- A project `old` in the directory `/r/p`, which the manifest no longer
names. -/
def sampleOrphan : Project :=
  { sampleOld with Path := "/r/p" }

/-- The project `bar` in the directory `/r/q`. -/
def sampleBarAtQ : Project :=
  { sampleBar with Path := "/r/q" }

/-- The project `bar` as the manifest wants it, in the directory `/r/p`. -/
def sampleBarAtP : Project :=
  { sampleBar with Path := "/r/p" }

/-- The project `new` as the manifest wants it, in the directory `/r/p`. -/
def sampleNewAtP : Project :=
  { sampleNew with Path := "/r/p" }

/-- The deletion of the project in `/r/p`. -/
def sampleDelete (gc : Bool) : operation :=
  .deleteOperation { project := sampleOrphan, destination := "", source := "/r/p" } gc

/-- The move of `bar` from `/r/q` to `/r/p`. -/
def sampleMove : operation :=
  .moveOperation { project := sampleBarAtP, destination := "/r/p", source := "/r/q" }

/-- The creation of `new` in `/r/p`. -/
def sampleCreate : operation :=
  .createOperation { project := sampleNewAtP, destination := "/r/p", source := "" }

/-- The deletion of a project in the given directory of the sample host. -/
def sampleDeleteAt (dir : String) : commonOperation :=
  { project := { sampleOld with Path := dir }, destination := "", source := dir }

/-- A local universe with the orphan in `/r/p` alone. -/
def sampleLocalOrphan : Projects :=
  [(sampleOrphan.Key, sampleOrphan)]

/-- The project `new` as the manifest wants it, in the directory `/r/q`, which
exists. -/
def sampleNewAtQ : Project :=
  { sampleNew with Path := "/r/q" }

/-- The creation of `new` in `/r/q`. -/
def sampleCreateAtQ : operation :=
  .createOperation { project := sampleNewAtQ, destination := "/r/q", source := "" }

/-! ## Relative paths that come back -/

/-- The elements of the clean form of an absolute path, from the root down. -/
def baseElems (R : String) : List (List Char) :=
  ((splitSlash R.data).foldl (cleanStep true) []).reverse

/-- The relative paths that `filepath.Rel` writes from the base `R`, and the
empty path: `.`, or `k` elements `..` followed by elements `T` other than `.`
and `..`, separated by single separators, where `k` is at most the number of
elements of the clean base and the first element of `T`, if there is one, is
not the element of the base that the first `..` leaves.  The empty path is the
case of no element at all. -/
def IsRelativeFrom (R f : String) : Prop :=
  f = "." ∨ ∃ (k : Nat) (T : List (List Char)),
    f.data = joinSlash (List.replicate k ['.', '.'] ++ T)
      ∧ (∀ e ∈ T, (e ≠ [] ∧ e ≠ ['.'] ∧ e ≠ ['.', '.']) ∧ '/' ∉ e)
      ∧ k ≤ (baseElems R).length
      ∧ ∀ b t, ((baseElems R).drop ((baseElems R).length - k)).head? = some b →
          T.head? = some t → b ≠ t

/-- What `absolutizePaths` makes of one of the three path fields. -/
def absolutizeField (basepath field : String) : String :=
  if field ≠ "" ∧ ¬ filepathIsAbs field then filepathJoin basepath field else field

/-- What `relativizePaths` makes of one of the three path fields. -/
def relativizeField (basepath field : String) : Except String String :=
  if filepathIsAbs field then filepathRel basepath field else .ok field

/-- A project whose path goes up one directory and whose hooks directory is
the base itself. -/
def sampleUpward : Project :=
  { sampleRelative with Path := "../x/y", GitHooks := ".", RunHook := "run/hook" }

/-! ## The XML codec

`xml.MarshalIndent` and `xml.Unmarshal` belong to Go's standard library
(`encoding/xml`), as do `utf8.EncodeRune` and `utf8.DecodeRune`.  The
definitions below follow the library for values of type `Manifest`: the
encoder in full, the decoder for documents made of start tags, empty-element
tags, end tags and character data whose names are ASCII names without a colon.
On a comment, a processing instruction, a directive, a CDATA section or a name
outside that range the decoder reports an error that starts with `unsupported`;
the library may accept such a document.  Messages of syntax errors are the
library's without the line number and without the quoted piece of input. -/

/-- Go's `utf8.EncodeRune`: the UTF-8 bytes of a character. -/
def encodeRune (c : Char) : List UInt8 :=
  let n := c.toNat
  if n < 0x80 then [UInt8.ofNat n]
  else if n < 0x800 then
    [UInt8.ofNat (0xC0 + n / 0x40), UInt8.ofNat (0x80 + n % 0x40)]
  else if n < 0x10000 then
    [UInt8.ofNat (0xE0 + n / 0x1000), UInt8.ofNat (0x80 + n / 0x40 % 0x40),
      UInt8.ofNat (0x80 + n % 0x40)]
  else
    [UInt8.ofNat (0xF0 + n / 0x40000), UInt8.ofNat (0x80 + n / 0x1000 % 0x40),
      UInt8.ofNat (0x80 + n / 0x40 % 0x40), UInt8.ofNat (0x80 + n % 0x40)]

/-- Go's `[]byte(s)`: the UTF-8 bytes of a string. -/
def stringBytes (s : List Char) : List UInt8 :=
  s.flatMap encodeRune

/-- The value of a continuation byte, if `b` is one. -/
def continuation (b : UInt8) : Option Nat :=
  if 0x80 ≤ b.toNat ∧ b.toNat < 0xC0 then some (b.toNat - 0x80) else none

/-- The character with code `n`, if `n` lies between `lo` and the largest code
point and is no surrogate. -/
def runeOfNat (lo n : Nat) : Option Char :=
  if lo ≤ n ∧ n.isValidChar then some (Char.ofNat n) else none

/-- Go's `utf8.DecodeRune`: the first character of the bytes and the number of
bytes it takes, and `none` where `DecodeRune` returns `(RuneError, 1)` or the
bytes are empty: at a byte that starts no encoding, a truncated or an overlong
encoding, a surrogate or a value above `U+10FFFF`. -/
def decodeRune : List UInt8 → Option (Char × Nat)
  | [] => none
  | b0 :: rest =>
    if b0.toNat < 0x80 then some (Char.ofNat b0.toNat, 1)
    else if b0.toNat < 0xC0 then none
    else if b0.toNat < 0xE0 then
      match rest with
      | b1 :: _ =>
        match continuation b1 with
        | some c1 => (runeOfNat 0x80 ((b0.toNat - 0xC0) * 0x40 + c1)).map (·, 2)
        | none => none
      | _ => none
    else if b0.toNat < 0xF0 then
      match rest with
      | b1 :: b2 :: _ =>
        match continuation b1, continuation b2 with
        | some c1, some c2 =>
          (runeOfNat 0x800 ((b0.toNat - 0xE0) * 0x1000 + c1 * 0x40 + c2)).map (·, 3)
        | _, _ => none
      | _ => none
    else if b0.toNat < 0xF8 then
      match rest with
      | b1 :: b2 :: b3 :: _ =>
        match continuation b1, continuation b2, continuation b3 with
        | some c1, some c2, some c3 =>
          (runeOfNat 0x10000
            ((b0.toNat - 0xF0) * 0x40000 + c1 * 0x1000 + c2 * 0x40 + c3)).map (·, 4)
        | _, _, _ => none
      | _ => none
    else none

/-- The loop `for len(buf) > 0 { r, size := utf8.DecodeRune(buf); ...;
buf = buf[size:] }`: the characters of a well-formed UTF-8 string, and `none`
for other bytes; `skip` counts the bytes of the current character that are
still to be passed over. -/
def decodeRunesFrom : Nat → List UInt8 → Option (List Char)
  | _, [] => some []
  | skip + 1, _ :: rest => decodeRunesFrom skip rest
  | 0, b :: rest =>
    match decodeRune (b :: rest) with
    | none => none
    | some (c, size) => (decodeRunesFrom (size - 1) rest).map (c :: ·)

/-- The characters of a well-formed UTF-8 string. -/
def decodeRunes (b : List UInt8) : Option (List Char) :=
  decodeRunesFrom 0 b

/-- The characters an XML document may contain (`isInCharacterRange` of
`encoding/xml`). -/
def isInCharacterRange (r : Nat) : Bool :=
  r == 0x09 || r == 0x0A || r == 0x0D || (0x20 ≤ r && r ≤ 0xD7FF)
    || (0xE000 ≤ r && r ≤ 0xFFFD) || (0x10000 ≤ r && r ≤ 0x10FFFF)

/-- The replacement character `U+FFFD`. -/
def replacementChar : Char := Char.ofNat 0xFFFD

/-- What `EscapeString` of the encoder writes for one character: a character
reference for the double quote (code 34), the single quote (39), `&` (38),
`<` (60), `>` (62), tab (9), newline (10) and carriage return (13), the
replacement character for a character outside the XML range, and the character
itself otherwise. -/
def escapeRune (c : Char) : List UInt8 :=
  if c = Char.ofNat 34 then asciiBytes "&#34;"
  else if c = Char.ofNat 39 then asciiBytes "&#39;"
  else if c = Char.ofNat 38 then asciiBytes "&amp;"
  else if c = Char.ofNat 60 then asciiBytes "&lt;"
  else if c = Char.ofNat 62 then asciiBytes "&gt;"
  else if c = Char.ofNat 9 then asciiBytes "&#x9;"
  else if c = Char.ofNat 10 then asciiBytes "&#xA;"
  else if c = Char.ofNat 13 then asciiBytes "&#xD;"
  else if ¬ isInCharacterRange c.toNat then encodeRune replacementChar
  else encodeRune c

/-- The escaped text of an attribute value. -/
def escapeString (s : String) : List UInt8 :=
  s.data.flatMap escapeRune

/-- One attribute of a start tag; a field tagged `omitempty` is left out when
it is the empty string. -/
def marshalAttr (a : String × String) : List UInt8 :=
  if a.2 = "" then []
  else asciiBytes " " ++ asciiBytes a.1 ++ asciiBytes "=\"" ++ escapeString a.2
    ++ asciiBytes "\""

/-- A start tag up to, and without, its closing `>`. -/
def marshalStart (name : String) (attrs : List (String × String)) : List UInt8 :=
  asciiBytes "<" ++ asciiBytes name ++ attrs.flatMap marshalAttr

/-- The line of an element without content at depth two: the end tag follows
the start tag directly. -/
def marshalElement (name : String) (attrs : List (String × String)) : List UInt8 :=
  asciiBytes "    " ++ marshalStart name attrs
    ++ (asciiBytes "></" ++ asciiBytes name ++ asciiBytes ">")

/-- The attributes of an `import` element, in the order of the fields. -/
def Import.attrs (i : Import) : List (String × String) :=
  [("manifest", i.Manifest), ("name", i.Name), ("remote", i.Remote),
    ("remotebranch", i.RemoteBranch), ("root", i.Root)]

/-- The attributes of a `localimport` element. -/
def LocalImport.attrs (i : LocalImport) : List (String × String) :=
  [("file", i.File)]

/-- The attributes of a `project` element, in the order of the fields. -/
def Project.attrs (p : Project) : List (String × String) :=
  [("name", p.Name), ("path", p.Path), ("remote", p.Remote),
    ("remotebranch", p.RemoteBranch), ("revision", p.Revision),
    ("gerrithost", p.GerritHost), ("githooks", p.GitHooks), ("runhook", p.RunHook)]

/-- The attributes of a `tool` element, in the order of the fields. -/
def Tool.attrs (t : Tool) : List (String × String) :=
  [("data", t.Data), ("name", t.Name), ("package", t.Package), ("project", t.Project)]

/-- The lines of a parent element at depth one: on one line when it has no
children, and around the lines of its children otherwise. -/
def marshalParent (name : String) (children : List (List UInt8)) : List (List UInt8) :=
  if children = [] then
    [asciiBytes "  <" ++ asciiBytes name ++ asciiBytes "></" ++ asciiBytes name
      ++ asciiBytes ">"]
  else
    [asciiBytes "  <" ++ asciiBytes name ++ asciiBytes ">"] ++ children
      ++ [asciiBytes "  </" ++ asciiBytes name ++ asciiBytes ">"]

/-- The lines `xml.MarshalIndent(m, "", "  ")` writes: the start tag of the
root with the snapshot path, the parent `imports` with the remote and the
local imports, the parents `projects` and `tools`, and the end tag of the
root.  A parent is written also when it has no children. -/
def marshalLines (m : Manifest) : List (List UInt8) :=
  [marshalStart "manifest" [("snapshotpath", m.SnapshotPath)] ++ asciiBytes ">"]
    ++ marshalParent "imports"
        (m.Imports.map (fun i => marshalElement "import" i.attrs)
          ++ m.LocalImports.map (fun i => marshalElement "localimport" i.attrs))
    ++ marshalParent "projects" (m.Projects.map (fun p => marshalElement "project" p.attrs))
    ++ marshalParent "tools" (m.Tools.map (fun t => marshalElement "tool" t.attrs))
    ++ [asciiBytes "</manifest>"]

/-- Lines joined by newlines, with no newline after the last one. -/
def joinLines : List (List UInt8) → List UInt8
  | [] => []
  | [l] => l
  | l :: l' :: rest => l ++ 10 :: joinLines (l' :: rest)

/-- Go's `xml.MarshalIndent(m, "", "  ")` for a manifest; it has no error for
a value of this type. -/
def xmlMarshalIndent (m : Manifest) : Except String (List UInt8) :=
  .ok (joinLines (marshalLines m))

/-- Go's `string(b)` for bytes that are all ASCII. -/
def asciiString (b : List UInt8) : String :=
  ⟨b.map (fun x => Char.ofNat x.toNat)⟩

/-- The white space the decoder skips inside a tag (`Decoder.space`). -/
def isSpaceByte (b : UInt8) : Bool :=
  b.toNat == 32 || b.toNat == 13 || b.toNat == 10 || b.toNat == 9

/-- The ASCII bytes of a name (`isNameByte`). -/
def isNameByte (b : UInt8) : Bool :=
  (65 ≤ b.toNat && b.toNat ≤ 90) || (97 ≤ b.toNat && b.toNat ≤ 122)
    || (48 ≤ b.toNat && b.toNat ≤ 57) || b.toNat == 95 || b.toNat == 58
    || b.toNat == 46 || b.toNat == 45

/-- The bytes of a name that may also start it: a letter or `_`. -/
def isNameStartByte (b : UInt8) : Bool :=
  (65 ≤ b.toNat && b.toNat ≤ 90) || (97 ≤ b.toNat && b.toNat ≤ 122) || b.toNat == 95

/-- Where the decoder is inside a character reference. -/
inductive XmlEntity where
  | outside
  | amp
  | hash
  | num (hex : Bool) (digits : List Nat)
  | name (bytes : List UInt8)
deriving DecidableEq, Repr

/-- The state of `Decoder.text`: the bytes collected so far, the codes of the
last two bytes read, and the character reference being read. -/
structure XmlText where
  buf : List UInt8
  b0 : Nat
  b1 : Nat
  ent : XmlEntity
deriving DecidableEq, Repr

/-- The state in which `Decoder.text` starts. -/
def XmlText.start : XmlText :=
  { buf := [], b0 := 0, b1 := 0, ent := .outside }

/-- The value of a digit of a numeric character reference. -/
def digitValue (hex : Bool) (b : UInt8) : Option Nat :=
  if 48 ≤ b.toNat ∧ b.toNat ≤ 57 then some (b.toNat - 48)
  else if hex ∧ 97 ≤ b.toNat ∧ b.toNat ≤ 102 then some (b.toNat - 87)
  else if hex ∧ 65 ≤ b.toNat ∧ b.toNat ≤ 70 then some (b.toNat - 55)
  else none

/-- Go's `string(rune(n))` for `n` up to `unicode.MaxRune`: a surrogate gives
the replacement character. -/
def runeBytes (n : Nat) : List UInt8 :=
  if n.isValidChar then encodeRune (Char.ofNat n) else encodeRune replacementChar

/-- The predefined entities. -/
def entityBytes (name : List UInt8) : Option (List UInt8) :=
  if name = asciiBytes "lt" then some (asciiBytes "<")
  else if name = asciiBytes "gt" then some (asciiBytes ">")
  else if name = asciiBytes "amp" then some (asciiBytes "&")
  else if name = asciiBytes "apos" then some (asciiBytes "'")
  else if name = asciiBytes "quot" then some (asciiBytes "\"")
  else none

/-- The text of a character reference is written in place of the reference. -/
def XmlText.write (t : XmlText) (text : List UInt8) : XmlText :=
  { buf := t.buf ++ text, b0 := 0, b1 := 0, ent := .outside }

/-- The digits of a numeric character reference, up to the semicolon. -/
def XmlText.numStep (t : XmlText) (hex : Bool) (digits : List Nat) (b : UInt8) :
    Except String XmlText :=
  match digitValue hex b with
  | some d => .ok { t with ent := .num hex (digits ++ [d]) }
  | none =>
    if b.toNat = 59 then
      let n := digits.foldl (fun n d => n * (if hex then 16 else 10) + d) 0
      if digits ≠ [] ∧ n ≤ 0x10FFFF then .ok (t.write (runeBytes n))
      else .error "invalid character entity"
    else .error "invalid character entity (no semicolon)"

/-- One byte of `Decoder.text` other than the `<` and the quote that end it:
the bytes of a character reference, a carriage return (read as a newline,
together with a newline that follows it), or a byte of the text. -/
def XmlText.step (t : XmlText) (b : UInt8) : Except String XmlText :=
  match t.ent with
  | .outside =>
    if t.b0 = 93 ∧ t.b1 = 93 ∧ b.toNat = 62 then
      .error "unescaped ]]> not in CDATA section"
    else if b.toNat = 38 then .ok { t with ent := .amp }
    else if b.toNat = 13 then .ok { t with buf := t.buf ++ [10], b0 := t.b1, b1 := 13 }
    else if t.b1 = 13 ∧ b.toNat = 10 then .ok { t with b0 := t.b1, b1 := 10 }
    else .ok { t with buf := t.buf ++ [b], b0 := t.b1, b1 := b.toNat }
  | .amp =>
    if b.toNat = 35 then .ok { t with ent := .hash }
    else if isNameByte b ∨ 128 ≤ b.toNat then .ok { t with ent := .name [b] }
    else .error "invalid character entity (no semicolon)"
  | .hash =>
    if b.toNat = 120 then .ok { t with ent := .num true [] }
    else t.numStep false [] b
  | .num hex digits => t.numStep hex digits b
  | .name bytes =>
    if isNameByte b ∨ 128 ≤ b.toNat then .ok { t with ent := .name (bytes ++ [b]) }
    else if b.toNat = 59 then
      match entityBytes bytes with
      | some text => .ok (t.write text)
      | none => .error "invalid character entity"
    else .error "invalid character entity (no semicolon)"

/-- The check at the end of `Decoder.text`: the bytes are well-formed UTF-8 and
every character is in the XML range. -/
def XmlText.finish (t : XmlText) : Except String String :=
  match decodeRunes t.buf with
  | none => .error "invalid UTF-8"
  | some chars =>
    if chars.all (fun c => isInCharacterRange c.toNat) then .ok ⟨chars⟩
    else .error "illegal character code"

/-- An attribute: its name and its value. -/
abbrev XmlAttr := List UInt8 × String

/-- What the decoder is reading: character data, the byte after `<`, the name
of a start tag, the inside of a start tag between attributes, the name of an
attribute, the `=` after it, the quote after that, the value, the `>` of an
empty-element tag, the name of an end tag, the `>` of an end tag; or it has
read the end of the root element, or it has failed. -/
inductive XmlMode where
  | content (t : XmlText)
  | tagOpen
  | startName (name : List UInt8)
  | inTag (tag : List UInt8) (attrs : List XmlAttr)
  | attrName (tag : List UInt8) (attrs : List XmlAttr) (name : List UInt8)
  | attrEq (tag : List UInt8) (attrs : List XmlAttr) (name : List UInt8)
  | attrQuote (tag : List UInt8) (attrs : List XmlAttr) (name : List UInt8)
  | attrValue (tag : List UInt8) (attrs : List XmlAttr) (name : List UInt8)
      (quote : UInt8) (t : XmlText)
  | emptyEnd (tag : List UInt8) (attrs : List XmlAttr)
  | endName (name : List UInt8)
  | endSpace (name : List UInt8)
  | done
  | failed (msg : String)
deriving DecidableEq, Repr

/-- The decoder together with the value `Unmarshal` is filling: the names of
the elements that are open, the innermost first, and the manifest so far. -/
structure XmlState where
  mode : XmlMode
  stack : List (List UInt8)
  m : Manifest
deriving DecidableEq, Repr

/-- The attribute of a manifest element. -/
def Manifest.setAttr (m : Manifest) (a : XmlAttr) : Manifest :=
  if a.1 = asciiBytes "snapshotpath" then { m with SnapshotPath := a.2 } else m

/-- The attributes of an `import` element. -/
def Import.setAttr (i : Import) (a : XmlAttr) : Import :=
  if a.1 = asciiBytes "manifest" then { i with Manifest := a.2 }
  else if a.1 = asciiBytes "name" then { i with Name := a.2 }
  else if a.1 = asciiBytes "remote" then { i with Remote := a.2 }
  else if a.1 = asciiBytes "remotebranch" then { i with RemoteBranch := a.2 }
  else if a.1 = asciiBytes "root" then { i with Root := a.2 }
  else i

/-- The attribute of a `localimport` element. -/
def LocalImport.setAttr (i : LocalImport) (a : XmlAttr) : LocalImport :=
  if a.1 = asciiBytes "file" then { i with File := a.2 } else i

/-- The attributes of a `project` element. -/
def Project.setAttr (p : Project) (a : XmlAttr) : Project :=
  if a.1 = asciiBytes "name" then { p with Name := a.2 }
  else if a.1 = asciiBytes "path" then { p with Path := a.2 }
  else if a.1 = asciiBytes "remote" then { p with Remote := a.2 }
  else if a.1 = asciiBytes "remotebranch" then { p with RemoteBranch := a.2 }
  else if a.1 = asciiBytes "revision" then { p with Revision := a.2 }
  else if a.1 = asciiBytes "gerrithost" then { p with GerritHost := a.2 }
  else if a.1 = asciiBytes "githooks" then { p with GitHooks := a.2 }
  else if a.1 = asciiBytes "runhook" then { p with RunHook := a.2 }
  else p

/-- The attributes of a `tool` element. -/
def Tool.setAttr (t : Tool) (a : XmlAttr) : Tool :=
  if a.1 = asciiBytes "data" then { t with Data := a.2 }
  else if a.1 = asciiBytes "name" then { t with Name := a.2 }
  else if a.1 = asciiBytes "package" then { t with Package := a.2 }
  else if a.1 = asciiBytes "project" then { t with Project := a.2 }
  else t

/-- The zero value of `Import`. -/
def Import.zero : Import :=
  { Manifest := "", Name := "", Remote := "", RemoteBranch := "", Root := "" }

/-- The zero value of `Project`. -/
def Project.zero : Project :=
  { Name := "", Path := "", Remote := "", RemoteBranch := "", Revision := "",
    GerritHost := "", GitHooks := "", RunHook := "" }

/-- The zero value of `Tool`. -/
def Tool.zero : Tool :=
  { Data := "", Name := "", Package := "", Project := "" }

/-- The zero value of `Manifest`, which `new(Manifest)` points to. -/
def Manifest.zero : Manifest :=
  { Imports := [], LocalImports := [], Projects := [], Tools := [], SnapshotPath := "" }

/-- What `Unmarshal` does with a start tag, from the names of the open
elements: the root must be named `manifest` and gives the snapshot path; an
element at the path of a field (`imports>import`, `imports>localimport`,
`projects>project`, `tools>tool`) is appended to that field, each of its
attributes assigned in turn; any other element is skipped. -/
def unmarshalStart (stack : List (List UInt8)) (m : Manifest) (tag : List UInt8)
    (attrs : List XmlAttr) : Except String Manifest :=
  match stack with
  | [] =>
    if tag = asciiBytes "manifest" then .ok (attrs.foldl Manifest.setAttr m)
    else .error ("expected element type <manifest> but have <" ++ asciiString tag ++ ">")
  | [parent, _] =>
    if parent = asciiBytes "imports" ∧ tag = asciiBytes "import" then
      .ok { m with Imports := m.Imports ++ [attrs.foldl Import.setAttr Import.zero] }
    else if parent = asciiBytes "imports" ∧ tag = asciiBytes "localimport" then
      .ok { m with LocalImports :=
              m.LocalImports ++ [attrs.foldl LocalImport.setAttr { File := "" }] }
    else if parent = asciiBytes "projects" ∧ tag = asciiBytes "project" then
      .ok { m with Projects := m.Projects ++ [attrs.foldl Project.setAttr Project.zero] }
    else if parent = asciiBytes "tools" ∧ tag = asciiBytes "tool" then
      .ok { m with Tools := m.Tools ++ [attrs.foldl Tool.setAttr Tool.zero] }
    else .ok m
  | _ => .ok m

/-- The decoder after a start tag (`isEmpty` for an empty-element tag, which
is closed at once): the element is opened, and the decoding is over when the
root element is closed. -/
def XmlState.openTag (s : XmlState) (tag : List UInt8) (attrs : List XmlAttr)
    (isEmpty : Bool) : XmlState :=
  match unmarshalStart s.stack s.m tag attrs with
  | .error msg => { s with mode := .failed msg }
  | .ok m =>
    if isEmpty then
      { s with mode := if s.stack = [] then .done else .content XmlText.start, m := m }
    else { mode := .content XmlText.start, stack := tag :: s.stack, m := m }

/-- The decoder after an end tag, which must close the innermost open
element. -/
def XmlState.closeTag (s : XmlState) (name : List UInt8) : XmlState :=
  match s.stack with
  | [] => { s with mode := .failed "unexpected end element" }
  | top :: rest =>
    if top = name then
      { s with mode := if rest = [] then .done else .content XmlText.start, stack := rest }
    else { s with mode := .failed "element closed by another end tag" }

/-- A name is complete: it starts with a letter or `_`; a name with a colon
(a name space prefix) or a byte that is not ASCII is outside the model. -/
def checkName (name : List UInt8) : Option String :=
  if name.any (fun b => 128 ≤ b.toNat ∨ b.toNat = 58) then
    some "unsupported: a name with a colon or a byte that is not ASCII"
  else if (name.head?.map isNameStartByte).getD false then none
  else some "invalid XML name"

/-- The decoder inside a start tag, before an attribute or the end of the
tag. -/
def XmlState.inTagStep (s : XmlState) (tag : List UInt8) (attrs : List XmlAttr)
    (b : UInt8) : XmlState :=
  if isSpaceByte b then { s with mode := .inTag tag attrs }
  else if b.toNat = 47 then { s with mode := .emptyEnd tag attrs }
  else if b.toNat = 62 then s.openTag tag attrs false
  else if isNameByte b ∨ 128 ≤ b.toNat then { s with mode := .attrName tag attrs [b] }
  else { s with mode := .failed "expected attribute name in element" }

/-- The decoder after the name of an attribute, before `=`. -/
def XmlState.attrEqStep (s : XmlState) (tag : List UInt8) (attrs : List XmlAttr)
    (name : List UInt8) (b : UInt8) : XmlState :=
  if isSpaceByte b then { s with mode := .attrEq tag attrs name }
  else if b.toNat = 61 then { s with mode := .attrQuote tag attrs name }
  else { s with mode := .failed "attribute name without = in element" }

/-- The decoder after the name of an end tag, before `>`. -/
def XmlState.endSpaceStep (s : XmlState) (name : List UInt8) (b : UInt8) : XmlState :=
  if isSpaceByte b then { s with mode := .endSpace name }
  else if b.toNat = 62 then s.closeTag name
  else { s with mode := .failed "invalid characters between </ and >" }

/-- The decoder reads one byte. -/
def xmlStep (s : XmlState) (b : UInt8) : XmlState :=
  match s.mode with
  | .content t =>
    if t.ent = .outside ∧ b.toNat = 60 then
      match t.finish with
      | .ok _ => { s with mode := .tagOpen }
      | .error msg => { s with mode := .failed msg }
    else
      match t.step b with
      | .ok t => { s with mode := .content t }
      | .error msg => { s with mode := .failed msg }
  | .tagOpen =>
    if b.toNat = 47 then { s with mode := .endName [] }
    else if b.toNat = 63 then
      { s with mode := .failed "unsupported: a processing instruction" }
    else if b.toNat = 33 then
      { s with mode := .failed "unsupported: a comment, a directive or a CDATA section" }
    else if isNameByte b ∨ 128 ≤ b.toNat then { s with mode := .startName [b] }
    else { s with mode := .failed "expected element name after <" }
  | .startName name =>
    if isNameByte b ∨ 128 ≤ b.toNat then { s with mode := .startName (name ++ [b]) }
    else
      match checkName name with
      | some msg => { s with mode := .failed msg }
      | none => s.inTagStep name [] b
  | .inTag tag attrs => s.inTagStep tag attrs b
  | .attrName tag attrs name =>
    if isNameByte b ∨ 128 ≤ b.toNat then { s with mode := .attrName tag attrs (name ++ [b]) }
    else
      match checkName name with
      | some msg => { s with mode := .failed msg }
      | none => s.attrEqStep tag attrs name b
  | .attrEq tag attrs name => s.attrEqStep tag attrs name b
  | .attrQuote tag attrs name =>
    if isSpaceByte b then s
    else if b.toNat = 34 ∨ b.toNat = 39 then
      { s with mode := .attrValue tag attrs name b XmlText.start }
    else { s with mode := .failed "unquoted or missing attribute value in element" }
  | .attrValue tag attrs name quote t =>
    if t.ent = .outside ∧ b.toNat = 60 then
      { s with mode := .failed "unescaped < inside quoted string" }
    else if t.ent = .outside ∧ b = quote then
      match t.finish with
      | .ok value => { s with mode := .inTag tag (attrs ++ [(name, value)]) }
      | .error msg => { s with mode := .failed msg }
    else
      match t.step b with
      | .ok t => { s with mode := .attrValue tag attrs name quote t }
      | .error msg => { s with mode := .failed msg }
  | .emptyEnd tag attrs =>
    if b.toNat = 62 then s.openTag tag attrs true
    else { s with mode := .failed "expected /> in element" }
  | .endName name =>
    if isNameByte b ∨ 128 ≤ b.toNat then { s with mode := .endName (name ++ [b]) }
    else if name = [] then { s with mode := .failed "expected element name after </" }
    else
      match checkName name with
      | some msg => { s with mode := .failed msg }
      | none => s.endSpaceStep name b
  | .endSpace name => s.endSpaceStep name b
  | .done => s
  | .failed _ => s

/-- The decoder at the start of the data. -/
def XmlState.start : XmlState :=
  { mode := .content XmlText.start, stack := [], m := Manifest.zero }

/-- Go's `xml.Unmarshal(data, m)` for `m := new(Manifest)`: the decoder reads
the data up to the end of the root element and ignores what follows it; data
that end before that are an error. -/
def xmlUnmarshal (data : List UInt8) : Except ManifestError Manifest :=
  let s := data.foldl xmlStep XmlState.start
  match s.mode with
  | .done => .ok s.m
  | .failed msg => .error (.xml msg)
  | .content t =>
    match t.finish with
    | .error msg => .error (.xml msg)
    | .ok _ => .error (.xml (if s.stack = [] then "EOF" else "unexpected EOF"))
  | _ => .error (.xml "unexpected EOF")

/-- What a character is read back as: itself when XML can carry it, and the
replacement character otherwise. -/
def sanitizeRune (c : Char) : Char :=
  if isInCharacterRange c.toNat then c else replacementChar

/-- What a string is read back as. -/
def sanitizeString (s : String) : String :=
  ⟨s.data.map sanitizeRune⟩

/-- The decoder reads bytes one after the other. -/
def xmlRun (s : XmlState) (data : List UInt8) : XmlState :=
  data.foldl xmlStep s

/-- A byte that `Decoder.text` copies as it is. -/
def IsPlainByte (b : UInt8) : Prop :=
  b.toNat ≠ 10 ∧ b.toNat ≠ 13 ∧ b.toNat ≠ 34 ∧ b.toNat ≠ 38 ∧ b.toNat ≠ 60 ∧ b.toNat ≠ 62

/-- A name the decoder reads as it is written: ASCII name bytes, the first a
letter or `_`, and no colon. -/
def isPlainName (n : List UInt8) : Bool :=
  n.all isNameByte && (checkName n).isNone

/-- The attributes the decoder reads from the attributes the encoder is
given. -/
def readAttrs (attrs : List (String × String)) : List XmlAttr :=
  attrs.flatMap (fun a => if a.2 = "" then [] else [(asciiBytes a.1, sanitizeString a.2)])

/-- What an `import` element is read back as. -/
def Import.sanitize (i : Import) : Import :=
  { Manifest := sanitizeString i.Manifest, Name := sanitizeString i.Name,
    Remote := sanitizeString i.Remote, RemoteBranch := sanitizeString i.RemoteBranch,
    Root := sanitizeString i.Root }

/-- What a `localimport` element is read back as. -/
def LocalImport.sanitize (i : LocalImport) : LocalImport :=
  { File := sanitizeString i.File }

/-- What a `project` element is read back as. -/
def Project.sanitize (p : Project) : Project :=
  { Name := sanitizeString p.Name, Path := sanitizeString p.Path,
    Remote := sanitizeString p.Remote, RemoteBranch := sanitizeString p.RemoteBranch,
    Revision := sanitizeString p.Revision, GerritHost := sanitizeString p.GerritHost,
    GitHooks := sanitizeString p.GitHooks, RunHook := sanitizeString p.RunHook }

/-- What a `tool` element is read back as. -/
def Tool.sanitize (t : Tool) : Tool :=
  { Data := sanitizeString t.Data, Name := sanitizeString t.Name,
    Package := sanitizeString t.Package, Project := sanitizeString t.Project }

/-- What a manifest is read back as: every character XML cannot carry has
become the replacement character. -/
def Manifest.sanitize (m : Manifest) : Manifest :=
  { Imports := m.Imports.map Import.sanitize,
    LocalImports := m.LocalImports.map LocalImport.sanitize,
    Projects := m.Projects.map Project.sanitize,
    Tools := m.Tools.map Tool.sanitize,
    SnapshotPath := sanitizeString m.SnapshotPath }

/-- The line of an element without content after the post-processing of
`ToBytes`: an empty-element tag. -/
def compactElement (name : String) (attrs : List (String × String)) : List UInt8 :=
  asciiBytes "    " ++ marshalStart name attrs ++ asciiBytes "/>"

/-- The lines of a parent element after the post-processing: none when it has
no children. -/
def compactParent (name : String) (children : List (List UInt8)) : List (List UInt8) :=
  if children = [] then []
  else
    [asciiBytes "  <" ++ asciiBytes name ++ asciiBytes ">"] ++ children
      ++ [asciiBytes "  </" ++ asciiBytes name ++ asciiBytes ">"]

/-- The lines of a manifest after the post-processing. -/
def compactLines (m : Manifest) : List (List UInt8) :=
  [marshalStart "manifest" [("snapshotpath", m.SnapshotPath)] ++ asciiBytes ">"]
    ++ compactParent "imports"
        (m.Imports.map (fun i => compactElement "import" i.attrs)
          ++ m.LocalImports.map (fun i => compactElement "localimport" i.attrs))
    ++ compactParent "projects" (m.Projects.map (fun p => compactElement "project" p.attrs))
    ++ compactParent "tools" (m.Tools.map (fun t => compactElement "tool" t.attrs))
    ++ [asciiBytes "</manifest>"]

/-- The line `l` with its ending `e` replaced by `r`, when it ends in `e`. -/
def shorten (e r : List UInt8) : List UInt8 → List UInt8
  | [] => []
  | c :: l => if c :: l = e then r else c :: shorten e r l

/-- The line of an element without content, before (`short = false`) and
after the pass of the post-processing that shortens its end. -/
def elementLine (short : Bool) (name : String) (attrs : List (String × String)) :
    List UInt8 :=
  asciiBytes "    " ++ marshalStart name attrs
    ++ (if short then asciiBytes "/>"
        else asciiBytes "></" ++ asciiBytes name ++ asciiBytes ">")

/-- The lines of a parent element, before (`elided = false`) and after the
pass of the post-processing that elides it when it has no children. -/
def parentLines (elided : Bool) (name : String) (children : List (List UInt8)) :
    List (List UInt8) :=
  if children = [] then
    if elided then []
    else [asciiBytes "  <" ++ asciiBytes name ++ asciiBytes "></" ++ asciiBytes name
      ++ asciiBytes ">"]
  else
    [asciiBytes "  <" ++ asciiBytes name ++ asciiBytes ">"] ++ children
      ++ [asciiBytes "  </" ++ asciiBytes name ++ asciiBytes ">"]

/-- The lines of a manifest between the passes of the post-processing, except
the last line: the flags tell which passes are over. -/
def stageLines (e1 e2 e3 s1 s2 s3 s4 : Bool) (m : Manifest) : List (List UInt8) :=
  (marshalStart "manifest" [("snapshotpath", m.SnapshotPath)] ++ asciiBytes ">")
    :: (parentLines e1 "imports"
          (m.Imports.map (fun i => elementLine s1 "import" i.attrs)
            ++ m.LocalImports.map (fun i => elementLine s2 "localimport" i.attrs))
        ++ (parentLines e2 "projects"
              (m.Projects.map (fun p => elementLine s3 "project" p.attrs))
            ++ parentLines e3 "tools" (m.Tools.map (fun t => elementLine s4 "tool" t.attrs))))

/-- Every character of the string is one XML can carry. -/
def isCleanString (s : String) : Bool :=
  s.data.all (fun c => isInCharacterRange c.toNat)

/-- Every character of every field of the import is one XML can carry. -/
def Import.isClean (i : Import) : Bool :=
  isCleanString i.Manifest && isCleanString i.Name && isCleanString i.Remote
    && isCleanString i.RemoteBranch && isCleanString i.Root

/-- Every character of the file of the local import is one XML can carry. -/
def LocalImport.isClean (i : LocalImport) : Bool :=
  isCleanString i.File

/-- Every character of every field of the project is one XML can carry. -/
def Project.isClean (p : Project) : Bool :=
  isCleanString p.Name && isCleanString p.Path && isCleanString p.Remote
    && isCleanString p.RemoteBranch && isCleanString p.Revision
    && isCleanString p.GerritHost && isCleanString p.GitHooks && isCleanString p.RunHook

/-- Every character of every field of the tool is one XML can carry. -/
def Tool.isClean (t : Tool) : Bool :=
  isCleanString t.Data && isCleanString t.Name && isCleanString t.Package
    && isCleanString t.Project

/-- Every character of every string of the manifest is in the XML character
range. -/
def Manifest.isClean (m : Manifest) : Bool :=
  m.Imports.all Import.isClean && m.LocalImports.all LocalImport.isClean
    && m.Projects.all Project.isClean && m.Tools.all Tool.isClean
    && isCleanString m.SnapshotPath

/-- A default-filled valid manifest with one project, whose name has the
control character `U+0001` between `a` and `b`. -/
def sampleControlName : Manifest :=
  { Imports := [], LocalImports := [],
    Projects := [{ Name := ⟨['a', Char.ofNat 1, 'b']⟩, Path := "", Remote := "",
                   RemoteBranch := "master", Revision := "HEAD", GerritHost := "",
                   GitHooks := "", RunHook := "" }],
    Tools := [], SnapshotPath := "" }

/-- The manifest `sampleControlName` with the replacement character `U+FFFD`
in place of the control character. -/
def sampleReplacedName : Manifest :=
  { Imports := [], LocalImports := [],
    Projects := [{ Name := ⟨['a', Char.ofNat 0xFFFD, 'b']⟩, Path := "", Remote := "",
                   RemoteBranch := "master", Revision := "HEAD", GerritHost := "",
                   GitHooks := "", RunHook := "" }],
    Tools := [], SnapshotPath := "" }

/-- The bytes `ToBytes` returns for `sampleControlName`: the name is written
with the three bytes of `U+FFFD`. -/
def sampleControlNameBytes : List UInt8 :=
  asciiBytes "<manifest>\n  <projects>\n    <project name=" ++ [34, 97, 0xEF, 0xBF, 0xBD, 98, 34]
    ++ asciiBytes "/>\n  </projects>\n</manifest>\n"

/-! ## Properties of `computeOp` -/

/-- C1: for every remote project `r` and every `gc`, `computeOp(nil, r, gc)` is
a create operation with destination `r.Path`, project `r` and empty source. -/
theorem computeOp_nil_remote_is_create (r : Project) (gc : Bool) :
    computeOp none (some r) gc
      = .ok (.createOperation { project := r, destination := r.Path, source := "" })
    ∧ ∀ op, computeOp none (some r) gc = .ok op →
        op.Kind = "create" ∧ op.common.destination = r.Path ∧ op.Project = r
          ∧ op.common.source = "" := by
  refine ⟨rfl, ?_⟩
  intro op h
  simp only [computeOp, Except.ok.injEq] at h
  subst h
  exact ⟨rfl, rfl, rfl, rfl⟩

/-- C2: for every local project `l` and every `gc`, `computeOp(l, nil, gc)` is
a delete operation with source `l.Path` and project `l` whose `gc` field is the
`gc` argument. -/
theorem computeOp_local_nil_is_delete (l : Project) (gc : Bool) :
    computeOp (some l) none gc
      = .ok (.deleteOperation { project := l, destination := "", source := l.Path } gc)
    ∧ ∀ op, computeOp (some l) none gc = .ok op →
        op.Kind = "delete" ∧ op.common.source = l.Path ∧ op.Project = l
          ∧ ∃ c, op = .deleteOperation c gc := by
  refine ⟨rfl, ?_⟩
  intro op h
  simp only [computeOp, Except.ok.injEq] at h
  subst h
  exact ⟨rfl, rfl, rfl, _, rfl⟩

/-- C3: for a local project `l` and a remote project `r` with different paths,
`computeOp(l, r, gc)` is a move operation with source `l.Path`, destination
`r.Path` and project `r`, whatever the two revisions are. -/
theorem computeOp_paths_differ_is_move (l r : Project) (gc : Bool) (h : l.Path ≠ r.Path) :
    computeOp (some l) (some r) gc
      = .ok (.moveOperation { project := r, destination := r.Path, source := l.Path }) := by
  simp [computeOp, h]

/-- Witness of C3: a move between two different paths, the revisions differing
as well. -/
theorem computeOp_paths_differ_is_move_witness :
    sampleFoo.Path ≠ sampleBar.Path ∧ sampleFoo.Revision ≠ sampleBar.Revision
      ∧ computeOp (some sampleFoo) (some sampleBar) true
        = .ok (.moveOperation
            { project := sampleBar, destination := "/r/bar", source := "/r/foo" }) :=
  ⟨by decide, by decide, computeOp_paths_differ_is_move sampleFoo sampleBar true (by decide)⟩

/-- C4: for a local project `l` and a remote project `r` with the same path and
different revisions, `computeOp(l, r, gc)` is an update operation whose project
is `r`, so that the revision it advances to is the remote one. -/
theorem computeOp_revisions_differ_is_update (l r : Project) (gc : Bool)
    (hp : l.Path = r.Path) (hr : l.Revision ≠ r.Revision) :
    computeOp (some l) (some r) gc
      = .ok (.updateOperation { project := r, destination := r.Path, source := l.Path })
    ∧ ∀ op, computeOp (some l) (some r) gc = .ok op →
        op.Kind = "update" ∧ op.Project = r ∧ op.Project.Revision = r.Revision := by
  have h : computeOp (some l) (some r) gc
      = .ok (.updateOperation { project := r, destination := r.Path, source := l.Path }) := by
    simp [computeOp, hp, hr]
  refine ⟨h, ?_⟩
  intro op hop
  rw [h] at hop
  simp only [Except.ok.injEq] at hop
  subst hop
  exact ⟨rfl, rfl, rfl⟩

/-- Witness of C4: the local `foo` at revision `abc`, the remote at `def`. -/
theorem computeOp_revisions_differ_is_update_witness :
    (computeOp (some sampleFoo) (some sampleFooDef) false
      = .ok (.updateOperation
          { project := sampleFooDef, destination := "/r/foo", source := "/r/foo" }))
    ∧ ∀ op, computeOp (some sampleFoo) (some sampleFooDef) false = .ok op →
        op.Kind = "update" ∧ op.Project = sampleFooDef
          ∧ op.Project.Revision = sampleFooDef.Revision :=
  computeOp_revisions_differ_is_update sampleFoo sampleFooDef false (by decide) (by decide)

/-! ## The comparator is a strict weak ordering -/

theorem char_toNat_inj (a b : Char) (h : a.toNat = b.toNat) : a = b := by
  apply Char.ext
  apply UInt32.ext
  exact h

theorem lexLess_iff_lt (s t : List Char) : lexLess s t = true ↔ s < t := by
  induction s generalizing t with
  | nil =>
    cases t with
    | nil => simp [lexLess]
    | cons b t =>
      simp only [lexLess, true_iff]
      exact List.Lex.nil
  | cons a s ih =>
    cases t with
    | nil => simp [lexLess]
    | cons b t =>
      simp only [lexLess]
      by_cases h1 : a.toNat < b.toNat
      · simp only [h1, if_true, true_iff]
        exact List.Lex.rel h1
      · by_cases h2 : a.toNat = b.toNat
        · have hab : a = b := char_toNat_inj a b h2
          subst hab
          simp only [h1, if_false, if_true, ih]
          constructor
          · intro h
            exact List.Lex.cons h
          · intro h
            cases h with
            | rel h => exact absurd h (lt_irrefl _)
            | cons h => exact h
        · simp only [h1, h2, if_false]
          constructor
          · intro h; cases h
          · intro h
            cases h with
            | rel h => exact absurd h h1
            | cons h => exact absurd rfl h2

/-- Go's string comparison is the order of `String`. -/
theorem stringLess_iff_lt (s t : String) : stringLess s t = true ↔ s < t := by
  rw [String.lt_iff_toList_lt]
  exact lexLess_iff_lt s.data t.data

theorem stringLess_eq_false_iff (s t : String) : stringLess s t = false ↔ t ≤ s := by
  rw [← not_lt, ← stringLess_iff_lt]
  simp

/-- The comparator as a lexicographic comparison of (kind value, path). -/
theorem less_iff (a b : operation) :
    operations.Less a b = true ↔
      lessVal a.Kind < lessVal b.Kind
        ∨ (lessVal a.Kind = lessVal b.Kind ∧ a.Project.Path < b.Project.Path) := by
  unfold operations.Less
  by_cases h : lessVal a.Kind = lessVal b.Kind
  · simp [h, stringLess_iff_lt]
  · simp only [ne_eq, h, not_false_eq_true, if_true, decide_eq_true_eq, false_and, or_false]

theorem less_eq_false_iff (a b : operation) :
    operations.Less a b = false ↔
      lessVal b.Kind < lessVal a.Kind
        ∨ (lessVal a.Kind = lessVal b.Kind ∧ b.Project.Path ≤ a.Project.Path) := by
  rw [← Bool.not_eq_true, less_iff]
  constructor
  · intro h
    rcases lt_trichotomy (lessVal a.Kind) (lessVal b.Kind) with h1 | h1 | h1
    · exact absurd (Or.inl h1) h
    · refine Or.inr ⟨h1, ?_⟩
      exact not_lt.mp (fun h2 => h (Or.inr ⟨h1, h2⟩))
    · exact Or.inl h1
  · rintro (h | ⟨h1, h2⟩) (h3 | ⟨h3, h4⟩)
    · omega
    · omega
    · omega
    · exact absurd h4 (not_lt.mpr h2)

theorem less_strictWeakOrder : StrictWeakOrder operations.Less where
  irrefl a := by
    rw [less_eq_false_iff]
    exact Or.inr ⟨rfl, le_refl _⟩
  trans a b c hab hbc := by
    rw [less_iff] at *
    rcases hab with h | ⟨h1, h2⟩ <;> rcases hbc with h3 | ⟨h3, h4⟩
    · exact Or.inl (by omega)
    · exact Or.inl (by omega)
    · exact Or.inl (by omega)
    · exact Or.inr ⟨by omega, lt_trans h2 h4⟩
  negTrans a b c hab hbc := by
    rw [less_eq_false_iff] at *
    rcases hab with h | ⟨h1, h2⟩ <;> rcases hbc with h3 | ⟨h3, h4⟩
    · exact Or.inl (by omega)
    · exact Or.inl (by omega)
    · exact Or.inl (by omega)
    · exact Or.inr ⟨by omega, le_trans h4 h2⟩

theorem indexOf_kind (op : operation) : kindOrder.indexOf op.Kind = lessVal op.Kind := by
  cases op <;> rfl

theorem kind_eq_of_lessVal_eq (a b : operation) (h : lessVal a.Kind = lessVal b.Kind) :
    a.Kind = b.Kind := by
  cases a <;> cases b <;>
    first
    | rfl
    | (simp only [operation.Kind] at h; exact absurd h (by decide))

/-- What `Less b a = false` says in the words of the specification. -/
theorem mayPrecede_of_less_eq_false (a b : operation) (h : operations.Less b a = false) :
    a.MayPrecede b := by
  rw [less_eq_false_iff] at h
  unfold operation.MayPrecede
  rw [indexOf_kind, indexOf_kind]
  rcases h with h | ⟨h1, h2⟩
  · exact Or.inl h
  · exact Or.inr ⟨(kind_eq_of_lessVal_eq b a h1).symm, h2⟩

/-- Two operations neither of which is less than the other tie. -/
theorem ties_of_less_eq_false (a b : operation) (h1 : operations.Less a b = false)
    (h2 : operations.Less b a = false) : a.Ties b := by
  rw [less_eq_false_iff] at h1 h2
  rcases h1 with h1 | ⟨h1, h3⟩ <;> rcases h2 with h2 | ⟨h2, h4⟩
  · omega
  · omega
  · omega
  · exact ⟨kind_eq_of_lessVal_eq a b h1, le_antisymm h4 h3⟩

/-! ## Insertion sort conforms to the contract of `sort.Sort` -/

theorem insertLeft_perm (less : operation → operation → Bool) (x : operation)
    (l : List operation) : (insertLeft less x l).Perm (x :: l) := by
  induction l with
  | nil => exact List.Perm.refl _
  | cons y l ih =>
    unfold insertLeft
    split
    · exact ((ih.cons y).trans (List.Perm.swap x y l))
    · exact List.Perm.refl _

theorem insertionSortFrom_perm (less : operation → operation → Bool)
    (done rest : List operation) :
    (insertionSortFrom less done rest).Perm (done ++ rest) := by
  induction rest generalizing done with
  | nil => simp [insertionSortFrom]
  | cons x rest ih =>
    unfold insertionSortFrom
    refine (ih _).trans ?_
    refine ((insertLeft_perm less x done).append_right rest).trans ?_
    have hmid : (done ++ x :: rest).Perm (x :: (done ++ rest)) := List.perm_middle
    simpa using hmid.symm

theorem insertLeft_sorted (less : operation → operation → Bool) (hl : StrictWeakOrder less)
    (x : operation) (l : List operation) (h : l.Pairwise (fun a b => less a b = false)) :
    (insertLeft less x l).Pairwise (fun a b => less a b = false) := by
  induction l with
  | nil => simp [insertLeft]
  | cons y l ih =>
    rw [List.pairwise_cons] at h
    unfold insertLeft
    split
    · rename_i hxy
      rw [List.pairwise_cons]
      refine ⟨?_, ih h.2⟩
      intro z hz
      rcases List.mem_cons.mp ((insertLeft_perm less x l).mem_iff.mp hz) with rfl | hz
      · cases hyz : less y z
        · rfl
        · have := hl.trans z y z hxy hyz
          rw [hl.irrefl] at this
          exact absurd this (by simp)
      · exact h.1 z hz
    · rename_i hxy
      have hxy : less x y = false := by simpa using hxy
      rw [List.pairwise_cons]
      refine ⟨?_, List.pairwise_cons.mpr h⟩
      intro z hz
      simp only [List.mem_cons] at hz
      rcases hz with rfl | hz
      · exact hxy
      · exact hl.negTrans x y z hxy (h.1 z hz)

theorem insertionSortFrom_sorted (less : operation → operation → Bool)
    (hl : StrictWeakOrder less) (done rest : List operation)
    (h : done.Pairwise (fun a b => less a b = false)) :
    (insertionSortFrom less done rest).Pairwise (fun a b => less b a = false) := by
  induction rest generalizing done with
  | nil =>
    unfold insertionSortFrom
    exact List.pairwise_reverse.mpr h
  | cons x rest ih =>
    unfold insertionSortFrom
    exact ih _ (insertLeft_sorted less hl x done h)

theorem goInOrder_conforms : goInOrder.Conforms where
  range_perm ks := List.Perm.refl ks
  sort_perm less ops := by
    simpa [goInOrder, insertionSort] using insertionSortFrom_perm less [] ops
  sort_sorted less hl ops := insertionSortFrom_sorted less hl [] ops List.Pairwise.nil

theorem goReversed_conforms : goReversed.Conforms where
  range_perm ks := List.reverse_perm ks
  sort_perm less ops := by
    simpa [goReversed, insertionSort] using insertionSortFrom_perm less [] ops
  sort_sorted less hl ops := insertionSortFrom_sorted less hl [] ops List.Pairwise.nil


/-! ## Maps and the loop of `computeOperations` -/

theorem mem_foldl_insert (ps : Projects) (s : List ProjectKey) (k : ProjectKey) :
    k ∈ ps.foldl (fun s e => List.insert e.2.Key s) s ↔ k ∈ s ∨ ∃ e ∈ ps, e.2.Key = k := by
  induction ps generalizing s with
  | nil => simp
  | cons e ps ih =>
    rw [List.foldl_cons, ih, List.mem_insert_iff]
    simp only [List.mem_cons, exists_eq_or_imp]
    constructor
    · rintro ((h | h) | h)
      · exact Or.inr (Or.inl h.symm)
      · exact Or.inl h
      · exact Or.inr (Or.inr h)
    · rintro (h | h | h)
      · exact Or.inl (Or.inr h)
      · exact Or.inl (Or.inl h.symm)
      · exact Or.inr h

theorem nodup_foldl_insert (ps : Projects) (s : List ProjectKey) (h : s.Nodup) :
    (ps.foldl (fun s e => List.insert e.2.Key s) s).Nodup := by
  induction ps generalizing s with
  | nil => exact h
  | cons e ps ih =>
    rw [List.foldl_cons]
    exact ih _ (h.insert)

/-- The keys of `allProjects` are the `Key()` of every local and remote project. -/
theorem mem_allProjects (l r : Projects) (k : ProjectKey) :
    k ∈ allProjects l r ↔ (∃ e ∈ l, e.2.Key = k) ∨ (∃ e ∈ r, e.2.Key = k) := by
  unfold allProjects
  rw [mem_foldl_insert, mem_foldl_insert]
  simp

theorem nodup_allProjects (l r : Projects) : (allProjects l r).Nodup := by
  unfold allProjects
  exact nodup_foldl_insert _ _ (nodup_foldl_insert _ _ List.nodup_nil)

theorem mem_of_get_eq_some (ps : Projects) (k : ProjectKey) (p : Project)
    (h : ps.get k = some p) : (k, p) ∈ ps := by
  induction ps with
  | nil => simp [Projects.get] at h
  | cons e ps ih =>
    obtain ⟨k', p'⟩ := e
    unfold Projects.get at h
    split at h
    · rename_i hk
      simp only [Option.some.injEq] at h
      subst hk h
      exact List.mem_cons_self _ _
    · exact List.mem_cons_of_mem _ (ih h)

theorem get_of_mem (ps : Projects) (e : ProjectKey × Project) (h : e ∈ ps) :
    ∃ p, ps.get e.1 = some p := by
  induction ps with
  | nil => simp at h
  | cons e' ps ih =>
    obtain ⟨k', p'⟩ := e'
    unfold Projects.get
    split
    · exact ⟨p', rfl⟩
    · rename_i hk
      rcases List.mem_cons.mp h with rfl | h
      · exact absurd rfl hk
      · exact ih h

theorem get_eq_none_of_not_mem (ps : Projects) (k : ProjectKey) (h : k ∉ ps.keys) :
    ps.get k = none := by
  cases hg : ps.get k with
  | none => rfl
  | some p =>
    exact absurd (List.mem_map_of_mem Prod.fst (mem_of_get_eq_some ps k p hg)) h

/-- For maps keyed by their own keys, `allProjects` holds the keys of the two
maps. -/
theorem mem_allProjects_of_keyed (l r : Projects) (hl : l.KeyedByOwnKey)
    (hr : r.KeyedByOwnKey) (k : ProjectKey) :
    k ∈ allProjects l r ↔ k ∈ l.keys ∨ k ∈ r.keys := by
  have aux : ∀ ps : Projects, ps.KeyedByOwnKey → ((∃ e ∈ ps, e.2.Key = k) ↔ k ∈ ps.keys) := by
    intro ps hps
    unfold Projects.keys
    rw [List.mem_map]
    constructor
    · rintro ⟨e, he, hk⟩
      exact ⟨e, he, (hps e he).symm.trans hk⟩
    · rintro ⟨e, he, hk⟩
      exact ⟨e, he, (hps e he).trans hk⟩
  rw [mem_allProjects, aux l hl, aux r hr]

theorem allProjects_perm_of_keyed (l r : Projects) (hl : l.KeyedByOwnKey)
    (hr : r.KeyedByOwnKey) : (allProjects l r).Perm ((l.keys ++ r.keys).dedup) := by
  rw [List.perm_ext_iff_of_nodup (nodup_allProjects l r) (List.nodup_dedup _)]
  intro k
  rw [mem_allProjects_of_keyed l r hl hr, List.mem_dedup, List.mem_append]

theorem computeOp_ok_of_left (l : Project) (b : Option Project) (gc : Bool) :
    ∃ op, computeOp (some l) b gc = .ok op := by
  cases b with
  | none => exact ⟨_, rfl⟩
  | some r =>
    unfold computeOp
    simp only
    split
    · exact ⟨_, rfl⟩
    · split
      · exact ⟨_, rfl⟩
      · exact ⟨_, rfl⟩

theorem computeOp_ok_of_right (a : Option Project) (r : Project) (gc : Bool) :
    ∃ op, computeOp a (some r) gc = .ok op := by
  cases a with
  | none => exact ⟨_, rfl⟩
  | some l => exact computeOp_ok_of_left l (some r) gc

/-- The project of the operation is the local project for a delete and the
remote project otherwise. -/
theorem computeOp_project (a b : Option Project) (gc : Bool) (op : operation)
    (h : computeOp a b gc = .ok op) : some op.Project = b ∨ (b = none ∧ some op.Project = a) := by
  unfold computeOp at h
  split at h
  · simp only [Except.ok.injEq] at h; subst h; exact Or.inl rfl
  · simp only [Except.ok.injEq] at h; subst h; exact Or.inr ⟨rfl, rfl⟩
  · split at h
    · simp only [Except.ok.injEq] at h; subst h; exact Or.inl rfl
    · split at h
      · simp only [Except.ok.injEq] at h; subst h; exact Or.inl rfl
      · simp only [Except.ok.injEq] at h; subst h; exact Or.inl rfl
  · simp at h

/-- The project path of a computed operation is its source for a delete and
its destination for every other kind. -/
theorem computeOp_path (a b : Option Project) (gc : Bool) (op : operation)
    (h : computeOp a b gc = .ok op) :
    (op.Kind = "delete" → op.Project.Path = op.common.source)
      ∧ (op.Kind ≠ "delete" → op.Project.Path = op.common.destination) := by
  unfold computeOp at h
  split at h
  · simp only [Except.ok.injEq] at h; subst h; exact ⟨fun h => absurd h (by simp only [operation.Kind]; decide), fun _ => rfl⟩
  · simp only [Except.ok.injEq] at h; subst h; exact ⟨fun _ => rfl, fun h => absurd rfl h⟩
  · split at h
    · simp only [Except.ok.injEq] at h; subst h
      exact ⟨fun h => absurd h (by simp only [operation.Kind]; decide), fun _ => rfl⟩
    · split at h
      · simp only [Except.ok.injEq] at h; subst h
        exact ⟨fun h => absurd h (by simp only [operation.Kind]; decide), fun _ => rfl⟩
      · simp only [Except.ok.injEq] at h; subst h
        exact ⟨fun h => absurd h (by simp only [operation.Kind]; decide), fun _ => rfl⟩
  · simp at h

/-- The loop returns `ops` exactly when `ops` lists, in visiting order, the
operation `computeOp` returns for each key. -/
theorem computeOpsFor_eq_ok_iff (l r : Projects) (gc : Bool) (keys : List ProjectKey)
    (ops : operations) :
    computeOpsFor l r gc keys = .ok ops ↔
      keys.map (fun k => computeOp (l.get k) (r.get k) gc) = ops.map Except.ok := by
  induction keys generalizing ops with
  | nil =>
    cases ops <;> simp [computeOpsFor]
  | cons k keys ih =>
    unfold computeOpsFor
    cases hk : computeOp (l.get k) (r.get k) gc with
    | error e =>
      cases ops <;> simp [hk]
    | ok op =>
      cases hks : computeOpsFor l r gc keys with
      | error e =>
        cases ops with
        | nil => simp
        | cons op' ops' =>
          have := (ih ops').not.mp (by rw [hks]; simp)
          simp [hk, this]
      | ok res =>
        have hres := (ih res).mp hks
        cases ops with
        | nil => simp
        | cons op' ops' =>
          simp only [Except.ok.injEq, List.cons.injEq, List.map_cons, hk, hres]
          constructor
          · rintro ⟨rfl, rfl⟩
            exact ⟨rfl, rfl⟩
          · rintro ⟨rfl, h⟩
            exact ⟨rfl, List.map_injective_iff.mpr (fun _ _ h => by injection h) h⟩

theorem computeOpsFor_ok_of_forall (l r : Projects) (gc : Bool) (keys : List ProjectKey)
    (h : ∀ k ∈ keys, ∃ op, computeOp (l.get k) (r.get k) gc = .ok op) :
    ∃ ops, computeOpsFor l r gc keys = .ok ops := by
  induction keys with
  | nil => exact ⟨[], rfl⟩
  | cons k keys ih =>
    obtain ⟨op, hop⟩ := h k (List.mem_cons_self _ _)
    obtain ⟨ops, hops⟩ := ih (fun k' hk' => h k' (List.mem_cons_of_mem _ hk'))
    exact ⟨op :: ops, by simp [computeOpsFor, hop, hops]⟩

/-- Every operation of the loop's result is `computeOp` at one of the keys
visited. -/
theorem computeOpsFor_mem (l r : Projects) (gc : Bool) (keys : List ProjectKey)
    (ops : operations) (h : computeOpsFor l r gc keys = .ok ops) (op : operation)
    (hop : op ∈ ops) : ∃ k ∈ keys, computeOp (l.get k) (r.get k) gc = .ok op := by
  rw [computeOpsFor_eq_ok_iff] at h
  have : Except.ok op ∈ keys.map (fun k => computeOp (l.get k) (r.get k) gc) := by
    rw [h]; exact List.mem_map_of_mem _ hop
  obtain ⟨k, hk, hk'⟩ := List.mem_map.mp this
  exact ⟨k, hk, hk'⟩

/-- For maps keyed by their own keys no key of `allProjects` reaches the
panic. -/
theorem computeOp_ok_of_mem_allProjects (l r : Projects) (hl : l.KeyedByOwnKey)
    (hr : r.KeyedByOwnKey) (gc : Bool) (k : ProjectKey) (hk : k ∈ allProjects l r) :
    ∃ op, computeOp (l.get k) (r.get k) gc = .ok op := by
  rcases (mem_allProjects l r k).mp hk with ⟨e, he, hek⟩ | ⟨e, he, hek⟩
  · obtain ⟨p, hp⟩ := get_of_mem l e he
    rw [← hek, hl e he, hp]
    exact computeOp_ok_of_left p _ gc
  · obtain ⟨p, hp⟩ := get_of_mem r e he
    rw [← hek, hr e he, hp]
    exact computeOp_ok_of_right _ p gc

/-- For maps keyed by their own keys, `computeOperations` returns. -/
theorem computeOperations_returns (rt : GoRuntime) (hrt : rt.Conforms) (l r : Projects)
    (hl : l.KeyedByOwnKey) (hr : r.KeyedByOwnKey) (gc : Bool) :
    ∃ res, computeOpsFor l r gc (rt.rangeKeys (allProjects l r)) = .ok res
      ∧ computeOperations rt l r gc = .ok (rt.sortSort operations.Less res) := by
  obtain ⟨res, hres⟩ := computeOpsFor_ok_of_forall l r gc (rt.rangeKeys (allProjects l r))
    (fun k hk => computeOp_ok_of_mem_allProjects l r hl hr gc k
      ((hrt.range_perm _).mem_iff.mp hk))
  exact ⟨res, hres, by simp [computeOperations, hres]⟩

/-- What a successful `computeOperations` is made of. -/
theorem computeOperations_eq_ok (rt : GoRuntime) (l r : Projects) (gc : Bool)
    (ops : operations) (h : computeOperations rt l r gc = .ok ops) :
    ∃ res, computeOpsFor l r gc (rt.rangeKeys (allProjects l r)) = .ok res
      ∧ ops = rt.sortSort operations.Less res := by
  unfold computeOperations at h
  split at h
  · simp at h
  · rename_i res hres
    simp only [Except.ok.injEq] at h
    exact ⟨res, hres, h.symm⟩

theorem computeOp_key (l r : Projects) (hl : l.KeyedByOwnKey) (hr : r.KeyedByOwnKey)
    (gc : Bool) (k : ProjectKey) (op : operation)
    (h : computeOp (l.get k) (r.get k) gc = .ok op) : op.Project.Key = k := by
  rcases computeOp_project _ _ gc op h with h1 | ⟨_, h1⟩
  · exact hr _ (mem_of_get_eq_some r k op.Project h1.symm)
  · exact hl _ (mem_of_get_eq_some l k op.Project h1.symm)

theorem computeOpsFor_map_key (l r : Projects) (hl : l.KeyedByOwnKey) (hr : r.KeyedByOwnKey)
    (gc : Bool) (keys : List ProjectKey) (res : operations)
    (h : computeOpsFor l r gc keys = .ok res) :
    res.map (fun op => op.Project.Key) = keys := by
  induction keys generalizing res with
  | nil =>
    simp only [computeOpsFor, Except.ok.injEq] at h
    subst h
    rfl
  | cons k keys ih =>
    unfold computeOpsFor at h
    split at h
    · simp at h
    · rename_i op hop
      split at h
      · simp at h
      · rename_i ops hops
        simp only [Except.ok.injEq] at h
        subst h
        rw [List.map_cons, ih ops hops, computeOp_key l r hl hr gc k op hop]

/-- Visiting the keys in another order gives the same operations in another
order. -/
theorem computeOpsFor_perm (l r : Projects) (gc : Bool) (keys₁ keys₂ : List ProjectKey)
    (hk : keys₁.Perm keys₂) (res₁ : operations)
    (h : computeOpsFor l r gc keys₁ = .ok res₁) :
    ∃ res₂, computeOpsFor l r gc keys₂ = .ok res₂ ∧ res₂.Perm res₁ := by
  have h1 := (computeOpsFor_eq_ok_iff l r gc keys₁ res₁).mp h
  have hall : ∀ k ∈ keys₂, ∃ op, computeOp (l.get k) (r.get k) gc = .ok op := by
    intro k hk2
    have hk1 : k ∈ keys₁ := hk.mem_iff.mpr hk2
    have : computeOp (l.get k) (r.get k) gc ∈ res₁.map Except.ok := by
      rw [← h1]
      exact List.mem_map_of_mem (fun k => computeOp (l.get k) (r.get k) gc) hk1
    obtain ⟨op, _, hop⟩ := List.mem_map.mp this
    exact ⟨op, hop.symm⟩
  obtain ⟨res₂, h2⟩ := computeOpsFor_ok_of_forall l r gc keys₂ hall
  refine ⟨res₂, h2, ?_⟩
  have h2' := (computeOpsFor_eq_ok_iff l r gc keys₂ res₂).mp h2
  have hp : (res₂.map (Except.ok : operation → Except String operation)).Perm
      (res₁.map Except.ok) := by
    rw [← h1, ← h2']
    exact (hk.map _).symm
  have hf : ∀ xs : operations,
      (xs.map (Except.ok : operation → Except String operation)).filterMap Except.toOption
        = xs := by
    intro xs
    induction xs with
    | nil => rfl
    | cons x xs ih => simp [Except.toOption, ih]
  have := hp.filterMap Except.toOption
  rwa [hf, hf] at this

/-- In a list without ties, two members that tie are the same operation. -/
theorem eq_of_ties (ops : operations) (h : ops.Pairwise (fun a b => ¬ a.Ties b))
    (a b : operation) (ha : a ∈ ops) (hb : b ∈ ops) (hab : a.Ties b) : a = b := by
  by_contra hne
  have hsymm : Symmetric (fun a b : operation => ¬ a.Ties b) := by
    intro x y hxy hyx
    exact hxy ⟨hyx.1.symm, hyx.2.symm⟩
  exact h.forall hsymm ha hb hne hab

/-! ## Properties of `computeOperations` -/

/-- C5: for every project map `u` whose entries are stored under their own
`Key()` and for either value of `gc`, `computeOperations(u, u, gc)` returns and
every operation of the result is a null operation. -/
theorem computeOperations_same_universe_all_null (rt : GoRuntime) (hrt : rt.Conforms)
    (u : Projects) (hu : u.KeyedByOwnKey) (gc : Bool) :
    ∃ ops, computeOperations rt u u gc = .ok ops
      ∧ ∀ op ∈ ops, op.Kind = "null" ∧ ∃ c, op = .nullOperation c := by
  obtain ⟨res, hres, hops⟩ := computeOperations_returns rt hrt u u hu hu gc
  refine ⟨_, hops, ?_⟩
  intro op hop
  have hmem : op ∈ res := (hrt.sort_perm _ res).mem_iff.mp hop
  obtain ⟨k, _, hk⟩ := computeOpsFor_mem u u gc _ res hres op hmem
  cases hg : u.get k with
  | none => simp [hg, computeOp] at hk
  | some p =>
    simp only [hg, computeOp, ne_eq, not_true_eq_false, if_false, Except.ok.injEq] at hk
    subst hk
    exact ⟨rfl, _, rfl⟩

/-- Witness of C5: the plan from `sampleLocal` to itself has four operations,
all of them null. -/
theorem computeOperations_same_universe_all_null_witness :
    goInOrder.Conforms ∧ sampleLocal.KeyedByOwnKey
      ∧ ∃ ops, computeOperations goInOrder sampleLocal sampleLocal true = .ok ops
        ∧ ∀ op ∈ ops, op.Kind = "null" ∧ ∃ c, op = .nullOperation c :=
  ⟨goInOrder_conforms, by decide,
    computeOperations_same_universe_all_null goInOrder goInOrder_conforms sampleLocal
      (by decide) true⟩

/-- C6: for local and remote project maps whose entries are stored under their
own `Key()`, `computeOperations` returns without reaching the panic, and its
result holds exactly one operation for each key in the union of the two key
sets: the keys of the operations' projects are that union, each once, every
operation is what `computeOp` gives for its key, and the length of the result
is the size of the union. -/
theorem computeOperations_one_operation_per_key (rt : GoRuntime) (hrt : rt.Conforms)
    (l r : Projects) (hl : l.KeyedByOwnKey) (hr : r.KeyedByOwnKey) (gc : Bool) :
    ∃ ops, computeOperations rt l r gc = .ok ops
      ∧ (ops.map (fun op => op.Project.Key)).Perm ((l.keys ++ r.keys).dedup)
      ∧ (∀ op ∈ ops, computeOp (l.get op.Project.Key) (r.get op.Project.Key) gc = .ok op)
      ∧ ops.length = ((l.keys ++ r.keys).dedup).length := by
  obtain ⟨res, hres, hops⟩ := computeOperations_returns rt hrt l r hl hr gc
  have hperm : ((rt.sortSort operations.Less res).map (fun op => op.Project.Key)).Perm
      ((l.keys ++ r.keys).dedup) := by
    refine ((hrt.sort_perm _ res).map _).trans ?_
    rw [computeOpsFor_map_key l r hl hr gc _ res hres]
    exact (hrt.range_perm _).trans (allProjects_perm_of_keyed l r hl hr)
  refine ⟨_, hops, hperm, ?_, ?_⟩
  · intro op hop
    have hmem : op ∈ res := (hrt.sort_perm _ res).mem_iff.mp hop
    obtain ⟨k, _, hk⟩ := computeOpsFor_mem l r gc _ res hres op hmem
    rw [computeOp_key l r hl hr gc k op hk]
    exact hk
  · simpa using hperm.length_eq

/-- Witness of C6: the plan from `sampleLocal` to `sampleRemote` has one
operation for each of the five keys. -/
theorem computeOperations_one_operation_per_key_witness :
    goInOrder.Conforms ∧ sampleLocal.KeyedByOwnKey ∧ sampleRemote.KeyedByOwnKey
      ∧ computeOperations goInOrder sampleLocal sampleRemote true = .ok samplePlan
      ∧ ((sampleLocal.keys ++ sampleRemote.keys).dedup).length = 5
      ∧ ∃ ops, computeOperations goInOrder sampleLocal sampleRemote true = .ok ops
        ∧ (ops.map (fun op => op.Project.Key)).Perm
            ((sampleLocal.keys ++ sampleRemote.keys).dedup)
        ∧ (∀ op ∈ ops, computeOp (sampleLocal.get op.Project.Key)
            (sampleRemote.get op.Project.Key) true = .ok op)
        ∧ ops.length = ((sampleLocal.keys ++ sampleRemote.keys).dedup).length :=
  ⟨goInOrder_conforms, by decide, by decide, by decide, by decide,
    computeOperations_one_operation_per_key goInOrder goInOrder_conforms sampleLocal
      sampleRemote (by decide) (by decide) true⟩

/-- C7: for every input, the sequence `computeOperations` returns is sorted:
of any two operations the earlier one has a kind that comes earlier in the
order delete, move, create, update, null, or the same kind and a project path
that is not greater; and the project path of each operation is its source for
a delete and its destination for every other kind.  For maps stored under
their own keys there is such a sequence. -/
theorem computeOperations_sorted (rt : GoRuntime) (hrt : rt.Conforms) (l r : Projects)
    (gc : Bool) :
    (l.KeyedByOwnKey → r.KeyedByOwnKey → ∃ ops, computeOperations rt l r gc = .ok ops)
    ∧ ∀ ops, computeOperations rt l r gc = .ok ops →
        ops.Pairwise operation.MayPrecede
          ∧ ∀ op ∈ ops, (op.Kind = "delete" → op.Project.Path = op.common.source)
              ∧ (op.Kind ≠ "delete" → op.Project.Path = op.common.destination) := by
  constructor
  · intro hl hr
    obtain ⟨res, _, hops⟩ := computeOperations_returns rt hrt l r hl hr gc
    exact ⟨_, hops⟩
  · intro ops hops
    obtain ⟨res, hres, rfl⟩ := computeOperations_eq_ok rt l r gc ops hops
    constructor
    · exact (hrt.sort_sorted operations.Less less_strictWeakOrder res).imp
        (fun {a b} h => mayPrecede_of_less_eq_false a b h)
    · intro op hop
      have hmem : op ∈ res := (hrt.sort_perm _ res).mem_iff.mp hop
      obtain ⟨k, _, hk⟩ := computeOpsFor_mem l r gc _ res hres op hmem
      exact computeOp_path _ _ gc op hk

/-- Witness of C7: the plan from `sampleLocal` to `sampleRemote`, visited in
reverse order, is the sorted `samplePlan`. -/
theorem computeOperations_sorted_witness :
    goReversed.Conforms
      ∧ computeOperations goReversed sampleLocal sampleRemote true = .ok samplePlan
      ∧ samplePlan.Pairwise operation.MayPrecede :=
  ⟨goReversed_conforms, by decide,
    ((computeOperations_sorted goReversed goReversed_conforms sampleLocal sampleRemote
      true).2 samplePlan (by decide)).1⟩

/-- C8, as stated, fails: with two manifest projects at the same path the two
create operations tie under `Less`, and the plan comes out in the order in
which the keys were visited. -/
theorem computeOperations_order_depends_on_visit :
    goInOrder.Conforms ∧ goReversed.Conforms
      ∧ sampleTwins.keys.Nodup ∧ sampleTwins.KeyedByOwnKey
      ∧ computeOperations goInOrder [] sampleTwins false
          = .ok [ .createOperation { project := twinB, destination := "/r/p", source := "" },
                  .createOperation { project := twinA, destination := "/r/p", source := "" } ]
      ∧ computeOperations goReversed [] sampleTwins false
          = .ok [ .createOperation { project := twinA, destination := "/r/p", source := "" },
                  .createOperation { project := twinB, destination := "/r/p", source := "" } ]
      ∧ computeOperations goInOrder [] sampleTwins false
          ≠ computeOperations goReversed [] sampleTwins false :=
  ⟨goInOrder_conforms, goReversed_conforms, by decide, by decide, by decide, by decide,
    by decide⟩

/-- C8, amended: when the plan returned under one visiting order holds no two
operations of the same kind with the same project path, `computeOperations`
returns that same sequence under every visiting order and every sorting
algorithm. -/
theorem computeOperations_order_determined (rt₁ rt₂ : GoRuntime) (h₁ : rt₁.Conforms)
    (h₂ : rt₂.Conforms) (l r : Projects) (gc : Bool) (ops : operations)
    (hops : computeOperations rt₁ l r gc = .ok ops)
    (hties : ops.Pairwise (fun a b => ¬ a.Ties b)) :
    computeOperations rt₂ l r gc = .ok ops := by
  obtain ⟨res₁, hres₁, rfl⟩ := computeOperations_eq_ok rt₁ l r gc ops hops
  have hkeys : (rt₁.rangeKeys (allProjects l r)).Perm (rt₂.rangeKeys (allProjects l r)) :=
    (h₁.range_perm _).trans (h₂.range_perm _).symm
  obtain ⟨res₂, hres₂, hperm⟩ := computeOpsFor_perm l r gc _ _ hkeys res₁ hres₁
  have hp : (rt₂.sortSort operations.Less res₂).Perm (rt₁.sortSort operations.Less res₁) :=
    ((h₂.sort_perm _ res₂).trans hperm).trans (h₁.sort_perm _ res₁).symm
  have heq : rt₂.sortSort operations.Less res₂ = rt₁.sortSort operations.Less res₁ := by
    refine List.Perm.eq_of_sorted ?_ (h₂.sort_sorted _ less_strictWeakOrder res₂)
      (h₁.sort_sorted _ less_strictWeakOrder res₁) hp
    intro a b ha hb hab hba
    exact eq_of_ties _ hties a b (hp.mem_iff.mp ha) hb (ties_of_less_eq_false a b hba hab)
  simp [computeOperations, hres₂, heq]

/-- Witness of C8 amended: the plan from `sampleLocal` to `sampleRemote` has no
ties, and visiting the keys in reverse order gives the same plan. -/
theorem computeOperations_order_determined_witness :
    computeOperations goInOrder sampleLocal sampleRemote true = .ok samplePlan
      ∧ computeOperations goReversed sampleLocal sampleRemote true = .ok samplePlan :=
  ⟨by decide,
    computeOperations_order_determined goInOrder goReversed goInOrder_conforms
      goReversed_conforms sampleLocal sampleRemote true samplePlan (by decide)
      (by decide)⟩


/-! ## The loops of `fillDefaults` -/

theorem rangeUpdate_none {α : Type} (f : α → α × Option ManifestError) (xs ys : List α)
    (h : rangeUpdate f xs = (ys, none)) :
    ys = xs.map (fun x => (f x).1) ∧ ∀ x ∈ xs, (f x).2 = none := by
  induction xs generalizing ys with
  | nil =>
    simp only [rangeUpdate, Prod.mk.injEq, and_true] at h
    subst h
    simp
  | cons x xs ih =>
    unfold rangeUpdate at h
    split at h
    · simp at h
    · rename_i y hy
      split at h
      rename_i rest err hrest
      simp only [Prod.mk.injEq] at h
      obtain ⟨rfl, rfl⟩ := h
      obtain ⟨h1, h2⟩ := ih rest hrest
      refine ⟨by simp [hy, h1], ?_⟩
      intro z hz
      rcases List.mem_cons.mp hz with rfl | hz
      · simp [hy]
      · exact h2 z hz

theorem rangeUpdate_some {α : Type} (f : α → α × Option ManifestError) (xs ys : List α)
    (e : ManifestError) (h : rangeUpdate f xs = (ys, some e)) :
    ∃ x ∈ xs, (f x).2 = some e := by
  induction xs generalizing ys with
  | nil => simp [rangeUpdate] at h
  | cons x xs ih =>
    unfold rangeUpdate at h
    split at h
    · rename_i y e' hy
      simp only [Prod.mk.injEq, Option.some.injEq] at h
      exact ⟨x, List.mem_cons_self _ _, by rw [hy, ← h.2]⟩
    · split at h
      rename_i rest err hrest
      simp only [Prod.mk.injEq] at h
      obtain ⟨_, rfl⟩ := h
      obtain ⟨x', hx', hfx'⟩ := ih rest hrest
      exact ⟨x', List.mem_cons_of_mem _ hx', hfx'⟩

theorem rangeCheck_none {α : Type} (f : α → Option ManifestError) (xs : List α)
    (h : rangeCheck f xs = none) : ∀ x ∈ xs, f x = none := by
  induction xs with
  | nil => simp
  | cons x xs ih =>
    unfold rangeCheck at h
    split at h
    · simp at h
    · rename_i hx
      intro y hy
      rcases List.mem_cons.mp hy with rfl | hy
      · exact hx
      · exact ih h y hy

theorem rangeCheck_some {α : Type} (f : α → Option ManifestError) (xs : List α)
    (e : ManifestError) (h : rangeCheck f xs = some e) : ∃ x ∈ xs, f x = some e := by
  induction xs with
  | nil => simp [rangeCheck] at h
  | cons x xs ih =>
    unfold rangeCheck at h
    split at h
    · rename_i e' hx
      exact ⟨x, List.mem_cons_self _ _, by rw [hx, h]⟩
    · obtain ⟨y, hy, hfy⟩ := ih h
      exact ⟨y, List.mem_cons_of_mem _ hy, hfy⟩

/-- The outcome of `Manifest.fillDefaults` in terms of its four loops. -/
theorem fillDefaults_cases (m : Manifest) :
    (∃ m', m.fillDefaults = (m', none)
        ∧ m'.Imports = m.Imports.map (fun i => (Import.fillDefaults i).1)
        ∧ m'.LocalImports = m.LocalImports
        ∧ m'.Projects = m.Projects.map (fun p => (Project.fillDefaults p).1)
        ∧ m'.Tools = m.Tools.map (fun t => (Tool.fillDefaults t).1)
        ∧ m'.SnapshotPath = m.SnapshotPath
        ∧ (∀ i ∈ m.Imports, (Import.fillDefaults i).2 = none)
        ∧ (∀ i ∈ m.LocalImports, LocalImport.validate i = none)
        ∧ (∀ p ∈ m.Projects, (Project.fillDefaults p).2 = none))
    ∨ (∃ m' e, m.fillDefaults = (m', some e)
        ∧ ((∃ i ∈ m.Imports, (Import.fillDefaults i).2 = some e)
          ∨ (∃ i ∈ m.LocalImports, LocalImport.validate i = some e)
          ∨ (∃ p ∈ m.Projects, (Project.fillDefaults p).2 = some e)
          ∨ (∃ t ∈ m.Tools, (Tool.fillDefaults t).2 = some e))) := by
  unfold Manifest.fillDefaults
  rcases hi : rangeUpdate Import.fillDefaults m.Imports with ⟨imports, _ | e⟩
  · obtain ⟨hi1, hi2⟩ := rangeUpdate_none _ _ _ hi
    simp only
    cases hl : rangeCheck LocalImport.validate m.LocalImports with
    | some e =>
      exact Or.inr ⟨_, e, rfl, Or.inr (Or.inl (rangeCheck_some _ _ e hl))⟩
    | none =>
      have hl1 := rangeCheck_none _ _ hl
      simp only
      rcases hp : rangeUpdate Project.fillDefaults m.Projects with ⟨projects, _ | e⟩
      · obtain ⟨hp1, hp2⟩ := rangeUpdate_none _ _ _ hp
        simp only
        rcases ht : rangeUpdate Tool.fillDefaults m.Tools with ⟨tools, _ | e⟩
        · obtain ⟨ht1, _⟩ := rangeUpdate_none _ _ _ ht
          exact Or.inl ⟨_, rfl, hi1, rfl, hp1, ht1, rfl, hi2, hl1, hp2⟩
        · exact Or.inr ⟨_, e, rfl, Or.inr (Or.inr (Or.inr (rangeUpdate_some _ _ _ e ht)))⟩
      · exact Or.inr ⟨_, e, rfl, Or.inr (Or.inr (Or.inl (rangeUpdate_some _ _ _ e hp)))⟩
  · exact Or.inr ⟨_, e, rfl, Or.inl (rangeUpdate_some _ _ _ e hi)⟩

theorem import_fillDefaults_fst (i : Import) :
    (Import.fillDefaults i).1
      = { i with RemoteBranch := orDefault i.RemoteBranch "master" } := by
  unfold Import.fillDefaults orDefault
  split <;> rfl

theorem project_fillDefaults_fst (p : Project) :
    (Project.fillDefaults p).1
      = { p with RemoteBranch := orDefault p.RemoteBranch "master",
                 Revision := orDefault p.Revision "HEAD" } := by
  unfold Project.fillDefaults orDefault
  by_cases h1 : p.RemoteBranch = "" <;> by_cases h2 : p.Revision = "" <;> simp [h1, h2]

theorem tool_fillDefaults_fst (t : Tool) :
    (Tool.fillDefaults t).1
      = { t with Data := orDefault t.Data "data",
                 Project := orDefault t.Project
                   "https://fuchsia.googlesource.com/release.go.jiri" } := by
  unfold Tool.fillDefaults orDefault
  by_cases h1 : t.Data = "" <;> by_cases h2 : t.Project = "" <;> simp [h1, h2] <;> rfl

theorem stringsContainsFrom_separator (s : List Char) :
    stringsContainsFrom ['='] s = true ↔ '=' ∈ s := by
  induction s with
  | nil => simp [stringsContainsFrom]
  | cons c s ih =>
    simp only [stringsContainsFrom, List.isPrefixOf, Bool.or_eq_true, ih, List.mem_cons,
      Bool.and_true, beq_iff_eq]

theorem import_fillDefaults_snd (i : Import) :
    (Import.fillDefaults i).2 ≠ none ↔ (i.Manifest = "" ∨ i.Remote = "") := by
  unfold Import.fillDefaults Import.validate
  by_cases h : i.RemoteBranch = "" <;> simp only [h, if_true, if_false] <;>
    split <;> simp_all

theorem localImport_validate_ne_none (i : LocalImport) :
    LocalImport.validate i ≠ none ↔ i.File = "" := by
  unfold LocalImport.validate
  split <;> simp_all

theorem project_fillDefaults_snd (p : Project) :
    (Project.fillDefaults p).2 ≠ none ↔ '=' ∈ p.Name.data := by
  have hv : ∀ q : Project, q.validate ≠ none ↔ '=' ∈ q.Name.data := by
    intro q
    unfold Project.validate stringsContains
    have : projectKeySeparator.data = ['='] := rfl
    rw [this]
    split
    · rename_i h
      simpa using (stringsContainsFrom_separator _).mp h
    · rename_i h
      simpa using fun h' => h ((stringsContainsFrom_separator _).mpr h')
  unfold Project.fillDefaults
  by_cases h1 : p.RemoteBranch = "" <;> by_cases h2 : p.Revision = "" <;>
    simp only [h1, h2, if_true, if_false, hv]

theorem fillDefaults_snd_ne_none_iff (m : Manifest) : (m.fillDefaults).2 ≠ none ↔ m.Invalid := by
  rcases fillDefaults_cases m with ⟨m', h, _, _, _, _, _, hi, hl, hp⟩ | ⟨m', e, h, hcase⟩
  · rw [h]
    simp only [ne_eq, not_true_eq_false, false_iff]
    rintro (⟨i, hi', hbad⟩ | ⟨i, hi', hbad⟩ | ⟨p, hp', hbad⟩)
    · exact (import_fillDefaults_snd i).mpr hbad (hi i hi')
    · exact (localImport_validate_ne_none i).mpr hbad (hl i hi')
    · exact (project_fillDefaults_snd p).mpr hbad (hp p hp')
  · rw [h]
    simp only [ne_eq, reduceCtorEq, not_false_eq_true, true_iff]
    rcases hcase with ⟨i, hi, he⟩ | ⟨i, hi, he⟩ | ⟨p, hp, he⟩ | ⟨t, _, he⟩
    · exact Or.inl ⟨i, hi, (import_fillDefaults_snd i).mp (by rw [he]; simp)⟩
    · exact Or.inr (Or.inl ⟨i, hi, (localImport_validate_ne_none i).mp (by rw [he]; simp)⟩)
    · exact Or.inr (Or.inr ⟨p, hp, (project_fillDefaults_snd p).mp (by rw [he]; simp)⟩)
    · simp [Tool.fillDefaults] at he

/-! ## Properties of `Manifest.fillDefaults` -/

/-- C9: when `Manifest.fillDefaults` succeeds, every import has `RemoteBranch`
`"master"` where it was empty, every project has `RemoteBranch` `"master"` and
`Revision` `"HEAD"` where they were empty, every tool has `Data` `"data"` and
`Project` `"https://fuchsia.googlesource.com/release.go.jiri"` where they were
empty, and everything else (non-empty fields, the other fields, the snapshot
path, the local imports, the order of the elements) is as before. -/
theorem fillDefaults_success_fills_empty_fields (m m' : Manifest)
    (h : m.fillDefaults = (m', none)) :
    m'.Imports
        = m.Imports.map (fun i => { i with RemoteBranch := orDefault i.RemoteBranch "master" })
      ∧ m'.LocalImports = m.LocalImports
      ∧ m'.Projects
        = m.Projects.map (fun p =>
            { p with RemoteBranch := orDefault p.RemoteBranch "master",
                     Revision := orDefault p.Revision "HEAD" })
      ∧ m'.Tools
        = m.Tools.map (fun t =>
            { t with Data := orDefault t.Data "data",
                     Project := orDefault t.Project
                       "https://fuchsia.googlesource.com/release.go.jiri" })
      ∧ m'.SnapshotPath = m.SnapshotPath := by
  rcases fillDefaults_cases m with ⟨m'', h', hi, hl, hp, ht, hs, _⟩ | ⟨m'', e, h', _⟩
  · rw [h] at h'
    simp only [Prod.mk.injEq, and_true] at h'
    subst h'
    refine ⟨?_, hl, ?_, ?_, hs⟩
    · rw [hi]
      exact List.map_congr_left (fun i _ => import_fillDefaults_fst i)
    · rw [hp]
      exact List.map_congr_left (fun p _ => project_fillDefaults_fst p)
    · rw [ht]
      exact List.map_congr_left (fun t _ => tool_fillDefaults_fst t)
  · rw [h] at h'
    simp at h'

/-- Witness of C9: `sampleManifest` is filled to `sampleManifestFilled`. -/
theorem fillDefaults_success_fills_empty_fields_witness :
    sampleManifest.fillDefaults = (sampleManifestFilled, none)
      ∧ sampleManifestFilled.Imports
        = sampleManifest.Imports.map
            (fun i => { i with RemoteBranch := orDefault i.RemoteBranch "master" })
      ∧ sampleManifestFilled.LocalImports = sampleManifest.LocalImports
      ∧ sampleManifestFilled.Projects
        = sampleManifest.Projects.map (fun p =>
            { p with RemoteBranch := orDefault p.RemoteBranch "master",
                     Revision := orDefault p.Revision "HEAD" })
      ∧ sampleManifestFilled.Tools
        = sampleManifest.Tools.map (fun t =>
            { t with Data := orDefault t.Data "data",
                     Project := orDefault t.Project
                       "https://fuchsia.googlesource.com/release.go.jiri" })
      ∧ sampleManifestFilled.SnapshotPath = sampleManifest.SnapshotPath :=
  ⟨by decide,
    fillDefaults_success_fills_empty_fields sampleManifest sampleManifestFilled (by decide)⟩

/-- C10: for every parsed manifest, `Manifest.fillDefaults` returns an error if
and only if some remote import has an empty manifest or an empty remote, or
some local import has an empty file, or some project name contains `=`; tools
never cause a failure; and `ManifestFromBytes` fails on data that parses to the
manifest under exactly the same condition. -/
theorem fillDefaults_error_iff_invalid (m : Manifest) :
    ((m.fillDefaults).2 ≠ none ↔ m.Invalid)
      ∧ (∀ t : Tool, (Tool.fillDefaults t).2 = none)
      ∧ ∀ (xmlUnmarshal : List UInt8 → Except ManifestError Manifest) (data : List UInt8),
          xmlUnmarshal data = .ok m →
            ((∃ e, ManifestFromBytes xmlUnmarshal data = .error e) ↔ m.Invalid) := by
  refine ⟨fillDefaults_snd_ne_none_iff m, fun _ => rfl, ?_⟩
  intro xmlUnmarshal data hparse
  rw [← fillDefaults_snd_ne_none_iff m]
  unfold ManifestFromBytes
  rw [hparse]
  rcases hf : m.fillDefaults with ⟨m', _ | e⟩
  · simp [hf]
  · simp [hf]

/-- Witness of C10: a manifest whose project is named `a=b` is invalid, so
`fillDefaults` returns an error and `ManifestFromBytes` fails on data that
parses to it. -/
theorem fillDefaults_error_iff_invalid_witness :
    (sampleBadManifest.fillDefaults).2 ≠ none
      ∧ (∃ e, ManifestFromBytes (fun _ => .ok sampleBadManifest) [] = .error e)
      ∧ (sampleManifest.fillDefaults).2 = none ∧ ¬ sampleManifest.Invalid :=
  ⟨(fillDefaults_error_iff_invalid sampleBadManifest).1.mpr
      (Or.inr (Or.inr ⟨sampleBadProject, by decide, by decide⟩)),
    ((fillDefaults_error_iff_invalid sampleBadManifest).2.2 (fun _ => .ok sampleBadManifest) []
      rfl).mpr (Or.inr (Or.inr ⟨sampleBadProject, by decide, by decide⟩)),
    by decide,
    fun h => (fillDefaults_error_iff_invalid sampleManifest).1.mpr h (by decide)⟩


/-! ## Unfilled defaults -/

theorem import_unfillDefaults_fst (i : Import) :
    (Import.unfillDefaults i).1
      = { i with RemoteBranch := if i.RemoteBranch = "master" then "" else i.RemoteBranch } := by
  unfold Import.unfillDefaults
  split <;> simp_all

theorem project_unfillDefaults_fst (p : Project) :
    (Project.unfillDefaults p).1
      = { p with RemoteBranch := if p.RemoteBranch = "master" then "" else p.RemoteBranch,
                 Revision := if p.Revision = "HEAD" then "" else p.Revision } := by
  unfold Project.unfillDefaults
  by_cases h1 : p.RemoteBranch = "master" <;> by_cases h2 : p.Revision = "HEAD" <;>
    simp [h1, h2]

theorem tool_unfillDefaults_fst (t : Tool) :
    (Tool.unfillDefaults t).1 = { t with Data := if t.Data = "data" then "" else t.Data } := by
  unfold Tool.unfillDefaults
  by_cases h1 : t.Data = "data" <;> simp [h1]

/-- C12, as stated, fails: a tool whose `Project` is the default and whose
`Data` is `"data"` keeps its `Project` through `unfillDefaults`; only `Data`
becomes empty. -/
theorem tool_unfillDefaults_keeps_project :
    sampleDefaultTool.Project = "https://fuchsia.googlesource.com/" ++ JiriProject
      ∧ sampleDefaultTool.Data = "data"
      ∧ (Tool.unfillDefaults sampleDefaultTool).1.Data = ""
      ∧ (Tool.unfillDefaults sampleDefaultTool).1.Project
          = "https://fuchsia.googlesource.com/release.go.jiri"
      ∧ (Tool.unfillDefaults sampleDefaultTool).1.Project ≠ "" := by
  decide

/-- C12, amended: `unfillDefaults` empties a tool's `Data` when it is `"data"`
and leaves the tool's `Project` as it is, also when it is the default; it
empties a project's `RemoteBranch` when it is `"master"` and its `Revision`
when it is `"HEAD"`, and an import's `RemoteBranch` when it is `"master"`;
every other field keeps its value, and a tool never gives an error. -/
theorem unfillDefaults_empties_default_fields :
    (∀ t : Tool,
        (Tool.unfillDefaults t).1
            = { t with Data := if t.Data = "data" then "" else t.Data }
          ∧ (Tool.unfillDefaults t).1.Project = t.Project
          ∧ (Tool.unfillDefaults t).2 = none)
      ∧ (∀ p : Project,
          (Project.unfillDefaults p).1
            = { p with
                RemoteBranch := if p.RemoteBranch = "master" then "" else p.RemoteBranch,
                Revision := if p.Revision = "HEAD" then "" else p.Revision })
      ∧ (∀ i : Import,
          (Import.unfillDefaults i).1
            = { i with
                RemoteBranch := if i.RemoteBranch = "master" then "" else i.RemoteBranch }) := by
  refine ⟨fun t => ⟨tool_unfillDefaults_fst t, ?_, rfl⟩, project_unfillDefaults_fst,
    import_unfillDefaults_fst⟩
  rw [tool_unfillDefaults_fst]

/-! ## Keys -/

/-- Two lists that agree after a separator that the parts before it do not
contain are equal part by part. -/
theorem append_cons_inj_of_not_mem {α : Type} (c : α) (a₁ a₂ b₁ b₂ : List α)
    (h₁ : c ∉ a₁) (h₂ : c ∉ a₂) (h : a₁ ++ c :: b₁ = a₂ ++ c :: b₂) :
    a₁ = a₂ ∧ b₁ = b₂ := by
  induction a₁ generalizing a₂ with
  | nil =>
    cases a₂ with
    | nil => simpa using h
    | cons x a₂ =>
      simp only [List.nil_append, List.cons_append, List.cons.injEq] at h
      exact absurd (h.1 ▸ List.mem_cons_self _ _) h₂
  | cons x a₁ ih =>
    cases a₂ with
    | nil =>
      simp only [List.nil_append, List.cons_append, List.cons.injEq] at h
      exact absurd (h.1 ▸ List.mem_cons_self _ _) h₁
    | cons y a₂ =>
      simp only [List.cons_append, List.cons.injEq] at h
      obtain ⟨rfl, h⟩ := h
      obtain ⟨h3, h4⟩ := ih a₂ (fun hm => h₁ (List.mem_cons_of_mem _ hm))
        (fun hm => h₂ (List.mem_cons_of_mem _ hm)) h
      exact ⟨by rw [h3], h4⟩

theorem makeProjectKey_data (name remote : String) :
    (MakeProjectKey name remote).data = name.data ++ '=' :: remote.data := by
  simp [MakeProjectKey, projectKeySeparator, String.data_append]

/-- C14: the project key is name + "=" + remote, and for two projects whose
names do not contain "=" the keys are equal if and only if the names are equal
and the remotes are equal. -/
theorem project_key_eq_iff (p q : Project) (hp : '=' ∉ p.Name.data)
    (hq : '=' ∉ q.Name.data) :
    p.Key = p.Name ++ "=" ++ p.Remote
      ∧ (p.Key = q.Key ↔ p.Name = q.Name ∧ p.Remote = q.Remote) := by
  refine ⟨rfl, ?_⟩
  constructor
  · intro h
    have hd : (MakeProjectKey p.Name p.Remote).data = (MakeProjectKey q.Name q.Remote).data :=
      congrArg String.data h
    rw [makeProjectKey_data, makeProjectKey_data] at hd
    obtain ⟨h1, h2⟩ := append_cons_inj_of_not_mem '=' _ _ _ _ hp hq hd
    exact ⟨String.ext h1, String.ext h2⟩
  · rintro ⟨h1, h2⟩
    simp [Project.Key, h1, h2]

/-- Witness of C14: `foo` and `bar` have names without "=" and different keys. -/
theorem project_key_eq_iff_witness :
    sampleFoo.Key = "foo=https://h/foo"
      ∧ (sampleFoo.Key = sampleBar.Key
          ↔ sampleFoo.Name = sampleBar.Name ∧ sampleFoo.Remote = sampleBar.Remote) :=
  project_key_eq_iff sampleFoo sampleBar (by decide) (by decide)

theorem cycleKey_data (i : Import) (h : i.Remote ≠ "") :
    i.cycleKey.data = i.Remote.data ++ ' ' :: ('+' :: ' ' :: i.Manifest.data) := by
  simp [Import.cycleKey, h, String.data_append]

/-- C15, as stated, fails: the remote `x` with the manifest `y + z` and the
remote `x + y` with the manifest `z` have the same cycle key. -/
theorem cycleKey_collision :
    sampleImportLeft.Remote ≠ "" ∧ sampleImportRight.Remote ≠ ""
      ∧ sampleImportLeft.cycleKey = "x + y + z"
      ∧ sampleImportRight.cycleKey = "x + y + z"
      ∧ sampleImportLeft.Remote ≠ sampleImportRight.Remote
      ∧ sampleImportLeft.Manifest ≠ sampleImportRight.Manifest := by
  decide

/-- C15, amended: for two imports whose remotes are non-empty and contain no
space, the cycle keys (remote + " + " + manifest) are equal if and only if the
remotes are equal and the manifests are equal; such a cycle key is not empty,
and an import with an empty remote has the empty cycle key. -/
theorem cycleKey_eq_iff (i j : Import) (hi : i.Remote ≠ "") (hj : j.Remote ≠ "")
    (hsi : ' ' ∉ i.Remote.data) (hsj : ' ' ∉ j.Remote.data) :
    i.cycleKey = i.Remote ++ " + " ++ i.Manifest
      ∧ i.cycleKey ≠ ""
      ∧ (i.cycleKey = j.cycleKey ↔ i.Remote = j.Remote ∧ i.Manifest = j.Manifest)
      ∧ ∀ k : Import, k.Remote = "" → k.cycleKey = "" := by
  refine ⟨by simp [Import.cycleKey, hi], ?_, ?_, ?_⟩
  · intro h
    have hd := congrArg String.data h
    rw [cycleKey_data i hi] at hd
    simp at hd
  · constructor
    · intro h
      have hd := congrArg String.data h
      rw [cycleKey_data i hi, cycleKey_data j hj] at hd
      obtain ⟨h1, h2⟩ := append_cons_inj_of_not_mem ' ' _ _ _ _ hsi hsj hd
      simp only [List.cons.injEq, true_and] at h2
      exact ⟨String.ext h1, String.ext h2⟩
    · rintro ⟨h1, h2⟩
      simp [Import.cycleKey, h1, h2]
  · intro k hk
    simp [Import.cycleKey, hk]

/-- Witness of C15 amended: two manifests of the remote `https://h/manifest`
have different cycle keys. -/
theorem cycleKey_eq_iff_witness :
    sampleImport.cycleKey = "https://h/manifest + public"
      ∧ sampleImport.cycleKey ≠ ""
      ∧ (sampleImport.cycleKey = sampleImportOther.cycleKey
          ↔ sampleImport.Remote = sampleImportOther.Remote
            ∧ sampleImport.Manifest = sampleImportOther.Manifest)
      ∧ ∀ k : Import, k.Remote = "" → k.cycleKey = "" :=
  cycleKey_eq_iff sampleImport sampleImportOther (by decide) (by decide) (by decide)
    (by decide)


/-! ## Slices and backing arrays -/

theorem sliceElems_eq_of_getElem? {α : Type} (arrays arrays' : List (List α)) (s : Slice)
    (h : ∀ a, s = some a → arrays'[a]? = arrays[a]?) :
    sliceElems arrays' s = sliceElems arrays s := by
  cases s with
  | none => rfl
  | some a =>
    simp only [sliceElems, List.getD_eq_getElem?_getD]
    rw [h a rfl]

theorem sliceAppendToNil_elems {α : Type} (arrays : List (List α)) (s : Slice) :
    sliceElems (sliceAppendToNil arrays s).1 (sliceAppendToNil arrays s).2
      = sliceElems arrays s := by
  cases hs : sliceElems arrays s with
  | nil =>
    simp only [sliceAppendToNil, hs]
    rfl
  | cons x xs =>
    simp only [sliceAppendToNil, hs]
    simp [sliceElems]

theorem sliceAppendToNil_getElem? {α : Type} (arrays : List (List α)) (s : Slice) (a : Nat)
    (ha : a < arrays.length) : (sliceAppendToNil arrays s).1[a]? = arrays[a]? := by
  unfold sliceAppendToNil
  split
  · rfl
  · simp [List.getElem?_append_left ha]

theorem sliceAppendToNil_fresh {α : Type} (arrays : List (List α)) (s : Slice) (b : Nat)
    (hb : (sliceAppendToNil arrays s).2 = some b) :
    b = arrays.length ∧ b < (sliceAppendToNil arrays s).1.length := by
  unfold sliceAppendToNil at hb ⊢
  split at hb
  · simp at hb
  · simp only [Option.some.injEq] at hb
    subst hb
    simp

theorem sliceAppendToNil_nil {α : Type} (arrays : List (List α)) (s : Slice)
    (h : (sliceAppendToNil arrays s).2 = none) : sliceElems arrays s = [] := by
  unfold sliceAppendToNil at h
  split at h
  · assumption
  · simp at h

theorem sliceOverwrite_getElem?_ne {α : Type} (arrays : List (List α)) (s : Slice)
    (xs : List α) (a : Nat) (h : s ≠ some a) : (sliceOverwrite arrays s xs)[a]? = arrays[a]? := by
  cases s with
  | none => rfl
  | some b =>
    have hne : b ≠ a := fun hba => h (by rw [hba])
    simp [sliceOverwrite, List.getElem?_set_ne hne]

theorem sliceOverwrite_elems {α : Type} (arrays : List (List α)) (b : Nat) (xs : List α)
    (hb : b < arrays.length) : sliceElems (sliceOverwrite arrays (some b) xs) (some b) = xs := by
  simp [sliceElems, sliceOverwrite, List.getD_eq_getElem?_getD, hb]

/-- Copying a slice and then overwriting the copy leaves every array that
existed before as it was. -/
theorem copy_overwrite_getElem? {α : Type} (arrays : List (List α)) (s : Slice) (xs : List α)
    (a : Nat) (ha : a < arrays.length) :
    (sliceOverwrite (sliceAppendToNil arrays s).1 (sliceAppendToNil arrays s).2 xs)[a]?
      = arrays[a]? := by
  rw [sliceOverwrite_getElem?_ne, sliceAppendToNil_getElem? arrays s a ha]
  intro hb
  have := (sliceAppendToNil_fresh arrays s a hb).1
  omega

/-- The copy shows `xs` after it has been overwritten with `xs`, provided `xs`
is empty when the copied slice is. -/
theorem copy_overwrite_elems {α : Type} (arrays : List (List α)) (s : Slice) (xs : List α)
    (hxs : sliceElems arrays s = [] → xs = []) :
    sliceElems (sliceOverwrite (sliceAppendToNil arrays s).1 (sliceAppendToNil arrays s).2 xs)
      (sliceAppendToNil arrays s).2 = xs := by
  cases hc : (sliceAppendToNil arrays s).2 with
  | none =>
    rw [hxs (sliceAppendToNil_nil arrays s hc)]
    rfl
  | some b =>
    exact sliceOverwrite_elems _ b xs (sliceAppendToNil_fresh arrays s b hc).2

theorem rangeUpdate_length {α : Type} (f : α → α × Option ManifestError) (xs : List α) :
    (rangeUpdate f xs).1.length = xs.length := by
  induction xs with
  | nil => rfl
  | cons x xs ih =>
    unfold rangeUpdate
    split
    · rfl
    · split
      rename_i rest err hrest
      rw [hrest] at ih
      simp only [List.length_cons]
      simpa using ih

theorem rangeUpdate_nil_of_nil {α : Type} (f : α → α × Option ManifestError) (xs : List α)
    (h : xs = []) : (rangeUpdate f xs).1 = [] := by
  subst h
  rfl

/-- The lists of a manifest are empty after `unfillDefaults` if they were
before, and the local imports and the snapshot path are never touched. -/
theorem unfillDefaults_fields (m : Manifest) :
    (m.Imports = [] → (m.unfillDefaults).1.Imports = [])
      ∧ (m.unfillDefaults).1.LocalImports = m.LocalImports
      ∧ (m.Projects = [] → (m.unfillDefaults).1.Projects = [])
      ∧ (m.Tools = [] → (m.unfillDefaults).1.Tools = [])
      ∧ (m.unfillDefaults).1.SnapshotPath = m.SnapshotPath := by
  unfold Manifest.unfillDefaults
  rcases hi : rangeUpdate Import.unfillDefaults m.Imports with ⟨imports, _ | e⟩
  · have hi' : m.Imports = [] → imports = [] := fun h => by
      have := rangeUpdate_nil_of_nil Import.unfillDefaults m.Imports h
      rwa [hi] at this
    simp only
    cases hl : rangeCheck LocalImport.validate m.LocalImports with
    | some e => exact ⟨hi', rfl, id, id, rfl⟩
    | none =>
      simp only
      rcases hp : rangeUpdate Project.unfillDefaults m.Projects with ⟨projects, _ | e⟩
      · have hp' : m.Projects = [] → projects = [] := fun h => by
          have := rangeUpdate_nil_of_nil Project.unfillDefaults m.Projects h
          rwa [hp] at this
        simp only
        rcases ht : rangeUpdate Tool.unfillDefaults m.Tools with ⟨tools, _ | e⟩ <;>
          exact ⟨hi', rfl, hp', fun h => by
            have := rangeUpdate_nil_of_nil Tool.unfillDefaults m.Tools h
            rwa [ht] at this, rfl⟩
      · have hp' : m.Projects = [] → projects = [] := fun h => by
          have := rangeUpdate_nil_of_nil Project.unfillDefaults m.Projects h
          rwa [hp] at this
        exact ⟨hi', rfl, hp', id, rfl⟩
  · have hi' : m.Imports = [] → imports = [] := fun h => by
      have := rangeUpdate_nil_of_nil Import.unfillDefaults m.Imports h
      rwa [hi] at this
    exact ⟨hi', rfl, id, id, rfl⟩

theorem deepCopy_eq (m : Manifest) : m.deepCopy = m := by
  cases m
  simp [Manifest.deepCopy]

theorem stored_deepCopy_load (h : StoredManifest) (mem : Memory) :
    (h.deepCopy mem).2.load (h.deepCopy mem).1 = h.load mem := by
  simp only [StoredManifest.deepCopy, StoredManifest.load, sliceAppendToNil_elems]

/-- The memory `ToBytes` leaves is the memory after `unfillDefaults` on the
copy, on every path. -/
theorem stored_toBytes_fst (xmlMarshalIndent : Manifest → Except String (List UInt8))
    (h : StoredManifest) (mem : Memory) :
    (h.ToBytes xmlMarshalIndent mem).1
      = ((h.deepCopy mem).2.unfillDefaults (h.deepCopy mem).1).1 := by
  unfold StoredManifest.ToBytes
  simp only
  split
  · rfl
  · split <;> rfl

/-- The copy, after `unfillDefaults` in memory, denotes the unfilled value. -/
theorem stored_copy_unfill_load (h : StoredManifest) (mem : Memory) :
    (h.deepCopy mem).2.load ((h.deepCopy mem).2.unfillDefaults (h.deepCopy mem).1).1
        = ((h.load mem).unfillDefaults).1
      ∧ ((h.deepCopy mem).2.unfillDefaults (h.deepCopy mem).1).2
        = ((h.load mem).unfillDefaults).2 := by
  have hl := stored_deepCopy_load h mem
  obtain ⟨f1, f2, f3, f4, f5⟩ := unfillDefaults_fields (h.load mem)
  unfold StoredManifest.unfillDefaults
  simp only [hl]
  refine ⟨?_, trivial⟩
  have e1 := copy_overwrite_elems mem.imports h.Imports _ f1
  have e2 := copy_overwrite_elems mem.localImports h.LocalImports
    ((h.load mem).unfillDefaults).1.LocalImports (fun hnil => by rw [f2]; exact hnil)
  have e3 := copy_overwrite_elems mem.projects h.Projects _ f3
  have e4 := copy_overwrite_elems mem.tools h.Tools _ f4
  have hs : h.SnapshotPath = ((h.load mem).unfillDefaults).1.SnapshotPath := f5.symm
  generalize ((h.load mem).unfillDefaults).1 = u at e1 e2 e3 e4 hs ⊢
  cases u
  simp only [StoredManifest.load, StoredManifest.deepCopy] at e1 e2 e3 e4 hs ⊢
  rw [e1, e2, e3, e4, hs]

/-! ## Properties of `ToBytes` -/

/-- C13: `ToBytes` leaves the manifest it is called on unchanged: whether the
call succeeds or fails, the receiver denotes the same manifest afterwards as
before, every backing array that existed before the call still holds the same
elements, and the value returned is computed from the receiver's value. -/
theorem toBytes_leaves_receiver_unchanged
    (xmlMarshalIndent : Manifest → Except String (List UInt8)) (h : StoredManifest)
    (mem : Memory) (hv : h.ValidIn mem) :
    h.load (h.ToBytes xmlMarshalIndent mem).1 = h.load mem
      ∧ (∀ a, a < mem.imports.length →
          (h.ToBytes xmlMarshalIndent mem).1.imports[a]? = mem.imports[a]?)
      ∧ (∀ a, a < mem.localImports.length →
          (h.ToBytes xmlMarshalIndent mem).1.localImports[a]? = mem.localImports[a]?)
      ∧ (∀ a, a < mem.projects.length →
          (h.ToBytes xmlMarshalIndent mem).1.projects[a]? = mem.projects[a]?)
      ∧ (∀ a, a < mem.tools.length →
          (h.ToBytes xmlMarshalIndent mem).1.tools[a]? = mem.tools[a]?)
      ∧ (h.ToBytes xmlMarshalIndent mem).2 = (h.load mem).ToBytes xmlMarshalIndent := by
  have h1 : ∀ a, a < mem.imports.length →
      (h.ToBytes xmlMarshalIndent mem).1.imports[a]? = mem.imports[a]? := by
    intro a ha
    rw [stored_toBytes_fst]
    exact copy_overwrite_getElem? mem.imports h.Imports _ a ha
  have h2 : ∀ a, a < mem.localImports.length →
      (h.ToBytes xmlMarshalIndent mem).1.localImports[a]? = mem.localImports[a]? := by
    intro a ha
    rw [stored_toBytes_fst]
    exact copy_overwrite_getElem? mem.localImports h.LocalImports _ a ha
  have h3 : ∀ a, a < mem.projects.length →
      (h.ToBytes xmlMarshalIndent mem).1.projects[a]? = mem.projects[a]? := by
    intro a ha
    rw [stored_toBytes_fst]
    exact copy_overwrite_getElem? mem.projects h.Projects _ a ha
  have h4 : ∀ a, a < mem.tools.length →
      (h.ToBytes xmlMarshalIndent mem).1.tools[a]? = mem.tools[a]? := by
    intro a ha
    rw [stored_toBytes_fst]
    exact copy_overwrite_getElem? mem.tools h.Tools _ a ha
  refine ⟨?_, h1, h2, h3, h4, ?_⟩
  · obtain ⟨v1, v2, v3, v4⟩ := hv
    simp only [StoredManifest.load]
    rw [sliceElems_eq_of_getElem? _ _ h.Imports (fun a ha => h1 a (v1 a ha)),
      sliceElems_eq_of_getElem? _ _ h.LocalImports (fun a ha => h2 a (v2 a ha)),
      sliceElems_eq_of_getElem? _ _ h.Projects (fun a ha => h3 a (v3 a ha)),
      sliceElems_eq_of_getElem? _ _ h.Tools (fun a ha => h4 a (v4 a ha))]
  · obtain ⟨c1, c2⟩ := stored_copy_unfill_load h mem
    unfold StoredManifest.ToBytes Manifest.ToBytes
    simp only [deepCopy_eq, c1, c2]
    split
    · rfl
    · split <;> rfl

/-- Witness of C13: after `ToBytes` the stored `sampleManifestFilled` still has
its defaults, whereas unfilling without the copy would have removed them. -/
theorem toBytes_leaves_receiver_unchanged_witness :
    sampleStored.ValidIn sampleMemory
      ∧ sampleStored.load sampleMemory = sampleManifestFilled
      ∧ sampleStored.load (sampleStored.ToBytes sampleMarshalIndent sampleMemory).1
          = sampleManifestFilled
      ∧ sampleStored.load
            (sampleStored.ToBytesWithoutCopy sampleMarshalIndent sampleMemory).1
          ≠ sampleManifestFilled :=
  ⟨⟨by decide, by decide, by decide, by decide⟩, by decide,
    (toBytes_leaves_receiver_unchanged sampleMarshalIndent sampleStored sampleMemory
      ⟨by decide, by decide, by decide, by decide⟩).1,
    by decide⟩

/-! ## Filling after unfilling -/

theorem rangeUpdate_of_forall_none {α : Type} (f : α → α × Option ManifestError)
    (xs : List α) (h : ∀ x ∈ xs, (f x).2 = none) :
    rangeUpdate f xs = (xs.map (fun x => (f x).1), none) := by
  induction xs with
  | nil => rfl
  | cons x xs ih =>
    have hx := h x (List.mem_cons_self _ _)
    have ih' := ih (fun y hy => h y (List.mem_cons_of_mem _ hy))
    unfold rangeUpdate
    rcases hfx : f x with ⟨y, err⟩
    rw [hfx] at hx
    simp only at hx
    subst hx
    simp only [ih', List.map_cons, hfx]

theorem rangeCheck_of_forall_none {α : Type} (f : α → Option ManifestError) (xs : List α)
    (h : ∀ x ∈ xs, f x = none) : rangeCheck f xs = none := by
  induction xs with
  | nil => rfl
  | cons x xs ih =>
    unfold rangeCheck
    rw [h x (List.mem_cons_self _ _)]
    exact ih (fun y hy => h y (List.mem_cons_of_mem _ hy))

theorem forall_fixed_of_map_eq_self {α : Type} (f : α → α) (xs : List α)
    (h : xs.map f = xs) : ∀ x ∈ xs, f x = x := by
  induction xs with
  | nil => simp
  | cons x xs ih =>
    simp only [List.map_cons, List.cons.injEq] at h
    intro y hy
    rcases List.mem_cons.mp hy with rfl | hy
    · exact h.1
    · exact ih h.2 y hy

theorem fillDefaults_of_valid (m : Manifest)
    (hi : ∀ i ∈ m.Imports, (Import.fillDefaults i).2 = none)
    (hl : ∀ l ∈ m.LocalImports, LocalImport.validate l = none)
    (hp : ∀ p ∈ m.Projects, (Project.fillDefaults p).2 = none) :
    m.fillDefaults
      = ({ Imports := m.Imports.map (fun i => (Import.fillDefaults i).1),
           LocalImports := m.LocalImports,
           Projects := m.Projects.map (fun p => (Project.fillDefaults p).1),
           Tools := m.Tools.map (fun t => (Tool.fillDefaults t).1),
           SnapshotPath := m.SnapshotPath }, none) := by
  unfold Manifest.fillDefaults
  simp only [rangeUpdate_of_forall_none _ _ hi, rangeCheck_of_forall_none _ _ hl,
    rangeUpdate_of_forall_none _ _ hp,
    rangeUpdate_of_forall_none Tool.fillDefaults m.Tools (fun _ _ => rfl)]

theorem unfillDefaults_of_valid (m : Manifest)
    (hi : ∀ i ∈ m.Imports, (Import.unfillDefaults i).2 = none)
    (hl : ∀ l ∈ m.LocalImports, LocalImport.validate l = none)
    (hp : ∀ p ∈ m.Projects, (Project.unfillDefaults p).2 = none) :
    m.unfillDefaults
      = ({ Imports := m.Imports.map (fun i => (Import.unfillDefaults i).1),
           LocalImports := m.LocalImports,
           Projects := m.Projects.map (fun p => (Project.unfillDefaults p).1),
           Tools := m.Tools.map (fun t => (Tool.unfillDefaults t).1),
           SnapshotPath := m.SnapshotPath }, none) := by
  unfold Manifest.unfillDefaults
  simp only [rangeUpdate_of_forall_none _ _ hi, rangeCheck_of_forall_none _ _ hl,
    rangeUpdate_of_forall_none _ _ hp,
    rangeUpdate_of_forall_none Tool.unfillDefaults m.Tools (fun _ _ => rfl)]

theorem project_validate_eq_none_iff (p : Project) :
    p.validate = none ↔ '=' ∉ p.Name.data := by
  unfold Project.validate stringsContains
  have hd : projectKeySeparator.data = ['='] := rfl
  rw [hd]
  split
  · rename_i hc
    simpa using (stringsContainsFrom_separator _).mp hc
  · rename_i hc
    simpa using fun h' => hc ((stringsContainsFrom_separator _).mpr h')

theorem import_validate_eq_none_iff (i : Import) :
    i.validate = none ↔ ¬ (i.Manifest = "" ∨ i.Remote = "") := by
  unfold Import.validate
  split <;> simp_all

theorem prod_eq_of_fst_snd {α β : Type} (x : α × β) (a : α) (b : β) (h1 : x.1 = a)
    (h2 : x.2 = b) : x = (a, b) := by
  cases x
  simp_all

/-- A default-filled valid import is valid without its defaults and is
restored by filling them in again. -/
theorem import_fill_unfill (i : Import) (h1 : (Import.fillDefaults i).1 = i)
    (h2 : (Import.fillDefaults i).2 = none) :
    (Import.unfillDefaults i).2 = none
      ∧ Import.fillDefaults (Import.unfillDefaults i).1 = (i, none) := by
  have hv : i.validate = none := by
    rw [import_validate_eq_none_iff]
    intro hbad
    exact (import_fillDefaults_snd i).mpr hbad h2
  rw [import_fillDefaults_fst] at h1
  have hb : i.RemoteBranch ≠ "" := by
    intro hb
    have := congrArg Import.RemoteBranch h1
    simp [orDefault, hb] at this
  have hu : ∀ j : Import, j.Manifest = i.Manifest → j.Remote = i.Remote → j.validate = none := by
    intro j hm hr
    rw [import_validate_eq_none_iff, hm, hr, ← import_validate_eq_none_iff]
    exact hv
  constructor
  · exact hu (Import.unfillDefaults i).1 (by rw [import_unfillDefaults_fst])
      (by rw [import_unfillDefaults_fst])
  · apply prod_eq_of_fst_snd
    · rw [import_fillDefaults_fst, import_unfillDefaults_fst]
      obtain ⟨man, name, remote, branch, root⟩ := i
      by_cases hm : branch = "master"
      · simp [orDefault, hm]
      · simp only [hm, if_false, orDefault]
        simp only at hb
        simp [hb]
    · exact hu (Import.fillDefaults (Import.unfillDefaults i).1).1
        (by rw [import_fillDefaults_fst, import_unfillDefaults_fst])
        (by rw [import_fillDefaults_fst, import_unfillDefaults_fst])

/-- A default-filled valid project is valid without its defaults and is
restored by filling them in again. -/
theorem project_fill_unfill (p : Project) (h1 : (Project.fillDefaults p).1 = p)
    (h2 : (Project.fillDefaults p).2 = none) :
    (Project.unfillDefaults p).2 = none
      ∧ Project.fillDefaults (Project.unfillDefaults p).1 = (p, none) := by
  have hname : '=' ∉ p.Name.data := fun hbad => (project_fillDefaults_snd p).mpr hbad h2
  rw [project_fillDefaults_fst] at h1
  have hb : p.RemoteBranch ≠ "" := by
    intro hb
    have := congrArg Project.RemoteBranch h1
    simp [orDefault, hb] at this
  have hr : p.Revision ≠ "" := by
    intro hr
    have := congrArg Project.Revision h1
    simp [orDefault, hr] at this
  have hu : ∀ q : Project, q.Name = p.Name → q.validate = none := by
    intro q hq
    rw [project_validate_eq_none_iff, hq]
    exact hname
  constructor
  · exact hu (Project.unfillDefaults p).1 (by rw [project_unfillDefaults_fst])
  · apply prod_eq_of_fst_snd
    · rw [project_fillDefaults_fst, project_unfillDefaults_fst]
      obtain ⟨name, path, remote, branch, rev, gerrit, hooks, runhook⟩ := p
      simp only at hb hr
      by_cases hm : branch = "master" <;> by_cases hh : rev = "HEAD" <;>
        simp [orDefault, hm, hh, hb, hr]
    · exact hu (Project.fillDefaults (Project.unfillDefaults p).1).1
        (by rw [project_fillDefaults_fst, project_unfillDefaults_fst])

/-- A default-filled tool is restored by filling its defaults in again after
they have been unfilled. -/
theorem tool_fill_unfill (t : Tool) (h1 : (Tool.fillDefaults t).1 = t) :
    (Tool.fillDefaults (Tool.unfillDefaults t).1).1 = t := by
  rw [tool_fillDefaults_fst] at h1
  have hd : t.Data ≠ "" := by
    intro hd
    have := congrArg Tool.Data h1
    simp [orDefault, hd] at this
  have hp : t.Project ≠ "" := by
    intro hp
    have := congrArg Tool.Project h1
    simp [orDefault, hp] at this
  rw [tool_fillDefaults_fst, tool_unfillDefaults_fst]
  obtain ⟨data, name, package, project⟩ := t
  simp only at hd hp
  by_cases hm : data = "data" <;> simp [orDefault, hm, hd, hp]

/-- A default-filled valid manifest passes `unfillDefaults`, and `fillDefaults`
restores it from the result. -/
theorem manifest_fill_unfill (m : Manifest) (h : m.fillDefaults = (m, none)) :
    (m.unfillDefaults).2 = none ∧ (m.unfillDefaults).1.fillDefaults = (m, none) := by
  rcases fillDefaults_cases m with ⟨m', h', hi, _, hp, ht, _, vi, vl, vp⟩ | ⟨m', e, h', _⟩
  · rw [h] at h'
    simp only [Prod.mk.injEq, and_true] at h'
    subst h'
    have fi := forall_fixed_of_map_eq_self _ _ hi.symm
    have fp := forall_fixed_of_map_eq_self _ _ hp.symm
    have ft := forall_fixed_of_map_eq_self _ _ ht.symm
    have hu := unfillDefaults_of_valid m
      (fun i hi' => (import_fill_unfill i (fi i hi') (vi i hi')).1) vl
      (fun p hp' => (project_fill_unfill p (fp p hp') (vp p hp')).1)
    rw [hu]
    refine ⟨rfl, ?_⟩
    rw [fillDefaults_of_valid]
    · simp only [List.map_map, Prod.mk.injEq, and_true]
      obtain ⟨imports, locals, projects, tools, snap⟩ := m
      simp only [Manifest.mk.injEq, and_true, true_and]
      refine ⟨?_, ?_, ?_⟩
      · conv_rhs => rw [← List.map_id imports]
        exact List.map_congr_left (fun i hi' => by
          simp [(import_fill_unfill i (fi i hi') (vi i hi')).2])
      · conv_rhs => rw [← List.map_id projects]
        exact List.map_congr_left (fun p hp' => by
          simp [(project_fill_unfill p (fp p hp') (vp p hp')).2])
      · conv_rhs => rw [← List.map_id tools]
        exact List.map_congr_left (fun t ht' => by
          simp [tool_fill_unfill t (ft t ht')])
    · intro i hi'
      simp only [List.mem_map] at hi'
      obtain ⟨j, hj, rfl⟩ := hi'
      rw [(import_fill_unfill j (fi j hj) (vi j hj)).2]
    · exact vl
    · intro p hp'
      simp only [List.mem_map] at hp'
      obtain ⟨q, hq, rfl⟩ := hp'
      rw [(project_fill_unfill q (fp q hq) (vp q hq)).2]
  · rw [h] at h'
    simp at h'

/-! ## Elements of paths -/

theorem splitSlash_ne_nil (s : List Char) : splitSlash s ≠ [] := by
  cases s with
  | nil => simp [splitSlash]
  | cons c s =>
    unfold splitSlash
    split
    · simp
    · split <;> simp

theorem splitSlash_append (a b : List Char) :
    splitSlash (a ++ '/' :: b) = splitSlash a ++ splitSlash b := by
  induction a with
  | nil => simp [splitSlash]
  | cons c a ih =>
    by_cases hc : c = '/'
    · simp [splitSlash, hc, ih]
    · simp only [List.cons_append, splitSlash, hc, if_false]
      change (match splitSlash (a ++ '/' :: b) with
        | [] => [[c]]
        | e :: es => (c :: e) :: es) = _
      rw [ih]
      cases hs : splitSlash a with
      | nil => exact absurd hs (splitSlash_ne_nil a)
      | cons e es => simp

theorem not_mem_of_mem_splitSlash (s e : List Char) (h : e ∈ splitSlash s) : '/' ∉ e := by
  induction s generalizing e with
  | nil =>
    simp only [splitSlash, List.mem_singleton] at h
    subst h
    simp
  | cons c s ih =>
    unfold splitSlash at h
    split at h
    · rcases List.mem_cons.mp h with rfl | h
      · simp
      · exact ih e h
    · rename_i hc
      split at h
      · simp only [List.mem_singleton] at h
        subst h
        simpa using fun h' => hc h'.symm
      · rename_i e' es hs
        rcases List.mem_cons.mp h with rfl | h
        · have := ih e' (by rw [hs]; exact List.mem_cons_self _ _)
          simp only [List.mem_cons, not_or]
          exact ⟨fun h' => hc h'.symm, this⟩
        · exact ih e (by rw [hs]; exact List.mem_cons_of_mem _ h)

theorem joinSlash_cons (e : List Char) (es : List (List Char)) (h : es ≠ []) :
    joinSlash (e :: es) = e ++ '/' :: joinSlash es := by
  cases es with
  | nil => exact absurd rfl h
  | cons e' es => rfl

theorem joinSlash_splitSlash (s : List Char) : joinSlash (splitSlash s) = s := by
  induction s with
  | nil => rfl
  | cons c s ih =>
    unfold splitSlash
    split
    · rename_i hc
      rw [joinSlash_cons _ _ (splitSlash_ne_nil s), ih, hc]
      rfl
    · split
      · rename_i hs
        exact absurd hs (splitSlash_ne_nil s)
      · rename_i e es hs
        rw [hs] at ih
        cases es with
        | nil =>
          simp only [joinSlash] at ih ⊢
          rw [ih]
        | cons e' es =>
          simp only [joinSlash] at ih ⊢
          rw [← ih]
          rfl

theorem splitSlash_of_not_mem (e : List Char) (h : '/' ∉ e) : splitSlash e = [e] := by
  induction e with
  | nil => rfl
  | cons c e ih =>
    simp only [List.mem_cons, not_or] at h
    have hc : c ≠ '/' := fun h' => h.1 h'.symm
    simp [splitSlash, hc, ih h.2]

theorem splitSlash_joinSlash (es : List (List Char)) (hne : es ≠ [])
    (h : ∀ e ∈ es, '/' ∉ e) : splitSlash (joinSlash es) = es := by
  induction es with
  | nil => exact absurd rfl hne
  | cons e es ih =>
    cases es with
    | nil => exact splitSlash_of_not_mem e (h e (List.mem_cons_self _ _))
    | cons e' es =>
      rw [joinSlash_cons _ _ (by simp), splitSlash_append,
        splitSlash_of_not_mem e (h e (List.mem_cons_self _ _)),
        ih (by simp) (fun x hx => h x (List.mem_cons_of_mem _ hx))]
      rfl

/-- An element that `filepath.Clean` keeps as it is. -/
theorem cleanStep_of_normal (rooted : Bool) (stack : List (List Char)) (e : List Char)
    (h : e ≠ [] ∧ e ≠ ['.'] ∧ e ≠ ['.', '.']) : cleanStep rooted stack e = e :: stack := by
  simp [cleanStep, h.1, h.2.1, h.2.2]

theorem foldl_cleanStep_of_normal (rooted : Bool) (stack es : List (List Char))
    (h : ∀ e ∈ es, e ≠ [] ∧ e ≠ ['.'] ∧ e ≠ ['.', '.']) :
    es.foldl (cleanStep rooted) stack = es.reverse ++ stack := by
  induction es generalizing stack with
  | nil => rfl
  | cons e es ih =>
    rw [List.foldl_cons, cleanStep_of_normal rooted stack e (h e (List.mem_cons_self _ _)),
      ih _ (fun x hx => h x (List.mem_cons_of_mem _ hx))]
    simp

/-- Under a root, `filepath.Clean` only ever keeps elements that are not
empty, not `.` and not `..`. -/
theorem foldl_cleanStep_rooted_normal (stack es : List (List Char))
    (hs : ∀ e ∈ stack, e ≠ [] ∧ e ≠ ['.'] ∧ e ≠ ['.', '.']) :
    ∀ e ∈ es.foldl (cleanStep true) stack, e ≠ [] ∧ e ≠ ['.'] ∧ e ≠ ['.', '.'] := by
  induction es generalizing stack with
  | nil => exact hs
  | cons x es ih =>
    rw [List.foldl_cons]
    apply ih
    unfold cleanStep
    split
    · exact hs
    · rename_i h1
      split
      · split
        · rename_i top rest
          split
          · exact hs
          · exact fun e he => hs e (List.mem_cons_of_mem _ he)
        · simp
      · rename_i h2
        intro e he
        rcases List.mem_cons.mp he with rfl | he
        · simp only [not_or] at h1
          exact ⟨h1.1, h1.2, h2⟩
        · exact hs e he

theorem foldl_cleanStep_no_slash (rooted : Bool) (stack es : List (List Char))
    (hs : ∀ e ∈ stack, '/' ∉ e) (hes : ∀ e ∈ es, '/' ∉ e) :
    ∀ e ∈ es.foldl (cleanStep rooted) stack, '/' ∉ e := by
  induction es generalizing stack with
  | nil => exact hs
  | cons x es ih =>
    rw [List.foldl_cons]
    apply ih _ _ (fun e he => hes e (List.mem_cons_of_mem _ he))
    have hx := hes x (List.mem_cons_self _ _)
    unfold cleanStep
    split
    · exact hs
    · split
      · split
        · rename_i top rest
          split
          · split
            · exact hs
            · intro e he
              rcases List.mem_cons.mp he with rfl | he
              · exact hx
              · exact hs e he
          · exact fun e he => hs e (List.mem_cons_of_mem _ he)
        · split
          · simp
          · intro e he
            simp only [List.mem_singleton] at he
            subst he
            exact hx
      · intro e he
        rcases List.mem_cons.mp he with rfl | he
        · exact hx
        · exact hs e he

theorem dropCommon_append (l r : List (List Char)) : dropCommon l (l ++ r) = ([], r) := by
  induction l with
  | nil => cases r <;> rfl
  | cons x l ih => simp [dropCommon, ih]

/-- The elements of a rooted clean path. -/
theorem pathElems_rooted (es : List (List Char))
    (h : ∀ e ∈ es, e ≠ [] ∧ '/' ∉ e) : pathElems ('/' :: joinSlash es) = [] :: es := by
  unfold pathElems
  simp only [splitSlash, if_true]
  cases es with
  | nil => simp [joinSlash, splitSlash]
  | cons e es =>
    rw [splitSlash_joinSlash (e :: es) (by simp) (fun x hx => (h x hx).2)]
    have hlast : ((e :: es).getLast?) ≠ some [] := by
      intro hl
      have hm := List.mem_of_getLast?_eq_some hl
      exact (h [] hm).1 rfl
    simp only [List.getLast?_cons_cons, hlast, if_false]

/-! ## Joining a path to a base and making it relative again -/

theorem string_ne_empty_of_head (s : String) (c : Char) (h : s.data.head? = some c) :
    s ≠ "" := by
  intro hs
  subst hs
  simp at h

/-- The clean form of a rooted path. -/
theorem filepathClean_rooted (s : String) (h : s.data.head? = some '/') :
    filepathClean s
      = String.mk ('/' :: joinSlash ((splitSlash s.data).foldl (cleanStep true) []).reverse) := by
  unfold filepathClean
  simp [string_ne_empty_of_head s '/' h, h]

theorem isLocalPath_normal (x : String) (hx : IsLocalPath x) :
    ∀ e ∈ splitSlash x.data, (e ≠ [] ∧ e ≠ ['.'] ∧ e ≠ ['.', '.']) ∧ '/' ∉ e :=
  fun e he => ⟨hx e he, not_mem_of_mem_splitSlash _ e he⟩

theorem isLocalPath_ne_empty (x : String) (hx : IsLocalPath x) : x ≠ "" := by
  intro h
  subst h
  exact (hx [] (by simp [splitSlash])).1 rfl

theorem isLocalPath_not_abs (x : String) (hx : IsLocalPath x) : filepathIsAbs x = false := by
  unfold filepathIsAbs
  rcases x with ⟨data⟩
  cases data with
  | nil => simp
  | cons c s =>
    by_cases hc : c = '/'
    · subst hc
      exact absurd rfl (hx [] (by simp [splitSlash])).1
    · simp [hc]

/-- The elements `filepath.Clean` keeps of an absolute base path. -/
theorem base_stack_normal (R : String) :
    ∀ e ∈ (splitSlash R.data).foldl (cleanStep true) [],
      (e ≠ [] ∧ e ≠ ['.'] ∧ e ≠ ['.', '.']) ∧ '/' ∉ e :=
  fun e he =>
    ⟨foldl_cleanStep_rooted_normal [] _ (by simp) e he,
      foldl_cleanStep_no_slash true [] _ (by simp)
        (fun x hx => not_mem_of_mem_splitSlash _ x hx) e he⟩

/-- Joining a local path to an absolute base appends its elements to the clean
base. -/
theorem filepathJoin_local (R x : String) (hR : filepathIsAbs R = true) (hx : IsLocalPath x) :
    filepathJoin R x
      = String.mk ('/' :: joinSlash
          (((splitSlash R.data).foldl (cleanStep true) []).reverse ++ splitSlash x.data)) := by
  have hR' : R.data.head? = some '/' := by simpa [filepathIsAbs] using hR
  have hne : R ≠ "" := string_ne_empty_of_head R '/' hR'
  unfold filepathJoin
  rw [if_pos hne, filepathClean_rooted]
  · simp only [String.data_append]
    rw [List.append_assoc, List.singleton_append, splitSlash_append, List.foldl_append,
      foldl_cleanStep_of_normal true _ _ hx]
    simp
  · simp only [String.data_append]
    rcases R with ⟨data⟩
    cases data with
    | nil => simp at hR'
    | cons c s => simpa using hR'

/-- A rooted path made of normal elements is clean. -/
theorem filepathClean_of_normal (es : List (List Char))
    (h : ∀ e ∈ es, (e ≠ [] ∧ e ≠ ['.'] ∧ e ≠ ['.', '.']) ∧ '/' ∉ e) :
    filepathClean (String.mk ('/' :: joinSlash es)) = String.mk ('/' :: joinSlash es) := by
  rw [filepathClean_rooted (String.mk ('/' :: joinSlash es)) rfl]
  congr 2
  cases es with
  | nil => simp [splitSlash, joinSlash, cleanStep]
  | cons e es =>
    have hs : splitSlash ('/' :: joinSlash (e :: es)) = [] :: (e :: es) := by
      simp only [splitSlash, if_true]
      rw [splitSlash_joinSlash (e :: es) (by simp) (fun x hx => (h x hx).2)]
    simp only [hs, List.foldl_cons]
    have h0 : cleanStep true [] [] = [] := by simp [cleanStep]
    rw [h0, ← List.foldl_cons, foldl_cleanStep_of_normal true [] (e :: es)
      (fun x hx => (h x hx).1)]
    simp

/-- The heart of the round trip: a local path joined to an absolute base is
absolute, and `filepath.Rel` gives the local path back. -/
theorem filepathRel_join_local (R x : String) (hR : filepathIsAbs R = true)
    (hx : IsLocalPath x) :
    filepathIsAbs (filepathJoin R x) = true
      ∧ filepathRel R (filepathJoin R x) = .ok x := by
  have hR' : R.data.head? = some '/' := by simpa [filepathIsAbs] using hR
  have hS := base_stack_normal R
  have hX := isLocalPath_normal x hx
  rw [filepathJoin_local R x hR hx]
  generalize hSdef : (splitSlash R.data).foldl (cleanStep true) [] = S at hS
  have hSr : ∀ e ∈ S.reverse, (e ≠ [] ∧ e ≠ ['.'] ∧ e ≠ ['.', '.']) ∧ '/' ∉ e :=
    fun e he => hS e (List.mem_reverse.mp he)
  have hall : ∀ e ∈ S.reverse ++ splitSlash x.data,
      (e ≠ [] ∧ e ≠ ['.'] ∧ e ≠ ['.', '.']) ∧ '/' ∉ e := by
    intro e he
    rcases List.mem_append.mp he with he | he
    · exact hSr e he
    · exact hX e he
  refine ⟨rfl, ?_⟩
  unfold filepathRel
  rw [filepathClean_rooted R hR', hSdef, filepathClean_of_normal _ hall]
  have e1 : pathElems (String.mk ('/' :: joinSlash S.reverse)).data = [] :: S.reverse :=
    pathElems_rooted _ (fun e he => ⟨(hSr e he).1.1, (hSr e he).2⟩)
  have e2 : pathElems (String.mk ('/' :: joinSlash (S.reverse ++ splitSlash x.data))).data
      = [] :: (S.reverse ++ splitSlash x.data) :=
    pathElems_rooted _ (fun e he => ⟨(hall e he).1.1, (hall e he).2⟩)
  have hne : String.mk ('/' :: joinSlash (S.reverse ++ splitSlash x.data))
      ≠ String.mk ('/' :: joinSlash S.reverse) := by
    intro heq
    have := congrArg (fun s : String => pathElems s.data) heq
    simp only [e1, e2, List.cons.injEq, true_and, List.append_right_eq_self] at this
    exact splitSlash_ne_nil _ this
  have hdot : String.mk ('/' :: joinSlash S.reverse) ≠ "." := by
    intro heq
    have := congrArg String.data heq
    simp at this
  simp only [hne, hdot, if_false]
  have habs : ∀ es : List (List Char), filepathIsAbs (String.mk ('/' :: joinSlash es)) = true :=
    fun _ => rfl
  simp only [habs, ne_eq, not_true_eq_false, if_false, e1, e2]
  have hd : dropCommon ([] :: S.reverse) ([] :: (S.reverse ++ splitSlash x.data))
      = ([], splitSlash x.data) := dropCommon_append ([] :: S.reverse) _
  rw [hd]
  simp only [joinSlash_splitSlash]

/-- The facts about one path field that the round trip uses. -/
theorem field_round_trip (R x : String) (hR : filepathIsAbs R = true)
    (hx : x = "" ∨ IsLocalPath x) :
    (x = "" ∧ filepathIsAbs x = false)
      ∨ (x ≠ "" ∧ filepathIsAbs x = false ∧ filepathIsAbs (filepathJoin R x) = true
          ∧ filepathRel R (filepathJoin R x) = .ok x) := by
  rcases hx with rfl | hx
  · exact Or.inl ⟨rfl, rfl⟩
  · exact Or.inr ⟨isLocalPath_ne_empty x hx, isLocalPath_not_abs x hx,
      filepathRel_join_local R x hR hx⟩

/-! ## Properties of `absolutizePaths` and `relativizePaths` -/

/-- C20, as stated, fails: a path written with a final separator comes back
without it, and a path that is absolute already comes back relative to the
base. -/
theorem relativize_absolutize_changes_path :
    filepathIsAbs "/r" = true
      ∧ sampleTrailing.Path = "src/foo/"
      ∧ (sampleTrailing.absolutizePaths "/r").Path = "/r/src/foo"
      ∧ ((sampleTrailing.absolutizePaths "/r").relativizePaths "/r").2 = none
      ∧ ((sampleTrailing.absolutizePaths "/r").relativizePaths "/r").1.Path = "src/foo"
      ∧ ((sampleTrailing.absolutizePaths "/r").relativizePaths "/r").1 ≠ sampleTrailing
      ∧ sampleAbsolute.Path = "/opt/foo"
      ∧ (sampleAbsolute.absolutizePaths "/r").Path = "/opt/foo"
      ∧ ((sampleAbsolute.absolutizePaths "/r").relativizePaths "/r").1.Path = "../opt/foo"
      ∧ ((sampleAbsolute.absolutizePaths "/r").relativizePaths "/r").1 ≠ sampleAbsolute := by
  decide

/-- A project whose `Path`, `GitHooks` and `RunHook` are each empty or a local
path (one or more elements other than `.` and `..`, separated by single
separators) comes back from every absolute base. -/
theorem relativize_absolutize_restores (p : Project) (R : String)
    (hR : filepathIsAbs R = true)
    (hPath : p.Path = "" ∨ IsLocalPath p.Path)
    (hHooks : p.GitHooks = "" ∨ IsLocalPath p.GitHooks)
    (hRun : p.RunHook = "" ∨ IsLocalPath p.RunHook) :
    (p.absolutizePaths R).relativizePaths R = (p, none) := by
  obtain ⟨name, path, remote, branch, rev, gerrit, hooks, run⟩ := p
  simp only at hPath hHooks hRun
  rcases field_round_trip R path hR hPath with ⟨rfl, a1⟩ | ⟨a1, a2, a3, a4⟩ <;>
  rcases field_round_trip R hooks hR hHooks with ⟨rfl, b1⟩ | ⟨b1, b2, b3, b4⟩ <;>
  rcases field_round_trip R run hR hRun with ⟨rfl, c1⟩ | ⟨c1, c2, c3, c4⟩ <;>
  simp [Project.absolutizePaths, Project.relativizePaths, *]

/-! ## Assignments to a project map -/

theorem projects_get_set (ps : Projects) (key k : ProjectKey) (p : Project) :
    (ps.set key p).get k = if key = k then some p else ps.get k := by
  induction ps with
  | nil => simp [Projects.set, Projects.get]
  | cons e ps ih =>
    obtain ⟨k', p'⟩ := e
    unfold Projects.set
    by_cases h : k' = key
    · subst h
      by_cases h2 : k' = k <;> simp [Projects.get, h2]
    · by_cases h2 : k' = k
      · subst h2
        simp [Projects.get, h, Ne.symm h]
      · simp [Projects.get, h, h2, ih]

/-- Assigning to a key the project it is bound to leaves the map as it is. -/
theorem projects_set_eq_self (ps : Projects) (key : ProjectKey) (p : Project)
    (h : ps.get key = some p) : ps.set key p = ps := by
  induction ps with
  | nil => simp [Projects.get] at h
  | cons e ps ih =>
    obtain ⟨k', p'⟩ := e
    unfold Projects.get at h
    unfold Projects.set
    by_cases hk : k' = key
    · simp only [hk, if_true, Option.some.injEq] at h
      simp [hk, h]
    · simp only [hk, if_false] at h
      simp [hk, ih h]

/-! ## What a load keeps -/

theorem keeps_of_loader_eq {W : Type} (s : loader × W) (r : (loader × W) × Option LoadError)
    (h : r.1.1 = s.1) : Keeps s r := by
  unfold Keeps
  rw [h]
  exact ⟨List.prefix_refl _, fun _ => rfl, fun _ _ hd => hd⟩

theorem keeps_trans {W : Type} (s s' : loader × W) (r : (loader × W) × Option LoadError)
    (h1 : Keeps s (s', none)) (h2 : Keeps s' r) : Keeps s r := by
  obtain ⟨a1, a2, a3⟩ := h1
  obtain ⟨b1, b2, b3⟩ := h2
  refine ⟨a1.trans b1, fun hr => ?_, fun k d hd => b3 k d (a3 k d hd)⟩
  rw [b2 hr]
  exact a2 rfl

theorem keeps_error {W : Type} (s : loader × W) (s' : loader × W) (e e' : LoadError)
    (h : Keeps s (s', some e)) : Keeps s (s', some e') :=
  ⟨h.1, fun hr => by simp at hr, h.2.2⟩

theorem keeps_weaken {W : Type} (s s' : loader × W) (err : Option LoadError) (e : LoadError)
    (h : Keeps s (s', err)) : Keeps s (s', some e) :=
  ⟨h.1, fun hr => by simp at hr, h.2.2⟩

theorem keeps_onWorld {W : Type} (f : W → W × Option String) (s : loader × W) :
    Keeps s (onWorld f s) :=
  keeps_of_loader_eq s _ rfl

theorem keeps_deferError {W : Type} (body fn : loader × W → (loader × W) × Option LoadError)
    (hb : ∀ s, Keeps s (body s)) (hf : ∀ s, Keeps s (fn s)) (s : loader × W) :
    Keeps s (deferError body fn s) := by
  unfold deferError
  have h1 := hb s
  have h2 := hf (body s).1
  rcases hbody : body s with ⟨s1, err1⟩
  rw [hbody] at h1 h2
  simp only at h2 ⊢
  rcases hfn : fn s1 with ⟨s2, err2⟩
  rw [hfn] at h2
  cases err1 with
  | some e =>
    simp only
    refine ⟨h1.1.trans h2.1, fun hr => by simp at hr, fun k d hd => h2.2.2 k d (h1.2.2 k d hd)⟩
  | none =>
    simp only
    exact keeps_trans s s1 _ h1 h2

theorem keeps_restoreBranch {W : Type} (sys : System W) (p : Project) (branch : String)
    (stashed : Bool) (s : loader × W) : Keeps s (restoreBranch sys p branch stashed s) := by
  apply keeps_of_loader_eq
  unfold restoreBranch
  split
  · rename_i h
    rw [← (congrArg (fun r => r.1.1) h)]
    rfl
  · rename_i s1 h
    have e1 : s1.1 = s.1 := by rw [← (congrArg (fun r => r.1.1) h)]; rfl
    split
    · rename_i h'
      rw [← (congrArg (fun r => r.1.1) h')]
      exact e1
    · rename_i s2 h'
      have e2 : s2.1 = s.1 := by rw [← (congrArg (fun r => r.1.1) h')]; exact e1
      split
      · exact e2
      · exact e2

theorem keeps_fetchProject {W : Type} (sys : System W) (project : Project) (s : loader × W) :
    Keeps s (fetchProject sys project s) := by
  apply keeps_of_loader_eq
  unfold fetchProject
  split
  · rfl
  · split
    · rename_i h
      rw [← (congrArg (fun r => r.1.1) h)]
      rfl
    · rename_i s1 h
      have e1 : s1.1 = s.1 := by rw [← (congrArg (fun r => r.1.1) h)]; rfl
      exact e1

theorem keeps_resetProjectCurrentBranch {W : Type} (sys : System W) (project : Project)
    (s : loader × W) : Keeps s (resetProjectCurrentBranch sys project s) := by
  apply keeps_of_loader_eq
  unfold resetProjectCurrentBranch
  split
  · rfl
  · split <;> rfl

theorem keeps_applyToProjects {W : Type} (sys : System W)
    (fn : loader × W → (loader × W) × Option LoadError) (hfn : ∀ s, Keeps s (fn s))
    (ps : List Project) (s : loader × W) : Keeps s (applyToProjects sys fn ps s) := by
  induction ps generalizing s with
  | nil => exact hfn s
  | cons p rest ih =>
    unfold applyToProjects
    rcases h1 : onWorld (fun w => sys.chdir w p.Path) s with ⟨s1, _ | e⟩
    · have e1 : s1.1 = s.1 := by rw [← (congrArg (fun r => r.1.1) h1)]; rfl
      simp only
      rcases h2 : sys.gitCurrentBranchName s1.2 with ⟨w1, msg | branch⟩
      · exact keeps_of_loader_eq s _ e1
      · simp only
        rcases h3 : sys.gitStash w1 with ⟨w2, msg | stashed⟩
        · exact keeps_of_loader_eq s _ e1
        · simp only
          rcases h4 : onWorld (fun w => sys.gitCheckoutBranch w "master") (s1.1, w2)
            with ⟨s3, _ | e⟩
          · have e3 : s3.1 = s.1 := by
              rw [← (congrArg (fun r => r.1.1) h4)]; exact e1
            have hk : Keeps s (s3, none) := keeps_of_loader_eq s _ e3
            exact keeps_trans s s3 _ hk
              (keeps_deferError _ _ ih (keeps_restoreBranch sys p branch stashed) s3)
          · exact keeps_of_loader_eq s _ (by
              rw [← (congrArg (fun r => r.1.1) h4)]; exact e1)
    · exact keeps_of_loader_eq s _ (by rw [← (congrArg (fun r => r.1.1) h1)]; rfl)

theorem keeps_applyToLocalMaster {W : Type} (sys : System W) (projects : Projects)
    (fn : loader × W → (loader × W) × Option LoadError) (hfn : ∀ s, Keeps s (fn s))
    (s : loader × W) : Keeps s (ApplyToLocalMaster sys projects fn s) := by
  unfold ApplyToLocalMaster
  split
  · exact keeps_of_loader_eq s _ rfl
  · rename_i w cwd _
    have hk : Keeps s ((s.1, w), none) := keeps_of_loader_eq s _ rfl
    exact keeps_trans s (s.1, w) _ hk
      (keeps_deferError _ _ (keeps_applyToProjects sys fn hfn _)
        (fun s' => keeps_onWorld _ s') (s.1, w))

theorem keeps_resetAndLoad {W : Type} (sys : System W) (Load : LoadFn W)
    (hLoad : ∀ root file cycleKey s, Keeps s (Load root file cycleKey s))
    (root file cycleKey : String) (project : Project) (s : loader × W) :
    Keeps s (loader.resetAndLoad sys Load root file cycleKey project s) := by
  unfold loader.resetAndLoad
  have hk : Keeps s ((s.1, sys.pushd s.2 project.Path), none) := keeps_of_loader_eq s _ rfl
  refine keeps_trans s _ _ hk (keeps_deferError _ _ ?_ (fun s' => keeps_onWorld _ s') _)
  intro s0
  apply keeps_applyToLocalMaster
  intro s1
  have hfetch : Keeps s1 (if s1.1.update then fetchProject sys project s1 else (s1, none)) := by
    split
    · exact keeps_fetchProject sys project s1
    · exact keeps_of_loader_eq s1 _ rfl
  rcases h1 : (if s1.1.update then fetchProject sys project s1 else (s1, none))
    with ⟨s2, _ | e⟩
  · rw [h1] at hfetch
    simp only
    have hreset := keeps_resetProjectCurrentBranch sys project s2
    rcases h2 : resetProjectCurrentBranch sys project s2 with ⟨s3, _ | e⟩
    · rw [h2] at hreset
      simp only
      exact keeps_trans s1 s2 _ hfetch (keeps_trans s2 s3 _ hreset (hLoad _ _ _ s3))
    · rw [h2] at hreset
      exact keeps_trans s1 s2 _ hfetch hreset
  · rw [h1] at hfetch
    exact hfetch

/-- Resolving an import touches neither the cycle stack nor the project map. -/
theorem resolveImport_core {W : Type} (sys : System W) (remote : Import) (key : ProjectKey)
    (s : loader × W) :
    (loader.resolveImport sys remote key s).1.1.cycleStack = s.1.cycleStack
      ∧ (loader.resolveImport sys remote key s).1.1.Projects = s.1.Projects := by
  have hens : (loader.ensureTmpDir sys s).1.1.cycleStack = s.1.cycleStack
      ∧ (loader.ensureTmpDir sys s).1.1.Projects = s.1.Projects := by
    unfold loader.ensureTmpDir
    split
    · split <;> exact ⟨rfl, rfl⟩
    · exact ⟨rfl, rfl⟩
  have hclone : (loader.cloneImport sys remote key s).1.1.cycleStack = s.1.cycleStack
      ∧ (loader.cloneImport sys remote key s).1.1.Projects = s.1.Projects := by
    unfold loader.cloneImport
    rcases h0 : loader.ensureTmpDir sys s with ⟨s0, _ | e⟩
    · rw [h0] at hens
      simp only at hens ⊢
      split
      · exact hens
      · rename_i p _
        rcases h1 : onWorld (fun w => sys.mkdirAll w
            (filepathJoin s0.1.TmpDir remote.projectKeyFileName)) s0 with ⟨s1, _ | e⟩
        · have e1 : s1.1 = s0.1 := by rw [← (congrArg (fun r => r.1.1) h1)]; rfl
          simp only
          rcases h2 : onWorld (fun w => sys.gitClone w p.Remote
              (filepathJoin s0.1.TmpDir remote.projectKeyFileName)) s1 with ⟨s2, _ | e⟩
          · have e2 : s2.1 = s0.1 := by
              rw [← (congrArg (fun r => r.1.1) h2)]; exact e1
            simp only
            split
            · simp only [e2]
              exact hens
            · simp only [e2]
              exact hens
          · have e2 : s2.1 = s0.1 := by
              rw [← (congrArg (fun r => r.1.1) h2)]; exact e1
            simp only [e2]
            exact hens
        · have e1 : s1.1 = s0.1 := by rw [← (congrArg (fun r => r.1.1) h1)]; rfl
          simp only [e1]
          exact hens
    · rw [h0] at hens
      exact hens
  unfold loader.resolveImport
  split
  · exact ⟨rfl, rfl⟩
  · split
    · exact ⟨rfl, rfl⟩
    · exact hclone

theorem keeps_processImport {W : Type} (sys : System W) (Load : LoadFn W)
    (hLoad : ∀ root file cycleKey s, Keeps s (Load root file cycleKey s))
    (root : String) (remote : Import) (s : loader × W) :
    Keeps s (loader.processImport sys Load root remote s) := by
  unfold loader.processImport
  simp only
  have hcore := resolveImport_core sys
    { remote with Name := filepathJoin (filepathJoin root remote.Root) remote.Name }
    (Import.ProjectKey
      { remote with Name := filepathJoin (filepathJoin root remote.Root) remote.Name }) s
  rcases hr : loader.resolveImport sys
    { remote with Name := filepathJoin (filepathJoin root remote.Root) remote.Name }
    (Import.ProjectKey
      { remote with Name := filepathJoin (filepathJoin root remote.Root) remote.Name }) s
    with ⟨s1, e | p⟩
  · rw [hr] at hcore
    simp only at hcore ⊢
    refine ⟨?_, fun h => by simp at h, fun k d hd => ?_⟩
    · rw [hcore.1]
    · rw [hcore.2]
      exact hd
  · rw [hr] at hcore
    simp only at hcore ⊢
    have hk := keeps_resetAndLoad sys Load hLoad (filepathJoin root remote.Root)
      (filepathJoin p.Path remote.Manifest)
      (Import.cycleKey
        { remote with Name := filepathJoin (filepathJoin root remote.Root) remote.Name })
      { p with Revision := "HEAD", RemoteBranch := remote.RemoteBranch } s1
    unfold Keeps at hk ⊢
    rw [hcore.1, hcore.2] at hk
    exact hk

theorem keeps_processImports {W : Type} (sys : System W) (Load : LoadFn W)
    (hLoad : ∀ root file cycleKey s, Keeps s (Load root file cycleKey s))
    (root : String) (imports : List Import) (s : loader × W) :
    Keeps s (loader.processImports sys Load root imports s) := by
  induction imports generalizing s with
  | nil => exact keeps_of_loader_eq s _ rfl
  | cons remote rest ih =>
    unfold loader.processImports
    have h := keeps_processImport sys Load hLoad root remote s
    rcases h1 : loader.processImport sys Load root remote s with ⟨s1, _ | e⟩
    · rw [h1] at h
      exact keeps_trans s s1 _ h (ih s1)
    · rw [h1] at h
      exact h

theorem keeps_processLocalImports {W : Type} (Load : LoadFn W)
    (hLoad : ∀ root file cycleKey s, Keeps s (Load root file cycleKey s))
    (root file : String) (locals : List LocalImport) (s : loader × W) :
    Keeps s (loader.processLocalImports Load root file locals s) := by
  induction locals generalizing s with
  | nil => exact keeps_of_loader_eq s _ rfl
  | cons loc rest ih =>
    unfold loader.processLocalImports
    simp only
    have h := hLoad root (filepathJoin (filepathDir file) loc.File) "" s
    rcases h1 : Load root (filepathJoin (filepathDir file) loc.File) "" s with ⟨s1, _ | e⟩
    · rw [h1] at h
      exact keeps_trans s s1 _ h (ih s1)
    · rw [h1] at h
      exact h

/-- One project collected: the cycle stack is untouched and every binding of
the project map stays. -/
theorem collectProject_keeps (jiriRoot root file : String) (project : Project) (ld : loader) :
    (loader.collectProject jiriRoot root file project ld).1.cycleStack = ld.cycleStack
      ∧ ∀ k d, ld.Projects.get k = some d →
          (loader.collectProject jiriRoot root file project ld).1.Projects.get k = some d := by
  unfold loader.collectProject
  simp only
  cases hg : ld.Projects.get (project.underRoot jiriRoot root).Key with
  | none =>
    refine ⟨rfl, fun k d hd => ?_⟩
    simp only [projects_get_set]
    split
    · rename_i hk
      rw [hk] at hg
      rw [hg] at hd
      simp at hd
    · exact hd
  | some dup =>
    simp only
    split
    · exact ⟨rfl, fun k d hd => hd⟩
    · rename_i hdup
      have hdup' : dup = project.underRoot jiriRoot root := by simpa using hdup
      refine ⟨rfl, fun k d hd => ?_⟩
      simp only [projects_get_set]
      split
      · rename_i hk
        rw [hk] at hg
        rw [hg] at hd
        rw [← hd, hdup']
      · exact hd

theorem collectProjects_keeps (jiriRoot root file : String) (projects : List Project)
    (ld : loader) :
    (loader.collectProjects jiriRoot root file projects ld).1.cycleStack = ld.cycleStack
      ∧ ∀ k d, ld.Projects.get k = some d →
          (loader.collectProjects jiriRoot root file projects ld).1.Projects.get k = some d := by
  induction projects generalizing ld with
  | nil => exact ⟨rfl, fun k d hd => hd⟩
  | cons project rest ih =>
    unfold loader.collectProjects
    obtain ⟨h1, h2⟩ := collectProject_keeps jiriRoot root file project ld
    rcases hc : loader.collectProject jiriRoot root file project ld with ⟨ld1, _ | e⟩
    · rw [hc] at h1 h2
      simp only at h1 h2 ⊢
      obtain ⟨i1, i2⟩ := ih ld1
      exact ⟨i1.trans h1, fun k d hd => i2 k d (h2 k d hd)⟩
    · rw [hc] at h1 h2
      exact ⟨h1, h2⟩

theorem collectTools_keeps (jiriRoot file : String) (tools : List Tool) (ld : loader) :
    (loader.collectTools jiriRoot file tools ld).1.cycleStack = ld.cycleStack
      ∧ (loader.collectTools jiriRoot file tools ld).1.Projects = ld.Projects := by
  induction tools generalizing ld with
  | nil => exact ⟨rfl, rfl⟩
  | cons tool rest ih =>
    unfold loader.collectTools
    have h1 : (loader.collectTool jiriRoot file tool ld).1.cycleStack = ld.cycleStack
        ∧ (loader.collectTool jiriRoot file tool ld).1.Projects = ld.Projects := by
      unfold loader.collectTool
      simp only
      split
      · split <;> exact ⟨rfl, rfl⟩
      · exact ⟨rfl, rfl⟩
    rcases hc : loader.collectTool jiriRoot file tool ld with ⟨ld1, _ | e⟩
    · rw [hc] at h1
      simp only at h1 ⊢
      obtain ⟨i1, i2⟩ := ih ld1
      exact ⟨i1.trans h1.1, i2.trans h1.2⟩
    · rw [hc] at h1
      exact h1

theorem keeps_load {W : Type} (sys : System W) (Load : LoadFn W)
    (hLoad : ∀ root file cycleKey s, Keeps s (Load root file cycleKey s))
    (root file : String) (s : loader × W) : Keeps s (loader.load sys Load root file s) := by
  unfold loader.load
  rcases h0 : ManifestFromFile sys file s.2 with ⟨w, e | m⟩
  · exact keeps_of_loader_eq s _ rfl
  · simp only
    have hk0 : Keeps s ((s.1, w), none) := keeps_of_loader_eq s _ rfl
    refine keeps_trans s _ _ hk0 ?_
    have h1 := keeps_processImports sys Load hLoad root m.Imports (s.1, w)
    rcases hi : loader.processImports sys Load root m.Imports (s.1, w) with ⟨s1, _ | e⟩
    · rw [hi] at h1
      simp only
      refine keeps_trans _ s1 _ h1 ?_
      have h2 := keeps_processLocalImports Load hLoad root file m.LocalImports s1
      rcases hl : loader.processLocalImports Load root file m.LocalImports s1
        with ⟨s2, _ | e⟩
      · rw [hl] at h2
        simp only
        refine keeps_trans _ s2 _ h2 ?_
        obtain ⟨c1, c2⟩ := collectProjects_keeps sys.Root root file m.Projects s2.1
        rcases hp : loader.collectProjects sys.Root root file m.Projects s2.1
          with ⟨ld3, _ | e⟩
        · rw [hp] at c1 c2
          simp only at c1 c2 ⊢
          obtain ⟨t1, t2⟩ := collectTools_keeps sys.Root file m.Tools ld3
          rcases ht : loader.collectTools sys.Root file m.Tools ld3 with ⟨ld4, _ | e⟩
          · rw [ht] at t1 t2
            simp only at t1 t2 ⊢
            refine ⟨?_, fun _ => ?_, fun k d hd => ?_⟩
            · simp only [t1, c1]
              exact List.prefix_refl _
            · simp only [t1, c1]
            · simp only [t2]
              exact c2 k d hd
          · rw [ht] at t1 t2
            simp only at t1 t2 ⊢
            refine ⟨?_, fun hr => by simp at hr, fun k d hd => ?_⟩
            · simp only [t1, c1]
              exact List.prefix_refl _
            · simp only [t2]
              exact c2 k d hd
        · rw [hp] at c1 c2
          simp only at c1 c2 ⊢
          refine ⟨?_, fun hr => by simp at hr, fun k d hd => c2 k d hd⟩
          simp only [c1]
          exact List.prefix_refl _
      · rw [hl] at h2
        exact h2
    · rw [hi] at h1
      exact h1

theorem keeps_loadNoCycles {W : Type} (sys : System W) (Load : LoadFn W)
    (hLoad : ∀ root file cycleKey s, Keeps s (Load root file cycleKey s))
    (root file cycleKey : String) (s : loader × W) :
    Keeps s (loader.loadNoCycles sys Load root file cycleKey s) := by
  unfold loader.loadNoCycles
  simp only
  split
  · exact keeps_of_loader_eq s _ rfl
  · have h := keeps_load sys Load hLoad root file
      ({ s.1 with cycleStack := s.1.cycleStack ++ [{ file := file, key := cycleKey }] }, s.2)
    rcases hl : loader.load sys Load root file
      ({ s.1 with cycleStack := s.1.cycleStack ++ [{ file := file, key := cycleKey }] }, s.2)
      with ⟨s1, _ | e⟩
    · rw [hl] at h
      obtain ⟨_, h2, h3⟩ := h
      have hs := h2 rfl
      simp only at hs h3 ⊢
      refine ⟨?_, fun _ => ?_, fun k d hd => h3 k d hd⟩
      · simp [hs]
      · simp [hs]
    · rw [hl] at h
      obtain ⟨h1, _, h3⟩ := h
      simp only at h1 h3 ⊢
      exact ⟨(List.prefix_append _ _).trans h1, fun hr => by simp at hr, h3⟩

/-- Every call of `Load`, with whatever fuel, keeps the cycle stack and the
bindings of the project map. -/
theorem keeps_Load {W : Type} (sys : System W) (fuel : Nat)
    (root file cycleKey : String) (s : loader × W) :
    Keeps s (loader.Load sys fuel root file cycleKey s) := by
  induction fuel generalizing root file cycleKey s with
  | zero => exact keeps_of_loader_eq s _ rfl
  | succ fuel ih => exact keeps_loadNoCycles sys _ ih root file cycleKey s

/-! ## Properties of the loader -/

theorem findCycle_ne_none_iff (stack : List cycleInfo) (info : cycleInfo)
    (l : List cycleInfo) :
    findCycle stack info l ≠ none ↔ ∃ c ∈ l, c.Blocks info.file info.key := by
  induction l with
  | nil => simp [findCycle]
  | cons c l ih =>
    unfold findCycle
    by_cases h1 : info.file = c.file
    · rw [if_pos h1]
      exact ⟨fun _ => ⟨c, List.mem_cons_self _ _, Or.inl h1.symm⟩, fun _ => by simp⟩
    · rw [if_neg h1]
      by_cases h2 : info.key = c.key ∧ info.key ≠ ""
      · rw [if_pos h2]
        exact ⟨fun _ => ⟨c, List.mem_cons_self _ _, Or.inr ⟨h2.1.symm, h2.2⟩⟩,
          fun _ => by simp⟩
      · rw [if_neg h2, ih]
        constructor
        · rintro ⟨c', hc', hb⟩
          exact ⟨c', List.mem_cons_of_mem _ hc', hb⟩
        · rintro ⟨c', hc', hb⟩
          rcases List.mem_cons.mp hc' with rfl | hc'
          · rcases hb with hb | hb
            · exact absurd hb.symm h1
            · exact absurd ⟨hb.1.symm, hb.2⟩ h2
          · exact ⟨c', hc', hb⟩

theorem findCycle_isCycle (stack : List cycleInfo) (info : cycleInfo) (l : List cycleInfo)
    (e : LoadError) (h : findCycle stack info l = some e) : e.IsCycle (stack ++ [info]) := by
  induction l with
  | nil => simp [findCycle] at h
  | cons c l ih =>
    unfold findCycle at h
    split at h
    · simp only [Option.some.injEq] at h
      exact Or.inl h.symm
    · split at h
      · simp only [Option.some.injEq] at h
        exact Or.inr h.symm
      · exact ih h

/-- C16: `loadNoCycles` fails with an import-cycle error before loading
anything exactly when some entry of the cycle stack has the same file, or has
the same cycle key and that key is non-empty: in that case it returns the error
with the loader and the world as they were; when no entry matches, its result
is that of loading the file with (file, cycleKey) pushed on top of the stack,
popped again on success.  An empty cycle key never matches by key. -/
theorem loadNoCycles_fails_iff_blocked {W : Type} (sys : System W) (fuel : Nat)
    (root file cycleKey : String) (s : loader × W) :
    ((∃ c ∈ s.1.cycleStack, c.Blocks file cycleKey) →
        ∃ e, e.IsCycle (s.1.cycleStack ++ [{ file := file, key := cycleKey }])
          ∧ loader.Load sys (fuel + 1) root file cycleKey s = (s, some e))
      ∧ ((¬ ∃ c ∈ s.1.cycleStack, c.Blocks file cycleKey) →
        loader.Load sys (fuel + 1) root file cycleKey s
          = (match loader.load sys (loader.Load sys fuel) root file
              ({ s.1 with cycleStack := s.1.cycleStack ++ [{ file := file, key := cycleKey }] },
                s.2) with
            | (s', some e) => (s', some e)
            | (s', none) =>
              (({ s'.1 with cycleStack := s'.1.cycleStack.dropLast }, s'.2), none)))
      ∧ ((∃ c ∈ s.1.cycleStack, c.Blocks file "") ↔ ∃ c ∈ s.1.cycleStack, c.file = file) := by
  have hiff := findCycle_ne_none_iff s.1.cycleStack { file := file, key := cycleKey }
    s.1.cycleStack
  refine ⟨fun hb => ?_, fun hnb => ?_, ?_⟩
  · cases hf : findCycle s.1.cycleStack { file := file, key := cycleKey } s.1.cycleStack with
    | none => exact absurd hf (hiff.mpr hb)
    | some e =>
      refine ⟨e, findCycle_isCycle _ _ _ e hf, ?_⟩
      show loader.loadNoCycles sys (loader.Load sys fuel) root file cycleKey s = _
      unfold loader.loadNoCycles
      simp only [hf]
  · have hf : findCycle s.1.cycleStack { file := file, key := cycleKey } s.1.cycleStack
        = none := by
      by_contra hne
      exact hnb (hiff.mp hne)
    show loader.loadNoCycles sys (loader.Load sys fuel) root file cycleKey s = _
    unfold loader.loadNoCycles
    simp only [hf]
  · simp [cycleInfo.Blocks]

/-- Witness of C16: with `/r/top` on the stack, loading `/r/top` again fails
with a cycle error and leaves the loader as it was. -/
theorem loadNoCycles_fails_iff_blocked_witness :
    ∃ e, e.IsCycle (sampleLoader.cycleStack ++ [{ file := "/r/top", key := "" }])
      ∧ loader.Load sampleSystem 1 "" "/r/top" "" (sampleLoader, ()) = ((sampleLoader, ()), some e) :=
  (loadNoCycles_fails_iff_blocked sampleSystem 0 "" "/r/top" "" (sampleLoader, ())).1
    ⟨{ file := "/r/top", key := "" }, by decide, Or.inl rfl⟩

/-- C17 at a file that does not exist: the inner load returns an error, and
`loadNoCycles` returns it with the pushed entry still on the cycle stack, so
the cycle stack after the call is not the cycle stack before the call. -/
theorem loadNoCycles_keeps_entry_on_error :
    sampleLoader.cycleStack = [{ file := "/r/top", key := "" }]
      ∧ (loader.Load sampleSystem 1 "" "/r/missing" "" (sampleLoader, ())).2
          = some (.external "open /r/missing: no such file or directory")
      ∧ (loader.Load sampleSystem 1 "" "/r/missing" "" (sampleLoader, ())).1.1.cycleStack
          = [{ file := "/r/top", key := "" }, { file := "/r/missing", key := "" }]
      ∧ (loader.Load sampleSystem 1 "" "/r/missing" "" (sampleLoader, ())).1.1.cycleStack
          ≠ sampleLoader.cycleStack := by
  decide

/-- On the path that returns nil `loadNoCycles` pops what it pushed: the cycle
stack after the call equals the cycle stack before the call. -/
theorem loadNoCycles_pops_when_nil {W : Type} (sys : System W) (fuel : Nat)
    (root file cycleKey : String) (s : loader × W)
    (h : (loader.Load sys fuel root file cycleKey s).2 = none) :
    (loader.Load sys fuel root file cycleKey s).1.1.cycleStack = s.1.cycleStack :=
  (keeps_Load sys fuel root file cycleKey s).2.1 h

theorem collectProject_binds (jiriRoot root file : String) (project : Project)
    (ld ld' : loader) (h : loader.collectProject jiriRoot root file project ld = (ld', none)) :
    ld'.Projects.get (project.underRoot jiriRoot root).Key
      = some (project.underRoot jiriRoot root) := by
  unfold loader.collectProject at h
  simp only at h
  split at h
  · split at h
    · simp at h
    · simp only [Prod.mk.injEq, and_true] at h
      subst h
      simp [projects_get_set]
  · simp only [Prod.mk.injEq, and_true] at h
    subst h
    simp [projects_get_set]

theorem collectProjects_binds (jiriRoot root file : String) (projects : List Project)
    (ld ld' : loader)
    (h : loader.collectProjects jiriRoot root file projects ld = (ld', none)) :
    ∀ p ∈ projects, ld'.Projects.get (p.underRoot jiriRoot root).Key
      = some (p.underRoot jiriRoot root) := by
  induction projects generalizing ld with
  | nil => simp
  | cons project rest ih =>
    unfold loader.collectProjects at h
    rcases hc : loader.collectProject jiriRoot root file project ld with ⟨ld1, _ | e⟩
    · rw [hc] at h
      simp only at h
      intro p hp
      rcases List.mem_cons.mp hp with rfl | hp
      · have hb := collectProject_binds jiriRoot root file p ld ld1 hc
        have hk := (collectProjects_keeps jiriRoot root file rest ld1).2 _ _ hb
        rw [h] at hk
        exact hk
      · exact ih ld1 h p hp
    · rw [hc] at h
      simp at h

/-- C18: when the loader collects a project of a manifest into its result map
(`q` is the project as the loop stores it, with absolute paths and the root
prepended to its name), a project whose key is already present with a value
equal in every field is accepted and the map is unchanged, a project whose
key is already present with a different value makes the load fail with a
duplicate-project error, and a project with a new key is inserted; after the
loop has succeeded every project of the manifest is bound to its key, and no
step of a load ever unbinds or replaces a project that is bound to a key. -/
theorem collectProject_dedup (jiriRoot root file : String) (project q : Project) (ld : loader)
    (hq : q = project.underRoot jiriRoot root) :
    (ld.Projects.get q.Key = some q →
        loader.collectProject jiriRoot root file project ld = (ld, none))
      ∧ (∀ dup, ld.Projects.get q.Key = some dup → dup ≠ q →
          loader.collectProject jiriRoot root file project ld
            = (ld, some (.duplicateProject q.Key (shortFileName jiriRoot file))))
      ∧ (ld.Projects.get q.Key = none →
          loader.collectProject jiriRoot root file project ld
              = ({ ld with Projects := ld.Projects.set q.Key q }, none)
            ∧ (ld.Projects.set q.Key q).get q.Key = some q
            ∧ ∀ k, k ≠ q.Key → (ld.Projects.set q.Key q).get k = ld.Projects.get k)
      ∧ (∀ projects ld', loader.collectProjects jiriRoot root file projects ld = (ld', none) →
          (∀ p ∈ projects, ld'.Projects.get (p.underRoot jiriRoot root).Key
              = some (p.underRoot jiriRoot root))
            ∧ ∀ k d, ld.Projects.get k = some d → ld'.Projects.get k = some d)
      ∧ (∀ (W : Type) (sys : System W) (fuel : Nat) (root' file' cycleKey : String) (w : W)
          (k : ProjectKey) (d : Project), ld.Projects.get k = some d →
          (loader.Load sys fuel root' file' cycleKey (ld, w)).1.1.Projects.get k = some d) := by
  subst hq
  refine ⟨fun h => ?_, fun dup h hne => ?_, fun h => ⟨?_, ?_, fun k hk => ?_⟩,
    fun projects ld' h => ⟨collectProjects_binds jiriRoot root file projects ld ld' h, ?_⟩,
    fun W sys fuel root' file' cycleKey w k d hd =>
      (keeps_Load sys fuel root' file' cycleKey (ld, w)).2.2 k d hd⟩
  · unfold loader.collectProject
    simp only [h, ne_eq, not_true_eq_false, if_false, projects_set_eq_self _ _ _ h]
  · unfold loader.collectProject
    simp only [h, ne_eq, hne, not_false_eq_true, if_true]
  · unfold loader.collectProject
    simp only [h]
  · simp [projects_get_set]
  · simp only [projects_get_set]
    rw [if_neg (fun h' => hk h'.symm)]
  · have := (collectProjects_keeps jiriRoot root file projects ld).2
    rw [h] at this
    exact this

/-- Witness of C18: with `sampleBare` collected, collecting it again changes
nothing, and collecting it pinned at another revision is a duplicate. -/
theorem collectProject_dedup_witness :
    loader.collectProject "/r" "" "/r/plain" sampleBare sampleCollected = (sampleCollected, none)
      ∧ loader.collectProject "/r" "" "/r/plain" sampleBareOther sampleCollected
          = (sampleCollected, some (.duplicateProject "foo=https://h/foo" "plain")) :=
  ⟨(collectProject_dedup "/r" "" "/r/plain" sampleBare (sampleBare.underRoot "/r" "")
      sampleCollected rfl).1 (by decide),
    (collectProject_dedup "/r" "" "/r/plain" sampleBareOther
      (sampleBareOther.underRoot "/r" "") sampleCollected rfl).2.1
      (sampleBare.underRoot "/r" "") (by decide) (by decide)⟩

/-- C19: a loader with a nil local-project set that is not updating (as
`LoadSnapshotFile` creates it) returns an error for every manifest file that
contains a remote import: the load stops at the first import, before any
project or tool of the file is collected, and the loader is as it was. -/
theorem load_rejects_remote_import {W : Type} (sys : System W) (Load : LoadFn W)
    (root file : String) (s : loader × W) (w' : W) (m : Manifest) (first : Import)
    (rest : List Import) (hnil : s.1.localProjects = none) (hupdate : s.1.update = false)
    (hread : ManifestFromFile sys file s.2 = (w', .ok m))
    (himports : m.Imports = first :: rest) :
    loader.load sys Load root file s
        = ((s.1, w'), some (.unresolvedImport
            (MakeProjectKey (filepathJoin (filepathJoin root first.Root) first.Name)
              first.Remote)))
      ∧ ∀ fuel,
          LoadSnapshotFile sys (fuel + 1) file s.2
            = (w', .error (.unresolvedImport
                (MakeProjectKey (filepathJoin (filepathJoin "" first.Root) first.Name)
                  first.Remote))) := by
  have hload : ∀ (Load' : LoadFn W) (root' : String) (s' : loader × W),
      s'.1.localProjects = none → s'.1.update = false → s'.2 = s.2 →
      loader.load sys Load' root' file s'
        = ((s'.1, w'), some (.unresolvedImport
            (MakeProjectKey (filepathJoin (filepathJoin root' first.Root) first.Name)
              first.Remote))) := by
    intro Load' root' s' h1 h2 h3
    unfold loader.load
    rw [h3, hread]
    simp only [himports]
    unfold loader.processImports loader.processImport loader.resolveImport
    simp only [h1, h2, Option.bind_none, Bool.false_eq_true, not_false_eq_true, if_true]
    rfl
  refine ⟨hload Load root s hnil hupdate rfl, fun fuel => ?_⟩
  unfold LoadSnapshotFile loadManifestFile
  show (match loader.loadNoCycles sys (loader.Load sys fuel) "" file ""
      (newManifestLoader none false, s.2) with
    | (s, some e) => (s.2, Except.error e)
    | (s, none) => (s.2, Except.ok (s.1.Projects, s.1.Tools))) = _
  unfold loader.loadNoCycles
  simp only [newManifestLoader, findCycle]
  rw [hload (loader.Load sys fuel) ""
    ({ Projects := [], Tools := [], TmpDir := "", localProjects := none, update := false,
       cycleStack := [] ++ [{ file := file, key := "" }] }, s.2) rfl rfl rfl]

/-- Witness of C19: the snapshot file `/r/with-import` of the sample world has
a remote import, and `LoadSnapshotFile` returns an error for it. -/
theorem load_rejects_remote_import_witness :
    LoadSnapshotFile sampleSystem 1 "/r/with-import" ()
      = ((), .error (.unresolvedImport "manifest=https://h/manifest")) :=
  (load_rejects_remote_import sampleSystem (loader.Load sampleSystem 0) "" "/r/with-import"
    (newManifestLoader none false, ()) () sampleManifestFilled
    { sampleImport with RemoteBranch := "master" } [] rfl rfl (by decide) rfl).2 0



/-! ## Paths and names of collected projects -/

/-- The clean form of a rooted path is rooted. -/
theorem filepathClean_isAbs (s : String) (h : filepathIsAbs s = true) :
    filepathIsAbs (filepathClean s) = true := by
  have h' : s.data.head? = some '/' := by simpa [filepathIsAbs] using h
  rw [filepathClean_rooted s h']
  simp [filepathIsAbs]

/-- Joining anything to an absolute path gives an absolute path. -/
theorem filepathJoin_isAbs (a b : String) (h : filepathIsAbs a = true) :
    filepathIsAbs (filepathJoin a b) = true := by
  have h' : a.data.head? = some '/' := by simpa [filepathIsAbs] using h
  have hne : a ≠ "" := string_ne_empty_of_head a '/' h'
  unfold filepathJoin
  rw [if_pos hne]
  apply filepathClean_isAbs
  cases ha : a.data with
  | nil => rw [ha] at h'; simp at h'
  | cons c cs =>
    rw [ha] at h'
    simp only [List.head?_cons, Option.some.injEq] at h'
    simp [filepathIsAbs, String.data_append, ha, h']

/-- The path of a project after `absolutizePaths`. -/
theorem absolutizePaths_path (p : Project) (basepath : String) :
    (p.absolutizePaths basepath).Path
      = if p.Path ≠ "" ∧ ¬ filepathIsAbs p.Path then filepathJoin basepath p.Path
        else p.Path := by
  unfold Project.absolutizePaths
  simp only
  split <;> split <;> split <;> rfl

/-- The path of a project placed under a root. -/
theorem underRoot_path (p : Project) (jiriRoot root : String) :
    (p.underRoot jiriRoot root).Path
      = (p.absolutizePaths (filepathJoin jiriRoot root)).Path := rfl

/-- C21, as stated, fails: a project that gives no path keeps its empty path
when the loader collects it, and the stored project has a path that is not
absolute. -/
theorem collected_pathless_project_stays_relative :
    (loader.collectProject "/r" "" "/r/plain" samplePathless (newManifestLoader none false)).2
        = none
      ∧ ((loader.collectProject "/r" "" "/r/plain" samplePathless
            (newManifestLoader none false)).1.Projects.get "foo=https://h/foo").map
          (fun q => (q.Path, filepathIsAbs q.Path)) = some ("", false)
      ∧ filepathIsAbs (samplePathless.absolutizePaths (filepathJoin "/r" "")).Path = false := by
  decide

/-- C21, amended: for an absolute jiri root and every project that gives a
path, the path is absolute after `absolutizePaths` with the join of the jiri
root and the root of the manifest, and the project that a successful
collection step stores under its key has that absolute path. -/
theorem collected_project_path_is_absolute (jiriRoot root file : String) (project : Project)
    (ld ld' : loader) (hroot : filepathIsAbs jiriRoot = true) (hpath : project.Path ≠ "") :
    filepathIsAbs (project.absolutizePaths (filepathJoin jiriRoot root)).Path = true
      ∧ (loader.collectProject jiriRoot root file project ld = (ld', none) →
          ∃ q, ld'.Projects.get (project.underRoot jiriRoot root).Key = some q
            ∧ q.Path = (project.absolutizePaths (filepathJoin jiriRoot root)).Path
            ∧ filepathIsAbs q.Path = true) := by
  have habs : filepathIsAbs (project.absolutizePaths (filepathJoin jiriRoot root)).Path
      = true := by
    rw [absolutizePaths_path]
    by_cases h : filepathIsAbs project.Path = true
    · rw [if_neg (fun hc => hc.2 h)]
      exact h
    · rw [if_pos ⟨hpath, h⟩]
      exact filepathJoin_isAbs _ _ (filepathJoin_isAbs _ _ hroot)
  refine ⟨habs, fun h => ⟨project.underRoot jiriRoot root, ?_, ?_, ?_⟩⟩
  · exact collectProject_binds jiriRoot root file project ld ld' h
  · rfl
  · rw [underRoot_path]
    exact habs

/-- Witness of C21 amended: the project `sampleBare` with path `foo`, collected
under the jiri root `/r`, is stored with the path `/r/foo`. -/
theorem collected_project_path_is_absolute_witness :
    filepathIsAbs (sampleBare.absolutizePaths (filepathJoin "/r" "")).Path = true
      ∧ (sampleBare.absolutizePaths (filepathJoin "/r" "")).Path = "/r/foo"
      ∧ ∃ q, sampleCollected.Projects.get (sampleBare.underRoot "/r" "").Key = some q
          ∧ q.Path = (sampleBare.absolutizePaths (filepathJoin "/r" "")).Path
          ∧ filepathIsAbs q.Path = true :=
  ⟨(collected_project_path_is_absolute "/r" "" "/r/plain" sampleBare
      (newManifestLoader none false) sampleCollected (by decide) (by decide)).1, by decide,
    (collected_project_path_is_absolute "/r" "" "/r/plain" sampleBare
      (newManifestLoader none false) sampleCollected (by decide) (by decide)).2 (by decide)⟩

/-- Joining a name to an empty root cleans the name. -/
theorem filepathJoin_empty_root (name : String) :
    filepathJoin "" name = if name = "" then "" else filepathClean name := by
  unfold filepathJoin
  by_cases h : name = ""
  · simp [h]
  · simp [h]

/-- A name that is a local path is written back unchanged by `filepath.Clean`. -/
theorem filepathClean_local (name : String) (h : IsLocalPath name) :
    filepathClean name = name := by
  have hne : name ≠ "" := isLocalPath_ne_empty name h
  have hs : splitSlash name.data ≠ [] := splitSlash_ne_nil name.data
  have hhead : name.data.head? ≠ some '/' := by
    intro hc
    cases hd : name.data with
    | nil => rw [hd] at hc; simp at hc
    | cons c cs =>
      rw [hd] at hc
      simp only [List.head?_cons, Option.some.injEq] at hc
      have := h [] (by rw [hd, hc]; simp [splitSlash])
      exact this.1 rfl
  unfold filepathClean
  rw [if_neg hne]
  simp only [hhead, decide_False, Bool.false_eq_true, if_false, List.nil_append]
  rw [foldl_cleanStep_of_normal false [] _ h]
  simp only [List.append_nil, List.reverse_reverse, joinSlash_splitSlash]
  have hd : name.data ≠ [] := by
    intro hc
    apply hne
    cases name
    simp_all
  simp [hd]

/-- C30 at a name that is not clean: with an empty root the collection step
stores the project `foo/` under the name `foo`, and so under the key of
`foo`. -/
theorem collected_name_is_cleaned :
    sampleSlashName.Name = "foo/"
      ∧ (sampleSlashName.underRoot "/r" "").Name = "foo"
      ∧ (loader.collectProject "/r" "" "/r/plain" sampleSlashName
            (newManifestLoader none false)).1.Projects.keys = ["foo=https://h/foo"] := by
  decide

/-- With an empty root the collection step stores a project under the name
written in the manifest whenever that name is empty or a local path. -/
theorem underRoot_name_of_local (project : Project) (jiriRoot : String)
    (h : project.Name = "" ∨ IsLocalPath project.Name) :
    (project.underRoot jiriRoot "").Name = project.Name := by
  have hname : (project.underRoot jiriRoot "").Name
      = filepathJoin "" (project.absolutizePaths (filepathJoin jiriRoot "")).Name := rfl
  have hsame : (project.absolutizePaths (filepathJoin jiriRoot "")).Name = project.Name := by
    unfold Project.absolutizePaths
    simp only
    split <;> split <;> split <;> rfl
  rw [hname, hsame, filepathJoin_empty_root]
  rcases h with h | h
  · simp [h]
  · rw [if_neg (isLocalPath_ne_empty _ h), filepathClean_local _ h]

/-! ## Properties of `Find` -/

/-- What the loop of `Find` has stored under a key after visiting the keys
`keys`, starting from the map `acc`. -/
theorem find_loop_get (ps : Projects) (s : String) (keys : List ProjectKey) (acc : Projects)
    (k : ProjectKey) :
    (keys.foldl
        (fun projects key =>
          match ps.get key with
          | some p => if s = p.Name then projects.set key p else projects
          | none => projects)
        acc).get k
      = if k ∈ keys ∧ ∃ p, ps.get k = some p ∧ s = p.Name then ps.get k else acc.get k := by
  induction keys generalizing acc with
  | nil => simp
  | cons x keys ih =>
    rw [List.foldl_cons, ih]
    by_cases hk : k ∈ keys ∧ ∃ p, ps.get k = some p ∧ s = p.Name
    · rw [if_pos hk, if_pos ⟨List.mem_cons_of_mem _ hk.1, hk.2⟩]
    · rw [if_neg hk]
      by_cases hx : x = k
      · subst hx
        cases hg : ps.get x with
        | none => simp [hg]
        | some p =>
          by_cases hn : s = p.Name
          · simp [hg, hn, projects_get_set]
          · simp [hg, hn]
      · have hx' : ¬ k = x := fun h => hx h.symm
        have hmem : (k ∈ x :: keys ∧ ∃ p, ps.get k = some p ∧ s = p.Name)
            ↔ (k ∈ keys ∧ ∃ p, ps.get k = some p ∧ s = p.Name) := by
          simp [hx']
        rw [if_neg (fun h => hk (hmem.1 h))]
        cases hg : ps.get x with
        | none => rfl
        | some p =>
          by_cases hn : s = p.Name
          · simp only [hn, if_true]
            rw [projects_get_set, if_neg hx]
          · simp [hn]

/-- The entries of the map that `Find` returns: the entry under the given key
when there is one, otherwise the entries whose project has the given name. -/
theorem find_get (rt : GoRuntime) (hrt : rt.Conforms) (ps : Projects) (s : String)
    (k : ProjectKey) (p : Project) :
    (ps.Find rt s).get k = some p
      ↔ ps.get k = some p ∧ (if ps.get s = none then p.Name = s else k = s) := by
  unfold Projects.Find
  cases hs : ps.get s with
  | some q =>
    simp only [Projects.set, Projects.get, reduceCtorEq, if_false]
    constructor
    · intro h
      by_cases hk : s = k
      · subst hk
        rw [if_pos rfl] at h
        exact ⟨by rw [hs]; exact h, rfl⟩
      · rw [if_neg hk] at h
        exact absurd h (by simp)
    · rintro ⟨h1, h2⟩
      subst h2
      rw [if_pos rfl, ← hs, h1]
  | none =>
    simp only [if_true]
    rw [find_loop_get]
    simp only [Projects.get]
    constructor
    · intro h
      split at h
      · rename_i hc
        obtain ⟨_, q, hq, hn⟩ := hc
        rw [hq] at h
        cases h
        exact ⟨hq, hn.symm⟩
      · exact absurd h (by simp)
    · rintro ⟨h1, h2⟩
      have hmem : k ∈ rt.rangeKeys ps.keys.dedup := by
        rw [(hrt.range_perm _).mem_iff, List.mem_dedup]
        exact List.mem_map_of_mem Prod.fst (mem_of_get_eq_some ps k p h1)
      rw [if_pos ⟨hmem, p, h1, h2.symm⟩, h1]

/-- The key of a project has the separator in it. -/
theorem key_has_separator (p : Project) : '=' ∈ p.Key.data := by
  unfold Project.Key
  rw [makeProjectKey_data]
  simp

/-- C22, as stated, fails on a map that holds a project under the key `foo` and
a project named `foo` under another key: `Find` returns the first alone. -/
theorem find_stops_at_key_match :
    sampleOddlyKeyed.Find goInOrder "foo" = [("foo", sampleBar)]
      ∧ sampleOddlyKeyed.get sampleFoo.Key = some sampleFoo
      ∧ sampleFoo.Name = "foo"
      ∧ (sampleOddlyKeyed.Find goInOrder "foo").get sampleFoo.Key = none := by
  decide

/-- C22, amended: `ps.Find(s)` holds exactly the entry of `ps` under the key
`s` when `ps` has that key, and otherwise exactly the entries of `ps` whose
project name equals `s`, each under its original key.  On a map whose entries
are stored under the keys of their projects, with valid project names, these
are exactly the entries whose key equals `s` or whose project name equals
`s`. -/
theorem find_key_else_name (rt : GoRuntime) (hrt : rt.Conforms) (ps : Projects) (s : String) :
    (∀ k p, (ps.Find rt s).get k = some p
        ↔ ps.get k = some p ∧ (if ps.get s = none then p.Name = s else k = s))
      ∧ (ps.KeyedByOwnKey → (∀ e ∈ ps, e.2.validate = none) →
          ∀ k p, (ps.Find rt s).get k = some p
            ↔ ps.get k = some p ∧ (k = s ∨ p.Name = s)) := by
  refine ⟨fun k p => find_get rt hrt ps s k p, fun hkey hvalid k p => ?_⟩
  rw [find_get rt hrt ps s k p]
  constructor
  · rintro ⟨h1, h2⟩
    refine ⟨h1, ?_⟩
    split at h2
    · exact Or.inr h2
    · exact Or.inl h2
  · rintro ⟨h1, h2⟩
    refine ⟨h1, ?_⟩
    cases hs : ps.get s with
    | none =>
      rw [if_pos rfl]
      rcases h2 with h2 | h2
      · rw [h2, hs] at h1
        exact absurd h1 (by simp)
      · exact h2
    | some q =>
      rw [if_neg (by simp)]
      rcases h2 with h2 | h2
      · exact h2
      · exfalso
        have hq := hkey _ (mem_of_get_eq_some ps s q hs)
        have hp := hvalid _ (mem_of_get_eq_some ps k p h1)
        rw [project_validate_eq_none_iff] at hp
        simp only at hq hp
        apply hp
        rw [h2, ← hq]
        exact key_has_separator q

/-- Witness of C22 amended: in the local universe `sampleLocal`, keyed by the keys of
its projects, `Find` of the name `foo` returns the project `foo` under its
key. -/
theorem find_key_else_name_witness :
    sampleLocal.Find goInOrder "foo" = [(sampleFoo.Key, sampleFoo)]
      ∧ ((sampleLocal.Find goInOrder "foo").get sampleFoo.Key = some sampleFoo
          ↔ sampleLocal.get sampleFoo.Key = some sampleFoo
            ∧ (sampleFoo.Key = "foo" ∨ sampleFoo.Name = "foo")) :=
  ⟨by decide,
    (find_key_else_name goInOrder goInOrder_conforms sampleLocal "foo").2 (by decide)
      (by decide) sampleFoo.Key sampleFoo⟩

/-! ## Properties of `InitProfilesFromFlag` -/

/-- The first piece of a text is where the text begins. -/
theorem splitChars_head_starts (sep : Char) (s : List Char) :
    ∃ e es, splitChars sep s = e :: es ∧ e <+: s := by
  induction s with
  | nil => exact ⟨[], [], rfl, List.prefix_refl _⟩
  | cons c s ih =>
    obtain ⟨e, es, he, hp⟩ := ih
    unfold splitChars
    by_cases hc : c = sep
    · rw [if_pos hc]
      exact ⟨[], _, rfl, List.nil_prefix⟩
    · rw [if_neg hc, he]
      exact ⟨c :: e, es, rfl, (List.prefix_cons_inj c).2 hp⟩

/-- Every piece of a text occurs in the text. -/
theorem splitChars_occurs (sep : Char) (s e : List Char) (h : e ∈ splitChars sep s) :
    e <:+: s := by
  induction s generalizing e with
  | nil =>
    simp only [splitChars, List.mem_singleton] at h
    subst h
    exact List.infix_refl _
  | cons c s ih =>
    obtain ⟨e0, es, he, hp⟩ := splitChars_head_starts sep s
    unfold splitChars at h
    by_cases hc : c = sep
    · rw [if_pos hc, List.mem_cons] at h
      rcases h with h | h
      · subst h
        exact List.nil_infix
      · exact (ih e h).trans (List.infix_cons (List.infix_refl _))
    · rw [if_neg hc, he, List.mem_cons] at h
      rcases h with h | h
      · subst h
        exact ((List.prefix_cons_inj c).2 hp).isInfix
      · have : e ∈ splitChars sep s := by
          rw [he]
          exact List.mem_cons_of_mem _ h
        exact (ih e this).trans (List.infix_cons (List.infix_refl _))

/-- The function `stringsContainsFrom` decides whether a text occurs in
another. -/
theorem stringsContainsFrom_iff_occurs (sub s : List Char) :
    stringsContainsFrom sub s = true ↔ sub <:+: s := by
  induction s with
  | nil =>
    simp [stringsContainsFrom, List.isEmpty_iff]
  | cons c s ih =>
    simp only [stringsContainsFrom, Bool.or_eq_true, ih, List.isPrefixOf_iff_prefix]
    exact List.infix_cons_iff.symm

/-- What `InitProfilesFromFlag` returns, part by part: without the append mode
the comma-separated fields of the flag; with it the same fields, followed by
`jiri` exactly when `jiri` does not occur in the flag, which is never the case
when a field equals `jiri`. -/
theorem initProfilesFromFlag_fields (flag : String) :
    InitProfilesFromFlag flag DoNotAppendJiriProfile = stringsSplit flag ','
      ∧ InitProfilesFromFlag flag AppendJiriProfile
          = (if stringsContains flag "jiri" then stringsSplit flag ','
             else stringsSplit flag ',' ++ ["jiri"])
      ∧ ("jiri" ∈ stringsSplit flag ',' → stringsContains flag "jiri" = true) := by
  refine ⟨?_, ?_, ?_⟩
  · simp [InitProfilesFromFlag, DoNotAppendJiriProfile, AppendJiriProfile]
  · unfold InitProfilesFromFlag
    by_cases h : stringsContains flag "jiri" = true
    · simp [h]
    · simp [h]
  · intro h
    unfold stringsSplit at h
    rw [List.mem_map] at h
    obtain ⟨e, he, hj⟩ := h
    have hinf := splitChars_occurs ',' flag.data e he
    unfold stringsContains
    rw [stringsContainsFrom_iff_occurs]
    have : ("jiri" : String).data = e := by rw [← hj]
    rw [this]
    exact hinf

/-- C27 at a flag that names a profile with `jiri` in its name: in the append
mode `InitProfilesFromFlag` returns the fields of the flag alone, and the
profile `jiri` is not among them. -/
theorem initProfilesFromFlag_misses_jiri :
    InitProfilesFromFlag "base,jiri-dev" AppendJiriProfile = ["base", "jiri-dev"]
      ∧ "jiri" ∉ InitProfilesFromFlag "base,jiri-dev" AppendJiriProfile
      ∧ stringsSplit "base,jiri-dev" ',' = ["base", "jiri-dev"]
      ∧ InitProfilesFromFlag "base" AppendJiriProfile = ["base", "jiri"] := by
  decide

/-! ## Properties of the registry of profile managers -/

theorem goMap_get_set {V : Type} (r : GoMap V) (name k : String) (mgr : V) :
    (r.set name mgr).get k = if name = k then some mgr else r.get k := by
  induction r with
  | nil => simp [GoMap.set, GoMap.get]
  | cons e r ih =>
    obtain ⟨k', m'⟩ := e
    unfold GoMap.set
    by_cases h : k' = name
    · subst h
      by_cases hk : k' = k
      · simp [GoMap.get, hk]
      · simp [GoMap.get, hk]
    · rw [if_neg h]
      by_cases hk : k' = k
      · subst hk
        simp [GoMap.get, Ne.symm h]
      · simp [GoMap.get, hk, ih]

/-- A name has a manager exactly when it is among the names of the map. -/
theorem goMap_get_ne_none_iff {V : Type} (r : GoMap V) (name : String) :
    r.get name ≠ none ↔ name ∈ r.map Prod.fst := by
  induction r with
  | nil => simp [GoMap.get]
  | cons e r ih =>
    obtain ⟨k, m⟩ := e
    unfold GoMap.get
    by_cases h : k = name
    · simp [h]
    · rw [if_neg h, ih]
      simp [Ne.symm h]

/-- A call of `Register` under a name that is taken. -/
theorem register_taken {M : Type} (r : Registry M) (name : String) (mgr : Option M)
    (h : r.get name ≠ none) : Register name mgr r = (r, some (registerPanic name)) := by
  unfold Register
  cases hg : r.get name with
  | none => exact absurd hg h
  | some m => rfl

/-- A call of `Register` under a name that is free. -/
theorem register_free {M : Type} (r : Registry M) (name : String) (mgr : Option M)
    (h : r.get name = none) : Register name mgr r = (r.set name mgr, none) := by
  unfold Register
  rw [h]

/-- What a name is bound to after a call of `Register`. -/
theorem register_get {M : Type} (r : Registry M) (name k : String) (mgr : Option M) :
    (Register name mgr r).1.get k
      = match r.get k with
        | some m => some m
        | none => if name = k then some mgr else none := by
  cases h : r.get name with
  | none =>
    rw [register_free r name mgr h]
    simp only [goMap_get_set]
    by_cases hk : name = k
    · subst hk
      simp [h]
    · simp only [hk, if_false]
      cases r.get k <;> rfl
  | some m0 =>
    rw [register_taken r name mgr (by simp [h])]
    by_cases hk : name = k
    · subst hk
      simp [h]
    · simp only [hk, if_false]
      cases r.get k <;> rfl

/-- What a name is bound to after a sequence of calls of `Register`: what it
was bound to before, and otherwise what the first call for it passed. -/
theorem registerAll_get {M : Type} (calls : List (String × Option M)) (r : Registry M)
    (k : String) :
    (registerAll calls r).get k
      = match r.get k with
        | some mgr => some mgr
        | none => GoMap.get calls k := by
  induction calls generalizing r with
  | nil =>
    simp only [registerAll, List.foldl_nil, GoMap.get]
    cases r.get k <;> rfl
  | cons call calls ih =>
    obtain ⟨name, mgr⟩ := call
    have hstep : registerAll ((name, mgr) :: calls) r
        = registerAll calls (Register name mgr r).1 := rfl
    rw [hstep, ih, register_get]
    cases hg : r.get k with
    | some m => rfl
    | none =>
      by_cases hk : name = k
      · simp [hk, GoMap.get]
      · simp [hk, GoMap.get]

/-- The manager returned for a name after a sequence of calls of `Register` on
the new registry. -/
theorem lookupManager_registerAll {M : Type} (calls : List (String × Option M))
    (name : String) :
    LookupManager name (registerAll calls newRegistry) = firstRegistered calls name := by
  unfold LookupManager
  rw [registerAll_get]
  simp only [newRegistry, GoMap.get]
  induction calls with
  | nil => rfl
  | cons call calls ih =>
    obtain ⟨k, mgr⟩ := call
    unfold GoMap.get firstRegistered
    by_cases hk : k = name
    · simp [hk]
    · simp only [hk, if_false]
      exact ih

/-- The loop of `Managers` appends the names in the order it visits them. -/
theorem foldl_append_singleton (names acc : List String) :
    names.foldl (fun names name => names ++ [name]) acc = acc ++ names := by
  induction names generalizing acc with
  | nil => simp
  | cons x names ih => rw [List.foldl_cons, ih]; simp

/-- The names that `Managers` returns are the names of the map. -/
theorem managers_perm {M : Type} (rt : GoStrings) (hrt : rt.Conforms) (r : Registry M) :
    (Managers rt r).Perm r.keys := by
  unfold Managers
  simp only [foldl_append_singleton, List.nil_append]
  exact (hrt.sort_perm _).trans (hrt.range_perm _)

/-- The names that `Managers` returns are in strictly ascending order. -/
theorem managers_ascending {M : Type} (rt : GoStrings) (hrt : rt.Conforms) (r : Registry M) :
    (Managers rt r).Pairwise (fun a b => stringLess a b = true) := by
  have hnodup : (Managers rt r).Nodup :=
    (managers_perm rt hrt r).nodup_iff.2 (List.nodup_dedup _)
  have hsorted : (Managers rt r).Pairwise (fun a b => stringLess b a = false) := by
    unfold Managers
    exact hrt.sort_sorted _
  have hboth := hsorted.and hnodup
  refine hboth.imp ?_
  intro a b h
  rw [stringLess_eq_false_iff] at h
  rw [stringLess_iff_lt]
  exact lt_of_le_of_ne h.1 h.2

theorem insertString_perm (x : String) (l : List String) :
    (insertString x l).Perm (x :: l) := by
  induction l with
  | nil => exact List.Perm.refl _
  | cons y l ih =>
    unfold insertString
    split
    · exact (List.Perm.cons y ih).trans (List.Perm.swap x y l)
    · exact List.Perm.refl _

theorem insertString_sorted (x : String) (l : List String)
    (h : l.Pairwise (fun a b => stringLess b a = false)) :
    (insertString x l).Pairwise (fun a b => stringLess b a = false) := by
  induction l with
  | nil => simp [insertString]
  | cons y l ih =>
    rw [List.pairwise_cons] at h
    unfold insertString
    split
    · rename_i hyx
      rw [List.pairwise_cons]
      refine ⟨fun b hb => ?_, ih h.2⟩
      rcases List.mem_cons.1 ((insertString_perm x l).mem_iff.1 hb) with hb | hb
      · rw [hb, stringLess_eq_false_iff]
        exact le_of_lt ((stringLess_iff_lt y x).1 hyx)
      · exact h.1 b hb
    · rename_i hyx
      have hxy : stringLess y x = false := by simpa using hyx
      rw [List.pairwise_cons]
      refine ⟨fun b hb => ?_, List.pairwise_cons.2 h⟩
      rcases List.mem_cons.1 hb with hb | hb
      · rw [hb]
        exact hxy
      · have hyb := h.1 b hb
        rw [stringLess_eq_false_iff] at *
        exact le_trans hxy hyb

theorem goStringsInOrder_conforms : goStringsInOrder.Conforms where
  range_perm names := List.Perm.refl names
  sort_perm names := by
    show (names.foldr insertString []).Perm names
    induction names with
    | nil => exact List.Perm.refl _
    | cons x names ih =>
      rw [List.foldr_cons]
      exact (insertString_perm x _).trans (List.Perm.cons x ih)
  sort_sorted names := by
    show (names.foldr insertString []).Pairwise (fun a b => stringLess b a = false)
    induction names with
    | nil => exact List.Pairwise.nil
    | cons x names ih =>
      rw [List.foldr_cons]
      exact insertString_sorted x _ ih

/-- C28: a call of `Register` under a name that is taken panics and leaves the
registry as it was; a call under a free name binds that name to the manager
passed and changes no other binding.  After any sequence of calls on the new
registry, `LookupManager` returns for every name the manager of the first call
for that name, and `Managers` returns the names of the calls, each once, in
strictly ascending order. -/
theorem register_first_registration_wins {M : Type} (rt : GoStrings) (hrt : rt.Conforms)
    (calls : List (String × Option M)) :
    (∀ (r : Registry M) name mgr, r.get name ≠ none →
        Register name mgr r = (r, some (registerPanic name)))
      ∧ (∀ (r : Registry M) name mgr, r.get name = none →
          (Register name mgr r).2 = none
            ∧ ∀ k, (Register name mgr r).1.get k = if k = name then some mgr else r.get k)
      ∧ (∀ name, LookupManager name (registerAll calls newRegistry)
          = firstRegistered calls name)
      ∧ (Managers rt (registerAll calls newRegistry)).Pairwise
          (fun a b => stringLess a b = true)
      ∧ (Managers rt (registerAll calls newRegistry)).Nodup
      ∧ (∀ name, name ∈ Managers rt (registerAll calls newRegistry)
          ↔ name ∈ calls.map Prod.fst) := by
  refine ⟨register_taken, fun r name mgr h => ⟨?_, fun k => ?_⟩,
    lookupManager_registerAll calls, managers_ascending rt hrt _, ?_, fun name => ?_⟩
  · rw [register_free r name mgr h]
  · rw [register_free r name mgr h, goMap_get_set]
    by_cases hk : k = name
    · simp [hk]
    · simp [hk, Ne.symm hk]
  · exact (managers_perm rt hrt _).nodup_iff.2 (List.nodup_dedup _)
  · rw [(managers_perm rt hrt _).mem_iff]
    unfold GoMap.keys
    rw [List.mem_dedup, ← goMap_get_ne_none_iff, registerAll_get]
    simp only [newRegistry, GoMap.get]
    exact goMap_get_ne_none_iff calls name

/-- Witness of C28: after the four calls of `sampleCalls`, whose third repeats
the name `java`, the manager of `java` is the one of the first call and the
names are listed in ascending order. -/
theorem register_first_registration_wins_witness :
    LookupManager "java" (registerAll sampleCalls newRegistry) = some 1
      ∧ Managers goStringsInOrder (registerAll sampleCalls newRegistry)
          = ["android", "base", "java"]
      ∧ (Register "java" (some 3) (registerAll [("java", some 1)] newRegistry)).2
          = some "a profile manager is already registered for: java"
      ∧ (Managers goStringsInOrder (registerAll sampleCalls newRegistry)).Pairwise
          (fun a b => stringLess a b = true) :=
  ⟨by decide, by decide, by decide,
    (register_first_registration_wins goStringsInOrder goStringsInOrder_conforms
      sampleCalls).2.2.2.1⟩


/-! ## Properties of the tests of operations -/

/-- A directory is recorded as deleted after `deleteDir` when it has the clean
form of the directory passed, or was recorded before. -/
theorem isDeleted_deleteDir (u : fsUpdates) (d x : String) :
    (u.deleteDir d).isDeleted x = true
      ↔ filepathClean d = filepathClean x ∨ u.isDeleted x = true := by
  unfold fsUpdates.deleteDir fsUpdates.isDeleted
  simp only [goMap_get_set]
  by_cases h : filepathClean d = filepathClean x
  · simp [h]
  · simp [h]

/-- A directory is recorded as deleted after a sequence of calls of
`deleteDir` when one of them was for a directory with the same clean form. -/
theorem isDeleted_foldl_deleteDir (dirs : List String) (u : fsUpdates) (x : String) :
    (dirs.foldl fsUpdates.deleteDir u).isDeleted x = true
      ↔ u.isDeleted x = true ∨ ∃ d ∈ dirs, filepathClean d = filepathClean x := by
  induction dirs generalizing u with
  | nil => simp
  | cons d dirs ih =>
    rw [List.foldl_cons, ih, isDeleted_deleteDir]
    simp only [List.mem_cons, exists_eq_or_imp]
    tauto

theorem isDeleted_recordDeleted (dirs : List String) (x : String) :
    (recordDeleted dirs).isDeleted x = true ↔ ∃ d ∈ dirs, filepathClean d = filepathClean x := by
  unfold recordDeleted
  rw [isDeleted_foldl_deleteDir]
  simp [newFsUpdates, fsUpdates.isDeleted, GoMap.get]

/-- The three results of the test of a create operation. -/
theorem createOperation_test_cases {W : Type} (stat : W → String → W × Option FileError)
    (op : commonOperation) (u : fsUpdates) (w : W) :
    (∀ err, (stat w op.destination).2 = some err →
        (createOperation.Test stat op (u, w)).2
          = if err.isNotExist then none else some (.file err))
      ∧ ((stat w op.destination).2 = none →
          (createOperation.Test stat op (u, w)).2
            = if u.isDeleted op.destination then none
              else some (.createExists op.destination)) := by
  unfold createOperation.Test
  constructor
  · intro err h
    simp only [h]
    cases err.isNotExist <;> simp
  · intro h
    simp only [h]
    cases u.isDeleted op.destination <;> simp

/-- C23: for every create operation and every sequence of directories recorded
as deleted so far, the test fails with the already-exists error if and only if
the destination exists and no recorded directory has its clean form; the test
succeeds when the destination does not exist, and when it exists and a
recorded directory has its clean form.  A successful test of a delete or of a
move records its source. -/
theorem create_test_fails_iff_exists_undeleted {W : Type}
    (stat : W → String → W × Option FileError) (op : commonOperation) (dirs : List String)
    (w : W) :
    ((createOperation.Test stat op (recordDeleted dirs, w)).2
          = some (.createExists op.destination)
        ↔ (stat w op.destination).2 = none
          ∧ ∀ d ∈ dirs, filepathClean d ≠ filepathClean op.destination)
      ∧ ((∃ err, (stat w op.destination).2 = some err ∧ err.isNotExist = true) →
          (createOperation.Test stat op (recordDeleted dirs, w)).2 = none)
      ∧ ((stat w op.destination).2 = none →
          (∃ d ∈ dirs, filepathClean d = filepathClean op.destination) →
          (createOperation.Test stat op (recordDeleted dirs, w)).2 = none)
      ∧ (∀ (del : commonOperation) (u : fsUpdates) (w' : W),
          (deleteOperation.Test stat del (u, w')).2 = none →
          (deleteOperation.Test stat del (u, w')).1.1 = u.deleteDir del.source)
      ∧ (∀ (mv : commonOperation) (u : fsUpdates) (w' : W),
          (moveOperation.Test stat mv (u, w')).2 = none →
          (moveOperation.Test stat mv (u, w')).1.1 = u.deleteDir mv.source) := by
  have hcases := createOperation_test_cases stat op (recordDeleted dirs) w
  have hrec := isDeleted_recordDeleted dirs op.destination
  refine ⟨?_, ?_, ?_, ?_, ?_⟩
  · cases hs : (stat w op.destination).2 with
    | some err =>
      rw [hcases.1 err hs]
      cases err.isNotExist <;> simp
    | none =>
      rw [hcases.2 hs]
      by_cases hd : (recordDeleted dirs).isDeleted op.destination = true
      · have := hrec.1 hd
        simp only [hd, if_true, reduceCtorEq, true_and, false_iff, not_forall]
        obtain ⟨d, hmem, heq⟩ := this
        exact ⟨d, hmem, fun hne => hne heq⟩
      · have hno : ∀ d ∈ dirs, filepathClean d ≠ filepathClean op.destination :=
          fun d hmem heq => hd (hrec.2 ⟨d, hmem, heq⟩)
        have hd' : (recordDeleted dirs).isDeleted op.destination = false := by
          simpa using hd
        rw [hd']
        exact ⟨fun _ => ⟨rfl, hno⟩, fun _ => rfl⟩
  · rintro ⟨err, hs, hne⟩
    rw [hcases.1 err hs, hne]
    rfl
  · intro hs hd
    rw [hcases.2 hs, hrec.2 hd]
    rfl
  · intro del u w' h
    unfold deleteOperation.Test at h ⊢
    cases hs : (stat w' del.source).2 with
    | some err =>
      simp only [hs] at h
      cases hne : err.isNotExist <;> simp [hne] at h
    | none => simp only [hs]
  · intro mv u w' h
    unfold moveOperation.Test at h ⊢
    cases hs : (stat w' mv.source).2 with
    | some err =>
      simp only [hs] at h
      cases hne : err.isNotExist <;> simp [hne] at h
    | none =>
      simp only [hs] at h ⊢
      cases hd : (stat (stat w' mv.source).1 mv.destination).2 with
      | some err =>
        simp only [hd] at h ⊢
        cases hne : err.isNotExist
        · simp [hne] at h
        · simp
      | none => simp [hd] at h

/-- Witness of C23: on the sample host the directory `/r/p` exists.  The test
of a create operation for `/r/p` fails when nothing has been recorded, and
succeeds after the deletion of `/r/p/` has been recorded. -/
theorem create_test_fails_iff_exists_undeleted_witness :
    (createOperation.Test sampleHost.stat sampleCreate.common (recordDeleted [], [])).2
        = some (.createExists "/r/p")
      ∧ (createOperation.Test sampleHost.stat sampleCreate.common
            (recordDeleted ["/r/p/"], [])).2 = none :=
  ⟨(create_test_fails_iff_exists_undeleted sampleHost.stat sampleCreate.common [] []).1.2
      ⟨by decide, by decide⟩,
    (create_test_fails_iff_exists_undeleted sampleHost.stat sampleCreate.common ["/r/p/"]
      []).2.2.1 (by decide) ⟨"/r/p/", by decide, by decide⟩⟩

/-- The error of the test of a move operation does not depend on what has been
recorded as deleted. -/
theorem moveOperation_test_ignores_record {W : Type}
    (stat : W → String → W × Option FileError) (op : commonOperation) (u u' : fsUpdates)
    (w : W) :
    (moveOperation.Test stat op (u, w)).2 = (moveOperation.Test stat op (u', w)).2 := by
  unfold moveOperation.Test
  cases hs : (stat w op.source).2 with
  | some err =>
    simp only [hs]
    cases err.isNotExist <;> rfl
  | none =>
    simp only [hs]
    cases hd : (stat (stat w op.source).1 op.destination).2 with
    | some err =>
      simp only [hd]
      cases err.isNotExist <;> rfl
    | none => simp only [hd]

/-- C24 at a plan that deletes the project in `/r/p` and moves another project
from `/r/q` to `/r/p`: the test of the delete records `/r/p`, the test of the
move fails nevertheless because `/r/p` exists, and `updateProjects` returns
that error; the test of a create operation for `/r/p` in the place of the move
succeeds. -/
theorem move_test_fails_on_deleted_destination :
    computeOperations goInOrder
        [(sampleOrphan.Key, sampleOrphan), (sampleBarAtQ.Key, sampleBarAtQ)]
        [(sampleBarAtP.Key, sampleBarAtP)] true = .ok [sampleDelete true, sampleMove]
      ∧ (operation.Test sampleHost.stat (sampleDelete true) (newFsUpdates, [])).1.1.isDeleted
          "/r/p" = true
      ∧ (testOperations sampleHost.stat [sampleDelete true, sampleMove] (newFsUpdates, [])).2
          = some (.moveDestinationExists "/r/q" "/r/p")
      ∧ (updateProjects sampleHost goInOrder
            [(sampleOrphan.Key, sampleOrphan), (sampleBarAtQ.Key, sampleBarAtQ)] true
            ([(sampleBarAtP.Key, sampleBarAtP)], [])).2
          = some (.moveDestinationExists "/r/q" "/r/p")
      ∧ (testOperations sampleHost.stat [sampleDelete true, sampleCreate]
            (newFsUpdates, [])).2 = none := by
  decide

/-! ## Properties of `updateProjects` -/

/-- The tests of a plan whose first part passes go on with the rest. -/
theorem testOperations_append {W : Type} (stat : W → String → W × Option FileError)
    (before rest : List operation) (s : fsUpdates × W)
    (h : (testOperations stat before s).2 = none) :
    testOperations stat (before ++ rest) s
      = testOperations stat rest (testOperations stat before s).1 := by
  induction before generalizing s with
  | nil => rfl
  | cons op before ih =>
    unfold testOperations at h
    simp only [List.cons_append]
    rw [testOperations]
    cases hop : (operation.Test stat op s).2 with
    | some e => simp [hop] at h
    | none =>
      simp only [hop] at h ⊢
      rw [ih _ h]
      conv_rhs => rw [testOperations]
      simp only [hop]

/-- The tests end at the first operation whose test fails. -/
theorem testOperations_stops {W : Type} (stat : W → String → W × Option FileError)
    (before after : List operation) (op : operation) (e : UpdateError) (s : fsUpdates × W)
    (hbefore : (testOperations stat before s).2 = none)
    (hfail : (operation.Test stat op (testOperations stat before s).1).2 = some e) :
    testOperations stat (before ++ op :: after) s
      = ((operation.Test stat op (testOperations stat before s).1).1, some e) := by
  rw [testOperations_append stat before (op :: after) s hbefore, testOperations]
  simp only [hfail]

/-- C25: when the test of an operation of the plan returns an error, the tests
before it having passed, `updateProjects` returns that error, and the world it
leaves is the world that test left, after the deferred `TimerPop`: no later
test, no `Run` and no hook has been called.  When every test passes, the plan
is run from the world the last test left. -/
theorem updateProjects_tests_before_runs {W : Type} (sys : Host W) (rt : GoRuntime)
    (localProjects : Projects) (gc : Bool) (s heads : Projects × W)
    (hheads : getRemoteHeadRevisions sys rt (s.1, sys.timerPush s.2 "update projects") = heads) :
    (∀ (before after : List operation) (op : operation) (e : UpdateError),
        computeOperations rt localProjects heads.1 gc = .ok (before ++ op :: after) →
        (testOperations sys.stat before (newFsUpdates, heads.2)).2 = none →
        (operation.Test sys.stat op
            (testOperations sys.stat before (newFsUpdates, heads.2)).1).2 = some e →
        updateProjects sys rt localProjects gc s
          = ((heads.1, sys.timerPop (operation.Test sys.stat op
                (testOperations sys.stat before (newFsUpdates, heads.2)).1).1.2), some e))
      ∧ (∀ ops : List operation,
          computeOperations rt localProjects heads.1 gc = .ok ops →
          (testOperations sys.stat ops (newFsUpdates, heads.2)).2 = none →
          updateProjects sys rt localProjects gc s
            = ((heads.1, sys.timerPop (runTested sys ops
                  (testOperations sys.stat ops (newFsUpdates, heads.2)).1.2).1),
                (runTested sys ops
                  (testOperations sys.stat ops (newFsUpdates, heads.2)).1.2).2)) := by
  constructor
  · intro before after op e hplan hbefore hfail
    unfold updateProjects
    simp only [hheads, hplan, executeOperations]
    rw [testOperations_stops sys.stat before after op e _ hbefore hfail]
  · intro ops hplan hpass
    unfold updateProjects
    simp only [hheads, hplan, executeOperations, hpass]

/-- Witness of C25: on the sample host the plan deletes the project in `/r/p`
and creates a project in `/r/q`, which exists.  The test of the create fails,
`updateProjects` returns its error, and the two calls of `Stat` are the only
calls that were made. -/
theorem updateProjects_tests_before_runs_witness :
    updateProjects sampleHost goInOrder sampleLocalOrphan true
        ([(sampleNewAtQ.Key, sampleNewAtQ)], [])
      = (([(sampleNewAtQ.Key, sampleNewAtQ)], ["stat /r/p", "stat /r/q"]),
          some (.createExists "/r/q")) :=
  ((updateProjects_tests_before_runs sampleHost goInOrder sampleLocalOrphan true
      ([(sampleNewAtQ.Key, sampleNewAtQ)], []) ([(sampleNewAtQ.Key, sampleNewAtQ)], [])
      (by decide)).1 [sampleDelete true] [] sampleCreateAtQ (.createExists "/r/q")
      (by decide) (by decide) (by decide)).trans (by decide)

/-! ## Properties of the run of a delete operation -/

/-- C26, as stated, fails where git fails: with `gc` set, in the directory
`/r/broken` of the sample host the run of a delete operation returns the error
of git; it neither removes the source nor returns success. -/
theorem delete_run_returns_git_error :
    deleteOperation.Run sampleHost (sampleDeleteAt "/r/broken") true []
      = (["git branch in /r/broken"], some (.external "git branch failed")) := by
  decide

/-- The run of a delete operation with `gc` set on a project whose single
branch is not `master`: the source is removed. -/
theorem delete_run_removes_single_other_branch :
    sampleHost.gitGetBranches [] "/r/dev" = (["git branch in /r/dev"], .ok (["dev"], "dev"))
      ∧ deleteOperation.Run sampleHost (sampleDeleteAt "/r/dev") true []
          = (["git branch in /r/dev", "git diff in /r/dev", "git status in /r/dev",
              "rm -rf /r/dev"], none) := by
  decide

/-- C26, amended: without `gc` the run of a delete operation prints a note
and returns success, and makes no other call.  With `gc`, when the three
queries of git succeed: if the branches are `master` alone and there are
neither uncommitted changes nor untracked files, the run is the call of
`RemoveAll` for the source and returns its result; if the number of branches
is not one, or there are uncommitted changes or untracked files, the run
prints a note and returns success, and makes no other call.  When a query
fails the run returns its error and makes no further call. -/
theorem delete_run_removes_only_when_clean {W : Type} (sys : Host W) (op : commonOperation)
    (w : W) :
    deleteOperation.Run sys op false w
        = (sys.output w (.orphanNotDeleted op.project.Name op.source), none)
      ∧ (∀ w1 w2 w3 branches current uncommitted untracked,
          sys.gitGetBranches w op.project.Path = (w1, .ok (branches, current)) →
          sys.gitHasUncommittedChanges w1 op.project.Path = (w2, .ok uncommitted) →
          sys.gitHasUntrackedFiles w2 op.project.Path = (w3, .ok untracked) →
          (branches = ["master"] → uncommitted = false → untracked = false →
              deleteOperation.Run sys op true w = externalError (sys.removeAll w3 op.source))
            ∧ (branches.length ≠ 1 ∨ uncommitted = true ∨ untracked = true →
              deleteOperation.Run sys op true w
                = (sys.output w3 (.uncleanNotDeleted op.project.Name), none)))
      ∧ (∀ w1 msg, sys.gitGetBranches w op.project.Path = (w1, .error msg) →
          deleteOperation.Run sys op true w = (w1, some (.external msg)))
      ∧ (∀ w1 w2 found msg, sys.gitGetBranches w op.project.Path = (w1, .ok found) →
          sys.gitHasUncommittedChanges w1 op.project.Path = (w2, .error msg) →
          deleteOperation.Run sys op true w = (w2, some (.external msg)))
      ∧ (∀ w1 w2 w3 found uncommitted msg,
          sys.gitGetBranches w op.project.Path = (w1, .ok found) →
          sys.gitHasUncommittedChanges w1 op.project.Path = (w2, .ok uncommitted) →
          sys.gitHasUntrackedFiles w2 op.project.Path = (w3, .error msg) →
          deleteOperation.Run sys op true w = (w3, some (.external msg))) := by
  refine ⟨?_, ?_, ?_, ?_, ?_⟩
  · simp [deleteOperation.Run]
  · intro w1 w2 w3 branches current uncommitted untracked h1 h2 h3
    constructor
    · intro hb hu ht
      simp [deleteOperation.Run, h1, h2, h3, hb, hu, ht]
    · intro hc
      unfold deleteOperation.Run
      simp only [h1, h2, h3, if_true]
      rw [if_pos hc]
  · intro w1 msg h1
    simp [deleteOperation.Run, h1]
  · intro w1 w2 found msg h1 h2
    obtain ⟨branches, current⟩ := found
    simp [deleteOperation.Run, h1, h2]
  · intro w1 w2 w3 found uncommitted msg h1 h2 h3
    obtain ⟨branches, current⟩ := found
    simp [deleteOperation.Run, h1, h2, h3]

/-- Witness of C26 amended: on the sample host the project in `/r/old` has the branch
`master` alone and is clean, and the run of its deletion with `gc` removes
`/r/old`; the project in `/r/two` has two branches and stays. -/
theorem delete_run_removes_only_when_clean_witness :
    deleteOperation.Run sampleHost (sampleDeleteAt "/r/old") true []
        = (["git branch in /r/old", "git diff in /r/old", "git status in /r/old",
            "rm -rf /r/old"], none)
      ∧ deleteOperation.Run sampleHost (sampleDeleteAt "/r/two") true []
        = (["git branch in /r/two", "git diff in /r/two", "git status in /r/two",
            "note: old is not clean and will not be deleted"], none)
      ∧ deleteOperation.Run sampleHost (sampleDeleteAt "/r/old") false []
        = (["note: old was not removed"], none) :=
  ⟨(((delete_run_removes_only_when_clean sampleHost (sampleDeleteAt "/r/old") []).2.1
      ["git branch in /r/old"] ["git branch in /r/old", "git diff in /r/old"]
      ["git branch in /r/old", "git diff in /r/old", "git status in /r/old"]
      ["master"] "master" false false (by decide) (by decide) (by decide)).1 rfl rfl rfl).trans
      (by decide),
    (((delete_run_removes_only_when_clean sampleHost (sampleDeleteAt "/r/two") []).2.1
      ["git branch in /r/two"] ["git branch in /r/two", "git diff in /r/two"]
      ["git branch in /r/two", "git diff in /r/two", "git status in /r/two"]
      ["master", "dev"] "master" false false (by decide) (by decide) (by decide)).2
      (Or.inl (by decide))).trans (by decide),
    ((delete_run_removes_only_when_clean sampleHost (sampleDeleteAt "/r/old") []).1).trans
      (by decide)⟩

/-! ## Properties of `resetProjectCurrentBranch` -/

/-- C29: for every project whose name is valid, `resetProjectCurrentBranch`
is the reset to the revision of the project when that is neither empty nor
`HEAD`, and otherwise the reset to `origin/` followed by the remote branch,
`master` standing in for an empty one.  The variables of the program, among
them the project of the caller, are what they were. -/
theorem reset_revision_trumps_branch {L W : Type} (sys : System W) (project : Project)
    (s : L × W) (hvalid : project.validate = none) :
    (project.Revision ≠ "" → project.Revision ≠ "HEAD" →
        resetProjectCurrentBranch sys project s
          = onWorld (fun w => sys.gitReset w project.Revision) s)
      ∧ (project.Revision = "" ∨ project.Revision = "HEAD" →
          resetProjectCurrentBranch sys project s
            = onWorld
                (fun w => sys.gitReset w ("origin/" ++ orDefault project.RemoteBranch "master"))
                s)
      ∧ (resetProjectCurrentBranch sys project s).1.1 = s.1 := by
  have hname : '=' ∉ project.Name.data := (project_validate_eq_none_iff project).1 hvalid
  have hsnd : (Project.fillDefaults project).2 = none := by
    by_contra hc
    exact hname ((project_fillDefaults_snd project).1 hc)
  have hfill : Project.fillDefaults project
      = ({ project with RemoteBranch := orDefault project.RemoteBranch "master",
                        Revision := orDefault project.Revision "HEAD" }, none) := by
    rw [← project_fillDefaults_fst, ← hsnd]
  have hrev : resetProjectCurrentBranch sys project s
      = if orDefault project.Revision "HEAD" ≠ "HEAD" then
          onWorld (fun w => sys.gitReset w (orDefault project.Revision "HEAD")) s
        else
          onWorld
            (fun w => sys.gitReset w ("origin/" ++ orDefault project.RemoteBranch "master")) s := by
    unfold resetProjectCurrentBranch
    rw [hfill]
  refine ⟨fun h1 h2 => ?_, fun h => ?_, ?_⟩
  · rw [hrev]
    simp [orDefault, h1, h2]
  · rw [hrev]
    rcases h with h | h <;> simp [orDefault, h]
  · rw [hrev]
    split <;> rfl

/-- Witness of C29: on the sample host the project `samplePinned`, with
revision `abc` and remote branch `dev`, is reset to `abc`, and the project
`sampleBare`, with neither, is reset to `origin/master`. -/
theorem reset_revision_trumps_branch_witness :
    resetProjectCurrentBranch sampleLogSystem samplePinned (samplePinned, [])
        = ((samplePinned, ["git reset abc"]), none)
      ∧ resetProjectCurrentBranch sampleLogSystem sampleBare (sampleBare, [])
        = ((sampleBare, ["git reset origin/master"]), none) :=
  ⟨((reset_revision_trumps_branch sampleLogSystem samplePinned (samplePinned, [])
      (by decide)).1 (by decide) (by decide)).trans (by decide),
    ((reset_revision_trumps_branch sampleLogSystem sampleBare (sampleBare, [])
      (by decide)).2.1 (Or.inl rfl)).trans (by decide)⟩


/-! ## The relative paths that come back from a base -/

theorem dropCommon_append_left (C X Y : List (List Char)) :
    dropCommon (C ++ X) (C ++ Y) = dropCommon X Y := by
  induction C with
  | nil => rfl
  | cons c C ih => simp [dropCommon, ih]

theorem dropCommon_of_heads (X Y : List (List Char))
    (h : ∀ b t, X.head? = some b → Y.head? = some t → b ≠ t) :
    dropCommon X Y = (X, Y) := by
  cases X with
  | nil => cases Y <;> rfl
  | cons b X =>
    cases Y with
    | nil => rfl
    | cons t Y =>
      have := h b t rfl rfl
      simp [dropCommon, this]

/-- What `dropCommon` returns: the two lists without a common beginning, the
rests beginning differently. -/
theorem dropCommon_spec (X Y : List (List Char)) :
    ∃ C, X = C ++ (dropCommon X Y).1 ∧ Y = C ++ (dropCommon X Y).2
      ∧ ∀ b t, (dropCommon X Y).1.head? = some b → (dropCommon X Y).2.head? = some t →
          b ≠ t := by
  induction X generalizing Y with
  | nil =>
    refine ⟨[], ?_, ?_, ?_⟩ <;> cases Y <;> simp [dropCommon]
  | cons b X ih =>
    cases Y with
    | nil => exact ⟨[], by simp [dropCommon], by simp [dropCommon], by simp [dropCommon]⟩
    | cons t Y =>
      by_cases hbt : b = t
      · subst hbt
        obtain ⟨C, h1, h2, h3⟩ := ih Y
        refine ⟨b :: C, ?_, ?_, ?_⟩
        · simp only [dropCommon, if_true, List.cons_append]
          rw [← h1]
        · simp only [dropCommon, if_true, List.cons_append]
          rw [← h2]
        · simpa [dropCommon] using h3
      · refine ⟨[], ?_, ?_, ?_⟩
        · simp [dropCommon, hbt]
        · simp [dropCommon, hbt]
        · intro b' t' h1 h2
          simp only [dropCommon, hbt, if_false, List.head?_cons, Option.some.injEq] at h1 h2
          rw [← h1, ← h2]
          exact hbt

/-- Two rooted paths of normal elements are equal only if their elements
are. -/
theorem rooted_inj (X Y : List (List Char))
    (hX : ∀ e ∈ X, (e ≠ [] ∧ e ≠ ['.'] ∧ e ≠ ['.', '.']) ∧ '/' ∉ e)
    (hY : ∀ e ∈ Y, (e ≠ [] ∧ e ≠ ['.'] ∧ e ≠ ['.', '.']) ∧ '/' ∉ e)
    (h : String.mk ('/' :: joinSlash X) = String.mk ('/' :: joinSlash Y)) : X = Y := by
  have e1 := pathElems_rooted X (fun e he => ⟨(hX e he).1.1, (hX e he).2⟩)
  have e2 := pathElems_rooted Y (fun e he => ⟨(hY e he).1.1, (hY e he).2⟩)
  have := congrArg (fun s : String => pathElems s.data) h
  simp only [e1, e2, List.cons.injEq, true_and] at this
  exact this

theorem baseElems_normal (R : String) :
    ∀ e ∈ baseElems R, (e ≠ [] ∧ e ≠ ['.'] ∧ e ≠ ['.', '.']) ∧ '/' ∉ e :=
  fun e he => base_stack_normal R e (List.mem_reverse.mp he)

theorem filepathClean_abs (R : String) (hR : filepathIsAbs R = true) :
    filepathClean R = String.mk ('/' :: joinSlash (baseElems R)) :=
  filepathClean_rooted R (by simpa [filepathIsAbs] using hR)

/-- What `filepath.Rel` returns from an absolute base to an absolute path: `.`
when the two have the same clean form, and otherwise one `..` for every
element of the base after the common beginning, followed by the elements of
the path after the common beginning. -/
theorem filepathRel_abs (R x : String) (hR : filepathIsAbs R = true)
    (hx : filepathIsAbs x = true) :
    filepathRel R x
      = .ok (if baseElems x = baseElems R then "."
          else String.mk (joinSlash
            (List.replicate (dropCommon (baseElems R) (baseElems x)).1.length ['.', '.']
              ++ (dropCommon (baseElems R) (baseElems x)).2))) := by
  have hB := baseElems_normal R
  have hE := baseElems_normal x
  unfold filepathRel
  rw [filepathClean_abs R hR, filepathClean_abs x hx]
  by_cases hEB : baseElems x = baseElems R
  · rw [hEB]
    simp
  · have hne : String.mk ('/' :: joinSlash (baseElems x))
        ≠ String.mk ('/' :: joinSlash (baseElems R)) :=
      fun h => hEB (rooted_inj (baseElems x) (baseElems R) hE hB h)
    have hdot : String.mk ('/' :: joinSlash (baseElems R)) ≠ "." := by
      intro heq
      have := congrArg String.data heq
      simp at this
    have habs : ∀ es : List (List Char),
        filepathIsAbs (String.mk ('/' :: joinSlash es)) = true := fun _ => rfl
    have e1 := pathElems_rooted (baseElems R) (fun e he => ⟨(hB e he).1.1, (hB e he).2⟩)
    have e2 := pathElems_rooted (baseElems x) (fun e he => ⟨(hE e he).1.1, (hE e he).2⟩)
    simp only [hne, hdot, hEB, if_false, habs, ne_eq, not_true_eq_false, e1, e2]
    have hd : dropCommon ([] :: baseElems R) ([] :: baseElems x)
        = dropCommon (baseElems R) (baseElems x) := by
      simp [dropCommon]
    rw [hd]
    obtain ⟨C, h1, _, _⟩ := dropCommon_spec (baseElems R) (baseElems x)
    rcases hdc : dropCommon (baseElems R) (baseElems x) with ⟨X, Y⟩
    rw [hdc] at h1
    simp only at h1
    cases X with
    | nil => simp
    | cons b bs =>
      have hb : b ≠ ['.', '.'] := (hB b (by rw [h1]; simp)).1.2.2
      cases Y with
      | nil => simp [List.map_const', List.replicate_succ]
      | cons t ts => simp [hb, List.map_const', List.replicate_succ]

/-- The elements of a rooted path of normal elements. -/
theorem baseElems_rooted (E : List (List Char))
    (hE : ∀ e ∈ E, (e ≠ [] ∧ e ≠ ['.'] ∧ e ≠ ['.', '.']) ∧ '/' ∉ e) :
    baseElems (String.mk ('/' :: joinSlash E)) = E := by
  have h1 := filepathClean_abs (String.mk ('/' :: joinSlash E)) rfl
  rw [filepathClean_of_normal E hE] at h1
  exact (rooted_inj E _ hE (baseElems_normal _) h1).symm

/-- Joining a path to an absolute base. -/
theorem filepathJoin_abs (R f : String) (hR : filepathIsAbs R = true) :
    filepathJoin R f = String.mk ('/' :: joinSlash (baseElems (R ++ "/" ++ f))) := by
  have hR' : R.data.head? = some '/' := by simpa [filepathIsAbs] using hR
  have hne : R ≠ "" := string_ne_empty_of_head R '/' hR'
  unfold filepathJoin
  rw [if_pos hne]
  apply filepathClean_abs
  rcases R with ⟨data⟩
  cases data with
  | nil => simp at hR'
  | cons c cs =>
    simp only [List.head?_cons, Option.some.injEq] at hR'
    simp [filepathIsAbs, String.data_append, hR']

/-- The elements of a path joined to an absolute base are what `filepath.Clean`
makes of the elements of the path on top of the elements of the base. -/
theorem baseElems_join (R f : String) :
    baseElems (R ++ "/" ++ f)
      = ((splitSlash f.data).foldl (cleanStep true) (baseElems R).reverse).reverse := by
  unfold baseElems
  simp only [String.data_append, List.reverse_reverse]
  rw [List.append_assoc, List.singleton_append, splitSlash_append, List.foldl_append]

theorem foldl_cleanStep_dots (S : List (List Char))
    (hS : ∀ e ∈ S, (e ≠ [] ∧ e ≠ ['.'] ∧ e ≠ ['.', '.']) ∧ '/' ∉ e) (k : Nat)
    (hk : k ≤ S.length) :
    (List.replicate k ['.', '.']).foldl (cleanStep true) S = S.drop k := by
  induction k generalizing S with
  | zero => rfl
  | succ k ih =>
    cases S with
    | nil => simp at hk
    | cons top rest =>
      have htop : top ≠ ['.', '.'] := (hS top (List.mem_cons_self _ _)).1.2.2
      rw [List.replicate_succ, List.foldl_cons]
      have hstep : cleanStep true (top :: rest) ['.', '.'] = rest := by
        simp [cleanStep, htop]
      rw [hstep, ih rest (fun e he => hS e (List.mem_cons_of_mem _ he))
        (by simpa using hk)]
      rfl

/-- A path whose elements are not empty and have no separator in them does
not begin with the separator. -/
theorem joinSlash_head (L : List (List Char)) (h : ∀ e ∈ L, e ≠ [] ∧ '/' ∉ e) :
    (joinSlash L).head? ≠ some '/' := by
  cases L with
  | nil => simp [joinSlash]
  | cons e L =>
    obtain ⟨hne, hs⟩ := h e (List.mem_cons_self _ _)
    cases e with
    | nil => exact absurd rfl hne
    | cons c cs =>
      have hc : c ≠ '/' := fun hc => hs (by simp [hc])
      cases L with
      | nil => simpa [joinSlash] using hc
      | cons e' L => simpa [joinSlash] using hc

/-- The join of `.` to a base has the elements of the base. -/
theorem baseElems_join_dot (R : String) : baseElems (R ++ "/" ++ ".") = baseElems R := by
  rw [baseElems_join]
  have : (".": String).data = ['.'] := rfl
  rw [this]
  simp [splitSlash, cleanStep]

/-- The join of `k` elements `..` and normal elements `T` to a base with at
least `k` elements: the base without its last `k` elements, followed by `T`. -/
theorem baseElems_join_relative (R f : String) (k : Nat) (T : List (List Char))
    (hf : f.data = joinSlash (List.replicate k ['.', '.'] ++ T))
    (hne : List.replicate k ['.', '.'] ++ T ≠ [])
    (hT : ∀ e ∈ T, (e ≠ [] ∧ e ≠ ['.'] ∧ e ≠ ['.', '.']) ∧ '/' ∉ e)
    (hk : k ≤ (baseElems R).length) :
    baseElems (R ++ "/" ++ f)
      = (baseElems R).take ((baseElems R).length - k) ++ T := by
  have hslash : ∀ e ∈ List.replicate k ['.', '.'] ++ T, '/' ∉ e := by
    intro e he
    rcases List.mem_append.mp he with he | he
    · rw [(List.mem_replicate.mp he).2]
      decide
    · exact (hT e he).2
  have hS : ∀ e ∈ (baseElems R).reverse,
      (e ≠ [] ∧ e ≠ ['.'] ∧ e ≠ ['.', '.']) ∧ '/' ∉ e :=
    fun e he => baseElems_normal R e (List.mem_reverse.mp he)
  rw [baseElems_join, hf, splitSlash_joinSlash _ hne hslash, List.foldl_append,
    foldl_cleanStep_dots _ hS k (by simpa using hk),
    foldl_cleanStep_of_normal true _ T (fun e he => (hT e he).1), List.reverse_append,
    List.reverse_reverse, List.drop_reverse, List.reverse_reverse]

/-- A relative path that `filepath.Rel` writes is not absolute. -/
theorem relative_not_abs (f : String) (k : Nat) (T : List (List Char))
    (hf : f.data = joinSlash (List.replicate k ['.', '.'] ++ T))
    (hT : ∀ e ∈ T, (e ≠ [] ∧ e ≠ ['.'] ∧ e ≠ ['.', '.']) ∧ '/' ∉ e) :
    filepathIsAbs f = false := by
  have h := joinSlash_head (List.replicate k ['.', '.'] ++ T) (by
    intro e he
    rcases List.mem_append.mp he with he | he
    · rw [(List.mem_replicate.mp he).2]
      decide
    · exact ⟨(hT e he).1.1, (hT e he).2⟩)
  unfold filepathIsAbs
  rw [hf]
  simpa using h

/-- One path field through `absolutizePaths` and `relativizePaths` with an
absolute base: the second step never fails, and the field comes back exactly
when it is a relative path that `filepath.Rel` writes from the base. -/
theorem field_comes_back_iff (R f : String) (hR : filepathIsAbs R = true) :
    ∃ g, relativizeField R (absolutizeField R f) = .ok g ∧ (g = f ↔ IsRelativeFrom R f) := by
  have hB := baseElems_normal R
  by_cases hempty : f = ""
  · subst hempty
    refine ⟨"", by simp [absolutizeField, relativizeField, filepathIsAbs], ?_⟩
    simp only [true_iff]
    exact Or.inr ⟨0, [], rfl, by simp, by simp, by simp⟩
  by_cases habs : filepathIsAbs f = true
  · -- an absolute path is left alone and then made relative
    have ha : absolutizeField R f = f := by simp [absolutizeField, habs]
    rw [ha]
    unfold relativizeField
    rw [if_pos habs, filepathRel_abs R f hR habs]
    refine ⟨_, rfl, ?_⟩
    obtain ⟨C, _, h2, _⟩ := dropCommon_spec (baseElems R) (baseElems f)
    have hY : ∀ e ∈ (dropCommon (baseElems R) (baseElems f)).2,
        (e ≠ [] ∧ e ≠ ['.'] ∧ e ≠ ['.', '.']) ∧ '/' ∉ e := by
      intro e he
      apply baseElems_normal f
      rw [h2]
      exact List.mem_append_right _ he
    constructor
    · intro hg
      exfalso
      have hfa : filepathIsAbs f = false := by
        rw [← hg]
        split
        · rfl
        · exact relative_not_abs _ _ _ rfl hY
      rw [habs] at hfa
      exact absurd hfa (by simp)
    · intro hrel
      exfalso
      rcases hrel with rfl | ⟨k, T, hf, hT, _, _⟩
      · exact absurd habs (by decide)
      · rw [relative_not_abs f k T hf hT] at habs
        exact absurd habs (by simp)
  · -- a relative path is joined to the base and then made relative
    have habs' : filepathIsAbs f = false := by simpa using habs
    have ha : absolutizeField R f = filepathJoin R f := by
      simp [absolutizeField, hempty, habs']
    have hE := baseElems_normal (R ++ "/" ++ f)
    rw [ha, filepathJoin_abs R f hR]
    unfold relativizeField
    have hrooted : ∀ es : List (List Char),
        filepathIsAbs (String.mk ('/' :: joinSlash es)) = true := fun _ => rfl
    rw [if_pos (hrooted _), filepathRel_abs R _ hR (hrooted _), baseElems_rooted _ hE]
    refine ⟨_, rfl, ?_⟩
    obtain ⟨C, h1, h2, h3⟩ := dropCommon_spec (baseElems R) (baseElems (R ++ "/" ++ f))
    constructor
    · intro hg
      by_cases hEB : baseElems (R ++ "/" ++ f) = baseElems R
      · rw [if_pos hEB] at hg
        exact Or.inl hg.symm
      · rw [if_neg hEB] at hg
        refine Or.inr ⟨(dropCommon (baseElems R) (baseElems (R ++ "/" ++ f))).1.length,
          (dropCommon (baseElems R) (baseElems (R ++ "/" ++ f))).2, ?_, ?_, ?_, ?_⟩
        · exact (congrArg String.data hg).symm
        · intro e he
          apply hE
          rw [h2]
          exact List.mem_append_right _ he
        · have := congrArg List.length h1
          rw [List.length_append] at this
          omega
        · have hlen : (baseElems R).length
              - (dropCommon (baseElems R) (baseElems (R ++ "/" ++ f))).1.length = C.length := by
            have := congrArg List.length h1
            rw [List.length_append] at this
            omega
          have hdrop : (baseElems R).drop C.length
              = (dropCommon (baseElems R) (baseElems (R ++ "/" ++ f))).1 := by
            conv_lhs => rw [h1]
            simp
          rw [hlen, hdrop]
          exact h3
    · intro hrel
      rcases hrel with rfl | ⟨k, T, hf, hT, hk, hheads⟩
      · rw [baseElems_join_dot, if_pos rfl]
      · have hne : List.replicate k ['.', '.'] ++ T ≠ [] := by
          intro hnil
          apply hempty
          rw [hnil] at hf
          rcases f with ⟨data⟩
          simp only [joinSlash] at hf
          subst hf
          rfl
        have hjoin := baseElems_join_relative R f k T hf hne hT hk
        have hsplit : baseElems R
            = (baseElems R).take ((baseElems R).length - k)
              ++ (baseElems R).drop ((baseElems R).length - k) :=
          (List.take_append_drop _ _).symm
        have hdroplen : ((baseElems R).drop ((baseElems R).length - k)).length = k := by
          rw [List.length_drop]
          omega
        have hEB : baseElems (R ++ "/" ++ f) ≠ baseElems R := by
          intro heq
          rw [hjoin] at heq
          have hT' : T = (baseElems R).drop ((baseElems R).length - k) := by
            have := heq.trans hsplit
            exact List.append_cancel_left this
          cases hTc : T with
          | nil =>
            rw [hTc] at hT'
            have hk0 : k = 0 := by
              rw [← hdroplen, ← hT']
              rfl
            rw [hTc, hk0] at hne
            exact hne rfl
          | cons t ts =>
            have h1' : ((baseElems R).drop ((baseElems R).length - k)).head? = some t := by
              rw [← hT', hTc]
              rfl
            exact hheads t t h1' (by rw [hTc]; rfl) rfl
        have hdc : dropCommon (baseElems R) (baseElems (R ++ "/" ++ f))
            = ((baseElems R).drop ((baseElems R).length - k), T) := by
          rw [hjoin]
          have hleft := dropCommon_append_left
            ((baseElems R).take ((baseElems R).length - k))
            ((baseElems R).drop ((baseElems R).length - k)) T
          rw [List.take_append_drop] at hleft
          rw [hleft]
          exact dropCommon_of_heads _ _ hheads
        rw [if_neg hEB, hdc]
        simp only [hdroplen]
        rw [← hf]

theorem absolutizePaths_fields (p : Project) (R : String) :
    p.absolutizePaths R
      = { p with Path := absolutizeField R p.Path,
                 GitHooks := absolutizeField R p.GitHooks,
                 RunHook := absolutizeField R p.RunHook } := by
  obtain ⟨name, path, remote, branch, rev, gerrit, hooks, run⟩ := p
  unfold Project.absolutizePaths absolutizeField
  simp only
  split <;> split <;> split <;> rfl

theorem relativizePaths_fields (q : Project) (R g1 g2 g3 : String)
    (h1 : relativizeField R q.Path = .ok g1) (h2 : relativizeField R q.GitHooks = .ok g2)
    (h3 : relativizeField R q.RunHook = .ok g3) :
    q.relativizePaths R = ({ q with Path := g1, GitHooks := g2, RunHook := g3 }, none) := by
  obtain ⟨name, path, remote, branch, rev, gerrit, hooks, run⟩ := q
  unfold relativizeField at h1 h2 h3
  simp only at h1 h2 h3
  unfold Project.relativizePaths
  simp only [h1, h2, h3]

/-- C20, amended: for every absolute base path `R` and every project,
`absolutizePaths(R)` followed by `relativizePaths(R)` succeeds, and it gives
back the project, every field included, if and only if each of `Path`,
`GitHooks` and `RunHook` is a relative path that `filepath.Rel` writes from
`R`: empty, or `.`, or `k` elements `..` followed by elements other than `.`
and `..` with single separators, `k` not exceeding the number of elements of
the clean base and the element after the last `..`, if any, differing from
the element of the base that the first `..` leaves. -/
theorem relativize_absolutize_restores_iff (p : Project) (R : String)
    (hR : filepathIsAbs R = true) :
    ((p.absolutizePaths R).relativizePaths R).2 = none
      ∧ ((p.absolutizePaths R).relativizePaths R = (p, none)
          ↔ IsRelativeFrom R p.Path ∧ IsRelativeFrom R p.GitHooks
            ∧ IsRelativeFrom R p.RunHook) := by
  obtain ⟨g1, h1, i1⟩ := field_comes_back_iff R p.Path hR
  obtain ⟨g2, h2, i2⟩ := field_comes_back_iff R p.GitHooks hR
  obtain ⟨g3, h3, i3⟩ := field_comes_back_iff R p.RunHook hR
  have hall := relativizePaths_fields (p.absolutizePaths R) R g1 g2 g3
    (by rw [absolutizePaths_fields]; exact h1) (by rw [absolutizePaths_fields]; exact h2)
    (by rw [absolutizePaths_fields]; exact h3)
  rw [hall, ← i1, ← i2, ← i3, absolutizePaths_fields]
  obtain ⟨name, path, remote, branch, rev, gerrit, hooks, run⟩ := p
  simp

/-- Witness of C20 amended: from the base `/r` the project `sampleUpward`
comes back: its path `../x/y` goes up one directory and then down into other
ones than `r`, its hooks directory is `.`, and its hook is `run/hook`. -/
theorem relativize_absolutize_restores_iff_witness :
    (sampleUpward.absolutizePaths "/r").Path = "/x/y"
      ∧ (sampleUpward.absolutizePaths "/r").GitHooks = "/r"
      ∧ (sampleUpward.absolutizePaths "/r").relativizePaths "/r" = (sampleUpward, none) :=
  ⟨by decide, by decide,
    (relativize_absolutize_restores_iff sampleUpward "/r" (by decide)).2.2
      ⟨Or.inr ⟨1, [['x'], ['y']], by decide, by decide, by decide, by
          intro b t hb ht
          have hbase : baseElems "/r" = [['r']] := by decide
          rw [hbase] at hb
          simp only [List.length_singleton, Nat.sub_self, List.drop_zero, List.head?_cons,
            Option.some.injEq] at hb ht
          rw [← hb, ← ht]
          decide⟩,
        Or.inl rfl,
        Or.inr ⟨0, [['r', 'u', 'n'], ['h', 'o', 'o', 'k']], by decide, by decide, by decide, by
          intro b t hb ht
          have hbase : baseElems "/r" = [['r']] := by decide
          rw [hbase] at hb
          simp at hb⟩⟩⟩


/-! ## The XML codec: UTF-8 -/

theorem toNat_ofNat_byte (n : Nat) (h : n < 256) : (UInt8.ofNat n).toNat = n :=
  UInt8.toNat_ofNat_of_lt h

theorem char_toNat_valid (c : Char) : c.toNat.isValidChar := c.valid

theorem decodeRune_encodeRune (c : Char) (rest : List UInt8) :
    decodeRune (encodeRune c ++ rest) = some (c, (encodeRune c).length) := by
  have hv := char_toNat_valid c
  have hc := Char.ofNat_toNat c
  have hlt : c.toNat < 0x110000 := by
    rcases hv with h | ⟨_, h⟩
    · exact lt_trans h (by decide)
    · exact h
  unfold encodeRune
  simp only []
  generalize c.toNat = n at hv hc hlt
  by_cases h1 : n < 0x80
  · simp only [h1, if_true, List.singleton_append, decodeRune]
    rw [toNat_ofNat_byte n (by omega)]
    simp only [h1, if_true, hc, List.length_singleton]
  · by_cases h2 : n < 0x800
    · simp only [h1, h2, if_true, if_false, List.cons_append, List.nil_append, decodeRune,
        continuation]
      rw [toNat_ofNat_byte (0xC0 + n / 0x40) (by omega), toNat_ofNat_byte (0x80 + n % 0x40) (by omega)]
      have e : (0xC0 + n / 0x40 - 0xC0) * 0x40 + (0x80 + n % 0x40 - 0x80) = n := by omega
      have a1 : ¬ (0xC0 + n / 0x40 < 0x80) := by omega
      have a2 : ¬ (0xC0 + n / 0x40 < 0xC0) := by omega
      have a3 : 0xC0 + n / 0x40 < 0xE0 := by omega
      have a4 : 0x80 ≤ 0x80 + n % 0x40 ∧ 0x80 + n % 0x40 < 0xC0 := by omega
      simp only [a1, a2, a3, a4, if_true, if_false, and_self, e, runeOfNat]
      have a5 : 0x80 ≤ n ∧ n.isValidChar := ⟨by omega, hv⟩
      simp only [a5, and_self, if_true, hc, Option.map_some', List.length_cons, List.length_nil]
    · by_cases h3 : n < 0x10000
      · simp only [h1, h2, h3, if_true, if_false, List.cons_append, List.nil_append, decodeRune,
          continuation]
        rw [toNat_ofNat_byte (0xE0 + n / 0x1000) (by omega),
          toNat_ofNat_byte (0x80 + n / 0x40 % 0x40) (by omega),
          toNat_ofNat_byte (0x80 + n % 0x40) (by omega)]
        have e : (0xE0 + n / 0x1000 - 0xE0) * 0x1000 + (0x80 + n / 0x40 % 0x40 - 0x80) * 0x40
            + (0x80 + n % 0x40 - 0x80) = n := by omega
        have a1 : ¬ (0xE0 + n / 0x1000 < 0x80) := by omega
        have a2 : ¬ (0xE0 + n / 0x1000 < 0xC0) := by omega
        have a3 : ¬ (0xE0 + n / 0x1000 < 0xE0) := by omega
        have a3' : 0xE0 + n / 0x1000 < 0xF0 := by omega
        have a4 : 0x80 ≤ 0x80 + n % 0x40 ∧ 0x80 + n % 0x40 < 0xC0 := by omega
        have a4' : 0x80 ≤ 0x80 + n / 0x40 % 0x40 ∧ 0x80 + n / 0x40 % 0x40 < 0xC0 := by omega
        simp only [a1, a2, a3, a3', a4, a4', if_true, if_false, and_self, e, runeOfNat]
        have a5 : 0x800 ≤ n ∧ n.isValidChar := ⟨by omega, hv⟩
        simp only [a5, and_self, if_true, hc, Option.map_some', List.length_cons, List.length_nil]
      · simp only [h1, h2, h3, if_true, if_false, List.cons_append, List.nil_append, decodeRune,
          continuation]
        rw [toNat_ofNat_byte (0xF0 + n / 0x40000) (by omega),
          toNat_ofNat_byte (0x80 + n / 0x1000 % 0x40) (by omega),
          toNat_ofNat_byte (0x80 + n / 0x40 % 0x40) (by omega),
          toNat_ofNat_byte (0x80 + n % 0x40) (by omega)]
        have e : (0xF0 + n / 0x40000 - 0xF0) * 0x40000 + (0x80 + n / 0x1000 % 0x40 - 0x80) * 0x1000
            + (0x80 + n / 0x40 % 0x40 - 0x80) * 0x40 + (0x80 + n % 0x40 - 0x80) = n := by omega
        have a1 : ¬ (0xF0 + n / 0x40000 < 0x80) := by omega
        have a2 : ¬ (0xF0 + n / 0x40000 < 0xC0) := by omega
        have a3 : ¬ (0xF0 + n / 0x40000 < 0xE0) := by omega
        have a3' : ¬ (0xF0 + n / 0x40000 < 0xF0) := by omega
        have a3'' : 0xF0 + n / 0x40000 < 0xF8 := by omega
        have a4 : 0x80 ≤ 0x80 + n % 0x40 ∧ 0x80 + n % 0x40 < 0xC0 := by omega
        have a4' : 0x80 ≤ 0x80 + n / 0x40 % 0x40 ∧ 0x80 + n / 0x40 % 0x40 < 0xC0 := by omega
        have a4'' : 0x80 ≤ 0x80 + n / 0x1000 % 0x40 ∧ 0x80 + n / 0x1000 % 0x40 < 0xC0 := by omega
        simp only [a1, a2, a3, a3', a3'', a4, a4', a4'', if_true, if_false, and_self, e, runeOfNat]
        have a5 : 0x10000 ≤ n ∧ n.isValidChar := ⟨by omega, hv⟩
        simp only [a5, and_self, if_true, hc, Option.map_some', List.length_cons, List.length_nil]

theorem encodeRune_length_pos (c : Char) : 0 < (encodeRune c).length := by
  unfold encodeRune
  simp only []
  split_ifs <;> simp

theorem decodeRunesFrom_skip (a rest : List UInt8) :
    decodeRunesFrom a.length (a ++ rest) = decodeRunesFrom 0 rest := by
  induction a with
  | nil => rfl
  | cons x a ih => simpa [decodeRunesFrom] using ih

theorem decodeRunes_append (c : Char) (rest : List UInt8) :
    decodeRunes (encodeRune c ++ rest) = (decodeRunes rest).map (c :: ·) := by
  have h := decodeRune_encodeRune c rest
  have hp := encodeRune_length_pos c
  unfold decodeRunes
  rcases he : encodeRune c with _ | ⟨b, bs⟩
  · rw [he] at hp; simp at hp
  · rw [he] at h
    simp only [List.cons_append] at h ⊢
    rw [decodeRunesFrom, h]
    simp only [List.length_cons, Nat.add_sub_cancel]
    rw [decodeRunesFrom_skip]

theorem decodeRunes_stringBytes (s : List Char) : decodeRunes (stringBytes s) = some s := by
  induction s with
  | nil => rfl
  | cons c s ih =>
    have : stringBytes (c :: s) = encodeRune c ++ stringBytes s := by
      simp [stringBytes]
    rw [this, decodeRunes_append, ih]
    rfl

/-! ## The XML codec: attribute values -/

theorem xmlRun_append (s : XmlState) (a b : List UInt8) :
    xmlRun s (a ++ b) = xmlRun (xmlRun s a) b := by
  simp [xmlRun, List.foldl_append]

theorem xmlRun_cons (s : XmlState) (a : UInt8) (b : List UInt8) :
    xmlRun s (a :: b) = xmlRun (xmlStep s a) b := rfl

theorem xmlRun_nil (s : XmlState) : xmlRun s [] = s := rfl

theorem xmlStep_value_plain (tag : List UInt8) (attrs : List XmlAttr) (name : List UInt8)
    (buf : List UInt8) (b0 b1 : Nat) (st : List (List UInt8)) (m : Manifest) (b : UInt8)
    (hb : IsPlainByte b) :
    xmlStep ⟨.attrValue tag attrs name 34 ⟨buf, b0, b1, .outside⟩, st, m⟩ b
      = ⟨.attrValue tag attrs name 34 ⟨buf ++ [b], b1, b.toNat, .outside⟩, st, m⟩ := by
  obtain ⟨h10, h13, h34, h38, h60, h62⟩ := hb
  have hq : b ≠ 34 := fun h => h34 (by rw [h]; rfl)
  simp [xmlStep, XmlText.step, h10, h13, h34, h38, h60, h62, hq]

theorem xmlRun_value_plain (tag : List UInt8) (attrs : List XmlAttr) (name : List UInt8)
    (st : List (List UInt8)) (m : Manifest) (bytes : List UInt8) :
    ∀ (buf : List UInt8) (b0 b1 : Nat), (∀ b ∈ bytes, IsPlainByte b) →
    ∃ b0' b1', xmlRun ⟨.attrValue tag attrs name 34 ⟨buf, b0, b1, .outside⟩, st, m⟩ bytes
      = ⟨.attrValue tag attrs name 34 ⟨buf ++ bytes, b0', b1', .outside⟩, st, m⟩ := by
  induction bytes with
  | nil => intro buf b0 b1 _; exact ⟨b0, b1, by simp [xmlRun]⟩
  | cons b bytes ih =>
    intro buf b0 b1 h
    rw [xmlRun_cons, xmlStep_value_plain _ _ _ _ _ _ _ _ _ (h b (List.mem_cons_self _ _))]
    obtain ⟨b0', b1', e⟩ := ih (buf ++ [b]) b1 b.toNat
      (fun x hx => h x (List.mem_cons_of_mem _ hx))
    exact ⟨b0', b1', by rw [e]; simp⟩

theorem encodeRune_plain (c : Char)
    (h : c.toNat ≠ 10 ∧ c.toNat ≠ 13 ∧ c.toNat ≠ 34 ∧ c.toNat ≠ 38 ∧ c.toNat ≠ 60
      ∧ c.toNat ≠ 62) :
    ∀ b ∈ encodeRune c, IsPlainByte b := by
  have hv := char_toNat_valid c
  have hlt : c.toNat < 0x110000 := by
    rcases hv with h | ⟨_, h⟩
    · exact lt_trans h (by decide)
    · exact h
  unfold encodeRune IsPlainByte
  simp only []
  generalize c.toNat = n at h hlt
  intro b hb
  split_ifs at hb with h1 h2 h3
  · simp only [List.mem_singleton] at hb
    subst hb
    rw [toNat_ofNat_byte n (by omega)]
    exact h
  · simp only [List.mem_cons, List.mem_singleton, List.not_mem_nil, or_false] at hb
    rcases hb with hb | hb <;> subst hb
    · rw [toNat_ofNat_byte _ (by omega)]; omega
    · rw [toNat_ofNat_byte _ (by omega)]; omega
  · simp only [List.mem_cons, List.mem_singleton, List.not_mem_nil, or_false] at hb
    rcases hb with hb | hb | hb <;> subst hb
    · rw [toNat_ofNat_byte _ (by omega)]; omega
    · rw [toNat_ofNat_byte _ (by omega)]; omega
    · rw [toNat_ofNat_byte _ (by omega)]; omega
  · simp only [List.mem_cons, List.mem_singleton, List.not_mem_nil, or_false] at hb
    rcases hb with hb | hb | hb | hb <;> subst hb
    · rw [toNat_ofNat_byte _ (by omega)]; omega
    · rw [toNat_ofNat_byte _ (by omega)]; omega
    · rw [toNat_ofNat_byte _ (by omega)]; omega
    · rw [toNat_ofNat_byte _ (by omega)]; omega

theorem xmlStep_value_amp (tag : List UInt8) (attrs : List XmlAttr) (name : List UInt8)
    (buf : List UInt8) (b0 b1 : Nat) (st : List (List UInt8)) (m : Manifest) :
    xmlStep ⟨.attrValue tag attrs name 34 ⟨buf, b0, b1, .outside⟩, st, m⟩ 38
      = ⟨.attrValue tag attrs name 34 ⟨buf, b0, b1, .amp⟩, st, m⟩ := by
  have h2 : (38 : UInt8) ≠ 34 := by decide
  simp [xmlStep, XmlText.step, h2, UInt8.size]

theorem xmlRun_value_escape (tag : List UInt8) (attrs : List XmlAttr) (name : List UInt8)
    (buf : List UInt8) (b0 b1 : Nat) (st : List (List UInt8)) (m : Manifest) (c : Char)
    (h : c = Char.ofNat 34 ∨ c = Char.ofNat 39 ∨ c = Char.ofNat 38 ∨ c = Char.ofNat 60
      ∨ c = Char.ofNat 62 ∨ c = Char.ofNat 9 ∨ c = Char.ofNat 10 ∨ c = Char.ofNat 13) :
    xmlRun ⟨.attrValue tag attrs name 34 ⟨buf, b0, b1, .outside⟩, st, m⟩ (escapeRune c)
      = ⟨.attrValue tag attrs name 34 ⟨buf ++ encodeRune c, 0, 0, .outside⟩, st, m⟩ := by
  rcases h with h | h | h | h | h | h | h | h <;> subst h
  · rw [show escapeRune (Char.ofNat 34) = 38 :: asciiBytes "#34;" by decide, xmlRun_cons, xmlStep_value_amp]
    rfl
  · rw [show escapeRune (Char.ofNat 39) = 38 :: asciiBytes "#39;" by decide, xmlRun_cons, xmlStep_value_amp]
    rfl
  · rw [show escapeRune (Char.ofNat 38) = 38 :: asciiBytes "amp;" by decide, xmlRun_cons, xmlStep_value_amp]
    rfl
  · rw [show escapeRune (Char.ofNat 60) = 38 :: asciiBytes "lt;" by decide, xmlRun_cons, xmlStep_value_amp]
    rfl
  · rw [show escapeRune (Char.ofNat 62) = 38 :: asciiBytes "gt;" by decide, xmlRun_cons, xmlStep_value_amp]
    rfl
  · rw [show escapeRune (Char.ofNat 9) = 38 :: asciiBytes "#x9;" by decide, xmlRun_cons, xmlStep_value_amp]
    rfl
  · rw [show escapeRune (Char.ofNat 10) = 38 :: asciiBytes "#xA;" by decide, xmlRun_cons, xmlStep_value_amp]
    rfl
  · rw [show escapeRune (Char.ofNat 13) = 38 :: asciiBytes "#xD;" by decide, xmlRun_cons, xmlStep_value_amp]
    rfl

theorem char_ne_of_toNat (c : Char) (n : Nat) (h : c ≠ Char.ofNat n) : c.toNat ≠ n := by
  intro e
  apply h
  rw [← e, Char.ofNat_toNat]

theorem sanitizeRune_inRange (c : Char) : isInCharacterRange (sanitizeRune c).toNat = true := by
  unfold sanitizeRune
  split_ifs with h
  · exact h
  · decide

theorem xmlRun_value_rune (tag : List UInt8) (attrs : List XmlAttr) (name : List UInt8)
    (buf : List UInt8) (b0 b1 : Nat) (st : List (List UInt8)) (m : Manifest) (c : Char) :
    ∃ b0' b1',
      xmlRun ⟨.attrValue tag attrs name 34 ⟨buf, b0, b1, .outside⟩, st, m⟩ (escapeRune c)
        = ⟨.attrValue tag attrs name 34
            ⟨buf ++ encodeRune (sanitizeRune c), b0', b1', .outside⟩, st, m⟩ := by
  by_cases h : c = Char.ofNat 34 ∨ c = Char.ofNat 39 ∨ c = Char.ofNat 38 ∨ c = Char.ofNat 60
      ∨ c = Char.ofNat 62 ∨ c = Char.ofNat 9 ∨ c = Char.ofNat 10
      ∨ c = Char.ofNat 13
  · refine ⟨0, 0, ?_⟩
    rw [xmlRun_value_escape _ _ _ _ _ _ _ _ c h]
    have : sanitizeRune c = c := by
      rcases h with h | h | h | h | h | h | h | h <;> subst h <;> decide
    rw [this]
  · simp only [not_or] at h
    obtain ⟨h1, h2, h3, h4, h5, h6, h7, h8⟩ := h
    have e : escapeRune c = encodeRune (sanitizeRune c) := by
      unfold escapeRune sanitizeRune
      simp only [h1, h2, h3, h4, h5, h6, h7, h8, if_false]
      by_cases hr : isInCharacterRange c.toNat = true
      · simp [hr]
      · simp [hr]
    rw [e]
    apply xmlRun_value_plain
    apply encodeRune_plain
    unfold sanitizeRune
    split_ifs
    · exact ⟨char_ne_of_toNat c 10 h7, char_ne_of_toNat c 13 h8, char_ne_of_toNat c 34 h1,
        char_ne_of_toNat c 38 h3, char_ne_of_toNat c 60 h4, char_ne_of_toNat c 62 h5⟩
    · decide

theorem xmlRun_value_runes (tag : List UInt8) (attrs : List XmlAttr) (name : List UInt8)
    (st : List (List UInt8)) (m : Manifest) (s : List Char) :
    ∀ (buf : List UInt8) (b0 b1 : Nat), ∃ b0' b1',
      xmlRun ⟨.attrValue tag attrs name 34 ⟨buf, b0, b1, .outside⟩, st, m⟩
          (s.flatMap escapeRune)
        = ⟨.attrValue tag attrs name 34
            ⟨buf ++ stringBytes (s.map sanitizeRune), b0', b1', .outside⟩, st, m⟩ := by
  induction s with
  | nil => intro buf b0 b1; exact ⟨b0, b1, by simp [xmlRun, stringBytes]⟩
  | cons c s ih =>
    intro buf b0 b1
    obtain ⟨c0, c1, e⟩ := xmlRun_value_rune tag attrs name buf b0 b1 st m c
    obtain ⟨d0, d1, e'⟩ := ih (buf ++ encodeRune (sanitizeRune c)) c0 c1
    refine ⟨d0, d1, ?_⟩
    rw [List.flatMap_cons, xmlRun_append, e, e']
    simp [stringBytes, List.flatMap_cons]

theorem xmlStep_value_end (tag : List UInt8) (attrs : List XmlAttr) (name : List UInt8)
    (b0 b1 : Nat) (st : List (List UInt8)) (m : Manifest) (s : String) :
    xmlStep ⟨.attrValue tag attrs name 34
        ⟨stringBytes (sanitizeString s).data, b0, b1, .outside⟩, st, m⟩ 34
      = ⟨.inTag tag (attrs ++ [(name, sanitizeString s)]), st, m⟩ := by
  have hall : (sanitizeString s).data.all (fun c => isInCharacterRange c.toNat) = true := by
    simp only [sanitizeString, List.all_eq_true, List.mem_map]
    rintro c ⟨x, _, rfl⟩
    exact sanitizeRune_inRange x
  simp [xmlStep, XmlText.finish, decodeRunes_stringBytes, hall, UInt8.size]

theorem xmlRun_value (tag : List UInt8) (attrs : List XmlAttr) (name : List UInt8)
    (st : List (List UInt8)) (m : Manifest) (s : String) :
    xmlRun ⟨.attrValue tag attrs name 34 XmlText.start, st, m⟩ (escapeString s ++ [34])
      = ⟨.inTag tag (attrs ++ [(name, sanitizeString s)]), st, m⟩ := by
  obtain ⟨b0, b1, e⟩ := xmlRun_value_runes tag attrs name st m s.data [] 0 0
  rw [xmlRun_append, escapeString]
  unfold XmlText.start
  rw [e, xmlRun_cons, xmlRun_nil, List.nil_append]
  exact xmlStep_value_end tag attrs name b0 b1 st m s

/-! ## The XML codec: tags -/

theorem isNameByte_facts (b : UInt8) (h : isNameByte b = true) :
    isSpaceByte b = false ∧ b.toNat ≠ 47 ∧ b.toNat ≠ 62 ∧ b.toNat ≠ 61 := by
  unfold isNameByte at h
  unfold isSpaceByte
  simp only [Bool.or_eq_true, Bool.and_eq_true, decide_eq_true_eq, beq_iff_eq] at h
  simp only [Bool.or_eq_false_iff, beq_eq_false_iff_ne, ne_eq]
  omega

theorem xmlRun_attrName (tag : List UInt8) (attrs : List XmlAttr) (st : List (List UInt8))
    (m : Manifest) (bytes : List UInt8) :
    ∀ acc : List UInt8, (∀ b ∈ bytes, isNameByte b = true) →
      xmlRun ⟨.attrName tag attrs acc, st, m⟩ bytes = ⟨.attrName tag attrs (acc ++ bytes), st, m⟩ := by
  induction bytes with
  | nil => intro acc _; simp [xmlRun]
  | cons b bytes ih =>
    intro acc h
    have hb := h b (List.mem_cons_self _ _)
    rw [xmlRun_cons]
    have : xmlStep ⟨.attrName tag attrs acc, st, m⟩ b = ⟨.attrName tag attrs (acc ++ [b]), st, m⟩ := by
      simp [xmlStep, hb]
    rw [this, ih _ (fun x hx => h x (List.mem_cons_of_mem _ hx))]
    simp

theorem xmlRun_attr_start (tag : List UInt8) (attrs : List XmlAttr) (st : List (List UInt8))
    (m : Manifest) (name : List UInt8) (hn : isPlainName name = true) :
    xmlRun ⟨.inTag tag attrs, st, m⟩ (32 :: name ++ [61, 34])
      = ⟨.attrValue tag attrs name 34 XmlText.start, st, m⟩ := by
  unfold isPlainName at hn
  simp only [Bool.and_eq_true, List.all_eq_true, Option.isNone_iff_eq_none] at hn
  obtain ⟨hall, hcheck⟩ := hn
  rcases name with _ | ⟨b, bs⟩
  · simp [checkName] at hcheck
  · have hb := hall b (List.mem_cons_self _ _)
    obtain ⟨f1, f2, f3, f4⟩ := isNameByte_facts b hb
    have s1 : xmlStep ⟨.inTag tag attrs, st, m⟩ 32 = ⟨.inTag tag attrs, st, m⟩ := rfl
    have s2 : xmlStep ⟨.inTag tag attrs, st, m⟩ b = ⟨.attrName tag attrs [b], st, m⟩ := by
      simp [xmlStep, XmlState.inTagStep, f1, f2, f3, hb]
    have s3 : xmlStep ⟨.attrName tag attrs (b :: bs), st, m⟩ 61
        = ⟨.attrQuote tag attrs (b :: bs), st, m⟩ := by
      have : isNameByte 61 = false := by decide
      have h2 : isSpaceByte 61 = false := by decide
      simp [xmlStep, this, hcheck, XmlState.attrEqStep, h2, UInt8.size]
    have s4 : xmlStep ⟨.attrQuote tag attrs (b :: bs), st, m⟩ 34
        = ⟨.attrValue tag attrs (b :: bs) 34 XmlText.start, st, m⟩ := rfl
    rw [List.cons_append, xmlRun_cons, s1, List.cons_append, xmlRun_cons, s2, xmlRun_append,
      xmlRun_attrName _ _ _ _ _ _ (fun x hx => hall x (List.mem_cons_of_mem _ hx))]
    simp only [List.singleton_append, xmlRun_cons, xmlRun_nil, s3, s4]

theorem asciiBytes_append (a b : String) : asciiBytes (a ++ b) = asciiBytes a ++ asciiBytes b := by
  simp [asciiBytes]

theorem xmlRun_attr (tag : List UInt8) (attrs : List XmlAttr) (st : List (List UInt8))
    (m : Manifest) (a : String × String) (hn : isPlainName (asciiBytes a.1) = true) :
    xmlRun ⟨.inTag tag attrs, st, m⟩ (marshalAttr a)
      = ⟨.inTag tag (attrs ++ readAttrs [a]), st, m⟩ := by
  unfold marshalAttr readAttrs
  by_cases h : a.2 = ""
  · simp [h, xmlRun]
  · simp only [h, if_false, List.flatMap_cons, List.flatMap_nil, List.append_nil]
    have e : asciiBytes " " ++ asciiBytes a.1 ++ asciiBytes "=\"" ++ escapeString a.2
        ++ asciiBytes "\"" = (32 :: asciiBytes a.1 ++ [61, 34]) ++ (escapeString a.2 ++ [34]) := by
      have e1 : asciiBytes " " = [32] := by decide
      have e2 : asciiBytes "=\"" = [61, 34] := by decide
      have e3 : asciiBytes "\"" = [34] := by decide
      rw [e1, e2, e3]
      simp
    rw [e, xmlRun_append, xmlRun_attr_start _ _ _ _ _ hn, xmlRun_value]

theorem readAttrs_append (a b : List (String × String)) :
    readAttrs (a ++ b) = readAttrs a ++ readAttrs b := by
  simp [readAttrs]

theorem xmlRun_attrs (tag : List UInt8) (st : List (List UInt8)) (m : Manifest)
    (as : List (String × String)) :
    ∀ attrs : List XmlAttr, (∀ a ∈ as, isPlainName (asciiBytes a.1) = true) →
      xmlRun ⟨.inTag tag attrs, st, m⟩ (as.flatMap marshalAttr)
        = ⟨.inTag tag (attrs ++ readAttrs as), st, m⟩ := by
  induction as with
  | nil => intro attrs _; simp [xmlRun, readAttrs]
  | cons a as ih =>
    intro attrs h
    rw [List.flatMap_cons, xmlRun_append, xmlRun_attr _ _ _ _ _ (h a (List.mem_cons_self _ _)),
      ih _ (fun x hx => h x (List.mem_cons_of_mem _ hx))]
    rw [show a :: as = [a] ++ as from rfl, readAttrs_append, List.append_assoc]

theorem isNameByte_facts' (b : UInt8) (h : isNameByte b = true) :
    b.toNat ≠ 47 ∧ b.toNat ≠ 63 ∧ b.toNat ≠ 33 := by
  unfold isNameByte at h
  simp only [Bool.or_eq_true, Bool.and_eq_true, decide_eq_true_eq, beq_iff_eq] at h
  omega

theorem xmlRun_startName_acc (st : List (List UInt8)) (m : Manifest) (bytes : List UInt8) :
    ∀ acc : List UInt8, (∀ b ∈ bytes, isNameByte b = true) →
      xmlRun ⟨.startName acc, st, m⟩ bytes = ⟨.startName (acc ++ bytes), st, m⟩ := by
  induction bytes with
  | nil => intro acc _; simp [xmlRun]
  | cons b bytes ih =>
    intro acc h
    have hb := h b (List.mem_cons_self _ _)
    rw [xmlRun_cons]
    have : xmlStep ⟨.startName acc, st, m⟩ b = ⟨.startName (acc ++ [b]), st, m⟩ := by
      simp [xmlStep, hb]
    rw [this, ih _ (fun x hx => h x (List.mem_cons_of_mem _ hx))]
    simp

theorem xmlRun_startName (st : List (List UInt8)) (m : Manifest) (name : List UInt8)
    (hn : isPlainName name = true) :
    xmlRun ⟨.tagOpen, st, m⟩ name = ⟨.startName name, st, m⟩ := by
  unfold isPlainName at hn
  simp only [Bool.and_eq_true, List.all_eq_true, Option.isNone_iff_eq_none] at hn
  obtain ⟨hall, hcheck⟩ := hn
  rcases name with _ | ⟨b, bs⟩
  · simp [checkName] at hcheck
  · have hb := hall b (List.mem_cons_self _ _)
    obtain ⟨f1, f2, f3⟩ := isNameByte_facts' b hb
    have s1 : xmlStep ⟨.tagOpen, st, m⟩ b = ⟨.startName [b], st, m⟩ := by
      simp [xmlStep, f1, f2, f3, hb]
    rw [xmlRun_cons, s1, xmlRun_startName_acc _ _ _ _ (fun x hx => hall x (List.mem_cons_of_mem _ hx))]
    rfl

theorem xmlStep_startName_end (st : List (List UInt8)) (m : Manifest) (name : List UInt8)
    (b : UInt8) (hn : isPlainName name = true) (hb : isNameByte b = false)
    (h128 : b.toNat < 128) :
    xmlStep ⟨.startName name, st, m⟩ b = xmlStep ⟨.inTag name [], st, m⟩ b := by
  unfold isPlainName at hn
  simp only [Bool.and_eq_true, List.all_eq_true, Option.isNone_iff_eq_none] at hn
  have h' : ¬ 128 ≤ b.toNat := by omega
  simp [xmlStep, hb, h', hn.2, XmlState.inTagStep, XmlState.openTag]

theorem marshalAttrs_head (as : List (String × String)) :
    as.flatMap marshalAttr = [] ∨ ∃ t, as.flatMap marshalAttr = 32 :: t := by
  induction as with
  | nil => left; rfl
  | cons a as ih =>
    rw [List.flatMap_cons]
    by_cases h : a.2 = ""
    · simpa [marshalAttr, h] using ih
    · right
      have e1 : asciiBytes " " = [32] := by decide
      simp [marshalAttr, h, e1]

theorem xmlRun_tag (st : List (List UInt8)) (m : Manifest) (name : String)
    (as : List (String × String)) (b : UInt8) (rest : List UInt8)
    (hn : isPlainName (asciiBytes name) = true)
    (has : ∀ a ∈ as, isPlainName (asciiBytes a.1) = true)
    (hb : isNameByte b = false) (h128 : b.toNat < 128) :
    xmlRun ⟨.tagOpen, st, m⟩ (asciiBytes name ++ as.flatMap marshalAttr ++ b :: rest)
      = xmlRun (xmlStep ⟨.inTag (asciiBytes name) (readAttrs as), st, m⟩ b) rest := by
  rw [List.append_assoc, xmlRun_append, xmlRun_startName _ _ _ hn]
  rcases marshalAttrs_head as with h | ⟨t, h⟩
  · have hr : readAttrs as = [] := by
      have := xmlRun_attrs (asciiBytes name) st m as [] has
      rw [h] at this
      simp only [xmlRun_nil, List.nil_append] at this
      injection this with h1
      injection h1 with _ h2
      exact h2.symm
    rw [h, hr, List.nil_append, xmlRun_cons, xmlStep_startName_end _ _ _ _ hn hb h128]
  · have e := xmlRun_attrs (asciiBytes name) st m as [] has
    rw [h] at e ⊢
    rw [List.cons_append, xmlRun_cons, xmlStep_startName_end _ _ _ _ hn (by decide) (by decide),
      ← xmlRun_cons, ← List.cons_append, xmlRun_append, e, List.nil_append, xmlRun_cons]

/-! ## The XML codec: elements -/

theorem sanitizeString_empty : sanitizeString "" = "" := rfl

theorem foldl_readAttrs_cons {P : Type} (f : P → XmlAttr → P) (p : P) (n v : String)
    (rest : List (String × String)) (h : v = "" → f p (asciiBytes n, "") = p) :
    (readAttrs ((n, v) :: rest)).foldl f p
      = (readAttrs rest).foldl f (f p (asciiBytes n, sanitizeString v)) := by
  rw [show (n, v) :: rest = [(n, v)] ++ rest from rfl, readAttrs_append, List.foldl_append]
  by_cases hv : v = ""
  · subst hv
    rw [sanitizeString_empty, h rfl]
    rfl
  · simp [readAttrs, hv]

theorem foldl_readAttrs_nil {P : Type} (f : P → XmlAttr → P) (p : P) :
    (readAttrs []).foldl f p = p := rfl

theorem import_read_attrs (i : Import) :
    (readAttrs i.attrs).foldl Import.setAttr Import.zero = i.sanitize := by
  unfold Import.attrs
  rw [foldl_readAttrs_cons _ _ _ _ _ (fun _ => rfl), foldl_readAttrs_cons _ _ _ _ _ (fun _ => rfl),
    foldl_readAttrs_cons _ _ _ _ _ (fun _ => rfl), foldl_readAttrs_cons _ _ _ _ _ (fun _ => rfl),
    foldl_readAttrs_cons _ _ _ _ _ (fun _ => rfl), foldl_readAttrs_nil]
  rfl

theorem localImport_read_attrs (i : LocalImport) :
    (readAttrs i.attrs).foldl LocalImport.setAttr { File := "" } = i.sanitize := by
  unfold LocalImport.attrs
  rw [foldl_readAttrs_cons _ _ _ _ _ (fun _ => rfl), foldl_readAttrs_nil]
  rfl

theorem project_read_attrs (p : Project) :
    (readAttrs p.attrs).foldl Project.setAttr Project.zero = p.sanitize := by
  unfold Project.attrs
  rw [foldl_readAttrs_cons _ _ _ _ _ (fun _ => rfl), foldl_readAttrs_cons _ _ _ _ _ (fun _ => rfl),
    foldl_readAttrs_cons _ _ _ _ _ (fun _ => rfl), foldl_readAttrs_cons _ _ _ _ _ (fun _ => rfl),
    foldl_readAttrs_cons _ _ _ _ _ (fun _ => rfl), foldl_readAttrs_cons _ _ _ _ _ (fun _ => rfl),
    foldl_readAttrs_cons _ _ _ _ _ (fun _ => rfl), foldl_readAttrs_cons _ _ _ _ _ (fun _ => rfl),
    foldl_readAttrs_nil]
  rfl

theorem tool_read_attrs (t : Tool) :
    (readAttrs t.attrs).foldl Tool.setAttr Tool.zero = t.sanitize := by
  unfold Tool.attrs
  rw [foldl_readAttrs_cons _ _ _ _ _ (fun _ => rfl), foldl_readAttrs_cons _ _ _ _ _ (fun _ => rfl),
    foldl_readAttrs_cons _ _ _ _ _ (fun _ => rfl), foldl_readAttrs_cons _ _ _ _ _ (fun _ => rfl),
    foldl_readAttrs_nil]
  rfl

theorem manifest_read_attrs (m : Manifest) (path : String) (h : m.SnapshotPath = "") :
    (readAttrs [("snapshotpath", path)]).foldl Manifest.setAttr m
      = { m with SnapshotPath := sanitizeString path } := by
  rw [foldl_readAttrs_cons _ _ _ _ _ (fun _ => by
    show { m with SnapshotPath := "" } = m
    rw [← h]), foldl_readAttrs_nil]
  rfl

theorem xmlRun_element (st : List (List UInt8)) (m : Manifest) (name : String)
    (as : List (String × String)) (hn : isPlainName (asciiBytes name) = true)
    (has : ∀ a ∈ as, isPlainName (asciiBytes a.1) = true) :
    xmlRun ⟨.content XmlText.start, st, m⟩ (10 :: compactElement name as)
      = XmlState.openTag ⟨.emptyEnd (asciiBytes name) (readAttrs as), st, m⟩
          (asciiBytes name) (readAttrs as) true := by
  have e : 10 :: compactElement name as
      = [10, 32, 32, 32, 32, 60] ++ (asciiBytes name ++ as.flatMap marshalAttr ++ 47 :: [62]) := by
    unfold compactElement marshalStart
    have e1 : asciiBytes "    " = [32, 32, 32, 32] := by decide
    have e2 : asciiBytes "<" = [60] := by decide
    have e3 : asciiBytes "/>" = [47, 62] := by decide
    rw [e1, e2, e3]
    simp
  have s1 : xmlRun ⟨.content XmlText.start, st, m⟩ [10, 32, 32, 32, 32, 60] = ⟨.tagOpen, st, m⟩ :=
    rfl
  rw [e, xmlRun_append, s1, xmlRun_tag st m name as 47 [62] hn has (by decide) (by decide)]
  rfl

theorem plain_names (names : List String) (h : names.all (fun n => isPlainName (asciiBytes n)) = true)
    (as : List (String × String)) (e : as.map Prod.fst = names) :
    ∀ a ∈ as, isPlainName (asciiBytes a.1) = true := by
  intro a ha
  have h1 : a.1 ∈ names := e ▸ List.mem_map_of_mem Prod.fst ha
  exact List.all_eq_true.1 h _ h1

theorem import_attrs_plain (i : Import) : ∀ a ∈ i.attrs, isPlainName (asciiBytes a.1) = true :=
  plain_names ["manifest", "name", "remote", "remotebranch", "root"] (by decide) _ rfl

theorem localImport_attrs_plain (i : LocalImport) :
    ∀ a ∈ i.attrs, isPlainName (asciiBytes a.1) = true :=
  plain_names ["file"] (by decide) _ rfl

theorem project_attrs_plain (p : Project) : ∀ a ∈ p.attrs, isPlainName (asciiBytes a.1) = true :=
  plain_names ["name", "path", "remote", "remotebranch", "revision", "gerrithost", "githooks",
    "runhook"] (by decide) _ rfl

theorem tool_attrs_plain (t : Tool) : ∀ a ∈ t.attrs, isPlainName (asciiBytes a.1) = true :=
  plain_names ["data", "name", "package", "project"] (by decide) _ rfl

theorem xmlRun_imports (root : List UInt8) (is : List Import) :
    ∀ m : Manifest,
      xmlRun ⟨.content XmlText.start, [asciiBytes "imports", root], m⟩
          (is.flatMap (fun i => 10 :: compactElement "import" i.attrs))
        = ⟨.content XmlText.start, [asciiBytes "imports", root],
            { m with Imports := m.Imports ++ is.map Import.sanitize }⟩ := by
  induction is with
  | nil => intro m; simp [xmlRun]
  | cons i is ih =>
    intro m
    rw [List.flatMap_cons, xmlRun_append,
      xmlRun_element _ _ "import" i.attrs (by decide) (import_attrs_plain _)]
    have : XmlState.openTag
        ⟨.emptyEnd (asciiBytes "import") (readAttrs i.attrs), [asciiBytes "imports", root], m⟩
        (asciiBytes "import") (readAttrs i.attrs) true
        = ⟨.content XmlText.start, [asciiBytes "imports", root],
            { m with Imports := m.Imports ++ [(readAttrs i.attrs).foldl Import.setAttr Import.zero] }⟩ :=
      rfl
    rw [this, ih, import_read_attrs]
    simp

theorem xmlRun_localImports (root : List UInt8) (is : List LocalImport) :
    ∀ m : Manifest,
      xmlRun ⟨.content XmlText.start, [asciiBytes "imports", root], m⟩
          (is.flatMap (fun i => 10 :: compactElement "localimport" i.attrs))
        = ⟨.content XmlText.start, [asciiBytes "imports", root],
            { m with LocalImports := m.LocalImports ++ is.map LocalImport.sanitize }⟩ := by
  induction is with
  | nil => intro m; simp [xmlRun]
  | cons i is ih =>
    intro m
    rw [List.flatMap_cons, xmlRun_append,
      xmlRun_element _ _ "localimport" i.attrs (by decide) (localImport_attrs_plain _)]
    have : XmlState.openTag
        ⟨.emptyEnd (asciiBytes "localimport") (readAttrs i.attrs), [asciiBytes "imports", root], m⟩
        (asciiBytes "localimport") (readAttrs i.attrs) true
        = ⟨.content XmlText.start, [asciiBytes "imports", root],
            { m with LocalImports :=
                m.LocalImports ++ [(readAttrs i.attrs).foldl LocalImport.setAttr { File := "" }] }⟩ :=
      rfl
    rw [this, ih, localImport_read_attrs]
    simp

theorem xmlRun_projects (root : List UInt8) (ps : List Project) :
    ∀ m : Manifest,
      xmlRun ⟨.content XmlText.start, [asciiBytes "projects", root], m⟩
          (ps.flatMap (fun p => 10 :: compactElement "project" p.attrs))
        = ⟨.content XmlText.start, [asciiBytes "projects", root],
            { m with Projects := m.Projects ++ ps.map Project.sanitize }⟩ := by
  induction ps with
  | nil => intro m; simp [xmlRun]
  | cons p ps ih =>
    intro m
    rw [List.flatMap_cons, xmlRun_append,
      xmlRun_element _ _ "project" p.attrs (by decide) (project_attrs_plain _)]
    have : XmlState.openTag
        ⟨.emptyEnd (asciiBytes "project") (readAttrs p.attrs), [asciiBytes "projects", root], m⟩
        (asciiBytes "project") (readAttrs p.attrs) true
        = ⟨.content XmlText.start, [asciiBytes "projects", root],
            { m with Projects := m.Projects ++ [(readAttrs p.attrs).foldl Project.setAttr Project.zero] }⟩ :=
      rfl
    rw [this, ih, project_read_attrs]
    simp

theorem xmlRun_tools (root : List UInt8) (ts : List Tool) :
    ∀ m : Manifest,
      xmlRun ⟨.content XmlText.start, [asciiBytes "tools", root], m⟩
          (ts.flatMap (fun t => 10 :: compactElement "tool" t.attrs))
        = ⟨.content XmlText.start, [asciiBytes "tools", root],
            { m with Tools := m.Tools ++ ts.map Tool.sanitize }⟩ := by
  induction ts with
  | nil => intro m; simp [xmlRun]
  | cons t ts ih =>
    intro m
    rw [List.flatMap_cons, xmlRun_append,
      xmlRun_element _ _ "tool" t.attrs (by decide) (tool_attrs_plain _)]
    have : XmlState.openTag
        ⟨.emptyEnd (asciiBytes "tool") (readAttrs t.attrs), [asciiBytes "tools", root], m⟩
        (asciiBytes "tool") (readAttrs t.attrs) true
        = ⟨.content XmlText.start, [asciiBytes "tools", root],
            { m with Tools := m.Tools ++ [(readAttrs t.attrs).foldl Tool.setAttr Tool.zero] }⟩ :=
      rfl
    rw [this, ih, tool_read_attrs]
    simp

/-! ## The XML codec: reading a compact document -/

theorem joinLines_cons (l : List UInt8) (ls : List (List UInt8)) :
    joinLines (l :: ls) = l ++ ls.flatMap (10 :: ·) := by
  induction ls generalizing l with
  | nil => simp [joinLines]
  | cons l' ls ih => rw [joinLines, ih, List.flatMap_cons]; simp

theorem xmlRun_parent_imports (root : List UInt8) (is : List Import) (ls : List LocalImport)
    (m : Manifest) :
    xmlRun ⟨.content XmlText.start, [root], m⟩
        ((compactParent "imports"
          (is.map (fun i => compactElement "import" i.attrs)
            ++ ls.map (fun i => compactElement "localimport" i.attrs))).flatMap (10 :: ·))
      = ⟨.content XmlText.start, [root],
          { m with Imports := m.Imports ++ is.map Import.sanitize,
                   LocalImports := m.LocalImports ++ ls.map LocalImport.sanitize }⟩ := by
  unfold compactParent
  split_ifs with h
  · simp only [List.append_eq_nil, List.map_eq_nil_iff] at h
    obtain ⟨rfl, rfl⟩ := h
    simp [xmlRun]
  · rw [List.flatMap_append, List.flatMap_append, xmlRun_append, xmlRun_append,
      List.flatMap_append, xmlRun_append, List.flatMap_map, List.flatMap_map]
    have s1 : xmlRun ⟨.content XmlText.start, [root], m⟩
        ([asciiBytes "  <" ++ asciiBytes "imports" ++ asciiBytes ">"].flatMap (10 :: ·))
        = ⟨.content XmlText.start, [asciiBytes "imports", root], m⟩ := rfl
    rw [s1, xmlRun_imports, xmlRun_localImports]
    rfl

theorem xmlRun_parent_projects (root : List UInt8) (ps : List Project) (m : Manifest) :
    xmlRun ⟨.content XmlText.start, [root], m⟩
        ((compactParent "projects"
          (ps.map (fun p => compactElement "project" p.attrs))).flatMap (10 :: ·))
      = ⟨.content XmlText.start, [root],
          { m with Projects := m.Projects ++ ps.map Project.sanitize }⟩ := by
  unfold compactParent
  split_ifs with h
  · simp only [List.map_eq_nil_iff] at h
    subst h
    simp [xmlRun]
  · rw [List.flatMap_append, List.flatMap_append, xmlRun_append, xmlRun_append,
      List.flatMap_map]
    have s1 : xmlRun ⟨.content XmlText.start, [root], m⟩
        ([asciiBytes "  <" ++ asciiBytes "projects" ++ asciiBytes ">"].flatMap (10 :: ·))
        = ⟨.content XmlText.start, [asciiBytes "projects", root], m⟩ := rfl
    rw [s1, xmlRun_projects]
    rfl

theorem xmlRun_parent_tools (root : List UInt8) (ts : List Tool) (m : Manifest) :
    xmlRun ⟨.content XmlText.start, [root], m⟩
        ((compactParent "tools"
          (ts.map (fun t => compactElement "tool" t.attrs))).flatMap (10 :: ·))
      = ⟨.content XmlText.start, [root],
          { m with Tools := m.Tools ++ ts.map Tool.sanitize }⟩ := by
  unfold compactParent
  split_ifs with h
  · simp only [List.map_eq_nil_iff] at h
    subst h
    simp [xmlRun]
  · rw [List.flatMap_append, List.flatMap_append, xmlRun_append, xmlRun_append,
      List.flatMap_map]
    have s1 : xmlRun ⟨.content XmlText.start, [root], m⟩
        ([asciiBytes "  <" ++ asciiBytes "tools" ++ asciiBytes ">"].flatMap (10 :: ·))
        = ⟨.content XmlText.start, [asciiBytes "tools", root], m⟩ := rfl
    rw [s1, xmlRun_tools]
    rfl

theorem xmlRun_root (path : String) :
    xmlRun XmlState.start (marshalStart "manifest" [("snapshotpath", path)] ++ asciiBytes ">")
      = ⟨.content XmlText.start, [asciiBytes "manifest"],
          { Manifest.zero with SnapshotPath := sanitizeString path }⟩ := by
  have e : marshalStart "manifest" [("snapshotpath", path)] ++ asciiBytes ">"
      = [60] ++ (asciiBytes "manifest" ++ [("snapshotpath", path)].flatMap marshalAttr
          ++ 62 :: []) := by
    unfold marshalStart
    have e1 : asciiBytes "<" = [60] := by decide
    have e2 : asciiBytes ">" = [62] := by decide
    rw [e1, e2]
    simp
  have s1 : xmlRun XmlState.start [60] = ⟨.tagOpen, [], Manifest.zero⟩ := rfl
  rw [e, xmlRun_append, s1,
    xmlRun_tag [] Manifest.zero "manifest" _ 62 [] (by decide)
      (plain_names ["snapshotpath"] (by decide) [("snapshotpath", path)] rfl) (by decide) (by decide), xmlRun_nil]
  have s2 : xmlStep ⟨.inTag (asciiBytes "manifest") (readAttrs [("snapshotpath", path)]), [],
        Manifest.zero⟩ 62
      = ⟨.content XmlText.start, [asciiBytes "manifest"],
          (readAttrs [("snapshotpath", path)]).foldl Manifest.setAttr Manifest.zero⟩ := rfl
  rw [s2, manifest_read_attrs _ _ rfl]

/-- The decoder reads the compact document of a manifest as the manifest with
every character XML cannot carry replaced. -/
theorem xmlUnmarshal_compact (u : Manifest) :
    xmlUnmarshal (joinLines (compactLines u) ++ [10]) = .ok u.sanitize := by
  have hrun : xmlRun XmlState.start (joinLines (compactLines u) ++ [10])
      = ⟨.done, [], u.sanitize⟩ := by
    have e : joinLines (compactLines u) ++ [10]
        = (marshalStart "manifest" [("snapshotpath", u.SnapshotPath)] ++ asciiBytes ">")
          ++ ((compactParent "imports"
                (u.Imports.map (fun i => compactElement "import" i.attrs)
                  ++ u.LocalImports.map (fun i => compactElement "localimport" i.attrs))).flatMap
                (10 :: ·)
            ++ ((compactParent "projects"
                  (u.Projects.map (fun p => compactElement "project" p.attrs))).flatMap (10 :: ·)
              ++ ((compactParent "tools"
                    (u.Tools.map (fun t => compactElement "tool" t.attrs))).flatMap (10 :: ·)
                ++ (10 :: asciiBytes "</manifest>" ++ [10])))) := by
      unfold compactLines
      simp only [List.singleton_append, List.cons_append, joinLines_cons, List.flatMap_append,
        List.flatMap_cons, List.flatMap_nil, List.append_assoc, List.append_nil, List.nil_append]
    rw [e, xmlRun_append, xmlRun_root, xmlRun_append, xmlRun_parent_imports, xmlRun_append,
      xmlRun_parent_projects, xmlRun_append, xmlRun_parent_tools]
    rfl
  unfold xmlUnmarshal
  simp only []
  rw [show List.foldl xmlStep XmlState.start (joinLines (compactLines u) ++ [10])
    = xmlRun XmlState.start (joinLines (compactLines u) ++ [10]) from rfl, hrun]

/-! ## The post-processing of `ToBytes`, line by line -/

theorem bytesReplaceFrom_skip (old new a rest : List UInt8) :
    bytesReplaceFrom old new a.length (a ++ rest) = bytesReplaceFrom old new 0 rest := by
  induction a with
  | nil => rfl
  | cons x a ih => simpa [bytesReplaceFrom] using ih

theorem bytesReplaceFrom_nil (old new : List UInt8) (k : Nat) :
    bytesReplaceFrom old new k [] = [] := by
  cases k <;> rfl

theorem bytesReplaceFrom_hit (old new rest : List UInt8) (h : old ≠ []) :
    bytesReplaceFrom old new 0 (old ++ rest) = new ++ bytesReplaceFrom old new 0 rest := by
  rcases old with _ | ⟨c, old'⟩
  · exact absurd rfl h
  · have hp : (c :: old').isPrefixOf (c :: (old' ++ rest)) = true := by
      rw [List.isPrefixOf_iff_prefix]
      exact ⟨rest, rfl⟩
    rw [List.cons_append, bytesReplaceFrom, if_pos hp]
    simp only [List.length_cons, Nat.add_sub_cancel]
    rw [bytesReplaceFrom_skip]

theorem bytesReplaceFrom_miss (old new : List UInt8) (c : UInt8) (s : List UInt8)
    (h : ¬ old <+: c :: s) :
    bytesReplaceFrom old new 0 (c :: s) = c :: bytesReplaceFrom old new 0 s := by
  have hp : old.isPrefixOf (c :: s) = false := by
    rw [← Bool.not_eq_true, List.isPrefixOf_iff_prefix]
    exact h
  rw [bytesReplaceFrom, hp]
  simp

/-- The first occurrence of a byte splits a byte string in one way only. -/
theorem append_cons_unique (x : UInt8) : ∀ (a a' b b' : List UInt8),
    a ++ x :: b = a' ++ x :: b' → x ∉ a → x ∉ a' → a = a' ∧ b = b'
  | [], [], b, b', h, _, _ => ⟨rfl, by simpa using h⟩
  | [], c :: a', b, b', h, _, h' => by
    simp only [List.nil_append, List.cons_append, List.cons.injEq] at h
    exact absurd (h.1 ▸ List.mem_cons_self _ _) h'
  | c :: a, [], b, b', h, h', _ => by
    simp only [List.nil_append, List.cons_append, List.cons.injEq] at h
    exact absurd (h.1 ▸ List.mem_cons_self _ _) h'
  | c :: a, c' :: a', b, b', h, ha, ha' => by
    simp only [List.cons_append, List.cons.injEq] at h
    obtain ⟨r1, r2⟩ := append_cons_unique x a a' b b' h.2
      (fun hx => ha (List.mem_cons_of_mem _ hx)) (fun hx => ha' (List.mem_cons_of_mem _ hx))
    exact ⟨by rw [h.1, r1], r2⟩

theorem line_start_iff (e s rest : List UInt8) (he : (10 : UInt8) ∉ e) (hs : (10 : UInt8) ∉ s) :
    e ++ [10] <+: s ++ 10 :: rest ↔ s = e := by
  constructor
  · rintro ⟨t, ht⟩
    rw [List.append_assoc, List.singleton_append] at ht
    exact (append_cons_unique 10 _ _ _ _ ht he hs).1.symm
  · rintro rfl
    exact ⟨rest, by simp⟩

theorem bytesReplaceFrom_line (e r : List UInt8) (he : (10 : UInt8) ∉ e) (hne : e ≠ [])
    (rest : List UInt8) :
    ∀ l : List UInt8, (10 : UInt8) ∉ l →
      bytesReplaceFrom (e ++ [10]) (r ++ [10]) 0 (l ++ 10 :: rest)
        = shorten e r l ++ 10 :: bytesReplaceFrom (e ++ [10]) (r ++ [10]) 0 rest
  | [], _ => by
    have : ¬ e ++ [10] <+: [] ++ 10 :: rest := by
      rw [line_start_iff e [] rest he (by simp)]
      exact fun h => hne h.symm
    rw [List.nil_append] at this ⊢
    rw [bytesReplaceFrom_miss _ _ _ _ this]
    rfl
  | c :: l, hl => by
    by_cases h : c :: l = e
    · have e1 : (c :: l) ++ 10 :: rest = (e ++ [10]) ++ rest := by rw [h]; simp
      rw [e1, bytesReplaceFrom_hit _ _ _ (by simp), shorten, if_pos h]
      simp
    · have : ¬ e ++ [10] <+: (c :: l) ++ 10 :: rest := by
        rw [line_start_iff e _ rest he hl]
        exact h
      rw [List.cons_append] at this ⊢
      rw [bytesReplaceFrom_miss _ _ _ _ this, shorten, if_neg h,
        bytesReplaceFrom_line e r he hne rest l (fun hx => hl (List.mem_cons_of_mem _ hx))]
      rfl

theorem bytesReplaceFrom_last (old new : List UInt8) (x : UInt8) (hx : x ∈ old) :
    ∀ l : List UInt8, x ∉ l → bytesReplaceFrom old new 0 l = l
  | [], _ => rfl
  | c :: l, hl => by
    have : ¬ old <+: c :: l := by
      rintro ⟨t, ht⟩
      apply hl
      rw [← ht]
      exact List.mem_append_left _ hx
    rw [bytesReplaceFrom_miss _ _ _ _ this,
      bytesReplaceFrom_last old new x hx l (fun h => hl (List.mem_cons_of_mem _ h))]

theorem joinLines_snoc (ls : List (List UInt8)) (last : List UInt8) :
    joinLines (ls ++ [last]) = ls.flatMap (· ++ [10]) ++ last := by
  induction ls with
  | nil => rfl
  | cons l ls ih =>
    rcases hls : ls ++ [last] with _ | ⟨l', rest⟩
    · simp at hls
    · rw [List.cons_append, hls, joinLines, ← hls, ih]
      simp

/-- A pass of the post-processing that shortens the end of lines: every line
but the last is shortened. -/
theorem bytesReplace_shorten (e r : List UInt8) (he : (10 : UInt8) ∉ e) (hne : e ≠ [])
    (ls : List (List UInt8)) (last : List UInt8) (hls : ∀ l ∈ ls, (10 : UInt8) ∉ l)
    (hlast : (10 : UInt8) ∉ last) :
    bytesReplace (joinLines (ls ++ [last])) (e ++ [10]) (r ++ [10])
      = joinLines (ls.map (shorten e r) ++ [last]) := by
  rw [joinLines_snoc, joinLines_snoc]
  unfold bytesReplace
  induction ls with
  | nil =>
    simp only [List.flatMap_nil, List.nil_append, List.map_nil]
    exact bytesReplaceFrom_last _ _ 10 (by simp) _ hlast
  | cons l ls ih =>
    simp only [List.flatMap_cons, List.map_cons, List.append_assoc, List.singleton_append,
      List.cons_append]
    rw [bytesReplaceFrom_line e r he hne _ l (hls l (List.mem_cons_self _ _)), List.nil_append,
      List.nil_append, ih (fun x hx => hls x (List.mem_cons_of_mem _ hx))]

theorem bytesReplaceFrom_pass (old q new : List UInt8) (hold : old = 10 :: (q ++ [10]))
    (rest : List UInt8) :
    ∀ a : List UInt8, (10 : UInt8) ∉ a →
      bytesReplaceFrom old new 0 (a ++ rest) = a ++ bytesReplaceFrom old new 0 rest
  | [], _ => rfl
  | c :: a, h => by
    have : ¬ old <+: c :: (a ++ rest) := by
      rintro ⟨t, ht⟩
      rw [hold] at ht
      simp only [List.cons_append, List.cons.injEq] at ht
      exact h (ht.1 ▸ List.mem_cons_self _ _)
    rw [List.cons_append, bytesReplaceFrom_miss _ _ _ _ this,
      bytesReplaceFrom_pass old q new hold rest a (fun hx => h (List.mem_cons_of_mem _ hx))]
    rfl

theorem bytesReplaceFrom_other_line (old q new l rest : List UInt8)
    (hold : old = 10 :: (q ++ [10])) (hq : (10 : UInt8) ∉ q)
    (hl : (10 : UInt8) ∉ l) (hne : l ≠ q) :
    bytesReplaceFrom old new 0 (10 :: (l ++ 10 :: rest))
      = 10 :: (l ++ bytesReplaceFrom old new 0 (10 :: rest)) := by
  have : ¬ old <+: 10 :: (l ++ 10 :: rest) := by
    intro h
    rw [hold, List.prefix_cons_inj] at h
    exact hne ((line_start_iff q l rest hq hl).1 h)
  rw [bytesReplaceFrom_miss _ _ _ _ this, bytesReplaceFrom_pass old q new hold _ l hl]

theorem bytesReplaceFrom_last_line (old q new l : List UInt8) (hold : old = 10 :: (q ++ [10]))
    (hl : (10 : UInt8) ∉ l) :
    bytesReplaceFrom old new 0 (10 :: l) = 10 :: l := by
  have : ¬ old <+: 10 :: l := by
    intro h
    rw [hold, List.prefix_cons_inj] at h
    obtain ⟨t, ht⟩ := h
    apply hl
    rw [← ht]
    simp
  rw [bytesReplaceFrom_miss _ _ _ _ this]
  have := bytesReplaceFrom_pass old q new hold [] l hl
  rw [List.append_nil, bytesReplaceFrom_nil, List.append_nil] at this
  rw [this]

theorem bytesReplaceFrom_other_lines (old q new : List UInt8) (hold : old = 10 :: (q ++ [10]))
    (hq : (10 : UInt8) ∉ q) :
    ∀ ls : List (List UInt8), (∀ l ∈ ls, (10 : UInt8) ∉ l ∧ l ≠ q) →
      bytesReplaceFrom old new 0 (ls.flatMap (10 :: ·)) = ls.flatMap (10 :: ·)
  | [], _ => rfl
  | [l], h => by
    simp only [List.flatMap_cons, List.flatMap_nil, List.append_nil]
    exact bytesReplaceFrom_last_line old q new l hold (h l (List.mem_cons_self _ _)).1
  | l :: l' :: ls, h => by
    have ih := bytesReplaceFrom_other_lines old q new hold hq (l' :: ls)
      (fun x hx => h x (List.mem_cons_of_mem _ hx))
    have hl := h l (List.mem_cons_self _ _)
    simp only [List.flatMap_cons, List.cons_append] at ih ⊢
    rw [bytesReplaceFrom_other_line old q new l _ hold hq hl.1 hl.2, ih]

theorem bytesReplaceFrom_elide (old q : List UInt8) (hold : old = 10 :: (q ++ [10]))
    (hq : (10 : UInt8) ∉ q)
    (rest : List (List UInt8)) (hne : rest ≠ [])
    (hrest : ∀ l ∈ rest, (10 : UInt8) ∉ l ∧ l ≠ q) :
    ∀ A : List (List UInt8), (∀ l ∈ A, (10 : UInt8) ∉ l ∧ l ≠ q) →
      bytesReplaceFrom old [10] 0 ((A ++ q :: rest).flatMap (10 :: ·))
        = (A ++ rest).flatMap (10 :: ·)
  | [], _ => by
    rcases rest with _ | ⟨b, B⟩
    · exact absurd rfl hne
    · simp only [List.nil_append, List.flatMap_cons]
      have e : 10 :: q ++ (10 :: b ++ B.flatMap (10 :: ·))
          = old ++ (b ++ B.flatMap (10 :: ·)) := by rw [hold]; simp
      rw [e, bytesReplaceFrom_hit _ _ _ (by rw [hold]; simp),
        bytesReplaceFrom_pass old q [10] hold _ b (hrest b (List.mem_cons_self _ _)).1,
        bytesReplaceFrom_other_lines old q [10] hold hq B
          (fun x hx => hrest x (List.mem_cons_of_mem _ hx))]
      simp
  | l :: A, h => by
    have ih := bytesReplaceFrom_elide old q hold hq rest hne hrest A
      (fun x hx => h x (List.mem_cons_of_mem _ hx))
    have hl := h l (List.mem_cons_self _ _)
    rcases hA : (A ++ q :: rest) with _ | ⟨x, X⟩
    · simp at hA
    · rw [hA] at ih
      rw [List.cons_append, hA]
      simp only [List.flatMap_cons, List.cons_append] at ih ⊢
      rw [bytesReplaceFrom_other_line old q [10] l _ hold hq hl.1 hl.2, ih]

/-- A pass of the post-processing that elides a line: the line `q`, which
stands once in the document and is neither the first nor the last line, is
taken out. -/
theorem bytesReplace_elide (q : List UInt8) (hq : (10 : UInt8) ∉ q) (h : List UInt8)
    (A rest : List (List UInt8)) (hh : (10 : UInt8) ∉ h) (hne : rest ≠ [])
    (hA : ∀ l ∈ A, (10 : UInt8) ∉ l ∧ l ≠ q) (hrest : ∀ l ∈ rest, (10 : UInt8) ∉ l ∧ l ≠ q) :
    bytesReplace (joinLines (h :: (A ++ q :: rest))) (10 :: (q ++ [10])) [10]
      = joinLines (h :: (A ++ rest)) := by
  rw [joinLines_cons, joinLines_cons]
  unfold bytesReplace
  rw [bytesReplaceFrom_pass _ q [10] rfl _ h hh, bytesReplaceFrom_elide _ q rfl hq rest hne hrest A hA]

/-- A pass of the post-processing that finds no line to elide. -/
theorem bytesReplace_keep (q : List UInt8) (hq : (10 : UInt8) ∉ q) (h : List UInt8)
    (ls : List (List UInt8)) (hh : (10 : UInt8) ∉ h)
    (hls : ∀ l ∈ ls, (10 : UInt8) ∉ l ∧ l ≠ q) :
    bytesReplace (joinLines (h :: ls)) (10 :: (q ++ [10])) [10] = joinLines (h :: ls) := by
  rw [joinLines_cons]
  unfold bytesReplace
  rw [bytesReplaceFrom_pass _ q [10] rfl _ h hh, bytesReplaceFrom_other_lines _ q [10] rfl hq ls hls]

/-! ## The post-processing of `ToBytes`, pass by pass -/

theorem marshalLines_eq (m : Manifest) :
    marshalLines m
      = stageLines false false false false false false false m ++ [asciiBytes "</manifest>"] := by
  unfold marshalLines stageLines
  simp only [List.singleton_append, List.cons_append, List.append_assoc]
  rfl

theorem compactLines_eq (m : Manifest) :
    compactLines m
      = stageLines true true true true true true true m ++ [asciiBytes "</manifest>"] := by
  unfold compactLines stageLines
  simp only [List.singleton_append, List.cons_append, List.append_assoc]
  rfl

theorem escapeRune_no_newline (c : Char) : (10 : UInt8) ∉ escapeRune c := by
  by_cases h : c = Char.ofNat 34 ∨ c = Char.ofNat 39 ∨ c = Char.ofNat 38 ∨ c = Char.ofNat 60
      ∨ c = Char.ofNat 62 ∨ c = Char.ofNat 9 ∨ c = Char.ofNat 10
      ∨ c = Char.ofNat 13
  · rcases h with h | h | h | h | h | h | h | h <;> subst h <;> decide
  · simp only [not_or] at h
    obtain ⟨h1, h2, h3, h4, h5, h6, h7, h8⟩ := h
    have e : escapeRune c = encodeRune (sanitizeRune c) := by
      unfold escapeRune sanitizeRune
      simp only [h1, h2, h3, h4, h5, h6, h7, h8, if_false]
      by_cases hr : isInCharacterRange c.toNat = true
      · simp [hr]
      · simp [hr]
    rw [e]
    intro hmem
    have hp : IsPlainByte 10 := by
      apply encodeRune_plain _ _ 10 hmem
      unfold sanitizeRune
      split_ifs
      · exact ⟨char_ne_of_toNat c 10 h7, char_ne_of_toNat c 13 h8, char_ne_of_toNat c 34 h1,
          char_ne_of_toNat c 38 h3, char_ne_of_toNat c 60 h4, char_ne_of_toNat c 62 h5⟩
      · decide
    exact hp.1 rfl

theorem escapeString_no_newline (s : String) : (10 : UInt8) ∉ escapeString s := by
  unfold escapeString
  simp only [List.mem_flatMap, not_exists, not_and]
  exact fun c _ => escapeRune_no_newline c

/-- A name without a newline. -/
theorem plainName_no_newline (n : List UInt8) (h : isPlainName n = true) : (10 : UInt8) ∉ n := by
  unfold isPlainName at h
  simp only [Bool.and_eq_true, List.all_eq_true] at h
  intro hmem
  have := h.1 10 hmem
  revert this
  decide

theorem marshalAttr_no_newline (a : String × String) (h : isPlainName (asciiBytes a.1) = true) :
    (10 : UInt8) ∉ marshalAttr a := by
  unfold marshalAttr
  split_ifs
  · simp
  · have e1 : (10 : UInt8) ∉ asciiBytes " " := by decide
    have e2 : (10 : UInt8) ∉ asciiBytes "=\"" := by decide
    have e3 : (10 : UInt8) ∉ asciiBytes "\"" := by decide
    simp only [List.mem_append, not_or]
    exact ⟨⟨⟨⟨e1, plainName_no_newline _ h⟩, e2⟩, escapeString_no_newline _⟩, e3⟩

theorem marshalStart_no_newline (name : String) (as : List (String × String))
    (hn : isPlainName (asciiBytes name) = true)
    (has : ∀ a ∈ as, isPlainName (asciiBytes a.1) = true) :
    (10 : UInt8) ∉ marshalStart name as := by
  unfold marshalStart
  have e1 : (10 : UInt8) ∉ asciiBytes "<" := by decide
  simp only [List.mem_append, not_or, List.mem_flatMap, not_exists, not_and]
  exact ⟨⟨e1, plainName_no_newline _ hn⟩, fun a ha => marshalAttr_no_newline a (has a ha)⟩

theorem elementLine_no_newline (short : Bool) (name : String) (as : List (String × String))
    (hn : isPlainName (asciiBytes name) = true)
    (has : ∀ a ∈ as, isPlainName (asciiBytes a.1) = true) :
    (10 : UInt8) ∉ elementLine short name as := by
  unfold elementLine
  have e1 : (10 : UInt8) ∉ asciiBytes "    " := by decide
  have e2 : (10 : UInt8) ∉ asciiBytes "/>" := by decide
  have e3 : (10 : UInt8) ∉ asciiBytes "></" := by decide
  have e4 : (10 : UInt8) ∉ asciiBytes ">" := by decide
  have e5 := plainName_no_newline _ hn
  have e6 := marshalStart_no_newline name as hn has
  cases short <;> simp [e1, e2, e3, e4, e5, e6]

theorem elementLine_ne (short : Bool) (name : String) (as : List (String × String))
    (q : List UInt8) (hq : (q.drop 2).head? = some 60) : elementLine short name as ≠ q := by
  intro h
  rw [← h] at hq
  have e1 : asciiBytes "    " = [32, 32, 32, 32] := by decide
  unfold elementLine at hq
  rw [e1] at hq
  simp at hq

theorem rootLine_ne (path : String) (q : List UInt8) (hq : q.head? = some 32) :
    marshalStart "manifest" [("snapshotpath", path)] ++ asciiBytes ">" ≠ q := by
  intro h
  rw [← h] at hq
  have e1 : asciiBytes "<" = [60] := by decide
  unfold marshalStart at hq
  rw [e1] at hq
  simp at hq

theorem rootLine_no_newline (path : String) :
    (10 : UInt8) ∉ marshalStart "manifest" [("snapshotpath", path)] ++ asciiBytes ">" := by
  have e4 : (10 : UInt8) ∉ asciiBytes ">" := by decide
  have := marshalStart_no_newline "manifest" [("snapshotpath", path)] (by decide)
    (plain_names ["snapshotpath"] (by decide) [("snapshotpath", path)] rfl)
  simp [e4, this]

/-- The literal lines of a parent element. -/
theorem mem_parentLines (elided : Bool) (name : String) (children : List (List UInt8))
    (l : List UInt8) (h : l ∈ parentLines elided name children) :
    l ∈ children
      ∨ l ∈ [asciiBytes "  <" ++ asciiBytes name ++ asciiBytes "></" ++ asciiBytes name
              ++ asciiBytes ">",
            asciiBytes "  <" ++ asciiBytes name ++ asciiBytes ">",
            asciiBytes "  </" ++ asciiBytes name ++ asciiBytes ">"] := by
  unfold parentLines at h
  split_ifs at h
  · simp at h
  · simp only [List.mem_singleton] at h
    right; rw [h]; simp
  · simp only [List.mem_append, List.mem_singleton] at h
    rcases h with (h | h) | h
    · right; rw [h]; simp
    · left; exact h
    · right; rw [h]; simp

theorem shorten_suffix (e r : List UInt8) (he : e ≠ []) :
    ∀ p : List UInt8, shorten e r (p ++ e) = p ++ r
  | [] => by
    rcases e with _ | ⟨c, e⟩
    · exact absurd rfl he
    · simp [shorten]
  | c :: p => by
    have : c :: (p ++ e) ≠ e := by
      intro h
      have := congrArg List.length h
      simp at this
      omega
    rw [List.cons_append, shorten, if_neg this, shorten_suffix e r he p]
    rfl

theorem shorten_other (e r : List UInt8) :
    ∀ l : List UInt8, ¬ e <:+ l → shorten e r l = l
  | [], _ => rfl
  | c :: l, h => by
    have h1 : c :: l ≠ e := fun h' => h (h' ▸ List.suffix_refl _)
    have h2 : ¬ e <:+ l := fun h' => h (h'.trans (List.suffix_cons _ _))
    rw [shorten, if_neg h1, shorten_other e r l h2]

/-- A line that ends in `t` does not end in `e` when neither of `t` and `e`
ends in the other. -/
theorem not_suffix_of_tail (e t x : List UInt8) (h1 : ¬ e <:+ t) (h2 : ¬ t <:+ e) :
    ¬ e <:+ x ++ t := by
  intro h
  rcases List.suffix_or_suffix_of_suffix h (List.suffix_append x t) with h' | h'
  · exact h1 h'
  · exact h2 h'

theorem parentLines_map (f : List UInt8 → List UInt8) (elided : Bool) (name : String)
    (children : List (List UInt8))
    (h : ∀ l ∈ [asciiBytes "  <" ++ asciiBytes name ++ asciiBytes "></" ++ asciiBytes name
              ++ asciiBytes ">",
            asciiBytes "  <" ++ asciiBytes name ++ asciiBytes ">",
            asciiBytes "  </" ++ asciiBytes name ++ asciiBytes ">"], f l = l) :
    (parentLines elided name children).map f = parentLines elided name (children.map f) := by
  have h1 := h _ (List.mem_cons_self _ _)
  have h2 := h _ (List.mem_cons_of_mem _ (List.mem_cons_self _ _))
  have h3 := h _ (List.mem_cons_of_mem _ (List.mem_cons_of_mem _ (List.mem_cons_self _ _)))
  unfold parentLines
  by_cases hc : children = []
  · subst hc
    cases elided
    · simp only [List.map_nil, if_true, Bool.false_eq_true, if_false, List.map_cons, h1]
    · simp only [List.map_nil, if_true]
  · have hc' : children.map f ≠ [] := by simpa using hc
    simp only [hc, hc', if_false, List.map_append, List.map_cons, List.map_nil, h2, h3]

/-- The lines of a stage under a function that keeps the first line and the
lines of the parents and changes the lines of the elements. -/
theorem stageLines_map (f : List UInt8 → List UInt8) (e1 e2 e3 s1 s2 s3 s4 t1 t2 t3 t4 : Bool)
    (m : Manifest)
    (hroot : f (marshalStart "manifest" [("snapshotpath", m.SnapshotPath)] ++ asciiBytes ">")
      = marshalStart "manifest" [("snapshotpath", m.SnapshotPath)] ++ asciiBytes ">")
    (hlit : ∀ name ∈ ["imports", "projects", "tools"],
      ∀ l ∈ [asciiBytes "  <" ++ asciiBytes name ++ asciiBytes "></" ++ asciiBytes name
              ++ asciiBytes ">",
            asciiBytes "  <" ++ asciiBytes name ++ asciiBytes ">",
            asciiBytes "  </" ++ asciiBytes name ++ asciiBytes ">"], f l = l)
    (h1 : ∀ as, f (elementLine s1 "import" as) = elementLine t1 "import" as)
    (h2 : ∀ as, f (elementLine s2 "localimport" as) = elementLine t2 "localimport" as)
    (h3 : ∀ as, f (elementLine s3 "project" as) = elementLine t3 "project" as)
    (h4 : ∀ as, f (elementLine s4 "tool" as) = elementLine t4 "tool" as) :
    (stageLines e1 e2 e3 s1 s2 s3 s4 m).map f = stageLines e1 e2 e3 t1 t2 t3 t4 m := by
  unfold stageLines
  rw [List.map_cons, List.map_append, List.map_append, hroot,
    parentLines_map f e1 "imports" _ (hlit _ (by simp)),
    parentLines_map f e2 "projects" _ (hlit _ (by simp)),
    parentLines_map f e3 "tools" _ (hlit _ (by simp))]
  simp only [List.map_append, List.map_map, Function.comp_def, h1, h2, h3, h4]

theorem shorten_element_hit (name : String) (as : List (String × String)) :
    shorten (asciiBytes "></" ++ asciiBytes name ++ asciiBytes ">") (asciiBytes "/>")
        (elementLine false name as)
      = elementLine true name as := by
  unfold elementLine
  simp only [Bool.false_eq_true, if_false, if_true]
  apply shorten_suffix
  have : asciiBytes "></" = [62, 60, 47] := by decide
  rw [this]
  simp

theorem shorten_element_other (e r : List UInt8) (short : Bool) (name : String)
    (as : List (String × String))
    (h : ∀ t ∈ [asciiBytes "/>", asciiBytes "></" ++ asciiBytes name ++ asciiBytes ">"],
      ¬ e <:+ t ∧ ¬ t <:+ e) :
    shorten e r (elementLine short name as) = elementLine short name as := by
  have h1 := h _ (List.mem_cons_self _ _)
  have h2 := h _ (List.mem_cons_of_mem _ (List.mem_cons_self _ _))
  apply shorten_other
  unfold elementLine
  cases short
  · simp only [Bool.false_eq_true, if_false]
    exact not_suffix_of_tail _ _ _ h2.1 h2.2
  · simp only [if_true]
    exact not_suffix_of_tail _ _ _ h1.1 h1.2

theorem shorten_root (e r : List UInt8) (path : String)
    (h : ∀ t ∈ [asciiBytes "<manifest>", asciiBytes "\">"], ¬ e <:+ t ∧ ¬ t <:+ e) :
    shorten e r (marshalStart "manifest" [("snapshotpath", path)] ++ asciiBytes ">")
      = marshalStart "manifest" [("snapshotpath", path)] ++ asciiBytes ">" := by
  have h1 := h _ (List.mem_cons_self _ _)
  have h2 := h _ (List.mem_cons_of_mem _ (List.mem_cons_self _ _))
  apply shorten_other
  unfold marshalStart marshalAttr
  by_cases hp : path = ""
  · subst hp
    have : asciiBytes "<" ++ asciiBytes "manifest"
        ++ [("snapshotpath", "")].flatMap
            (fun a => if a.2 = "" then []
              else asciiBytes " " ++ asciiBytes a.1 ++ asciiBytes "=\"" ++ escapeString a.2
                ++ asciiBytes "\"")
        ++ asciiBytes ">" = asciiBytes "<manifest>" := by decide
    rw [this]
    exact h1.1
  · simp only [List.flatMap_cons, List.flatMap_nil, List.append_nil, hp, if_false]
    have : asciiBytes "<" ++ asciiBytes "manifest"
          ++ (asciiBytes " " ++ asciiBytes "snapshotpath" ++ asciiBytes "=\"" ++ escapeString path
            ++ asciiBytes "\"") ++ asciiBytes ">"
        = (asciiBytes "<" ++ asciiBytes "manifest"
          ++ (asciiBytes " " ++ asciiBytes "snapshotpath" ++ asciiBytes "=\"" ++ escapeString path))
          ++ asciiBytes "\">" := by
      have e : asciiBytes "\">" = asciiBytes "\"" ++ asciiBytes ">" := by decide
      rw [e]
      simp only [List.append_assoc]
    rw [this]
    exact not_suffix_of_tail _ _ _ h2.1 h2.2

theorem elements_no_newline {α : Type} (short : Bool) (name : String)
    (attrs : α → List (String × String)) (hn : isPlainName (asciiBytes name) = true)
    (has : ∀ x, ∀ a ∈ attrs x, isPlainName (asciiBytes a.1) = true) (xs : List α) :
    ∀ l ∈ xs.map (fun x => elementLine short name (attrs x)), (10 : UInt8) ∉ l := by
  intro l hl
  obtain ⟨x, _, rfl⟩ := List.mem_map.1 hl
  exact elementLine_no_newline short name _ hn (has x)

theorem elements_ne {α : Type} (short : Bool) (name : String)
    (attrs : α → List (String × String)) (q : List UInt8) (hq : (q.drop 2).head? = some 60)
    (xs : List α) :
    ∀ l ∈ xs.map (fun x => elementLine short name (attrs x)), l ≠ q := by
  intro l hl
  obtain ⟨x, _, rfl⟩ := List.mem_map.1 hl
  exact elementLine_ne short name _ q hq

/-- The children of the parents of a stage have no newline and are none of
the lines a pass elides. -/
theorem stage_children (q : List UInt8) (hq : (q.drop 2).head? = some 60)
    (s1 s2 s3 s4 : Bool) (m : Manifest) :
    (∀ l ∈ m.Imports.map (fun i => elementLine s1 "import" i.attrs)
        ++ m.LocalImports.map (fun i => elementLine s2 "localimport" i.attrs),
      (10 : UInt8) ∉ l ∧ l ≠ q)
    ∧ (∀ l ∈ m.Projects.map (fun p => elementLine s3 "project" p.attrs),
      (10 : UInt8) ∉ l ∧ l ≠ q)
    ∧ (∀ l ∈ m.Tools.map (fun t => elementLine s4 "tool" t.attrs),
      (10 : UInt8) ∉ l ∧ l ≠ q) := by
  refine ⟨?_, ?_, ?_⟩
  · intro l hl
    rcases List.mem_append.1 hl with h | h
    · exact ⟨elements_no_newline s1 "import" Import.attrs (by decide) import_attrs_plain _ l h,
        elements_ne s1 "import" Import.attrs q hq _ l h⟩
    · exact ⟨elements_no_newline s2 "localimport" LocalImport.attrs (by decide)
          localImport_attrs_plain _ l h,
        elements_ne s2 "localimport" LocalImport.attrs q hq _ l h⟩
  · intro l h
    exact ⟨elements_no_newline s3 "project" Project.attrs (by decide) project_attrs_plain _ l h,
      elements_ne s3 "project" Project.attrs q hq _ l h⟩
  · intro l h
    exact ⟨elements_no_newline s4 "tool" Tool.attrs (by decide) tool_attrs_plain _ l h,
      elements_ne s4 "tool" Tool.attrs q hq _ l h⟩

theorem parentLines_ord (P : List UInt8 → Prop) (elided : Bool) (name : String)
    (children : List (List UInt8))
    (hlit : ∀ l ∈ [asciiBytes "  <" ++ asciiBytes name ++ asciiBytes "></" ++ asciiBytes name
              ++ asciiBytes ">",
            asciiBytes "  <" ++ asciiBytes name ++ asciiBytes ">",
            asciiBytes "  </" ++ asciiBytes name ++ asciiBytes ">"], P l)
    (hch : ∀ l ∈ children, P l) :
    ∀ l ∈ parentLines elided name children, P l := by
  intro l hl
  rcases mem_parentLines elided name children l hl with h | h
  · exact hch l h
  · exact hlit l h

/-- A pass that elides the line of a parent without children: the line goes
when the parent has no children, and nothing changes otherwise. -/
theorem elide_pass (name : String) (h : List UInt8) (A B children : List (List UInt8))
    (q : List UInt8)
    (hqdef : q = asciiBytes "  <" ++ asciiBytes name ++ asciiBytes "></" ++ asciiBytes name
      ++ asciiBytes ">")
    (hq : (10 : UInt8) ∉ q) (hh : (10 : UInt8) ∉ h)
    (hA : ∀ l ∈ A, (10 : UInt8) ∉ l ∧ l ≠ q) (hB : ∀ l ∈ B, (10 : UInt8) ∉ l ∧ l ≠ q)
    (hBne : B ≠ []) (hch : ∀ l ∈ children, (10 : UInt8) ∉ l ∧ l ≠ q)
    (hopen : (10 : UInt8) ∉ asciiBytes "  <" ++ asciiBytes name ++ asciiBytes ">"
      ∧ asciiBytes "  <" ++ asciiBytes name ++ asciiBytes ">" ≠ q)
    (hclose : (10 : UInt8) ∉ asciiBytes "  </" ++ asciiBytes name ++ asciiBytes ">"
      ∧ asciiBytes "  </" ++ asciiBytes name ++ asciiBytes ">" ≠ q) :
    bytesReplace (joinLines (h :: (A ++ (parentLines false name children ++ B))))
        (10 :: (q ++ [10])) [10]
      = joinLines (h :: (A ++ (parentLines true name children ++ B))) := by
  unfold parentLines
  by_cases hc : children = []
  · simp only [hc, if_true, Bool.false_eq_true, if_false, List.singleton_append,
      List.nil_append]
    rw [← hqdef]
    exact bytesReplace_elide q hq h A B hh hBne hA hB
  · simp only [hc, if_false]
    apply bytesReplace_keep q hq h _ hh
    intro l hl
    simp only [List.mem_append, List.mem_singleton] at hl
    rcases hl with hl | ((hl | hl) | hl) | hl
    · exact hA l hl
    · rw [hl]; exact hopen
    · exact hch l hl
    · rw [hl]; exact hclose
    · exact hB l hl

/-- The first pass: an `imports` parent without children is elided. -/
theorem pass_imports (e2 e3 s1 s2 s3 s4 : Bool) (m : Manifest) :
    bytesReplace (joinLines (stageLines false e2 e3 s1 s2 s3 s4 m ++ [asciiBytes "</manifest>"]))
        emptyImportsBytes newlineBytes
      = joinLines (stageLines true e2 e3 s1 s2 s3 s4 m ++ [asciiBytes "</manifest>"]) := by
  obtain ⟨c1, c2, c3⟩ := stage_children (asciiBytes "  <imports></imports>") (by decide)
    s1 s2 s3 s4 m
  have hlit : ∀ name ∈ ["projects", "tools"], ∀ l ∈
      [asciiBytes "  <" ++ asciiBytes name ++ asciiBytes "></" ++ asciiBytes name
          ++ asciiBytes ">",
        asciiBytes "  <" ++ asciiBytes name ++ asciiBytes ">",
        asciiBytes "  </" ++ asciiBytes name ++ asciiBytes ">"],
      (10 : UInt8) ∉ l ∧ l ≠ asciiBytes "  <imports></imports>" := by decide
  have key := elide_pass "imports"
    (marshalStart "manifest" [("snapshotpath", m.SnapshotPath)] ++ asciiBytes ">") []
    (parentLines e2 "projects" (m.Projects.map (fun p => elementLine s3 "project" p.attrs))
      ++ parentLines e3 "tools" (m.Tools.map (fun t => elementLine s4 "tool" t.attrs))
      ++ [asciiBytes "</manifest>"])
    (m.Imports.map (fun i => elementLine s1 "import" i.attrs)
      ++ m.LocalImports.map (fun i => elementLine s2 "localimport" i.attrs))
    (asciiBytes "  <imports></imports>") (by decide) (by decide) (rootLine_no_newline _)
    (by simp)
    (by
      intro l hl
      simp only [List.mem_append, List.mem_singleton] at hl
      rcases hl with (hl | hl) | hl
      · exact parentLines_ord _ e2 "projects" _ (hlit _ (by simp)) c2 l hl
      · exact parentLines_ord _ e3 "tools" _ (hlit _ (by simp)) c3 l hl
      · rw [hl]; decide)
    (by simp) c1 (by decide) (by decide)
  have e1 : emptyImportsBytes = 10 :: (asciiBytes "  <imports></imports>" ++ [10]) := by decide
  have e2' : newlineBytes = [10] := by decide
  rw [e1, e2']
  unfold stageLines
  simpa only [List.cons_append, List.nil_append, List.append_assoc] using key

/-- The second pass: a `projects` parent without children is elided. -/
theorem pass_projects (e1 e3 s1 s2 s3 s4 : Bool) (m : Manifest) :
    bytesReplace (joinLines (stageLines e1 false e3 s1 s2 s3 s4 m ++ [asciiBytes "</manifest>"]))
        emptyProjectsBytes newlineBytes
      = joinLines (stageLines e1 true e3 s1 s2 s3 s4 m ++ [asciiBytes "</manifest>"]) := by
  obtain ⟨c1, c2, c3⟩ := stage_children (asciiBytes "  <projects></projects>") (by decide)
    s1 s2 s3 s4 m
  have hlit : ∀ name ∈ ["imports", "tools"], ∀ l ∈
      [asciiBytes "  <" ++ asciiBytes name ++ asciiBytes "></" ++ asciiBytes name
          ++ asciiBytes ">",
        asciiBytes "  <" ++ asciiBytes name ++ asciiBytes ">",
        asciiBytes "  </" ++ asciiBytes name ++ asciiBytes ">"],
      (10 : UInt8) ∉ l ∧ l ≠ asciiBytes "  <projects></projects>" := by decide
  have key := elide_pass "projects"
    (marshalStart "manifest" [("snapshotpath", m.SnapshotPath)] ++ asciiBytes ">")
    (parentLines e1 "imports"
      (m.Imports.map (fun i => elementLine s1 "import" i.attrs)
        ++ m.LocalImports.map (fun i => elementLine s2 "localimport" i.attrs)))
    (parentLines e3 "tools" (m.Tools.map (fun t => elementLine s4 "tool" t.attrs))
      ++ [asciiBytes "</manifest>"])
    (m.Projects.map (fun p => elementLine s3 "project" p.attrs))
    (asciiBytes "  <projects></projects>") (by decide) (by decide) (rootLine_no_newline _)
    (parentLines_ord _ e1 "imports" _ (hlit _ (by simp)) c1)
    (by
      intro l hl
      simp only [List.mem_append, List.mem_singleton] at hl
      rcases hl with hl | hl
      · exact parentLines_ord _ e3 "tools" _ (hlit _ (by simp)) c3 l hl
      · rw [hl]; decide)
    (by simp) c2 (by decide) (by decide)
  have h1 : emptyProjectsBytes = 10 :: (asciiBytes "  <projects></projects>" ++ [10]) := by
    decide
  have h2 : newlineBytes = [10] := by decide
  rw [h1, h2]
  unfold stageLines
  simpa only [List.cons_append, List.nil_append, List.append_assoc] using key

/-- The third pass: a `tools` parent without children is elided. -/
theorem pass_tools (e1 e2 s1 s2 s3 s4 : Bool) (m : Manifest) :
    bytesReplace (joinLines (stageLines e1 e2 false s1 s2 s3 s4 m ++ [asciiBytes "</manifest>"]))
        emptyToolsBytes newlineBytes
      = joinLines (stageLines e1 e2 true s1 s2 s3 s4 m ++ [asciiBytes "</manifest>"]) := by
  obtain ⟨c1, c2, c3⟩ := stage_children (asciiBytes "  <tools></tools>") (by decide)
    s1 s2 s3 s4 m
  have hlit : ∀ name ∈ ["imports", "projects"], ∀ l ∈
      [asciiBytes "  <" ++ asciiBytes name ++ asciiBytes "></" ++ asciiBytes name
          ++ asciiBytes ">",
        asciiBytes "  <" ++ asciiBytes name ++ asciiBytes ">",
        asciiBytes "  </" ++ asciiBytes name ++ asciiBytes ">"],
      (10 : UInt8) ∉ l ∧ l ≠ asciiBytes "  <tools></tools>" := by decide
  have key := elide_pass "tools"
    (marshalStart "manifest" [("snapshotpath", m.SnapshotPath)] ++ asciiBytes ">")
    (parentLines e1 "imports"
        (m.Imports.map (fun i => elementLine s1 "import" i.attrs)
          ++ m.LocalImports.map (fun i => elementLine s2 "localimport" i.attrs))
      ++ parentLines e2 "projects" (m.Projects.map (fun p => elementLine s3 "project" p.attrs)))
    [asciiBytes "</manifest>"]
    (m.Tools.map (fun t => elementLine s4 "tool" t.attrs))
    (asciiBytes "  <tools></tools>") (by decide) (by decide) (rootLine_no_newline _)
    (by
      intro l hl
      simp only [List.mem_append] at hl
      rcases hl with hl | hl
      · exact parentLines_ord _ e1 "imports" _ (hlit _ (by simp)) c1 l hl
      · exact parentLines_ord _ e2 "projects" _ (hlit _ (by simp)) c2 l hl)
    (by
      intro l hl
      simp only [List.mem_singleton] at hl
      rw [hl]; decide)
    (by simp) c3 (by decide) (by decide)
  have h1 : emptyToolsBytes = 10 :: (asciiBytes "  <tools></tools>" ++ [10]) := by decide
  have h2 : newlineBytes = [10] := by decide
  rw [h1, h2]
  unfold stageLines
  simpa only [List.cons_append, List.nil_append, List.append_assoc] using key

theorem stage_no_newline (e1 e2 e3 s1 s2 s3 s4 : Bool) (m : Manifest) :
    ∀ l ∈ stageLines e1 e2 e3 s1 s2 s3 s4 m, (10 : UInt8) ∉ l := by
  obtain ⟨c1, c2, c3⟩ := stage_children (asciiBytes "  <imports></imports>") (by decide)
    s1 s2 s3 s4 m
  have hlit : ∀ name ∈ ["imports", "projects", "tools"], ∀ l ∈
      [asciiBytes "  <" ++ asciiBytes name ++ asciiBytes "></" ++ asciiBytes name
          ++ asciiBytes ">",
        asciiBytes "  <" ++ asciiBytes name ++ asciiBytes ">",
        asciiBytes "  </" ++ asciiBytes name ++ asciiBytes ">"],
      (10 : UInt8) ∉ l := by decide
  intro l hl
  unfold stageLines at hl
  simp only [List.mem_cons, List.mem_append] at hl
  rcases hl with hl | hl | hl | hl
  · rw [hl]; exact rootLine_no_newline _
  · exact parentLines_ord _ e1 "imports" _ (hlit _ (by simp)) (fun x hx => (c1 x hx).1) l hl
  · exact parentLines_ord _ e2 "projects" _ (hlit _ (by simp)) (fun x hx => (c2 x hx).1) l hl
  · exact parentLines_ord _ e3 "tools" _ (hlit _ (by simp)) (fun x hx => (c3 x hx).1) l hl

/-- The fourth pass: the end of every `import` element is shortened. -/
theorem pass_import (e1 e2 e3 s2 s3 s4 : Bool) (m : Manifest) :
    bytesReplace (joinLines (stageLines e1 e2 e3 false s2 s3 s4 m ++ [asciiBytes "</manifest>"]))
        endImportBytes endElemBytes
      = joinLines (stageLines e1 e2 e3 true s2 s3 s4 m ++ [asciiBytes "</manifest>"]) := by
  have h1 : endImportBytes = asciiBytes "></import>" ++ [10] := by decide
  have h2 : endElemBytes = asciiBytes "/>" ++ [10] := by decide
  rw [h1, h2, bytesReplace_shorten _ _ (by decide) (by decide) _ _
    (stage_no_newline _ _ _ _ _ _ _ m) (by decide)]
  rw [stageLines_map (shorten (asciiBytes "></import>") (asciiBytes "/>")) e1 e2 e3
    false s2 s3 s4 true s2 s3 s4 m (shorten_root _ _ _ (by decide)) (by decide)
    (fun as => by
      have e : asciiBytes "></import>" = asciiBytes "></" ++ asciiBytes "import" ++ asciiBytes ">" := by
        decide
      rw [e]
      exact shorten_element_hit "import" as)
    (fun as => shorten_element_other _ _ s2 "localimport" as (by decide))
    (fun as => shorten_element_other _ _ s3 "project" as (by decide))
    (fun as => shorten_element_other _ _ s4 "tool" as (by decide))]

/-- The fifth pass: the end of every `localimport` element is shortened. -/
theorem pass_localImport (e1 e2 e3 s1 s3 s4 : Bool) (m : Manifest) :
    bytesReplace (joinLines (stageLines e1 e2 e3 s1 false s3 s4 m ++ [asciiBytes "</manifest>"]))
        endLocalImportBytes endElemBytes
      = joinLines (stageLines e1 e2 e3 s1 true s3 s4 m ++ [asciiBytes "</manifest>"]) := by
  have h1 : endLocalImportBytes = asciiBytes "></localimport>" ++ [10] := by decide
  have h2 : endElemBytes = asciiBytes "/>" ++ [10] := by decide
  rw [h1, h2, bytesReplace_shorten _ _ (by decide) (by decide) _ _
    (stage_no_newline _ _ _ _ _ _ _ m) (by decide)]
  rw [stageLines_map (shorten (asciiBytes "></localimport>") (asciiBytes "/>")) e1 e2 e3
    s1 false s3 s4 s1 true s3 s4 m (shorten_root _ _ _ (by decide)) (by decide)
    (fun as => shorten_element_other _ _ s1 "import" as (by decide))
    (fun as => by
      have e : asciiBytes "></localimport>"
          = asciiBytes "></" ++ asciiBytes "localimport" ++ asciiBytes ">" := by decide
      rw [e]
      exact shorten_element_hit "localimport" as)
    (fun as => shorten_element_other _ _ s3 "project" as (by decide))
    (fun as => shorten_element_other _ _ s4 "tool" as (by decide))]

/-- The sixth pass: the end of every `project` element is shortened. -/
theorem pass_project (e1 e2 e3 s1 s2 s4 : Bool) (m : Manifest) :
    bytesReplace (joinLines (stageLines e1 e2 e3 s1 s2 false s4 m ++ [asciiBytes "</manifest>"]))
        endProjectBytes endElemBytes
      = joinLines (stageLines e1 e2 e3 s1 s2 true s4 m ++ [asciiBytes "</manifest>"]) := by
  have h1 : endProjectBytes = asciiBytes "></project>" ++ [10] := by decide
  have h2 : endElemBytes = asciiBytes "/>" ++ [10] := by decide
  rw [h1, h2, bytesReplace_shorten _ _ (by decide) (by decide) _ _
    (stage_no_newline _ _ _ _ _ _ _ m) (by decide)]
  rw [stageLines_map (shorten (asciiBytes "></project>") (asciiBytes "/>")) e1 e2 e3
    s1 s2 false s4 s1 s2 true s4 m (shorten_root _ _ _ (by decide)) (by decide)
    (fun as => shorten_element_other _ _ s1 "import" as (by decide))
    (fun as => shorten_element_other _ _ s2 "localimport" as (by decide))
    (fun as => by
      have e : asciiBytes "></project>"
          = asciiBytes "></" ++ asciiBytes "project" ++ asciiBytes ">" := by decide
      rw [e]
      exact shorten_element_hit "project" as)
    (fun as => shorten_element_other _ _ s4 "tool" as (by decide))]

/-- The seventh pass: the end of every `tool` element is shortened. -/
theorem pass_tool (e1 e2 e3 s1 s2 s3 : Bool) (m : Manifest) :
    bytesReplace (joinLines (stageLines e1 e2 e3 s1 s2 s3 false m ++ [asciiBytes "</manifest>"]))
        endToolBytes endElemBytes
      = joinLines (stageLines e1 e2 e3 s1 s2 s3 true m ++ [asciiBytes "</manifest>"]) := by
  have h1 : endToolBytes = asciiBytes "></tool>" ++ [10] := by decide
  have h2 : endElemBytes = asciiBytes "/>" ++ [10] := by decide
  rw [h1, h2, bytesReplace_shorten _ _ (by decide) (by decide) _ _
    (stage_no_newline _ _ _ _ _ _ _ m) (by decide)]
  rw [stageLines_map (shorten (asciiBytes "></tool>") (asciiBytes "/>")) e1 e2 e3
    s1 s2 s3 false s1 s2 s3 true m (shorten_root _ _ _ (by decide)) (by decide)
    (fun as => shorten_element_other _ _ s1 "import" as (by decide))
    (fun as => shorten_element_other _ _ s2 "localimport" as (by decide))
    (fun as => shorten_element_other _ _ s3 "project" as (by decide))
    (fun as => by
      have e : asciiBytes "></tool>"
          = asciiBytes "></" ++ asciiBytes "tool" ++ asciiBytes ">" := by decide
      rw [e]
      exact shorten_element_hit "tool" as)]

/-- The post-processing of `ToBytes` turns what the encoder writes for a
manifest into the compact document of the manifest, which ends in a newline. -/
theorem compactManifestBytes_marshal (m : Manifest) :
    compactManifestBytes (joinLines (marshalLines m)) = joinLines (compactLines m) ++ [10] := by
  unfold compactManifestBytes
  simp only []
  rw [marshalLines_eq, pass_imports, pass_projects, pass_tools, pass_import, pass_localImport,
    pass_project, pass_tool, compactLines_eq]
  have hs : ¬ newlineBytes.isSuffixOf
      (joinLines (stageLines true true true true true true true m ++ [asciiBytes "</manifest>"]))
      = true := by
    rw [List.isSuffixOf_iff_suffix, joinLines_snoc]
    exact not_suffix_of_tail _ _ _ (by decide) (by decide)
  rw [if_pos hs]
  rfl

/-! ## What a manifest is read back as -/

theorem map_eq_self_iff {α : Type} (f : α → α) (xs : List α) :
    xs.map f = xs ↔ ∀ x ∈ xs, f x = x := by
  constructor
  · exact forall_fixed_of_map_eq_self f xs
  · intro h
    conv_rhs => rw [← List.map_id xs]
    exact List.map_congr_left (fun x hx => by simpa using h x hx)

theorem sanitizeRune_eq_iff (c : Char) :
    sanitizeRune c = c ↔ isInCharacterRange c.toNat = true := by
  unfold sanitizeRune
  constructor
  · intro h
    by_cases hr : isInCharacterRange c.toNat = true
    · exact hr
    · rw [if_neg hr] at h
      rw [← h]
      decide
  · intro h
    rw [if_pos h]

theorem sanitizeString_eq_iff (s : String) :
    sanitizeString s = s ↔ isCleanString s = true := by
  unfold sanitizeString isCleanString
  rw [List.all_eq_true]
  constructor
  · intro h c hc
    have h' : s.data.map sanitizeRune = s.data := congrArg String.data h
    exact (sanitizeRune_eq_iff c).1 ((map_eq_self_iff _ _).1 h' c hc)
  · intro h
    have h' : s.data.map sanitizeRune = s.data :=
      (map_eq_self_iff _ _).2 (fun c hc => (sanitizeRune_eq_iff c).2 (h c hc))
    rw [h']

theorem sanitizeString_eq_empty (s : String) (h : sanitizeString s = "") : s = "" := by
  have h' : s.data.map sanitizeRune = [] := congrArg String.data h
  rw [List.map_eq_nil_iff] at h'
  exact String.ext h'

/-- A field with a default that is read back as it was holds only characters
XML can carry. -/
theorem clean_of_unfilled (s d : String) (hd : isCleanString d = true)
    (h : orDefault (sanitizeString (if s = d then "" else s)) d = s) :
    isCleanString s = true := by
  by_cases hs : s = d
  · rw [hs]; exact hd
  · rw [if_neg hs] at h
    unfold orDefault at h
    by_cases he : sanitizeString s = ""
    · rw [if_pos he] at h
      exact absurd h.symm hs
    · rw [if_neg he] at h
      exact (sanitizeString_eq_iff s).1 h

theorem clean_of_filled (s d : String) (hd : isCleanString d = true)
    (h : orDefault (sanitizeString s) d = s) : isCleanString s = true := by
  unfold orDefault at h
  by_cases he : sanitizeString s = ""
  · rw [if_pos he] at h
    rw [← h]; exact hd
  · rw [if_neg he] at h
    exact (sanitizeString_eq_iff s).1 h

theorem sanitize_unfilled (s d : String) (h : isCleanString s = true) :
    sanitizeString (if s = d then "" else s) = (if s = d then "" else s) := by
  by_cases hs : s = d
  · rw [if_pos hs]; rfl
  · rw [if_neg hs]; exact (sanitizeString_eq_iff s).2 h

theorem import_clean_of_restored (i : Import)
    (h : (Import.fillDefaults (Import.sanitize (Import.unfillDefaults i).1)).1 = i) :
    i.isClean = true := by
  rw [import_fillDefaults_fst, import_unfillDefaults_fst] at h
  obtain ⟨man, name, remote, branch, root⟩ := i
  simp only [Import.sanitize, Import.mk.injEq] at h
  obtain ⟨h1, h2, h3, h4, h5⟩ := h
  simp only [Import.isClean, Bool.and_eq_true]
  exact ⟨⟨⟨⟨(sanitizeString_eq_iff _).1 h1, (sanitizeString_eq_iff _).1 h2⟩,
    (sanitizeString_eq_iff _).1 h3⟩, clean_of_unfilled _ "master" (by decide) h4⟩,
    (sanitizeString_eq_iff _).1 h5⟩

theorem import_sanitize_unfilled (i : Import) (h : i.isClean = true) :
    Import.sanitize (Import.unfillDefaults i).1 = (Import.unfillDefaults i).1 := by
  rw [import_unfillDefaults_fst]
  obtain ⟨man, name, remote, branch, root⟩ := i
  simp only [Import.isClean, Bool.and_eq_true] at h
  obtain ⟨⟨⟨⟨h1, h2⟩, h3⟩, h4⟩, h5⟩ := h
  simp only [Import.sanitize, Import.mk.injEq]
  exact ⟨(sanitizeString_eq_iff _).2 h1, (sanitizeString_eq_iff _).2 h2,
    (sanitizeString_eq_iff _).2 h3, sanitize_unfilled _ _ h4, (sanitizeString_eq_iff _).2 h5⟩

theorem project_clean_of_restored (p : Project)
    (h : (Project.fillDefaults (Project.sanitize (Project.unfillDefaults p).1)).1 = p) :
    p.isClean = true := by
  rw [project_fillDefaults_fst, project_unfillDefaults_fst] at h
  obtain ⟨name, path, remote, branch, rev, gerrit, hooks, runhook⟩ := p
  simp only [Project.sanitize, Project.mk.injEq] at h
  obtain ⟨h1, h2, h3, h4, h5, h6, h7, h8⟩ := h
  simp only [Project.isClean, Bool.and_eq_true]
  exact ⟨⟨⟨⟨⟨⟨⟨(sanitizeString_eq_iff _).1 h1, (sanitizeString_eq_iff _).1 h2⟩,
    (sanitizeString_eq_iff _).1 h3⟩, clean_of_unfilled _ "master" (by decide) h4⟩,
    clean_of_unfilled _ "HEAD" (by decide) h5⟩, (sanitizeString_eq_iff _).1 h6⟩,
    (sanitizeString_eq_iff _).1 h7⟩, (sanitizeString_eq_iff _).1 h8⟩

theorem project_sanitize_unfilled (p : Project) (h : p.isClean = true) :
    Project.sanitize (Project.unfillDefaults p).1 = (Project.unfillDefaults p).1 := by
  rw [project_unfillDefaults_fst]
  obtain ⟨name, path, remote, branch, rev, gerrit, hooks, runhook⟩ := p
  simp only [Project.isClean, Bool.and_eq_true] at h
  obtain ⟨⟨⟨⟨⟨⟨⟨h1, h2⟩, h3⟩, h4⟩, h5⟩, h6⟩, h7⟩, h8⟩ := h
  simp only [Project.sanitize, Project.mk.injEq]
  exact ⟨(sanitizeString_eq_iff _).2 h1, (sanitizeString_eq_iff _).2 h2,
    (sanitizeString_eq_iff _).2 h3, sanitize_unfilled _ _ h4, sanitize_unfilled _ _ h5,
    (sanitizeString_eq_iff _).2 h6, (sanitizeString_eq_iff _).2 h7,
    (sanitizeString_eq_iff _).2 h8⟩

theorem tool_clean_of_restored (t : Tool)
    (h : (Tool.fillDefaults (Tool.sanitize (Tool.unfillDefaults t).1)).1 = t) :
    t.isClean = true := by
  rw [tool_fillDefaults_fst, tool_unfillDefaults_fst] at h
  obtain ⟨data, name, package, project⟩ := t
  simp only [Tool.sanitize, Tool.mk.injEq] at h
  obtain ⟨h1, h2, h3, h4⟩ := h
  simp only [Tool.isClean, Bool.and_eq_true]
  exact ⟨⟨⟨clean_of_unfilled _ "data" (by decide) h1, (sanitizeString_eq_iff _).1 h2⟩,
    (sanitizeString_eq_iff _).1 h3⟩,
    clean_of_filled _ "https://fuchsia.googlesource.com/release.go.jiri" (by decide) h4⟩

theorem tool_sanitize_unfilled (t : Tool) (h : t.isClean = true) :
    Tool.sanitize (Tool.unfillDefaults t).1 = (Tool.unfillDefaults t).1 := by
  rw [tool_unfillDefaults_fst]
  obtain ⟨data, name, package, project⟩ := t
  simp only [Tool.isClean, Bool.and_eq_true] at h
  obtain ⟨⟨⟨h1, h2⟩, h3⟩, h4⟩ := h
  simp only [Tool.sanitize, Tool.mk.injEq]
  exact ⟨sanitize_unfilled _ _ h1, (sanitizeString_eq_iff _).2 h2,
    (sanitizeString_eq_iff _).2 h3, (sanitizeString_eq_iff _).2 h4⟩

/-- What `ToBytes` returns for a manifest that passes `unfillDefaults`, and
what the decoder reads from it. -/
theorem toBytes_compact (m : Manifest) (h : (m.unfillDefaults).2 = none) :
    m.ToBytes xmlMarshalIndent = .ok (joinLines (compactLines (m.unfillDefaults).1) ++ [10])
      ∧ xmlUnmarshal (joinLines (compactLines (m.unfillDefaults).1) ++ [10])
          = .ok (m.unfillDefaults).1.sanitize := by
  refine ⟨?_, xmlUnmarshal_compact _⟩
  unfold Manifest.ToBytes
  simp only [deepCopy_eq, h, xmlMarshalIndent, compactManifestBytes_marshal]

/-- The manifest without its defaults, element by element, for a default-filled
valid manifest. -/
theorem unfillDefaults_of_filled (m : Manifest) (h : m.fillDefaults = (m, none)) :
    (m.unfillDefaults).1
      = { Imports := m.Imports.map (fun i => (Import.unfillDefaults i).1),
          LocalImports := m.LocalImports,
          Projects := m.Projects.map (fun p => (Project.unfillDefaults p).1),
          Tools := m.Tools.map (fun t => (Tool.unfillDefaults t).1),
          SnapshotPath := m.SnapshotPath } := by
  rcases fillDefaults_cases m with ⟨m', h', hi, _, hp, _, _, vi, vl, vp⟩ | ⟨m', e, h', _⟩
  · rw [h] at h'
    simp only [Prod.mk.injEq, and_true] at h'
    subst h'
    have fi := forall_fixed_of_map_eq_self _ _ hi.symm
    have fp := forall_fixed_of_map_eq_self _ _ hp.symm
    rw [unfillDefaults_of_valid m
      (fun i hi' => (import_fill_unfill i (fi i hi') (vi i hi')).1) vl
      (fun p hp' => (project_fill_unfill p (fp p hp') (vp p hp')).1)]
  · rw [h] at h'
    simp at h'

/-- A manifest whose strings hold only characters XML can carry is read back
as it is, also without its defaults. -/
theorem sanitize_unfilled_of_clean (m : Manifest) (h : m.fillDefaults = (m, none))
    (hc : m.isClean = true) : (m.unfillDefaults).1.sanitize = (m.unfillDefaults).1 := by
  rw [unfillDefaults_of_filled m h]
  simp only [Manifest.isClean, Bool.and_eq_true, List.all_eq_true] at hc
  obtain ⟨⟨⟨⟨c1, c2⟩, c3⟩, c4⟩, c5⟩ := hc
  simp only [Manifest.sanitize, Manifest.mk.injEq, List.map_map]
  refine ⟨?_, ?_, ?_, ?_, (sanitizeString_eq_iff _).2 c5⟩
  · exact List.map_congr_left (fun i hi => import_sanitize_unfilled i (c1 i hi))
  · exact (map_eq_self_iff _ _).2
      (fun l hl => by
        have := (sanitizeString_eq_iff l.File).2 (c2 l hl)
        simp only [LocalImport.sanitize, this])
  · exact List.map_congr_left (fun p hp => project_sanitize_unfilled p (c3 p hp))
  · exact List.map_congr_left (fun t ht => tool_sanitize_unfilled t (c4 t ht))

/-- A default-filled valid manifest that comes back from what it is read as
holds only characters XML can carry. -/
theorem clean_of_restored (m : Manifest) (h : m.fillDefaults = (m, none))
    (hr : (m.unfillDefaults).1.sanitize.fillDefaults = (m, none)) : m.isClean = true := by
  rw [unfillDefaults_of_filled m h] at hr
  rcases fillDefaults_cases
      ({ Imports := m.Imports.map (fun i => (Import.unfillDefaults i).1),
         LocalImports := m.LocalImports,
         Projects := m.Projects.map (fun p => (Project.unfillDefaults p).1),
         Tools := m.Tools.map (fun t => (Tool.unfillDefaults t).1),
         SnapshotPath := m.SnapshotPath } : Manifest).sanitize
    with ⟨m', h', hi, hl, hp, ht, hs, _, _, _⟩ | ⟨m', e, h', _⟩
  · rw [hr] at h'
    simp only [Prod.mk.injEq, and_true] at h'
    subst h'
    simp only [Manifest.sanitize, List.map_map] at hi hl hp ht hs
    have fi := forall_fixed_of_map_eq_self _ _ hi.symm
    have fl := forall_fixed_of_map_eq_self _ _ hl.symm
    have fp := forall_fixed_of_map_eq_self _ _ hp.symm
    have ft := forall_fixed_of_map_eq_self _ _ ht.symm
    simp only [Manifest.isClean, Bool.and_eq_true, List.all_eq_true]
    refine ⟨⟨⟨⟨?_, ?_⟩, ?_⟩, ?_⟩, (sanitizeString_eq_iff _).1 hs.symm⟩
    · exact fun i hi' => import_clean_of_restored i (fi i hi')
    · intro l hl'
      have := fl l hl'
      simp only [LocalImport.sanitize] at this
      exact (sanitizeString_eq_iff _).1 (congrArg LocalImport.File this)
    · exact fun p hp' => project_clean_of_restored p (fp p hp')
    · exact fun t ht' => tool_clean_of_restored t (ft t ht')
  · rw [hr] at h'
    simp at h'

set_option maxRecDepth 100000 in
/-- C11, as stated, fails: the manifest `sampleControlName` is default-filled
and valid, `ToBytes` writes the name of its project with the replacement
character `U+FFFD` in place of the control character `U+0001`, which XML
cannot carry, and `ManifestFromBytes` reads the manifest `sampleReplacedName`
from these bytes, which is another manifest. -/
theorem fromBytes_toBytes_replaces_character :
    sampleControlName.fillDefaults = (sampleControlName, none)
      ∧ sampleControlName.ToBytes xmlMarshalIndent = .ok sampleControlNameBytes
      ∧ ManifestFromBytes xmlUnmarshal sampleControlNameBytes = .ok sampleReplacedName
      ∧ ManifestFromBytes xmlUnmarshal sampleControlNameBytes ≠ .ok sampleControlName := by
  decide

/-- C11, amended: for every manifest `m` that is default-filled and valid,
`unfillDefaults` succeeds on `m` and `fillDefaults` restores `m` from its
result, `ToBytes` succeeds, and `ManifestFromBytes` of the bytes it returns
succeeds and yields `m` again exactly when every character of every string of
`m` is in the XML character range; the codec is the model of `encoding/xml`
above. -/
theorem fromBytes_toBytes_restores_iff (m : Manifest) (hfilled : m.fillDefaults = (m, none)) :
    (m.unfillDefaults).2 = none
      ∧ (m.unfillDefaults).1.fillDefaults = (m, none)
      ∧ m.ToBytes xmlMarshalIndent
          = .ok (joinLines (compactLines (m.unfillDefaults).1) ++ [10])
      ∧ (ManifestFromBytes xmlUnmarshal (joinLines (compactLines (m.unfillDefaults).1) ++ [10])
            = .ok m
          ↔ m.isClean = true) := by
  obtain ⟨h1, h2⟩ := manifest_fill_unfill m hfilled
  obtain ⟨t1, t2⟩ := toBytes_compact m h1
  refine ⟨h1, h2, t1, ?_⟩
  unfold ManifestFromBytes
  rw [t2]
  simp only []
  constructor
  · intro h
    apply clean_of_restored m hfilled
    rcases hx : (m.unfillDefaults).1.sanitize.fillDefaults with ⟨m', _ | e⟩
    · rw [hx] at h
      simp only [Except.ok.injEq] at h
      rw [h]
    · rw [hx] at h
      simp at h
  · intro hc
    rw [sanitize_unfilled_of_clean m hfilled hc, h2]

/-- Witness of C11: the manifest `sampleManifestFilled` is default-filled and
valid and holds only characters XML can carry, and is read back from the bytes
`ToBytes` returns for it. -/
theorem fromBytes_toBytes_restores_iff_witness :
    sampleManifestFilled.fillDefaults = (sampleManifestFilled, none)
      ∧ sampleManifestFilled.isClean = true
      ∧ ManifestFromBytes xmlUnmarshal
            (joinLines (compactLines (sampleManifestFilled.unfillDefaults).1) ++ [10])
          = .ok sampleManifestFilled :=
  ⟨by decide, by decide,
    (fromBytes_toBytes_restores_iff sampleManifestFilled (by decide)).2.2.2.2 (by decide)⟩

end Jiri
